import Mathlib

/-!
# Escape Room: the simulation and learning engine of `escape.c`

A shallow embedding of the core of `src/escape.c` (room, agents, PCG random
numbers, perception encoder, Q-table, the three passes of `simulateTurn`, the
epoch life cycle, `loadQTable`, `loadRoom`, the loop of `runGUI` that saves
the room, and the branches of `runCmd` for the commands `alpha`, `gamma`,
`epsilon`, `doubleq` and `turns`), followed by theorems about it.

Conventions of the embedding.

* C `int` values are `Int`; the 64-bit generator state is a `Nat` reduced
  modulo `2^64` after every step.
* Arithmetic on `int` is that of `Int` where the program keeps the result
  between `INT_MIN` and `INT_MAX` (coordinates, health, and the step counter,
  which stays below `maxSteps`); the increment of the epoch counter, which has
  no bound, wraps around modulo `2^32` (`wrapInt`).
* A C `double` that the program computes with (an entry of `qTable`, a sum that
  `getBestAction` compares, the terms of the learning update) is a value of
  the type `double` below: IEEE 754 binary64 with the operations `+`, `-`, `*`
  rounding to nearest, ties to even, and overflowing to an infinity. The two
  zeros are one value and all NaNs are one value.
* The other `double` variables (`alpha`, `gamma`, `epsilon`, `optimism`, the
  three rewards, `totalReward`, the result of `randf`) are rationals (`ℚ`):
  every finite `double` is one, and a statement about all rationals covers
  them. A rational enters an operation on `double` values as it is, and the
  sum `totalReward` is kept exact.
* Arrays are total functions of their indices; `agents` is read below
  `numAgents` only.
* A pointer into `qTable` is the flat offset of the addressed entry, a pointer
  that may be `NULL` is an `Option`.
* An index that is `NONE` (`-1`) in C is `none` here.
* A failing `assert` aborts the program: the embedded function returns `none`.
* The two collision-chain loops take a `fuel` argument, the number of loop
  bodies they may execute; running out of fuel is `none`.
* A file is the list of its characters, `none` when it cannot be opened; the
  value `EOF` of `getc` is `none`. A `goto makeDefaultRoom` is the error value
  of `Except`, holding the globals at the jump.
* The argument of a command is the value that `sscanf` parsed from it, `none`
  when it parsed none.
-/

set_option autoImplicit false

namespace EscapeRoom

/-! ## Constants and types -/

def MAX_ROOM_SIZE : Nat := 9

def MAX_AGENTS : Nat := MAX_ROOM_SIZE * MAX_ROOM_SIZE

def MAX_HEALTH : Int := 2

def FLOOR : Char := '.'

def WALL : Char := '='

def GLASS : Char := '~'

def SHARDS : Char := '^'

def DOOR : Char := 'H'

def OPEN_DOOR : Char := ']'

def BANDAGE : Char := '+'

def EXIT : Char := 'X'

def AGENT : Char := '@'

def ESCAPED : Int := 777

/-! ## Values of type `double` -/

/-- A value of the C type `double` (IEEE 754 binary64): a NaN, an infinity, or a finite value,
which is a rational number. The two zeros are one value, and so are all the NaNs: the program
never looks at the sign of a zero or at the payload of a NaN. Not every rational is the value of
a `double`; the results of the operations below are. -/
inductive double where
  | nan
  | ninf
  | pinf
  | fin (q : ℚ)
  deriving DecidableEq

namespace double

/-- The integer nearest to the quotient `n / d` of two naturals, the even one on a tie. -/
def roundHalfEven (n d : Nat) : Nat :=
  if 2 * (n % d) < d then n / d
  else if d < 2 * (n % d) then n / d + 1
  else n / d + n / d % 2

/-- The number of times `n` can be halved before it is below 2, in at most `fuel` halvings. -/
def log2Fuel : Nat → Nat → Nat
  | 0, _ => 0
  | fuel + 1, n => if n < 2 then 0 else log2Fuel fuel (n / 2) + 1

/-- The integer part of the binary logarithm of a positive `n`. -/
def log2 (n : Nat) : Nat :=
  log2Fuel n n

/-- The integer part of the binary logarithm of `n / d`, for positive `n` and `d`. -/
def ilog2 (n d : Nat) : Int :=
  if d * 2 ^ log2 n ≤ n * 2 ^ log2 d then (log2 n : Int) - log2 d
  else (log2 n : Int) - log2 d - 1

/-- The exponent of the unit in the last place of a `double` near `n / d`: 53 significant bits,
and no exponent below that of the subnormal numbers. -/
def ulp (n d : Nat) : Int :=
  max (ilog2 n d - 52) (-1074)

/-- The magnitude `n / d` rounded to the nearest multiple of its unit in the last place, ties
to even, with no bound on the exponent. -/
def roundMag (n d : Nat) : ℚ :=
  if n = 0 then 0
  else
    ((roundHalfEven (n * 2 ^ (-ulp n d).toNat) (d * 2 ^ (ulp n d).toNat) *
      2 ^ (ulp n d).toNat : Nat) : ℚ) / (2 ^ (-ulp n d).toNat : Nat)

/-- The `double` that an operation of exact result `q` returns, in the default rounding mode
(to nearest, ties to even): an infinity when the rounded magnitude reaches `2^1024`. -/
def round (q : ℚ) : double :=
  if roundMag q.num.natAbs q.den ≥ 2 ^ 1024 then (if q < 0 then ninf else pinf)
  else fin (if q < 0 then -roundMag q.num.natAbs q.den else roundMag q.num.natAbs q.den)

/-- The operator `+` of C on two values of type `double`. -/
def add : double → double → double
  | fin x, fin y => round (x + y)
  | nan, _ => nan
  | _, nan => nan
  | pinf, ninf => nan
  | ninf, pinf => nan
  | pinf, _ => pinf
  | _, pinf => pinf
  | ninf, _ => ninf
  | _, ninf => ninf

/-- The unary operator `-` of C on a value of type `double`. -/
def neg : double → double
  | fin x => fin (-x)
  | nan => nan
  | pinf => ninf
  | ninf => pinf

/-- The binary operator `-` of C on two values of type `double`. -/
def sub (x y : double) : double :=
  add x (neg y)

/-- The operator `*` of C on two values of type `double`. -/
def mul : double → double → double
  | fin x, fin y => round (x * y)
  | nan, _ => nan
  | _, nan => nan
  | pinf, fin y => if y = 0 then nan else if y < 0 then ninf else pinf
  | ninf, fin y => if y = 0 then nan else if y < 0 then pinf else ninf
  | fin x, pinf => if x = 0 then nan else if x < 0 then ninf else pinf
  | fin x, ninf => if x = 0 then nan else if x < 0 then pinf else ninf
  | pinf, pinf => pinf
  | ninf, ninf => pinf
  | pinf, ninf => ninf
  | ninf, pinf => ninf

/-- The operator `<` of C on two values of type `double`: false when one of them is a NaN. -/
def lt : double → double → Bool
  | fin x, fin y => decide (x < y)
  | ninf, fin _ => true
  | ninf, pinf => true
  | fin _, pinf => true
  | _, _ => false

/-- The operator `<=` of C on two values of type `double`: false when one of them is a NaN. -/
def le : double → double → Bool
  | fin x, fin y => decide (x ≤ y)
  | ninf, fin _ => true
  | ninf, pinf => true
  | fin _, pinf => true
  | ninf, ninf => true
  | pinf, pinf => true
  | _, _ => false

instance : Add double := ⟨add⟩

instance : Sub double := ⟨sub⟩

instance : Mul double := ⟨mul⟩

instance : Neg double := ⟨neg⟩

instance : LT double := ⟨fun x y => lt x y = true⟩

instance : LE double := ⟨fun x y => le x y = true⟩

instance (x y : double) : Decidable (x < y) :=
  inferInstanceAs (Decidable (lt x y = true))

instance (x y : double) : Decidable (x ≤ y) :=
  inferInstanceAs (Decidable (le x y = true))

/-- The conversion of an integer constant to `double`; exact for the constants of the
program. -/
instance (n : Nat) : OfNat double n := ⟨fin n⟩

/-- A finite value as a `double`; the value is that of a `double` when `IsDouble` holds. -/
instance : Coe ℚ double := ⟨fin⟩

/-- The value is finite. -/
def isFinite : double → Bool
  | fin _ => true
  | _ => false

/-- The value is that of a `double`: adding the constant 0 gives it back. The NaN and the
infinities are, and a finite value is when rounding leaves it as it is. -/
def IsDouble (x : double) : Prop :=
  x + 0 = x

instance (x : double) : Decidable (IsDouble x) :=
  inferInstanceAs (Decidable (_ = _))

end double

/-- The five actions of `enum action`, in declaration order. -/
inductive action where
  | STAY
  | LEFT
  | RIGHT
  | DOWN
  | UP
  deriving DecidableEq, Inhabited

/-- The integer value of an enumerator, used to index the five entries of a Q-table row. -/
def action.toNat : action → Nat
  | .STAY => 0
  | .LEFT => 1
  | .RIGHT => 2
  | .DOWN => 3
  | .UP => 4

/-- The cast `(action)i` for the values `0..4` it is applied to (`UP` from 4 on). -/
def action.ofIndex : Nat → action
  | 0 => .STAY
  | 1 => .LEFT
  | 2 => .RIGHT
  | 3 => .DOWN
  | _ => .UP

/-- The record `struct agent`. -/
structure agent where
  x : Int
  y : Int
  health : Int
  deriving DecidableEq, Inhabited

/-- The global variables of `escape.c` that the engine reads or writes. -/
structure State where
  roomWidth : Int
  roomHeight : Int
  room : Int → Int → Char
  numAgents : Nat
  agents : Nat → agent
  backupRoom : Int → Int → Char
  backupAgents : Nat → agent
  qTable : Nat → double
  totalReward : ℚ
  globalRNG : Nat
  currEpoch : Int
  currTurn : Int
  maxSteps : Int
  alpha : ℚ
  gamma : ℚ
  epsilon : ℚ
  optimism : ℚ
  escapeReward : ℚ
  deathPunishment : ℚ
  idlePunishment : ℚ
  useDoubleQ : Bool
  useEpsilon : Bool

/-- The local `struct actionrecord` of `simulateTurn`. -/
structure actionrecord where
  isEscaping : Bool
  x : Int
  y : Int
  dx : Int
  dy : Int
  action : EscapeRoom.action
  q0 : Nat
  q1 : Option Nat

/-- An all-zero record, as left by `memset(actionRecords, 0, ...)`. -/
def actionrecord.zero : actionrecord :=
  { isEscaping := false, x := 0, y := 0, dx := 0, dy := 0, action := .STAY, q0 := 0, q1 := none }

/-- The locals of `simulateTurn` that pass 1 builds, with the generator it draws from. -/
structure Pass1 where
  actionRecords : Nat → actionrecord
  collisionMap : Int → Int → Option Nat
  someAgentsAreEscaping : Bool
  globalRNG : Nat

/-! ## Loops and array stores -/

/-- The loop `for (i = 0; i < n; ++i) st = body(i, st)`. -/
def forLoop {σ : Type} (body : Nat → σ → σ) : Nat → σ → σ
  | 0, st => st
  | n + 1, st => body n (forLoop body n st)

/-- The loop `for (i = 0; i < n; ++i)` with a body that may abort. -/
def forLoopM {σ : Type} (body : Nat → σ → Option σ) : Nat → σ → Option σ
  | 0, st => some st
  | n + 1, st => (forLoopM body n st).bind (body n)

/-- The store `arr[i] = v` into a one-dimensional array. -/
def setAt {α : Type} (arr : Nat → α) (i : Nat) (v : α) : Nat → α :=
  fun j => if j = i then v else arr j

/-- The store `arr[x][y] = v` into a two-dimensional array. -/
def setCell {α : Type} (arr : Int → Int → α) (x y : Int) (v : α) : Int → Int → α :=
  fun i j => if i = x ∧ j = y then v else arr i j

/-! ## Random numbers -/

/-- The multiplier of the generator. -/
def PCG_MULT : Nat := 6364136223846793005

/-- The increment of the generator. -/
def PCG_INC : Nat := 1442695040888963407

/-- The function `seedRNG`: the seed is converted to `uint32_t`, the arithmetic is 64-bit. -/
def seedRNG (seed : Int) : Nat :=
  (((seed % 4294967296).toNat + PCG_INC) * PCG_MULT + PCG_INC) % 2 ^ 64

/-- The 32-bit integer `y` that `randf` divides by `1.0 + UINT_MAX`. -/
def randBits (rng : Nat) : Nat :=
  let x := rng
  let r := (x >>> 59) % 2 ^ 32
  let x := x ^^^ (x >>> 18)
  let y := (x >>> 27) % 2 ^ 32
  (y >>> r) ||| ((y <<< (((2 ^ 32 - r) % 2 ^ 32) &&& 31)) % 2 ^ 32)

/-- The function `randf`: the drawn value and the advanced generator state. -/
def randf (rng : Nat) : ℚ × Nat :=
  ((randBits rng : ℚ) / 4294967296, (rng * PCG_MULT + PCG_INC) % 2 ^ 64)

/-- The integer `(int)(randf(rng) * (1.0 + UP))` that `randAction` casts to an action. -/
def randActionIndex (rng : Nat) : Nat × Nat :=
  let r := randf rng
  (Int.toNat ⌊r.1 * (1 + 4)⌋, r.2)

/-- The function `randAction`: the drawn action and the advanced generator state. -/
def randAction (rng : Nat) : action × Nat :=
  let r := randActionIndex rng
  (action.ofIndex r.1, r.2)

/-! ## Room helpers -/

/-- The function `clamp`. -/
def clamp (x min max : Int) : Int :=
  if x < min then min else if x > max then max else x

/-- The function `isInRoom`. -/
def isInRoom (s : State) (x y : Int) : Bool :=
  decide (x ≥ 0) && decide (x < s.roomWidth) && decide (y ≥ 0) && decide (y < s.roomHeight)

/-- The loop of `agentAt`, scanning the indices from `a` on, `n` of them: the first agent found. -/
def agentScan (s : State) (x y : Int) : Nat → Nat → Option Nat
  | 0, _ => none
  | n + 1, a =>
    if (s.agents a).x = x ∧ (s.agents a).y = y then some a else agentScan s x y n (a + 1)

/-- The function `agentAt`. -/
def agentAt (s : State) (x y : Int) : Option Nat :=
  if isInRoom s x y then agentScan s x y s.numAgents 0 else none

/-- The function `isPassable`: the five cases that return `TRUE`, `FALSE` by default. -/
def isPassable (cell : Char) : Bool :=
  if cell = FLOOR then true
  else if cell = SHARDS then true
  else if cell = OPEN_DOOR then true
  else if cell = BANDAGE then true
  else if cell = EXIT then true
  else false

/-! ## Perception and the Q-table -/

def DEACTIVATED : Nat := 0

def ACTIVATED : Nat := 1

def HAS_AGENT : Nat := 2

/-- The table `xOffsets` of `getQEntry`. -/
def xOffsets : Nat → Int
  | 0 => -2
  | 1 => -1
  | 2 => 1
  | 3 => 2
  | _ => 0

/-- The table `yOffsets` of `getQEntry`. -/
def yOffsets : Nat → Int
  | 4 => -2
  | 5 => -1
  | 6 => 1
  | 7 => 2
  | _ => 0

/-- The per-column bitmask `occupancy` that `getQEntry` builds from the agent list. The bit of
an agent is that of its row, below 9 in a room of the admitted size, so the `int` of the C code
never overflows; the mask is a `Nat` here. -/
def occupancy (s : State) : Int → Nat :=
  forLoop
    (fun a occ =>
      if isInRoom s (s.agents a).x (s.agents a).y then
        fun i => if i = (s.agents a).x then occ i ||| (1 <<< (s.agents a).y.toNat) else occ i
      else occ)
    s.numAgents (fun _ => 0)

/-- The symbol `state[vision]` that `getQEntry` computes for the cell `(cx, cy)`. -/
def cellState (s : State) (cx cy : Int) : Nat :=
  if isInRoom s cx cy then
    if occupancy s cx &&& (1 <<< cy.toNat) ≠ 0 then HAS_AGENT
    else if s.room cx cy = SHARDS then ACTIVATED
    else if s.room cx cy = OPEN_DOOR then ACTIVATED
    else if s.room cx cy = BANDAGE then ACTIVATED
    else DEACTIVATED
  else DEACTIVATED

/-- The array `state` of `getQEntry` for an agent at `(x, y)`. -/
def perception (s : State) (x y : Int) (vision : Nat) : Nat :=
  cellState s (x + xOffsets vision) (y + yOffsets vision)

/-- The flat offset of `qTable[t][x][y][h][s0]..[s7][0]` in the array of dimensions
`[2][9][9][2][3][3][3][3][3][3][3][3][5]`. -/
def qOffset (t x y h : Nat) (st : Nat → Nat) : Nat :=
  ((((((((((((t * 9 + x) * 9 + y) * 2 + h) * 3 + st 0) * 3 + st 1) * 3 + st 2) * 3 + st 3) * 3
    + st 4) * 3 + st 5) * 3 + st 6) * 3 + st 7) * 5)

/-- The function `getQEntry`: the pointers `*qA` and `*qB`; `none` when one of its two
assertions fails. -/
def getQEntry (s : State) (a : Nat) : Option (Nat × Option Nat) :=
  let x := (s.agents a).x
  let y := (s.agents a).y
  let hp := (s.agents a).health
  if hp > 0 ∧ hp ≤ MAX_HEALTH ∧ isInRoom s x y = true then
    some (qOffset 0 x.toNat y.toNat (hp - 1).toNat (perception s x y),
      if s.useDoubleQ then
        some (qOffset 1 x.toNat y.toNat (hp - 1).toNat (perception s x y))
      else none)
  else none

/-- The five values `q[0..4]` that a pointer `q` into the table addresses. -/
def qRow (qTable : Nat → double) (q : Nat) : Nat → double :=
  fun a => qTable (q + a)

/-- One iteration of the loop of `getBestAction` on the pair of `maxa` and `maxq`; the sum is
a `double` addition. -/
def bestStep (qA : Nat → double) (qB : Option (Nat → double)) (a : action)
    (m : action × double) : action × double :=
  let v := qA a.toNat + (match qB with
    | some q => q a.toNat
    | none => 0)
  if v > m.2 then (a, v) else m

/-- The function `getBestAction`: the five iterations of its loop, from `STAY` to `UP`,
started with `maxa = STAY` and `maxq = -INFINITY`. -/
def getBestAction (qA : Nat → double) (qB : Option (Nat → double)) : action :=
  (bestStep qA qB .UP (bestStep qA qB .DOWN (bestStep qA qB .RIGHT (bestStep qA qB .LEFT
    (bestStep qA qB .STAY (.STAY, double.ninf)))))).1

/-- The function `actionModCoords`: the new values of `*x` and `*y`. -/
def actionModCoords (s : State) (a : action) (x y : Int) : Int × Int :=
  let p : Int × Int :=
    match a with
    | .LEFT => (x - 1, y)
    | .RIGHT => (x + 1, y)
    | .DOWN => (x, y - 1)
    | .UP => (x, y + 1)
    | .STAY => (x, y)
  (clamp p.1 0 (s.roomWidth - 1), clamp p.2 0 (s.roomHeight - 1))

/-! ## Pass 1 of `simulateTurn`: decisions and destination conflicts -/

/-- The policy of pass 1 for agent `a`: `getQEntry`, then the epsilon-greedy choice.
Returns the action, the two table pointers and the advanced generator. -/
def chooseAction (s : State) (a : Nat) (rng : Nat) : Option (action × Nat × Option Nat × Nat) :=
  (getQEntry s a).bind fun q =>
    if s.useEpsilon then
      if (randf rng).1 < s.epsilon then
        some ((randAction (randf rng).2).1, q.1, q.2, (randAction (randf rng).2).2)
      else
        some (getBestAction (qRow s.qTable q.1) (q.2.map (qRow s.qTable)), q.1, q.2, (randf rng).2)
    else
      some (getBestAction (qRow s.qTable q.1) (q.2.map (qRow s.qTable)), q.1, q.2, rng)

/-- The common body of the two collision-chain loops for the agent `b`: `b` is sent back to
where it started the turn, takes the map entry of that cell, and the previous holder of the
entry (unless it is `b` itself) is the next agent of the chain. -/
def revertStep (recs : Nat → actionrecord) (cmap : Int → Int → Option Nat) (b : Nat) :
    (Nat → actionrecord) × (Int → Int → Option Nat) × Option Nat :=
  let brec := recs b
  let recs1 := setAt recs b { brec with dx := brec.x, dy := brec.y }
  let next := cmap brec.x brec.y
  let cmap1 := setCell cmap brec.x brec.y (some b)
  (recs1, cmap1, if next = some b then none else next)

/-- The loop `while (c != NONE) { ... }` running down a collision chain. -/
def chainWhile : Nat → (Nat → actionrecord) → (Int → Int → Option Nat) → Option Nat →
    Option ((Nat → actionrecord) × (Int → Int → Option Nat))
  | _, recs, cmap, none => some (recs, cmap)
  | 0, _, _, some _ => none
  | fuel + 1, recs, cmap, some c =>
    chainWhile fuel (revertStep recs cmap c).1 (revertStep recs cmap c).2.1
      (revertStep recs cmap c).2.2

/-- The loop `do { ... } while (b != NONE)`: the body once, then the `while` loop. -/
def chainDoWhile (fuel : Nat) (recs : Nat → actionrecord) (cmap : Int → Int → Option Nat)
    (b : Nat) : Option ((Nat → actionrecord) × (Int → Int → Option Nat)) :=
  match fuel with
  | 0 => none
  | fuel + 1 =>
    chainWhile fuel (revertStep recs cmap b).1 (revertStep recs cmap b).2.1
      (revertStep recs cmap b).2.2

/-- The part of the body of pass 1 that follows the choice of `act` for agent `a`: the tentative
destination, the lookup in the collision map, the two chains, and the final claim. -/
def claimCell (s : State) (fuel : Nat) (a : Nat) (act : action) (recs : Nat → actionrecord)
    (cmap : Int → Int → Option Nat) : Option ((Nat → actionrecord) × (Int → Int → Option Nat)) :=
  let t := actionModCoords s act (recs a).x (recs a).y
  let passable := isPassable (s.room t.1 t.2)
  let recs1 := if passable then setAt recs a { recs a with dx := t.1, dy := t.2 } else recs
  let x := if passable then t.1 else (recs a).x
  let y := if passable then t.2 else (recs a).y
  match cmap x y with
  | none => some (recs1, setCell cmap x y (some a))
  | some b =>
    (chainDoWhile fuel recs1 cmap b).bind fun r =>
      let x := (r.1 a).x
      let y := (r.1 a).y
      let recs2 := setAt r.1 a { r.1 a with dx := x, dy := y }
      (chainWhile fuel recs2 r.2 (r.2 x y)).bind fun r2 =>
        some (r2.1, setCell r2.2 x y (some a))

/-- The body of the first loop of `simulateTurn` for agent `a`. -/
def pass1Body (s : State) (fuel : Nat) (a : Nat) (p : Pass1) : Option Pass1 :=
  let x := (s.agents a).x
  let y := (s.agents a).y
  let recs := setAt p.actionRecords a { p.actionRecords a with x := x, y := y, dx := x, dy := y }
  if isInRoom s x y ∧ (s.agents a).health > 0 then
    (chooseAction s a p.globalRNG).bind fun c =>
      let recs1 := setAt recs a { recs a with isEscaping := true }
      let recs2 := setAt recs1 a { recs1 a with q0 := c.2.1, q1 := c.2.2.1, action := c.1 }
      (claimCell s fuel a c.1 recs2 p.collisionMap).bind fun r =>
        some { actionRecords := r.1, collisionMap := r.2, someAgentsAreEscaping := true,
               globalRNG := c.2.2.2 }
  else
    some { p with actionRecords := recs }

/-- The locals of `simulateTurn` after the two `memset` calls. -/
def pass1Init (s : State) : Pass1 :=
  { actionRecords := fun _ => actionrecord.zero, collisionMap := fun _ _ => none,
    someAgentsAreEscaping := false, globalRNG := s.globalRNG }

/-- The first loop of `simulateTurn`. -/
def pass1 (s : State) (fuel : Nat) : Option Pass1 :=
  forLoopM (pass1Body s fuel) s.numAgents (pass1Init s)

/-! ## Pass 2: acting on the decisions -/

/-- The body of the second loop of `simulateTurn` for agent `a`; `none` when the assertion
`isPassable(room[dx][dy])` fails. -/
def pass2Body (recs : Nat → actionrecord) (a : Nat) (s : State) : Option State :=
  if (recs a).isEscaping then
    if (recs a).action ≠ .STAY ∧ (recs a).x = (recs a).dx ∧ (recs a).y = (recs a).dy then
      let t := actionModCoords s (recs a).action (recs a).x (recs a).y
      if s.room t.1 t.2 = GLASS then
        some { s with room := setCell s.room t.1 t.2 SHARDS }
      else if s.room t.1 t.2 = DOOR then
        some { s with room := setCell s.room t.1 t.2 OPEN_DOOR }
      else some s
    else if isPassable (s.room (recs a).dx (recs a).dy) then
      some { s with
        agents := setAt s.agents a { s.agents a with x := (recs a).dx, y := (recs a).dy } }
    else none
  else some s

/-- The second loop of `simulateTurn`. -/
def pass2 (recs : Nat → actionrecord) (s : State) : Option State :=
  forLoopM (pass2Body recs) s.numAgents s

/-! ## Pass 3: rewards and learning -/

/-- The first half of the body of the third loop for agent `a`: the reward, whether the new
state is terminal, and the globals after the transition and `totalReward += reward`. -/
def transition (a : Nat) (s : State) : ℚ × Bool × State :=
  let x := (s.agents a).x
  let y := (s.agents a).y
  let r : ℚ × Bool × State :=
    if s.room x y = EXIT then
      (s.escapeReward, true,
        { s with agents := setAt s.agents a { s.agents a with x := ESCAPED, y := ESCAPED } })
    else if s.room x y = SHARDS then
      let s1 := { s with
        agents := setAt s.agents a { s.agents a with health := (s.agents a).health - 1 } }
      if (s1.agents a).health = 0 then (s.deathPunishment, true, s1)
      else (s.idlePunishment, false, s1)
    else if s.room x y = BANDAGE then
      let s1 := { s with room := setCell s.room x y FLOOR }
      if (s1.agents a).health < MAX_HEALTH then
        (s.idlePunishment, false,
          { s1 with agents := setAt s1.agents a { s1.agents a with health := MAX_HEALTH } })
      else (s.idlePunishment, false, s1)
    else (s.idlePunishment, false, s)
  (r.1, r.2.1, { r.2.2 with totalReward := r.2.2.totalReward + r.1 })

/-- The single-table branch of the learning update for agent `a`. -/
def learnSingle (recs : Nat → actionrecord) (a : Nat) (reward : ℚ) (isTerminalState : Bool)
    (s : State) : Option State :=
  let q0 := (recs a).q0 + (recs a).action.toNat
  let q1 : Option double :=
    if isTerminalState then some 0
    else (getQEntry s a).map fun q => s.qTable (q.1 + (getBestAction (qRow s.qTable q.1) none).toNat)
  q1.map fun q1 =>
    let v : double :=
      s.qTable q0 + (s.alpha : double) * ((reward : double) + (s.gamma : double) * q1 - s.qTable q0)
    { s with qTable := setAt s.qTable q0 v }

/-- The double-table branch of the learning update for agent `a`. Reading through a `NULL`
pointer (`q1` of a record made while double learning was off) aborts. -/
def learnDouble (recs : Nat → actionrecord) (a : Nat) (reward : ℚ) (isTerminalState : Bool)
    (s : State) : Option State :=
  let q00 := (recs a).q0 + (recs a).action.toNat
  let next : Option (double × double) :=
    if isTerminalState then some (0, 0)
    else (getQEntry s a).bind fun q => q.2.map fun q11p =>
      (s.qTable (q.1 + (getBestAction (qRow s.qTable q11p) none).toNat),
        s.qTable (q11p + (getBestAction (qRow s.qTable q.1) none).toNat))
  next.bind fun n =>
    let u := randf s.globalRNG
    if u.1 < 1 / 2 then
      let v : double :=
        s.qTable q00 +
          (s.alpha : double) * ((reward : double) + (s.gamma : double) * n.2 - s.qTable q00)
      some { s with globalRNG := u.2, qTable := setAt s.qTable q00 v }
    else
      (recs a).q1.map fun q1 =>
        let q10 := q1 + (recs a).action.toNat
        let v : double :=
          s.qTable q10 +
            (s.alpha : double) * ((reward : double) + (s.gamma : double) * n.1 - s.qTable q10)
        { s with globalRNG := u.2, qTable := setAt s.qTable q10 v }

/-- The body of the third loop of `simulateTurn` for agent `a`. -/
def pass3Body (recs : Nat → actionrecord) (a : Nat) (s : State) : Option State :=
  if (recs a).isEscaping then
    let t := transition a s
    if s.useDoubleQ then learnDouble recs a t.1 t.2.1 t.2.2
    else learnSingle recs a t.1 t.2.1 t.2.2
  else some s

/-- The third loop of `simulateTurn`. -/
def pass3 (recs : Nat → actionrecord) (s : State) : Option State :=
  forLoopM (pass3Body recs) s.numAgents s

/-! ## The turn and the epoch -/

/-- The backup taken at the top of `simulateTurn` when `currTurn == 0`. -/
def backup (s : State) : State :=
  if s.currTurn = 0 then { s with backupRoom := s.room, backupAgents := s.agents } else s

/-- The three passes of `simulateTurn`, after the backup and before the epoch test: the
globals after pass 3 and the flag `someAgentsAreEscaping`. -/
def simulatePasses (fuel : Nat) (s : State) : Option (Bool × State) :=
  (pass1 (backup s) fuel).bind fun p =>
    (pass2 p.actionRecords { backup s with globalRNG := p.globalRNG }).bind fun s2 =>
      (pass3 p.actionRecords s2).bind fun s3 => some (p.someAgentsAreEscaping, s3)

/-- The value of type `int` that holds the arithmetic result `x`: `x` itself when it is
between `INT_MIN` and `INT_MAX`, and the value congruent to it modulo `2^32` when the operation
overflows. -/
def wrapInt (x : Int) : Int :=
  (x + 2147483648) % 4294967296 - 2147483648

/-- The end of `simulateTurn`: the step counter is incremented, and when the epoch has ended
the epoch counter is incremented and the backups are restored; the returned `bool` and the
globals. The step counter is below `maxSteps` after every call, so that `++currTurn` does not
overflow; `++currEpoch` overflows once the counter is `INT_MAX`. -/
def epochEnd (someAgentsAreEscaping : Bool) (s : State) : Bool × State :=
  let s1 := { s with currTurn := s.currTurn + 1 }
  if s1.currTurn ≥ s1.maxSteps ∨ someAgentsAreEscaping = false then
    (true, { s1 with currEpoch := wrapInt (s1.currEpoch + 1), currTurn := 0, totalReward := 0,
                     room := s1.backupRoom, agents := s1.backupAgents })
  else (false, s1)

/-- The function `simulateTurn`: the returned `bool` and the globals after the call; `none`
when an assertion fails or a collision chain runs out of `fuel`. -/
def simulateTurn (fuel : Nat) (s : State) : Option (Bool × State) :=
  (simulatePasses fuel s).map fun r => epochEnd r.1 r.2

/-! ## Notions used by the statements -/

/-- The value `qA[a] + (qB ? qB[a] : 0)` that `getBestAction` compares, a `double` sum. -/
def actionValue (qA : Nat → double) (qB : Option (Nat → double)) (a : action) : double :=
  qA a.toNat + (match qB with
    | some q => q a.toNat
    | none => 0)

/-- The loop invariant of `getBestAction` after the actions of index below `n`, on the pair `m`
of `maxa` and `maxq`: either no comparison succeeded yet (`maxa` is `STAY` and `maxq` is
`-INFINITY`) or `maxq` is the value of `maxa`, of index below `n`, and no action of lower index
has a value that `maxq` is below or equal to; no action of index below `n` has a value above
`maxq`. -/
def BestInv (f : action → double) (n : Nat) (m : action × double) : Prop :=
  ((m.1 = .STAY ∧ m.2 = double.ninf) ∨
    (m.2 = f m.1 ∧ m.1.toNat < n ∧ ∀ a : action, a.toNat < m.1.toNat → ¬ f m.1 ≤ f a)) ∧
  ∀ a : action, a.toNat < n → ¬ f a > m.2

/-- An agent that takes part in a turn: it is in the room and its health is positive. -/
def isActive (s : State) (a : Nat) : Prop :=
  isInRoom s (s.agents a).x (s.agents a).y = true ∧ (s.agents a).health > 0

instance (s : State) (a : Nat) : Decidable (isActive s a) :=
  inferInstanceAs (Decidable (_ ∧ _))

/-- The active agents of the list stand on pairwise distinct cells. -/
def ActiveDistinct (s : State) : Prop :=
  ∀ a b, a < s.numAgents → b < s.numAgents → isActive s a → isActive s b →
    (s.agents a).x = (s.agents b).x → (s.agents a).y = (s.agents b).y → a = b

/-- The tentative destination of an agent at `(x, y)` that picked `act`: the clamped target of
the action when that cell is passable, the start cell otherwise. -/
def tentative (s : State) (act : action) (x y : Int) : Int × Int :=
  if isPassable (s.room (actionModCoords s act x y).1 (actionModCoords s act x y).2) then
    actionModCoords s act x y
  else (x, y)

/-- The tentative destination of the agent of index `a` when the agents pick `act`. -/
def tentativeOf (s : State) (act : Nat → action) (a : Nat) : Int × Int :=
  tentative s (act a) (s.agents a).x (s.agents a).y

/-- The start cell of the agent of index `a`. -/
def startOf (s : State) (a : Nat) : Int × Int :=
  ((s.agents a).x, (s.agents a).y)

/-- The connected conflicting set of a turn in which the agents pick `act`: the smallest set of
active agents that holds any two distinct active agents with the same tentative destination and
every active agent whose tentative destination is the start cell of another member. -/
inductive InConflict (s : State) (act : Nat → action) : Nat → Prop
  | same (a b : Nat) : a < s.numAgents → b < s.numAgents → isActive s a → isActive s b → a ≠ b →
      tentativeOf s act a = tentativeOf s act b → InConflict s act a
  | chain (a b : Nat) : a < s.numAgents → isActive s a → InConflict s act b → a ≠ b →
      tentativeOf s act a = startOf s b → InConflict s act a

/-- A room of `w` by `h` floor cells with the listed agents; greedy single-table learning with
the default parameters of `escape.c`. -/
def floorState (w h : Int) (ags : List agent) (q : Nat → double) : State :=
  { roomWidth := w, roomHeight := h, room := fun _ _ => FLOOR, numAgents := ags.length,
    agents := fun i => ags.getD i ⟨0, 0, 0⟩, backupRoom := fun _ _ => FLOOR,
    backupAgents := fun _ => ⟨0, 0, 0⟩, qTable := q, totalReward := 0, globalRNG := seedRNG 0,
    currEpoch := 0, currTurn := 0, maxSteps := 200, alpha := 1 / 2,
    gamma := 4278419646001971 / 4503599627370496,
    epsilon := 3602879701896397 / 72057594037927936, optimism := 50, escapeReward := 1000,
    deathPunishment := -1000,
    idlePunishment := -1, useDoubleQ := false, useEpsilon := false }

/-- Two agents side by side in a room of two floor cells. The table holds 1 at the `RIGHT`
entry of the row that `getQEntry` returns for the left agent (offset 35235) and at the `LEFT`
entry of the row it returns for the right agent (offset 630585), and 0 elsewhere, so the left
agent prefers `RIGHT` and the right agent prefers `LEFT`. -/
def swapState : State :=
  floorState 2 1 [⟨0, 0, 2⟩, ⟨1, 0, 2⟩]
    (fun i => if i = 35235 + 2 then 1 else if i = 630585 + 1 then 1 else 0)

/-- Two records agree on the decision: on every field but the claim `(dx, dy)`. -/
def SameDecision (r r' : actionrecord) : Prop :=
  r'.isEscaping = r.isEscaping ∧ r'.x = r.x ∧ r'.y = r.y ∧ r'.action = r.action ∧
    r'.q0 = r.q0 ∧ r'.q1 = r.q1

/-- The invariant of the records and the collision map while a collision chain runs, for a turn
in which the agents pick `act`, after the agents of index below `n` made their claim. The agent
`pending`, if any, is the one the chain reverts next; it alone may have lost the map entry of
the cell it claims. -/
structure ChainInv (s : State) (act : Nat → action) (n : Nat) (recs : Nat → actionrecord)
    (cmap : Int → Int → Option Nat) (pending : Option Nat) : Prop where
  start : ∀ b, b < n → isActive s b → (recs b).x = (s.agents b).x ∧ (recs b).y = (s.agents b).y
  claim : ∀ b, b < n → isActive s b →
    ((recs b).dx, (recs b).dy) = tentativeOf s act b ∨ ((recs b).dx, (recs b).dy) = startOf s b
  held : ∀ b, b < n → isActive s b → pending ≠ some b → cmap (recs b).dx (recs b).dy = some b
  valid : ∀ x y b, cmap x y = some b → b < n ∧ isActive s b ∧
    ((x, y) = tentativeOf s act b ∨ ((x, y) = startOf s b ∧ InConflict s act b))
  marked : ∀ b, b < n → isActive s b →
    cmap (tentativeOf s act b).1 (tentativeOf s act b).2 ≠ none
  unique : ∀ a b, a < n → b < n → isActive s a → isActive s b → a ≠ b →
    tentativeOf s act a = tentativeOf s act b → ((recs a).dx, (recs a).dy) = startOf s a
  sound : ∀ b, b < n → isActive s b → ((recs b).dx, (recs b).dy) ≠ tentativeOf s act b →
    InConflict s act b
  pend : ∀ b, pending = some b → b < n ∧ isActive s b ∧ InConflict s act b

/-- What a collision chain may change, from the records `recs0` and the map `cmap0` it starts
with: claims of active agents of index below `n` are reset to the start cell, and the map
entries of those start cells are overwritten. -/
structure ChainFrame (s : State) (n : Nat) (recs0 : Nat → actionrecord)
    (cmap0 : Int → Int → Option Nat) (recs : Nat → actionrecord)
    (cmap : Int → Int → Option Nat) : Prop where
  decision : ∀ c, SameDecision (recs0 c) (recs c)
  fix : ∀ c, ¬ (c < n ∧ isActive s c) → recs c = recs0 c
  change : ∀ c, ((recs c).dx = (recs0 c).dx ∧ (recs c).dy = (recs0 c).dy) ∨
    ((recs c).dx = (recs c).x ∧ (recs c).dy = (recs c).y)
  cmap_mono : ∀ x y, cmap0 x y ≠ none → cmap x y ≠ none
  cmap_change : ∀ x y, cmap x y = cmap0 x y ∨ ∃ c, c < n ∧ isActive s c ∧ (x, y) = startOf s c

/-- The agent `b` stands reverted: it claims its start cell and holds the map entry of it. -/
def settledAgent (recs : Nat → actionrecord) (cmap : Int → Int → Option Nat) (b : Nat) : Prop :=
  (recs b).dx = (recs b).x ∧ (recs b).dy = (recs b).y ∧ cmap (recs b).x (recs b).y = some b

instance (recs : Nat → actionrecord) (cmap : Int → Int → Option Nat) (b : Nat) :
    Decidable (settledAgent recs cmap b) :=
  inferInstanceAs (Decidable (_ ∧ _ ∧ _))

/-- The number of active agents of index below `n` that do not stand reverted: a bound on the
number of further bodies a collision chain executes. -/
def unsettled (s : State) (n : Nat) (recs : Nat → actionrecord)
    (cmap : Int → Int → Option Nat) : Nat :=
  ((Finset.range n).filter fun b => isActive s b ∧ ¬ settledAgent recs cmap b).card

/-- What pass 1 has recorded once the agents of index below `n` are done: who takes part in
the turn, where each agent started, and the table pointers of the decision-time state. -/
structure Pass1Basic (s : State) (n : Nat) (p : Pass1) : Prop where
  escaping : ∀ b, (p.actionRecords b).isEscaping = (decide (b < n) && decide (isActive s b))
  coords : ∀ b, b < n →
    (p.actionRecords b).x = (s.agents b).x ∧ (p.actionRecords b).y = (s.agents b).y
  entry : ∀ b, b < n → isActive s b →
    getQEntry s b = some ((p.actionRecords b).q0, (p.actionRecords b).q1)
  flag : p.someAgentsAreEscaping = true ↔ ∃ b, b < n ∧ isActive s b

/-- The invariant of the claims after the agents of index below `n`, for the actions that the
records hold. -/
def Pass1Claims (s : State) (n : Nat) (p : Pass1) : Prop :=
  ∀ act : Nat → action, (∀ b, b < n → isActive s b → act b = (p.actionRecords b).action) →
    ChainInv s act n p.actionRecords p.collisionMap none

/-- The globals that a turn leaves alone until the epoch test: `st` differs from `s` at most in
the room, the agents, the table, the reward total and the generator. -/
def SameConfig (s st : State) : Prop :=
  st = { s with room := st.room, agents := st.agents, qTable := st.qTable,
                totalReward := st.totalReward, globalRNG := st.globalRNG }

/-- The globals after the agents of index below `n` acted in pass 2, started from `s` with
the records `recs`: the active agents among them stand on the cell they claim, nobody else
moved, and cells changed only from intact glass to shards or from closed to open door. -/
structure Pass2Inv (s : State) (recs : Nat → actionrecord) (n : Nat) (st : State) : Prop where
  config : SameConfig s st
  table : st.qTable = s.qTable ∧ st.totalReward = s.totalReward ∧ st.globalRNG = s.globalRNG
  moved : ∀ b, b < n → (recs b).isEscaping = true →
    st.agents b = ⟨(recs b).dx, (recs b).dy, (s.agents b).health⟩
  rest : ∀ b, ¬ (b < n ∧ (recs b).isEscaping = true) → st.agents b = s.agents b
  room : ∀ x y, st.room x y = s.room x y ∨ (s.room x y = GLASS ∧ st.room x y = SHARDS) ∨
    (s.room x y = DOOR ∧ st.room x y = OPEN_DOOR)

/-- No active agent of the list but `a` itself stands on the cell of the active agent `a`. -/
def DistinctFrom (s : State) (a : Nat) : Prop :=
  ∀ b, b < s.numAgents → isActive s a → isActive s b →
    (s.agents a).x = (s.agents b).x → (s.agents a).y = (s.agents b).y → a = b

instance (s : State) (a : Nat) : Decidable (DistinctFrom s a) :=
  inferInstanceAs (Decidable (∀ b, b < s.numAgents → _))

instance (s : State) : Decidable (ActiveDistinct s) :=
  decidable_of_iff (∀ a, a < s.numAgents → DistinctFrom s a)
    ⟨fun h a b ha hb => h a ha b hb, fun h a ha b hb => h a b ha hb⟩

/-- Three agents in a row on the bottom line of a room of three by two floor cells, a fourth
agent above the first; the table makes every agent prefer `RIGHT`. -/
def rowState : State :=
  floorState 3 2 [⟨0, 0, 2⟩, ⟨1, 0, 2⟩, ⟨2, 0, 2⟩, ⟨0, 1, 2⟩] (fun i => if i % 5 = 2 then 1 else 0)

/-- The globals after the agents of index below `n` were rewarded in pass 3, started from `s`
with the records `recs`: nobody else changed, and cells changed only from bandage to floor. -/
structure Pass3Inv (s : State) (recs : Nat → actionrecord) (n : Nat) (st : State) : Prop where
  config : SameConfig s st
  rest : ∀ b, ¬ (b < n ∧ (recs b).isEscaping = true) → st.agents b = s.agents b
  room : ∀ x y, st.room x y = s.room x y ∨ (s.room x y = BANDAGE ∧ st.room x y = FLOOR)

/-- The precondition of a turn: the active agents stand on pairwise distinct passable cells
and their health passes the assertion of `getQEntry`. -/
def WellFormed (s : State) : Prop :=
  ActiveDistinct s ∧ ∀ b, b < s.numAgents → isActive s b →
    (s.agents b).health ≤ MAX_HEALTH ∧ isPassable (s.room (s.agents b).x (s.agents b).y) = true

instance (s : State) : Decidable (WellFormed s) :=
  inferInstanceAs (Decidable (_ ∧ ∀ b, b < s.numAgents → _))

/-- One call of `simulateTurn` in the middle of an epoch: the globals after a call that returned
`FALSE`; `none` when the call aborts or returns `TRUE`. -/
def midEpochTurn (fuel : Nat) (s : State) : Option State :=
  (simulateTurn fuel s).bind fun r => if r.1 then none else some r.2

/-- The globals after `n` consecutive calls of `simulateTurn` that all returned `FALSE`. -/
def midEpochTurns (fuel : Nat) : Nat → State → Option State
  | 0, s => some s
  | n + 1, s => (midEpochTurns fuel n s).bind (midEpochTurn fuel)

/-- A room of two cells, floor and exit, with one agent on the floor cell; the table makes the
agent prefer `RIGHT`. -/
def exitState : State :=
  { floorState 2 1 [⟨0, 0, 2⟩] (fun i => if i % 5 = 2 then 1 else 0) with
    room := fun x _ => if x = 1 then EXIT else FLOOR }

/-- The row `qA` of five entries `1e16`. -/
def bigRow : Nat → double :=
  fun _ => 10000000000000000

/-- The row `qB = {0, 1, 0, 0, 0}`. -/
def unitRow : Nat → double :=
  fun i => if i = 1 then 1 else 0

/-- The state `exitState` with the epoch counter at `INT_MAX`. -/
def lastEpochState : State :=
  { exitState with currEpoch := 2147483647 }

/-- The state `exitState` with the `double` nearest to 0.2 for learning rate and the `double`
nearest to 0.1 in place of 1 in the table. -/
def tenthState : State :=
  { floorState 2 1 [⟨0, 0, 2⟩]
      (fun i => if i % 5 = 2 then double.fin (3602879701896397 / 36028797018963968) else 0) with
    room := fun x _ => if x = 1 then EXIT else FLOOR
    alpha := 3602879701896397 / 18014398509481984 }

/-- A turn from `s` passes the agent `a` over: the agent is not active, pass 1 does not select
it, the flag `someAgentsAreEscaping` is set on account of other agents only, and the three
passes leave its entry of the agent list unchanged. -/
def Skipped (fuel a : Nat) (s : State) : Prop :=
  ¬ isActive s a ∧
  (∀ p, pass1 (backup s) fuel = some p → (p.actionRecords a).isEscaping = false) ∧
  ∀ r, simulatePasses fuel s = some r →
    r.2.agents a = s.agents a ∧
    (r.1 = true ↔ ∃ b, b < s.numAgents ∧ b ≠ a ∧ isActive s b)

/-- A room of two cells, floor and broken glass, with one agent of health `hp` on the floor
cell; the table makes the agent prefer `RIGHT`. -/
def shardsState (hp : Int) : State :=
  { floorState 2 1 [⟨0, 0, hp⟩] (fun i => if i % 5 = 2 then 1 else 0) with
    room := fun x _ => if x = 1 then SHARDS else FLOOR }

/-- The state `rowState` with double learning on. -/
def doubleState : State :=
  { rowState with useDoubleQ := true }

/-! ## The size of the Q-table and its reset -/

/-- The dimensions of the array `qTable`, in the order of its declaration. -/
def qTableDims : List Nat :=
  [2, MAX_ROOM_SIZE, MAX_ROOM_SIZE, MAX_HEALTH.toNat, 3, 3, 3, 3, 3, 3, 3, 3, 5]

/-- The number `sizeof(qTable) / sizeof(*q)` of entries of `qTable`. -/
def numEntries : Nat := qTableDims.prod

/-- The function `loadQTable`. -/
def loadQTable (initialValues : ℚ) (s : State) : State :=
  forLoop (fun i st => { st with qTable := setAt st.qTable i (st.optimism : double) }) numEntries
    { s with optimism := initialValues }

/-- A key of the table: the indices of `qTable` but the last one are in range. -/
def KeyInRange (t x y h : Nat) (st : Nat → Nat) : Prop :=
  t < 2 ∧ x < 9 ∧ y < 9 ∧ h < 2 ∧ ∀ i, i < 8 → st i < 3

/-- The key of the entry of flat offset `i`: the digits of `i` in the mixed radix of the
dimensions, the last dimension first. -/
def keyOf (i : Nat) : Nat × Nat × Nat × Nat × (Nat → Nat) × Nat :=
  let p := i / 5 / 3 / 3 / 3 / 3 / 3 / 3 / 3 / 3
  (p / 2 / 9 / 9, p / 2 / 9 % 9, p / 2 % 9, p % 2,
    fun k =>
      match k with
      | 0 => i / 5 / 3 / 3 / 3 / 3 / 3 / 3 / 3 % 3
      | 1 => i / 5 / 3 / 3 / 3 / 3 / 3 / 3 % 3
      | 2 => i / 5 / 3 / 3 / 3 / 3 / 3 % 3
      | 3 => i / 5 / 3 / 3 / 3 / 3 % 3
      | 4 => i / 5 / 3 / 3 / 3 % 3
      | 5 => i / 5 / 3 / 3 % 3
      | 6 => i / 5 / 3 % 3
      | _ => i / 5 % 3,
    i % 5)


/-! ## The perception as the specification words it -/

/-- The offsets of the eight visible cells, in the order of the perception vector. -/
def visionOffsets : List (Int × Int) :=
  [(-2, 0), (-1, 0), (1, 0), (2, 0), (0, -2), (0, -1), (0, 1), (0, 2)]

/-- The cell that the symbol of index `i` describes, for an agent at `(x, y)`. -/
def visionCell (x y : Int) (i : Nat) : Int × Int :=
  (x + (visionOffsets.getD i (0, 0)).1, y + (visionOffsets.getD i (0, 0)).2)

/-- The symbol of the cell `(cx, cy)` in the words of the specification: `HAS_AGENT` when the
cell is in the room and `agentAt` finds an agent on it, else `ACTIVATED` when the cell is in the
room and holds shards, an open door or a bandage, else `DEACTIVATED`. -/
def symbolOf (s : State) (cx cy : Int) : Nat :=
  if isInRoom s cx cy = true ∧ agentAt s cx cy ≠ none then HAS_AGENT
  else if isInRoom s cx cy = true ∧
      (s.room cx cy = SHARDS ∨ s.room cx cy = OPEN_DOOR ∨ s.room cx cy = BANDAGE) then ACTIVATED
  else DEACTIVATED

/-- The eight symbols of the specification for an agent at `(x, y)`. -/
def symbols (s : State) (x y : Int) (i : Nat) : Nat :=
  symbolOf s (visionCell x y i).1 (visionCell x y i).2


/-! ## Loading and saving the room -/

/-- The globals together with the locals `x` and `y` of `loadRoom` while the file is read. -/
structure Loader where
  st : State
  x : Int
  y : Int

/-- The statements under the label `makeDefaultRoom` of `loadRoom`. -/
def makeDefaultRoom (s : State) : State :=
  let s1 := { s with numAgents := 0, roomWidth := 9, roomHeight := 9 }
  { s1 with
    room := forLoop
      (fun x room => forLoop (fun y room => setCell room x y FLOOR) s1.roomHeight.toNat room)
      s1.roomWidth.toNat s1.room }

/-- The branch of the reading loop of `loadRoom` for a line break or the end of the file: a
non-empty row is closed. The error value holds the globals at a `goto makeDefaultRoom`. -/
def endRow (l : Loader) : Except State Loader :=
  if l.x > 0 then
    let s1 := if l.st.roomWidth = 0 then { l.st with roomWidth := l.x } else l.st
    if l.x ≠ s1.roomWidth then .error s1
    else if l.y ≥ (MAX_ROOM_SIZE : Int) then .error s1
    else .ok { st := s1, x := 0, y := l.y + 1 }
  else .ok l

/-- The branch of the reading loop of `loadRoom` for any other character `c`: a new column.
The column index is tested before the store; the row index is tested only when the row ends,
so the store can be made with `y = 9`. -/
def addColumn (c : Char) (l : Loader) : Except State Loader :=
  if l.st.roomWidth > 0 ∧ l.x ≥ l.st.roomWidth then .error l.st
  else if l.x ≥ (MAX_ROOM_SIZE : Int) then .error l.st
  else if c = AGENT then
    if l.st.numAgents < MAX_AGENTS then
      .ok { l with
        st := { l.st with
          room := setCell l.st.room l.x l.y FLOOR
          agents := setAt l.st.agents l.st.numAgents ⟨l.x, l.y, 2⟩
          numAgents := l.st.numAgents + 1 }
        x := l.x + 1 }
    else .error l.st
  else .ok { l with st := { l.st with room := setCell l.st.room l.x l.y c }, x := l.x + 1 }

/-- One iteration of the reading loop of `loadRoom` on the value `c` of `getc`, `none` for
`EOF`. -/
def loadStep (c : Option Char) (l : Loader) : Except State Loader :=
  match c with
  | none => endRow l
  | some ch => if ch = '\n' ∨ ch = '\r' then endRow l else addColumn ch l

/-- The reading loop `do { ... } while (c != EOF)` of `loadRoom` on the characters that remain
in the file. -/
def loadLoop : List Char → Loader → Except State Loader
  | [], l => loadStep none l
  | c :: cs, l => (loadStep (some c) l).bind (loadLoop cs)

/-- The inner loop of the flip of `loadRoom` for the column `x`. -/
def flipColumn (roomHeight : Int) (x : Int) (room : Int → Int → Char) : Int → Int → Char :=
  forLoop
    (fun y room =>
      let temp := room x y
      let room1 := setCell room x y (room x (roomHeight - y - 1))
      setCell room1 x (roomHeight - y - 1) temp)
    (roomHeight / 2).toNat room

/-- The part of `loadRoom` that follows the reading loop: the size checks and the two flips. -/
def finishLoad (l : Loader) : State :=
  let s1 := { l.st with roomHeight := l.y }
  if s1.roomWidth < 1 ∨ s1.roomWidth > (MAX_ROOM_SIZE : Int) then makeDefaultRoom s1
  else if s1.roomHeight < 1 ∨ s1.roomHeight > (MAX_ROOM_SIZE : Int) then makeDefaultRoom s1
  else
    { s1 with
      room := forLoop (fun x room => flipColumn s1.roomHeight x room) s1.roomWidth.toNat s1.room
      agents := forLoop
        (fun a agents => setAt agents a { agents a with y := s1.roomHeight - (agents a).y - 1 })
        s1.numAgents s1.agents }

/-- The function `loadRoom` on the content of the file, `none` when the file cannot be
opened. -/
def loadRoom (file : Option (List Char)) (s : State) : State :=
  match file with
  | none => makeDefaultRoom s
  | some text =>
    match loadLoop text
        { st := { s with roomWidth := 0, roomHeight := 0, numAgents := 0 }, x := 0, y := 0 } with
    | .error s1 => makeDefaultRoom s1
    | .ok l => finishLoad l

/-- The loop of `runGUI` that writes `room.txt`: the characters it writes, in order. -/
def saveRoom (s : State) : List Char :=
  forLoop
    (fun k out =>
      let y := s.roomHeight - 1 - k
      forLoop
        (fun x out => out ++ [if agentAt s x y ≠ none then AGENT else s.room x y])
        s.roomWidth.toNat out ++ ['\n'])
    s.roomHeight.toNat []

/-- The two characters that end a row for `loadRoom`. -/
def isLineBreak (c : Char) : Prop := c = '\n' ∨ c = '\r'

instance (c : Char) : Decidable (isLineBreak c) :=
  inferInstanceAs (Decidable (_ ∨ _))

/-- The lines of a text: the maximal runs of characters between line breaks, empty ones
included. -/
def splitRows : List Char → List (List Char)
  | [] => [[]]
  | c :: cs =>
    if isLineBreak c then [] :: splitRows cs
    else
      match splitRows cs with
      | [] => [[c]]
      | r :: rs => (c :: r) :: rs

/-- The rows of a text: its non-empty lines. -/
def textRows (text : List Char) : List (List Char) :=
  (splitRows text).filter fun r => r ≠ []

/-- The lengths of the rows of the text that starts with `x` characters other than line breaks
and goes on with `text`. -/
def rowLens : Nat → List Char → List Nat
  | x, [] => if x > 0 then [x] else []
  | x, c :: cs =>
    if isLineBreak c then (if x > 0 then x :: rowLens 0 cs else rowLens 0 cs)
    else rowLens (x + 1) cs

/-- The room is the default room: nine by nine floor cells and no agent. -/
def IsDefaultRoom (s : State) : Prop :=
  s.roomWidth = 9 ∧ s.roomHeight = 9 ∧ s.numAgents = 0 ∧
    ∀ x y : Int, 0 ≤ x → x < 9 → 0 ≤ y → y < 9 → s.room x y = FLOOR

/-- A state to load rooms into: the default parameters of `escape.c`, a zero table, an empty
room. -/
def blankState : State := floorState 0 0 [] (fun _ => 0)


/-- A text has one of the defects that the loader answers with the default room: two rows of
different lengths, a row of more than 9 characters, more than 9 rows, or no row at all. -/
def BadRows (text : List Char) : Prop :=
  (∃ r1 ∈ textRows text, ∃ r2 ∈ textRows text, r1.length ≠ r2.length) ∨
  (∃ r ∈ textRows text, 9 < r.length) ∨ 9 < (textRows text).length ∨ textRows text = []


/-- The cell that `loadRoom` stores for the character `c` of the file. -/
def cellOf (c : Char) : Char := if c = AGENT then FLOOR else c

/-- The character in column `col` of the row of index `row` of a list of rows. -/
def charAt (rows : List (List Char)) (row col : Nat) : Char :=
  (rows.getD row []).getD col FLOOR

/-- The cells `(column, row)` of the characters `@` of a row of index `row`, from the column
`col` on, in reading order. -/
def rowMarks (row : Nat) : Nat → List Char → List (Nat × Nat)
  | _, [] => []
  | col, c :: cs => (if c = AGENT then [(col, row)] else []) ++ rowMarks row (col + 1) cs

/-- The cells `(column, row)` of the characters `@` of the rows, the first of index `row`, in
reading order. -/
def roomMarks : Nat → List (List Char) → List (Nat × Nat)
  | _, [] => []
  | row, r :: rs => rowMarks row 0 r ++ roomMarks (row + 1) rs

/-- The listed agents, in the order of their indices. -/
def agentList (s : State) : List agent :=
  (List.range s.numAgents).map s.agents

/-- The text of the rows, each terminated by a newline. -/
def linesText : List (List Char) → List Char
  | [] => []
  | r :: rs => r ++ '\n' :: linesText rs

/-- The text of the rows, separated by newlines. -/
def joinRows : List (List Char) → List Char
  | [] => []
  | [r] => r
  | r :: rs => r ++ '\n' :: joinRows rs

/-- The rows of a room file of width `w`: each has `w` characters, none of them a line
break. -/
def RoomRows (w : Nat) (rows : List (List Char)) : Prop :=
  ∀ r ∈ rows, r.length = w ∧ ∀ c ∈ r, ¬ isLineBreak c

/-- The state of the reading loop of `loadRoom` after the complete rows `done` of width `w` and
the characters `cur` of the row being read. -/
structure LoadInv (w : Nat) (l : Loader) (done : List (List Char)) (cur : List Char) : Prop where
  x : l.x = cur.length
  y : l.y = done.length
  width : l.st.roomWidth = if done = [] then 0 else (w : Int)
  cells : ∀ i j : Nat, j < done.length → i < w → l.st.room i j = cellOf (charAt done j i)
  row : ∀ i : Nat, i < cur.length → l.st.room i done.length = cellOf (cur.getD i FLOOR)
  agents : agentList l.st =
    (roomMarks 0 done ++ rowMarks done.length 0 cur).map fun m => ⟨m.1, m.2, 2⟩
  count : l.st.numAgents ≤ done.length * w + cur.length


/-! ## Notions for the invariants of a turn -/

/-- The claim of a record is the start cell of the record or the tentative destination of the
action of the record from that cell. -/
def RecShape (s : State) (r : actionrecord) : Prop :=
  (r.dx = r.x ∧ r.dy = r.y) ∨ (r.dx, r.dy) = tentative s r.action r.x r.y

/-- The condition on one agent: its health is 0, 1 or 2, and it is at the sentinel `ESCAPED`
or on a cell of the room on which `isPassable` is `TRUE`. -/
def AgentOk (s : State) (room : Int → Int → Char) (ag : agent) : Prop :=
  (ag.health = 0 ∨ ag.health = 1 ∨ ag.health = 2) ∧
  ((ag.x = ESCAPED ∧ ag.y = ESCAPED) ∨
    (isInRoom s ag.x ag.y = true ∧ isPassable (room ag.x ag.y) = true))

/-- The condition on the listed agents, for a room and an agent array of the size of `s`. -/
def AgentsOk (s : State) (room : Int → Int → Char) (agents : Nat → agent) : Prop :=
  ∀ a, a < s.numAgents → AgentOk s room (agents a)

/-- The invariant of the agents across turns: the room has a side between 1 and 9 each way,
the listed agents meet the condition in the room, and so do the agents of the snapshot in the
room of the snapshot unless `currTurn = 0`. -/
def TurnInv (s : State) : Prop :=
  (1 ≤ s.roomWidth ∧ s.roomWidth ≤ 9 ∧ 1 ≤ s.roomHeight ∧ s.roomHeight ≤ 9) ∧
  AgentsOk s s.room s.agents ∧
  (s.currTurn = 0 ∨ AgentsOk s s.backupRoom s.backupAgents)

instance (s : State) (room : Int → Int → Char) (ag : agent) : Decidable (AgentOk s room ag) :=
  inferInstanceAs (Decidable (_ ∧ _))

instance (s : State) (room : Int → Int → Char) (agents : Nat → agent) :
    Decidable (AgentsOk s room agents) :=
  inferInstanceAs (Decidable (∀ a, a < s.numAgents → _))

instance (s : State) : Decidable (TurnInv s) :=
  inferInstanceAs (Decidable (_ ∧ _ ∧ _))


/-- A cell content that no interaction changes: floor, wall, exit, shards or an open door. -/
def StableCell (c : Char) : Prop :=
  c = FLOOR ∨ c = WALL ∨ c = EXIT ∨ c = SHARDS ∨ c = OPEN_DOOR

/-- A room of three cells, floor, intact glass and wall, with one agent on the floor cell; the
table makes the agent prefer `RIGHT`. -/
def glassState : State :=
  { floorState 3 1 [⟨0, 0, 2⟩] (fun i => if i % 5 = 2 then 1 else 0) with
    room := fun x _ => if x = 1 then GLASS else if x = 2 then WALL else FLOOR }


/-- The agent `a` acts on the cell `(x, y)` in pass 2: its record is selected, holds an action
other than `STAY` and a claim equal to the start cell, and the clamped target of the action
from the start cell is `(x, y)`. -/
def ActsOn (s : State) (recs : Nat → actionrecord) (a : Nat) (x y : Int) : Prop :=
  (recs a).isEscaping = true ∧
  ((recs a).action ≠ .STAY ∧ (recs a).x = (recs a).dx ∧ (recs a).y = (recs a).dy) ∧
  actionModCoords s (recs a).action (recs a).x (recs a).y = (x, y)

/-- The cells that pass 2 changed once the agents of index below `n` acted: a cell of intact
glass is broken, and a closed door is open, exactly when one of them acted on it. -/
structure Pass2Cells (s : State) (recs : Nat → actionrecord) (n : Nat) (st : State) : Prop where
  glass : ∀ x y, s.room x y = GLASS →
    (st.room x y = SHARDS ↔ ∃ a, a < n ∧ ActsOn s recs a x y)
  door : ∀ x y, s.room x y = DOOR →
    (st.room x y = OPEN_DOOR ↔ ∃ a, a < n ∧ ActsOn s recs a x y)

/-- In a turn from `s` in which the agents pick `act`, the agent `a` walks into the cell
`(x, y)`: it is a listed active agent, its action is not `STAY`, and the clamped target of the
action from its start cell is `(x, y)`. -/
def Bumps (s : State) (act : Nat → action) (a : Nat) (x y : Int) : Prop :=
  a < s.numAgents ∧ isActive s a ∧ act a ≠ .STAY ∧
    actionModCoords s (act a) (s.agents a).x (s.agents a).y = (x, y)


/-! ## The reference definition of the generator -/

/-- The rotation of the 32-bit value `y` to the right by `r` bits, `r < 32`: the low `r` bits
move to the top. -/
def rotr32 (y r : Nat) : Nat :=
  y / 2 ^ r + y % 2 ^ r * 2 ^ (32 - r)

/-- The 32-bit output of the generator for the state `s`, by the reference definition: an
xorshift of the state, rotated by the top five bits of the state. -/
def pcgOutput (s : Nat) : Nat :=
  rotr32 (((s ^^^ (s >>> 18)) >>> 27) % 2 ^ 32) (s >>> 59)

/-- The values that `n` consecutive calls of `randf` return, from the generator state `rng`. -/
def randSeq : Nat → Nat → List ℚ
  | _, 0 => []
  | rng, n + 1 => (randf rng).1 :: randSeq (randf rng).2 n

/-- The generator state after `n` calls of `randf`. -/
def randState : Nat → Nat → Nat
  | rng, 0 => rng
  | rng, n + 1 => randState (randf rng).2 n


/-! ## Commands of the interpreter -/

/-- The branch of `runCmd` for the command `alpha`; `arg` is the number that `sscanf` parsed
from the argument, `none` when it parsed none (the command then prints the parameter). -/
def cmdAlpha (arg : Option ℚ) (s : State) : State :=
  match arg with
  | some a => if a ≥ 0 ∧ a ≤ 1 then { s with alpha := a } else s
  | none => s

/-- The branch of `runCmd` for the command `gamma`. -/
def cmdGamma (arg : Option ℚ) (s : State) : State :=
  match arg with
  | some g => if g ≥ 0 ∧ g ≤ 1 then { s with gamma := g } else s
  | none => s

/-- The branch of `runCmd` for the command `epsilon`. -/
def cmdEpsilon (arg : Option ℚ) (s : State) : State :=
  match arg with
  | some e => if e ≥ 0 ∧ e ≤ 1 then { s with epsilon := e } else s
  | none => s

/-- The branch of `runCmd` for the commands `doubleq` and `dq`; `arg` is the integer that
`sscanf` parsed, `none` when it parsed none. The value stored is `FALSE` for 0 and `TRUE`
for 1. -/
def cmdDoubleq (arg : Option Int) (s : State) : State :=
  match arg with
  | some doubleQ =>
    if doubleQ = 0 ∨ doubleQ = 1 then { s with useDoubleQ := decide (doubleQ ≠ 0) } else s
  | none => s

/-- The loop `for (...; turn < numTurns; ++turn) simulateTurn();` of the command `turns`, from
the value `turn` of the loop variable, with at most `n` iterations: the globals and the number of
calls of `simulateTurn` made, counted from `st.2`. -/
def turnsLoop (fuel : Nat) (numTurns : Int) : Nat → Int → State × Nat → Option (State × Nat)
  | 0, _, st => some st
  | n + 1, turn, st =>
    if turn < numTurns then
      (simulateTurn fuel st.1).bind fun r =>
        turnsLoop fuel numTurns n (turn + 1) (r.2, st.2 + 1)
    else some st

/-- The branch of `runCmd` for the commands `turns` and `t`; `arg` is the integer that `sscanf`
parsed, `none` when it parsed none. The loop starts with `turn = 1`, so it has fewer than
`numTurns` iterations. The result is the globals after the command and the number of calls of
`simulateTurn` it made; `none` when a call aborts. -/
def cmdTurns (fuel : Nat) (arg : Option Int) (s : State) : Option (State × Nat) :=
  let numTurns : Int :=
    match arg with
    | some n => n
    | none => 1
  turnsLoop fuel numTurns numTurns.toNat 1 (s, 0)


/-! ## The stores of the reading loop of `loadRoom` -/

/-- A store of the reading loop of `loadRoom`: `room[x][y] = ...`, or the three stores into
the record `agents[i]`. -/
inductive Store where
  | cell (x y : Int)
  | agentRec (i : Nat)
  deriving DecidableEq

/-- The stores that one iteration of the reading loop of `loadRoom` makes on the character `c`
with the locals of `l`: none for a line break or the end of the file, none when the branch
"add new column" leaves by a `goto`, and otherwise the store into `room[x][y]`, with the stores
into `agents[numAgents]` for the character `'@'`. -/
def stepStores (c : Option Char) (l : Loader) : List Store :=
  match c with
  | none => []
  | some ch =>
    if ch = '\n' ∨ ch = '\r' then []
    else if l.st.roomWidth > 0 ∧ l.x ≥ l.st.roomWidth then []
    else if l.x ≥ (MAX_ROOM_SIZE : Int) then []
    else if ch = AGENT then
      if l.st.numAgents < MAX_AGENTS then [.cell l.x l.y, .agentRec l.st.numAgents] else []
    else [.cell l.x l.y]

/-- The stores that the reading loop of `loadRoom` makes on the characters that remain in the
file, in order, up to the end of the file or a `goto makeDefaultRoom`. -/
def loadStores : List Char → Loader → List Store
  | [], _ => []
  | c :: cs, l =>
    stepStores (some c) l ++
      match loadStep (some c) l with
      | .ok l1 => loadStores cs l1
      | .error _ => []

/-- The locals and globals of `loadRoom` when the reading loop starts. -/
def loaderInit (s : State) : Loader :=
  { st := { s with roomWidth := 0, roomHeight := 0, numAgents := 0 }, x := 0, y := 0 }

/-- A text of ten rows of `w` floor cells. -/
def tallText (w : Nat) : List Char :=
  (List.replicate 10 (List.replicate w '.' ++ ['\n'])).flatten


/-! ## Dead agents -/

/-- No agent of the list that is in the room, living or dead, stands on the cell of the agent
`a` but `a` itself. -/
def AloneOnCell (s : State) (a : Nat) : Prop :=
  ∀ b, b < s.numAgents →
    isInRoom s (s.agents a).x (s.agents a).y = true →
    isInRoom s (s.agents b).x (s.agents b).y = true →
    (s.agents a).x = (s.agents b).x → (s.agents a).y = (s.agents b).y → a = b

instance (s : State) (a : Nat) : Decidable (AloneOnCell s a) :=
  inferInstanceAs (Decidable (∀ b, b < s.numAgents → _))

/-- The agents of the list that are in the room, living or dead, stand on pairwise distinct
cells. -/
def InRoomDistinct (s : State) : Prop :=
  ∀ a, a < s.numAgents → AloneOnCell s a

instance (s : State) : Decidable (InRoomDistinct s) :=
  inferInstanceAs (Decidable (∀ a, a < s.numAgents → _))

/-- A room of two cells, floor and broken glass, with a living agent on the floor cell and a
dead agent on the broken glass; the table makes the living agent prefer `RIGHT`. -/
def deadState : State :=
  { floorState 2 1 [⟨0, 0, 2⟩, ⟨1, 0, 0⟩] (fun i => if i % 5 = 2 then 1 else 0) with
    room := fun x _ => if x = 1 then SHARDS else FLOOR }


/-! ## Safety of a step -/

/-- The precondition of a step: the room has a side between 1 and 9 each way, there are at most
81 agents, and every listed agent has health 0, 1 or 2 and is at the sentinel `ESCAPED` or on
a cell of the room on which `isPassable` is `TRUE`. -/
def StepPre (s : State) : Prop :=
  (1 ≤ s.roomWidth ∧ s.roomWidth ≤ 9 ∧ 1 ≤ s.roomHeight ∧ s.roomHeight ≤ 9) ∧
  s.numAgents ≤ MAX_AGENTS ∧ AgentsOk s s.room s.agents

instance (s : State) : Decidable (StepPre s) :=
  inferInstanceAs (Decidable (_ ∧ _ ∧ _))

/-- Index safety of the locals of pass 1: a selected record holds a start cell and a claim in
the room, and an entry of the collision map sits at a cell of the room and names a listed agent
whose record is selected. -/
def Pass1Safe (s : State) (recs : Nat → actionrecord) (cmap : Int → Int → Option Nat) : Prop :=
  (∀ b, (recs b).isEscaping = true →
    isInRoom s (recs b).x (recs b).y = true ∧ isInRoom s (recs b).dx (recs b).dy = true) ∧
  ∀ x y b, cmap x y = some b →
    isInRoom s x y = true ∧ b < s.numAgents ∧ (recs b).isEscaping = true


/-! ## The reward of an escape run -/

/-- A corridor of three cells, floor, floor and exit, with one agent on the first cell; the
table makes the agent prefer `RIGHT`. -/
def hallState : State :=
  { floorState 3 1 [⟨0, 0, 2⟩] (fun i => if i % 5 = 2 then 1 else 0) with
    room := fun x _ => if x = 2 then EXIT else FLOOR }


/-! # Theorems -/

/-! ## Arithmetic on `double` -/

theorem double.round_ne_nan (q : ℚ) : double.round q ≠ double.nan := by
  unfold double.round
  split_ifs <;> simp

theorem double.lt_def (x y : double) : x < y ↔ double.lt x y = true := Iff.rfl

theorem double.le_def (x y : double) : x ≤ y ↔ double.le x y = true := Iff.rfl

theorem double.add_def (x y : double) : x + y = double.add x y := rfl

theorem double.sub_def (x y : double) : x - y = double.add x (double.neg y) := rfl

theorem double.mul_def (x y : double) : x * y = double.mul x y := rfl

theorem double.zero_def : (0 : double) = double.fin 0 := by
  show double.fin ((0 : Nat) : ℚ) = double.fin 0
  simp

theorem double.lt_irrefl_dbl (x : double) : ¬ x < x := by
  rw [double.lt_def]
  cases x <;> simp [double.lt]

theorem double.lt_trans_dbl {x y z : double} (h1 : x < y) (h2 : y < z) : x < z := by
  rw [double.lt_def] at *
  cases x <;> cases y <;> cases z <;> simp_all [double.lt]
  exact lt_trans h1 h2

theorem double.lt_imp_le {x y : double} (h : x < y) : x ≤ y := by
  rw [double.lt_def] at h
  rw [double.le_def]
  cases x <;> cases y <;> simp_all [double.lt, double.le]
  exact le_of_lt h

theorem double.lt_of_lt_le {x y z : double} (h1 : x < y) (h2 : y ≤ z) : x < z := by
  rw [double.lt_def] at *
  rw [double.le_def] at h2
  cases x <;> cases y <;> cases z <;> simp_all [double.lt, double.le]
  exact lt_of_lt_of_le h1 h2

theorem double.le_of_not_gt {x y : double} (hx : x ≠ double.nan) (hy : y ≠ double.nan)
    (h : ¬ x > y) : x ≤ y := by
  have h' : ¬ y < x := h
  rw [double.lt_def] at h'
  rw [double.le_def]
  cases x <;> cases y <;> simp_all [double.lt, double.le]

theorem double.le_self {x : double} (hx : x ≠ double.nan) : x ≤ x := by
  rw [double.le_def]
  cases x <;> simp_all [double.le]

theorem double.eq_of_le_le {x y : double} (h1 : x ≤ y) (h2 : y ≤ x) : x = y := by
  rw [double.le_def] at *
  cases x <;> cases y <;> simp_all [double.le]
  exact le_antisymm h1 h2

/-- Nothing is above a value that is not above `-INFINITY`. -/
theorem double.not_gt_of_bottom {x : double} (h : ¬ x > double.ninf) (y : double) :
    ¬ x > y := by
  have h' : ¬ double.ninf < x := h
  intro hc
  have hc' : y < x := hc
  rw [double.lt_def] at h' hc'
  cases x <;> cases y <;> simp_all [double.lt]

theorem double.add_ne_nan (x y : ℚ) : (double.fin x + double.fin y) ≠ double.nan :=
  double.round_ne_nan (x + y)

theorem double.isFinite_iff {x : double} : x.isFinite = true ↔ ∃ q, x = double.fin q := by
  cases x <;> simp [double.isFinite]

theorem double.log2Fuel_spec : ∀ fuel n : Nat, 0 < n → n ≤ fuel →
    2 ^ double.log2Fuel fuel n ≤ n ∧ n < 2 ^ (double.log2Fuel fuel n + 1) := by
  intro fuel
  induction fuel with
  | zero => intro n h1 h2; omega
  | succ fuel ih =>
    intro n h1 h2
    unfold double.log2Fuel
    split_ifs with h
    · simp only [pow_zero, zero_add, pow_one]
      omega
    · have h3 := ih (n / 2) (by omega) (by omega)
      rw [pow_succ, pow_succ]
      omega

theorem double.log2_spec (n : Nat) (h : 0 < n) :
    2 ^ double.log2 n ≤ n ∧ n < 2 ^ (double.log2 n + 1) :=
  double.log2Fuel_spec n n h (le_refl n)

/-- The function `ilog2` gives the exponent of the binade of `n / d`. -/
theorem double.ilog2_spec (n d : Nat) (hn : 0 < n) (hd : 0 < d) :
    (2 : ℚ) ^ double.ilog2 n d ≤ (n : ℚ) / d ∧ (n : ℚ) / d < (2 : ℚ) ^ (double.ilog2 n d + 1) := by
  obtain ⟨a1, a2⟩ := double.log2_spec n hn
  obtain ⟨b1, b2⟩ := double.log2_spec d hd
  have hd' : (0 : ℚ) < d := by exact_mod_cast hd
  have hn' : (0 : ℚ) < n := by exact_mod_cast hn
  have a1' : (2 : ℚ) ^ (double.log2 n) ≤ n := by exact_mod_cast a1
  have a2' : (n : ℚ) < 2 ^ (double.log2 n + 1) := by exact_mod_cast a2
  have b1' : (2 : ℚ) ^ (double.log2 d) ≤ d := by exact_mod_cast b1
  have b2' : (d : ℚ) < 2 ^ (double.log2 d + 1) := by exact_mod_cast b2
  have hpa : (0 : ℚ) < 2 ^ (double.log2 n) := by positivity
  have hpb : (0 : ℚ) < 2 ^ (double.log2 d) := by positivity
  have hpa1 : (0 : ℚ) < 2 ^ (double.log2 n + 1) := by positivity
  have hpb1 : (0 : ℚ) < 2 ^ (double.log2 d + 1) := by positivity
  have e1 : (2 : ℚ) ^ ((double.log2 n : Int) - double.log2 d) =
      2 ^ (double.log2 n) / 2 ^ (double.log2 d) := by
    rw [zpow_sub₀ two_ne_zero, zpow_natCast, zpow_natCast]
  have e2 : (2 : ℚ) ^ ((double.log2 n : Int) - double.log2 d + 1) =
      2 ^ (double.log2 n + 1) / 2 ^ (double.log2 d) := by
    rw [show (double.log2 n : Int) - double.log2 d + 1 =
      ((double.log2 n + 1 : Nat) : Int) - (double.log2 d : Nat) by push_cast; ring,
      zpow_sub₀ two_ne_zero, zpow_natCast, zpow_natCast]
  have e3 : (2 : ℚ) ^ ((double.log2 n : Int) - double.log2 d - 1) =
      2 ^ (double.log2 n) / 2 ^ (double.log2 d + 1) := by
    rw [show (double.log2 n : Int) - double.log2 d - 1 =
      ((double.log2 n : Nat) : Int) - ((double.log2 d + 1 : Nat) : Int) by push_cast; ring,
      zpow_sub₀ two_ne_zero, zpow_natCast, zpow_natCast]
  unfold double.ilog2
  split_ifs with h
  · have h' : (d : ℚ) * 2 ^ (double.log2 n) ≤ n * 2 ^ (double.log2 d) := by exact_mod_cast h
    rw [e1, e2]
    constructor
    · rw [div_le_div_iff₀ hpb hd']
      linarith
    · rw [div_lt_div_iff₀ hd' hpb]
      nlinarith
  · have h' : (n : ℚ) * 2 ^ (double.log2 d) < d * 2 ^ (double.log2 n) := by
      exact_mod_cast not_le.mp h
    rw [show (double.log2 n : Int) - double.log2 d - 1 + 1 = (double.log2 n : Int) - double.log2 d
      by ring, e1, e3]
    constructor
    · rw [div_le_div_iff₀ hpb1 hd']
      nlinarith
    · rw [div_lt_div_iff₀ hd' hpb]
      linarith

/-- The quotient of the two scale factors of `roundMag` is the power `2 ^ u`. -/
theorem double.scale_eq (u : Int) :
    ((2 ^ u.toNat : Nat) : ℚ) / ((2 ^ (-u).toNat : Nat) : ℚ) = (2 : ℚ) ^ u := by
  rcases le_total 0 u with h | h
  · have h1 : (-u).toNat = 0 := Int.toNat_eq_zero.mpr (by omega)
    have h2 : ((u.toNat : Nat) : Int) = u := Int.toNat_of_nonneg h
    have h3 : (2 : ℚ) ^ u = (2 : ℚ) ^ u.toNat := by rw [← zpow_natCast, h2]
    rw [h1, h3]
    push_cast
    simp
  · have h1 : u.toNat = 0 := Int.toNat_eq_zero.mpr h
    have h2 : (((-u).toNat : Nat) : Int) = -u := Int.toNat_of_nonneg (by omega)
    have h3 : (2 : ℚ) ^ u = ((2 : ℚ) ^ (-u).toNat)⁻¹ := by
      rw [← zpow_natCast, h2, zpow_neg, inv_inv]
    rw [h1, h3]
    push_cast
    simp

/-- The nearest integer to an integer quotient is the quotient. -/
theorem double.roundHalfEven_mul (k d : Nat) (hd : 0 < d) :
    double.roundHalfEven (k * d) d = k := by
  unfold double.roundHalfEven
  rw [Nat.mul_mod_left, Nat.mul_div_cancel _ hd, if_pos (by omega)]

/-- The nearest integer to a quotient below `b` is at most `b`. -/
theorem double.roundHalfEven_le (n d b : Nat) (hd : 0 < d) (h : n < b * d) :
    double.roundHalfEven n d ≤ b := by
  have h1 : n / d < b := (Nat.div_lt_iff_lt_mul hd).mpr h
  unfold double.roundHalfEven
  split_ifs <;> omega

/-- The magnitude that `roundMag` returns is a multiple `k * 2 ^ u` of a power of two, of
exponent at least that of the subnormal numbers and with at most 53 significant bits. -/
theorem double.roundMag_form (n d : Nat) (hd : 0 < d) :
    ∃ (k : Nat) (u : Int), -1074 ≤ u ∧ k ≤ 2 ^ 53 ∧ double.roundMag n d = (k : ℚ) * (2 : ℚ) ^ u := by
  unfold double.roundMag
  split_ifs with h0
  · exact ⟨0, 0, by omega, by positivity, by simp⟩
  · have hn : 0 < n := Nat.pos_of_ne_zero h0
    refine ⟨double.roundHalfEven (n * 2 ^ (-double.ulp n d).toNat)
      (d * 2 ^ (double.ulp n d).toNat), double.ulp n d, le_max_right _ _, ?_, ?_⟩
    · apply double.roundHalfEven_le _ _ _ (by positivity)
      have hs := (double.ilog2_spec n d hn hd).2
      have hu : double.ilog2 n d - 52 ≤ double.ulp n d := le_max_left _ _
      have hd' : (0 : ℚ) < d := by exact_mod_cast hd
      have key : (n : ℚ) < 2 ^ 53 * d * (2 : ℚ) ^ (double.ulp n d) := by
        have h1 : (2 : ℚ) ^ (double.ilog2 n d + 1) ≤ 2 ^ 53 * (2 : ℚ) ^ (double.ulp n d) := by
          rw [show (2 : ℚ) ^ 53 = (2 : ℚ) ^ ((53 : Nat) : Int) by rw [zpow_natCast],
            ← zpow_add₀ two_ne_zero]
          exact zpow_le_zpow_right₀ (by norm_num) (by push_cast; omega)
        have h2 : (n : ℚ) < 2 ^ (double.ilog2 n d + 1) * d := (div_lt_iff₀ hd').mp hs
        nlinarith
      rw [← double.scale_eq] at key
      have hp : (0 : ℚ) < ((2 ^ (-double.ulp n d).toNat : Nat) : ℚ) := by positivity
      rw [mul_div_assoc', lt_div_iff₀ hp] at key
      have key' : ((n * 2 ^ (-double.ulp n d).toNat : Nat) : ℚ) <
          ((2 ^ 53 * (d * 2 ^ (double.ulp n d).toNat) : Nat) : ℚ) := by
        push_cast
        push_cast at key
        linarith
      exact_mod_cast key'
    · rw [← double.scale_eq]
      push_cast
      ring

/-- A quotient that is a multiple of its unit in the last place is rounded to itself. -/
theorem double.roundMag_exact (n d K : Nat) (hn : 0 < n) (hd : 0 < d)
    (h : (n : ℚ) / d = (K : ℚ) * (2 : ℚ) ^ double.ulp n d) :
    double.roundMag n d = (n : ℚ) / d := by
  have hd' : (0 : ℚ) < d := by exact_mod_cast hd
  have hp : (0 : ℚ) < ((2 ^ (-double.ulp n d).toNat : Nat) : ℚ) := by positivity
  have hND : n * 2 ^ (-double.ulp n d).toNat = K * (d * 2 ^ (double.ulp n d).toNat) := by
    have h1 : (n : ℚ) = (K : ℚ) * (2 : ℚ) ^ double.ulp n d * d := (div_eq_iff hd'.ne').mp h
    rw [← double.scale_eq, mul_div_assoc', div_mul_eq_mul_div, eq_div_iff hp.ne'] at h1
    have h2 : ((n * 2 ^ (-double.ulp n d).toNat : Nat) : ℚ) =
        ((K * (d * 2 ^ (double.ulp n d).toNat) : Nat) : ℚ) := by
      push_cast
      push_cast at h1
      linarith
    exact_mod_cast h2
  unfold double.roundMag
  rw [if_neg (by omega), hND, double.roundHalfEven_mul _ _ (by positivity), h,
    ← double.scale_eq]
  push_cast
  ring

/-- A multiple `k * 2 ^ u` of a power of two, of exponent at least that of the subnormal numbers
and with at most 53 significant bits, is a multiple of its unit in the last place. -/
theorem double.ulp_divides (n d k : Nat) (u : Int) (hn : 0 < n) (hd : 0 < d) (hu : -1074 ≤ u)
    (hk : k ≤ 2 ^ 53) (h : (n : ℚ) / d = (k : ℚ) * (2 : ℚ) ^ u) :
    ∃ K : Nat, (n : ℚ) / d = (K : ℚ) * (2 : ℚ) ^ double.ulp n d := by
  obtain ⟨s1, s2⟩ := double.ilog2_spec n d hn hd
  have hk' : (k : ℚ) ≤ 2 ^ 53 := by exact_mod_cast hk
  have hpu : (0 : ℚ) < (2 : ℚ) ^ u := by positivity
  have hb : (n : ℚ) / d ≤ (2 : ℚ) ^ (53 + u) := by
    rw [h, zpow_add₀ two_ne_zero]
    have : ((2 : ℚ) ^ (53 : Int)) = 2 ^ 53 := by norm_cast
    rw [this]
    exact mul_le_mul_of_nonneg_right hk' hpu.le
  have hle : double.ilog2 n d ≤ 53 + u :=
    (zpow_le_zpow_iff_right₀ (by norm_num : (1 : ℚ) < 2)).mp (s1.trans hb)
  by_cases hlt : double.ilog2 n d ≤ 52 + u
  · have hu' : double.ulp n d ≤ u := max_le (by omega) hu
    refine ⟨k * 2 ^ (u - double.ulp n d).toNat, ?_⟩
    push_cast
    rw [h, mul_assoc, ← zpow_natCast, Int.toNat_of_nonneg (by omega), ← zpow_add₀ two_ne_zero]
    congr 2
    ring
  · have he : double.ilog2 n d = 53 + u := by omega
    have hyeq : (n : ℚ) / d = (2 : ℚ) ^ (53 + u) := le_antisymm hb (he ▸ s1)
    have hu' : double.ulp n d = u + 1 := by
      unfold double.ulp
      rw [he, max_eq_left (by omega)]
      omega
    refine ⟨2 ^ 52, ?_⟩
    have e : ((2 ^ 52 : Nat) : ℚ) = (2 : ℚ) ^ (52 : Int) := by norm_num
    rw [hu', hyeq, e, ← zpow_add₀ two_ne_zero]
    congr 1
    ring

/-- A magnitude of the form that `roundMag` returns is rounded to itself. -/
theorem double.roundMag_fixed (k : Nat) (u : Int) (hu : -1074 ≤ u) (hk : k ≤ 2 ^ 53) (y : ℚ)
    (hy : y = (k : ℚ) * (2 : ℚ) ^ u) :
    double.roundMag y.num.natAbs y.den = y := by
  by_cases h0 : k = 0
  · subst h0
    simp only [Nat.cast_zero, zero_mul] at hy
    subst hy
    simp [double.roundMag]
  · have hk0 : (0 : ℚ) < k := by exact_mod_cast Nat.pos_of_ne_zero h0
    have hypos : 0 < y := by rw [hy]; positivity
    have hnum : 0 < y.num := Rat.num_pos.mpr hypos
    have hcast : ((y.num.natAbs : Nat) : ℚ) / (y.den : ℚ) = y := by
      have h2 : ((y.num.natAbs : Nat) : ℚ) = (y.num : ℚ) := by
        rw [Nat.cast_natAbs, abs_of_pos hnum]
      rw [h2]
      exact Rat.num_div_den y
    have hn : 0 < y.num.natAbs := Int.natAbs_pos.mpr hnum.ne'
    obtain ⟨K, hK⟩ := double.ulp_divides y.num.natAbs y.den k u hn y.den_pos hu hk
      (hcast.trans hy)
    rw [double.roundMag_exact _ _ K hn y.den_pos hK, hcast]

/-- Rounding is idempotent: the finite result of an operation is rounded to itself. -/
theorem double.round_fixed (q x : ℚ) (h : double.round q = double.fin x) :
    double.round x = double.fin x := by
  obtain ⟨k, u, hu, hk, hform⟩ := double.roundMag_form q.num.natAbs q.den q.den_pos
  have hfix := double.roundMag_fixed k u hu hk _ hform
  have hy0 : 0 ≤ double.roundMag q.num.natAbs q.den := by rw [hform]; positivity
  unfold double.round at h
  generalize double.roundMag q.num.natAbs q.den = y at h hfix hy0
  have hbig : ¬ y ≥ 2 ^ 1024 := by
    intro hc
    rw [if_pos hc] at h
    split_ifs at h
  rw [if_neg hbig] at h
  have hx : x = y ∨ (x = -y ∧ 0 < y) := by
    have h' := double.fin.inj h
    split_ifs at h'
    · rcases eq_or_lt_of_le hy0 with h0 | h0
      · left
        rw [← h', ← h0, neg_zero]
      · exact Or.inr ⟨h'.symm, h0⟩
    · exact Or.inl h'.symm
  have habs : double.roundMag x.num.natAbs x.den = y := by
    rcases hx with hx | ⟨hx, _⟩
    · rw [hx]
      exact hfix
    · rw [hx, Rat.neg_num, Rat.neg_den, Int.natAbs_neg]
      exact hfix
  unfold double.round
  rw [habs, if_neg hbig]
  rcases hx with hx | ⟨hx, hpos⟩
  · rw [if_neg (by rw [hx]; exact not_lt.mpr hy0), hx]
  · rw [if_pos (by rw [hx]; linarith), hx]

/-- The result of rounding is a value of a `double`. -/
theorem double.round_isDouble (q : ℚ) : (double.round q).IsDouble := by
  unfold double.IsDouble
  cases h : double.round q with
  | nan => rfl
  | ninf => rfl
  | pinf => rfl
  | fin x =>
    show double.round (x + ((0 : Nat) : ℚ)) = double.fin x
    rw [Nat.cast_zero, add_zero]
    exact double.round_fixed q x h

/-- The result of an addition is a value of a `double`. -/
theorem double.add_isDouble (x y : double) : (x + y).IsDouble := by
  cases x <;> cases y <;>
    first
    | exact double.round_isDouble _
    | rfl

/-- A value of a `double` that is finite is rounded to itself. -/
theorem double.isDouble_fin_iff (x : ℚ) : (double.fin x).IsDouble ↔ double.round x = double.fin x := by
  unfold double.IsDouble
  show double.round (x + ((0 : Nat) : ℚ)) = double.fin x ↔ _
  rw [Nat.cast_zero, add_zero]

/-! ## Greedy selection -/

theorem bestStep_eq (qA : Nat → double) (qB : Option (Nat → double)) (a : action)
    (m : action × double) :
    bestStep qA qB a m =
      if actionValue qA qB a > m.2 then (a, actionValue qA qB a) else m := by
  rfl

theorem action_toNat_inj {a b : action} (h : a.toNat = b.toNat) : a = b := by
  cases a <;> cases b <;> simp [action.toNat] at h <;> rfl

theorem action_toNat_lt (a : action) : a.toNat < 5 := by
  cases a <;> simp [action.toNat]

theorem bestStep_inv (qA : Nat → double) (qB : Option (Nat → double)) (a : action)
    (m : action × double) (h : BestInv (actionValue qA qB) a.toNat m) :
    BestInv (actionValue qA qB) (a.toNat + 1) (bestStep qA qB a m) := by
  obtain ⟨h1, h2⟩ := h
  rw [bestStep_eq]
  split_ifs with hc
  · refine ⟨Or.inr ⟨rfl, Nat.lt_succ_self _, fun b hb hle => ?_⟩, fun b hb => ?_⟩
    · exact h2 b hb (double.lt_of_lt_le hc hle)
    · rcases Nat.lt_succ_iff_lt_or_eq.mp hb with hlt | heq
      · exact fun hgt => h2 b hlt (double.lt_trans_dbl hc hgt)
      · rw [action_toNat_inj heq]
        exact double.lt_irrefl_dbl _
  · refine ⟨?_, fun b hb => ?_⟩
    · rcases h1 with h1 | ⟨e, hlt, hlow⟩
      · exact Or.inl h1
      · exact Or.inr ⟨e, Nat.lt_succ_of_lt hlt, hlow⟩
    · rcases Nat.lt_succ_iff_lt_or_eq.mp hb with hlt | heq
      · exact h2 b hlt
      · rw [action_toNat_inj heq]
        exact hc

theorem getBestAction_inv (qA : Nat → double) (qB : Option (Nat → double)) :
    (∀ a : action, ¬ actionValue qA qB a > actionValue qA qB (getBestAction qA qB)) ∧
    ∀ a : action, actionValue qA qB (getBestAction qA qB) ≤ actionValue qA qB a →
      (getBestAction qA qB).toNat ≤ a.toNat := by
  have h0 : BestInv (actionValue qA qB) action.STAY.toNat (.STAY, double.ninf) :=
    ⟨Or.inl ⟨rfl, rfl⟩, fun b hb => absurd hb (Nat.not_lt_zero _)⟩
  have h1 := bestStep_inv qA qB .STAY _ h0
  have h2 := bestStep_inv qA qB .LEFT _ h1
  have h3 := bestStep_inv qA qB .RIGHT _ h2
  have h4 := bestStep_inv qA qB .DOWN _ h3
  have h5 := bestStep_inv qA qB .UP _ h4
  obtain ⟨hA, hB⟩ := h5
  have hbest : getBestAction qA qB = (bestStep qA qB .UP (bestStep qA qB .DOWN
      (bestStep qA qB .RIGHT (bestStep qA qB .LEFT
        (bestStep qA qB .STAY (.STAY, double.ninf)))))).1 := rfl
  rw [hbest]
  rcases hA with ⟨e1, e2⟩ | ⟨e, _, hlow⟩
  · refine ⟨fun a => ?_, fun a _ => by rw [e1]; exact Nat.zero_le _⟩
    have := hB a (action_toNat_lt a)
    rw [e2] at this
    exact double.not_gt_of_bottom this _
  · refine ⟨fun a => ?_, fun a hle => ?_⟩
    · have := hB a (action_toNat_lt a)
      rw [e] at this
      exact this
    · by_contra hc
      exact hlow a (not_le.mp hc) hle

theorem actionValue_ne_nan {qA : Nat → double} {qB : Option (Nat → double)}
    (hA : ∀ i, i < 5 → (qA i).isFinite = true)
    (hB : ∀ q, qB = some q → ∀ i, i < 5 → (q i).isFinite = true) (a : action) :
    actionValue qA qB a ≠ double.nan := by
  obtain ⟨x, hx⟩ := double.isFinite_iff.mp (hA a.toNat (action_toNat_lt a))
  unfold actionValue
  rw [hx]
  cases qB with
  | none =>
    simp only
    rw [double.zero_def]
    exact double.add_ne_nan x 0
  | some q =>
    obtain ⟨y, hy⟩ := double.isFinite_iff.mp (hB q rfl a.toNat (action_toNat_lt a))
    simp only
    rw [hy]
    exact double.add_ne_nan x y

/-- C10. Greedy selection. The value of an action is the sum `qA[a] + (qB ? qB[a] : 0)` that
the code computes, a `double` addition (rounded to nearest, an infinity on overflow); it is
`qA[a]` itself when `qB` is `NULL` and `qA[a]` is a value of a `double`. `getBestAction` returns
an action that no action has a value above, and every action whose value is at least that of
the result has an index at least that of the result. For finite `qA` and `qB` no value is a
NaN, so the result has the greatest value, and among the actions of that value it has the
lowest index in the order `STAY, LEFT, RIGHT, DOWN, UP`. -/
theorem getBestAction_greedy (qA : Nat → double) (qB : Option (Nat → double)) :
    (∀ a, ¬ actionValue qA qB a > actionValue qA qB (getBestAction qA qB)) ∧
    (∀ a, actionValue qA qB (getBestAction qA qB) ≤ actionValue qA qB a →
      (getBestAction qA qB).toNat ≤ a.toNat) ∧
    ((∀ i, i < 5 → (qA i).isFinite = true) →
      (∀ q, qB = some q → ∀ i, i < 5 → (q i).isFinite = true) →
      ∀ a, actionValue qA qB a ≤ actionValue qA qB (getBestAction qA qB) ∧
        (actionValue qA qB a = actionValue qA qB (getBestAction qA qB) →
          (getBestAction qA qB).toNat ≤ a.toNat)) ∧
    (∀ a, (qA a.toNat).IsDouble → actionValue qA none a = qA a.toNat) := by
  obtain ⟨h1, h2⟩ := getBestAction_inv qA qB
  refine ⟨h1, h2, fun hA hB a => ⟨?_, fun e => ?_⟩, fun _ hd => hd⟩
  · exact double.le_of_not_gt (actionValue_ne_nan hA hB a) (actionValue_ne_nan hA hB _) (h1 a)
  · apply h2 a
    rw [e]
    exact double.le_self (actionValue_ne_nan hA hB _)

/-- C10 at the rows `qA` of five entries `1e16` and `qB = {0, 1, 0, 0, 0}`: the sum for `LEFT`
is `1e16 + 1`, which rounds to `1e16`, so that the five values are equal and the result is
`STAY`, the first of the five. -/
theorem getBestAction_greedy_witness :
    actionValue bigRow (some unitRow) .LEFT = actionValue bigRow (some unitRow) .STAY ∧
    getBestAction bigRow (some unitRow) = .STAY ∧
    ∀ a, actionValue bigRow (some unitRow) a ≤
        actionValue bigRow (some unitRow) (getBestAction bigRow (some unitRow)) ∧
      (actionValue bigRow (some unitRow) a =
          actionValue bigRow (some unitRow) (getBestAction bigRow (some unitRow)) →
        (getBestAction bigRow (some unitRow)).toNat ≤ a.toNat) :=
  ⟨by decide!, by decide!,
    (getBestAction_greedy bigRow (some unitRow)).2.2.1 (fun _ _ => rfl)
      (fun q hq i _ => by
        rw [← Option.some.inj hq]
        unfold unitRow
        split_ifs <;> rfl)⟩

/-! ## Stores and loops -/

@[simp] theorem setAt_same {α : Type} (arr : Nat → α) (i : Nat) (v : α) : setAt arr i v i = v := by
  simp [setAt]

@[simp] theorem setAt_ne {α : Type} (arr : Nat → α) (i j : Nat) (v : α) (h : j ≠ i) :
    setAt arr i v j = arr j := by
  simp [setAt, h]

theorem setCell_same {α : Type} (arr : Int → Int → α) (x y : Int) (v : α) :
    setCell arr x y v x y = v := by
  simp [setCell]

theorem setCell_apply {α : Type} (arr : Int → Int → α) (x y i j : Int) (v : α) :
    setCell arr x y v i j = if i = x ∧ j = y then v else arr i j := rfl

theorem forLoopM_succ {σ : Type} (body : Nat → σ → Option σ) (n : Nat) (st : σ) :
    forLoopM body (n + 1) st = (forLoopM body n st).bind (body n) := rfl

/-- A property that holds initially and that every iteration of a loop preserves
holds of the result. -/
theorem forLoopM_induct {σ : Type} (body : Nat → σ → Option σ) (P : Nat → σ → Prop)
    (N : Nat) (st : σ) (h0 : P 0 st)
    (hstep : ∀ n st1 st2, n < N → P n st1 → body n st1 = some st2 → P (n + 1) st2) :
    ∀ n, n ≤ N → ∀ r, forLoopM body n st = some r → P n r := by
  intro n
  induction n with
  | zero =>
    intro _ r hr
    simp only [forLoopM, Option.some.injEq] at hr
    exact hr ▸ h0
  | succ n ih =>
    intro hn r hr
    rw [forLoopM_succ] at hr
    obtain ⟨st1, h1, h2⟩ := Option.bind_eq_some.mp hr
    exact hstep n st1 r (Nat.lt_of_succ_le hn) (ih (Nat.le_of_succ_le hn) st1 h1) h2

/-- A loop whose iterations succeed on every state that satisfies a preserved property
succeeds. -/
theorem forLoopM_total {σ : Type} (body : Nat → σ → Option σ) (P : Nat → σ → Prop)
    (N : Nat) (st : σ) (h0 : P 0 st)
    (hstep : ∀ n st1, n < N → P n st1 → ∃ st2, body n st1 = some st2 ∧ P (n + 1) st2) :
    ∀ n, n ≤ N → ∃ r, forLoopM body n st = some r ∧ P n r := by
  intro n
  induction n with
  | zero => exact fun _ => ⟨st, rfl, h0⟩
  | succ n ih =>
    intro hn
    obtain ⟨st1, h1, hp⟩ := ih (Nat.le_of_succ_le hn)
    obtain ⟨st2, h2, hp2⟩ := hstep n st1 (Nat.lt_of_succ_le hn) hp
    exact ⟨st2, by rw [forLoopM_succ, h1]; exact h2, hp2⟩

/-! ## The collision chains -/

theorem revertStep_recs (recs : Nat → actionrecord) (cmap : Int → Int → Option Nat) (b c : Nat) :
    (revertStep recs cmap b).1 c =
      if c = b then { recs b with dx := (recs b).x, dy := (recs b).y } else recs c := rfl

theorem revertStep_cmap (recs : Nat → actionrecord) (cmap : Int → Int → Option Nat) (b : Nat)
    (x y : Int) :
    (revertStep recs cmap b).2.1 x y =
      if x = (recs b).x ∧ y = (recs b).y then some b else cmap x y := rfl

theorem revertStep_next (recs : Nat → actionrecord) (cmap : Int → Int → Option Nat) (b : Nat) :
    (revertStep recs cmap b).2.2 =
      if cmap (recs b).x (recs b).y = some b then none else cmap (recs b).x (recs b).y := rfl

/-- A property of the records, the map and the pending agent that the loop body preserves
holds when the chain loop ends. -/
theorem chainWhile_induct (P : (Nat → actionrecord) → (Int → Int → Option Nat) → Option Nat → Prop)
    (hstep : ∀ recs cmap b, P recs cmap (some b) →
      P (revertStep recs cmap b).1 (revertStep recs cmap b).2.1 (revertStep recs cmap b).2.2) :
    ∀ fuel recs cmap c r, P recs cmap c → chainWhile fuel recs cmap c = some r →
      P r.1 r.2 none := by
  intro fuel
  induction fuel with
  | zero =>
    intro recs cmap c r hp hr
    cases c with
    | none =>
      simp only [chainWhile, Option.some.injEq] at hr
      exact hr ▸ hp
    | some b => simp [chainWhile] at hr
  | succ fuel ih =>
    intro recs cmap c r hp hr
    cases c with
    | none =>
      simp only [chainWhile, Option.some.injEq] at hr
      exact hr ▸ hp
    | some b =>
      simp only [chainWhile] at hr
      exact ih _ _ _ r (hstep recs cmap b hp) hr

theorem SameDecision.same_refl (r : actionrecord) : SameDecision r r :=
  ⟨rfl, rfl, rfl, rfl, rfl, rfl⟩

theorem SameDecision.then_same {r1 r2 r3 : actionrecord} (h1 : SameDecision r1 r2)
    (h2 : SameDecision r2 r3) : SameDecision r1 r3 :=
  ⟨h2.1.trans h1.1, h2.2.1.trans h1.2.1, h2.2.2.1.trans h1.2.2.1,
    h2.2.2.2.1.trans h1.2.2.2.1, h2.2.2.2.2.1.trans h1.2.2.2.2.1,
    h2.2.2.2.2.2.trans h1.2.2.2.2.2⟩

theorem revertStep_sameDecision (recs : Nat → actionrecord) (cmap : Int → Int → Option Nat)
    (b c : Nat) : SameDecision (recs c) ((revertStep recs cmap b).1 c) := by
  rw [revertStep_recs]
  split_ifs with h
  · subst h
    exact ⟨rfl, rfl, rfl, rfl, rfl, rfl⟩
  · exact SameDecision.same_refl _

theorem revertStep_x (recs : Nat → actionrecord) (cmap : Int → Int → Option Nat) (b c : Nat) :
    ((revertStep recs cmap b).1 c).x = (recs c).x :=
  (revertStep_sameDecision recs cmap b c).2.1

theorem revertStep_y (recs : Nat → actionrecord) (cmap : Int → Int → Option Nat) (b c : Nat) :
    ((revertStep recs cmap b).1 c).y = (recs c).y :=
  (revertStep_sameDecision recs cmap b c).2.2.1

theorem revertStep_dx (recs : Nat → actionrecord) (cmap : Int → Int → Option Nat) (b c : Nat) :
    ((revertStep recs cmap b).1 c).dx = if c = b then (recs b).x else (recs c).dx := by
  rw [revertStep_recs]
  split_ifs <;> rfl

theorem revertStep_dy (recs : Nat → actionrecord) (cmap : Int → Int → Option Nat) (b c : Nat) :
    ((revertStep recs cmap b).1 c).dy = if c = b then (recs b).y else (recs c).dy := by
  rw [revertStep_recs]
  split_ifs <;> rfl

/-- The body of a collision chain preserves the invariant. -/
theorem ChainInv.revert_step {s : State} {act : Nat → action} {n : Nat} {recs : Nat → actionrecord}
    {cmap : Int → Int → Option Nat} {b : Nat} (hd : ActiveDistinct s) (hn : n ≤ s.numAgents)
    (h : ChainInv s act n recs cmap (some b)) :
    ChainInv s act n (revertStep recs cmap b).1 (revertStep recs cmap b).2.1
      (revertStep recs cmap b).2.2 := by
  obtain ⟨hbn, hba, hbc⟩ := h.pend b rfl
  obtain ⟨hbx, hby⟩ := h.start b hbn hba
  refine ⟨?_, ?_, ?_, ?_, ?_, ?_, ?_, ?_⟩
  · intro c hc hca
    rw [revertStep_x, revertStep_y]
    exact h.start c hc hca
  · intro c hc hca
    rw [revertStep_dx, revertStep_dy]
    by_cases hcb : c = b
    · subst hcb
      right
      simp only [if_true, startOf, hbx, hby]
    · simp only [hcb, if_false]
      exact h.claim c hc hca
  · intro c hc hca hpc
    rw [revertStep_dx, revertStep_dy, revertStep_cmap]
    by_cases hcb : c = b
    · subst hcb
      simp
    · simp only [hcb, if_false]
      have hheld := h.held c hc hca (fun e => hcb (Option.some.inj e).symm)
      by_cases hcell : (recs c).dx = (recs b).x ∧ (recs c).dy = (recs b).y
      · exfalso
        apply hpc
        rw [revertStep_next, ← hcell.1, ← hcell.2, hheld]
        simp [hcb]
      · simp only [hcell, if_false]
        exact hheld
  · intro x y c hxy
    rw [revertStep_cmap] at hxy
    by_cases hcell : x = (recs b).x ∧ y = (recs b).y
    · simp only [hcell, and_self, if_true, Option.some.injEq] at hxy
      subst hxy
      refine ⟨hbn, hba, Or.inr ⟨?_, hbc⟩⟩
      simp only [startOf, hcell.1, hcell.2, hbx, hby]
    · simp only [hcell, if_false] at hxy
      exact h.valid x y c hxy
  · intro c hc hca
    rw [revertStep_cmap]
    split_ifs
    · simp
    · exact h.marked c hc hca
  · intro a c ha hc haa hca hac htent
    rw [revertStep_dx, revertStep_dy]
    by_cases hab : a = b
    · subst hab
      simp only [if_true, startOf, hbx, hby]
    · simp only [hab, if_false]
      exact h.unique a c ha hc haa hca hac htent
  · intro c hc hca hne
    by_cases hcb : c = b
    · subst hcb
      exact hbc
    · rw [revertStep_dx, revertStep_dy] at hne
      simp only [hcb, if_false] at hne
      exact h.sound c hc hca hne
  · intro c hnext
    rw [revertStep_next] at hnext
    by_cases hself : cmap (recs b).x (recs b).y = some b
    · simp [hself] at hnext
    · simp only [hself, if_false] at hnext
      obtain ⟨hcn, hca, hcase⟩ := h.valid _ _ c hnext
      have hcb : c ≠ b := fun e => hself (e ▸ hnext)
      refine ⟨hcn, hca, ?_⟩
      rcases hcase with ht | ⟨hs, _⟩
      · refine InConflict.chain c b (Nat.lt_of_lt_of_le hcn hn) hca hbc hcb ?_
        rw [← ht]
        simp only [startOf, hbx, hby]
      · exfalso
        apply hcb
        simp only [startOf, Prod.mk.injEq] at hs
        exact hd c b (Nat.lt_of_lt_of_le hcn hn) (Nat.lt_of_lt_of_le hbn hn) hca hba
          (by rw [← hs.1, hbx]) (by rw [← hs.2, hby])

theorem ChainFrame.frame_refl (s : State) (n : Nat) (recs : Nat → actionrecord)
    (cmap : Int → Int → Option Nat) : ChainFrame s n recs cmap recs cmap :=
  ⟨fun _ => SameDecision.same_refl _, fun _ _ => rfl, fun _ => Or.inl ⟨rfl, rfl⟩, fun _ _ h => h,
    fun _ _ => Or.inl rfl⟩

/-- The body of a collision chain stays within the frame. -/
theorem ChainFrame.frame_step {s : State} {act : Nat → action} {n : Nat}
    {recs0 recs : Nat → actionrecord} {cmap0 cmap : Int → Int → Option Nat} {b : Nat}
    (h : ChainInv s act n recs cmap (some b)) (hf : ChainFrame s n recs0 cmap0 recs cmap) :
    ChainFrame s n recs0 cmap0 (revertStep recs cmap b).1 (revertStep recs cmap b).2.1 := by
  obtain ⟨hbn, hba, _⟩ := h.pend b rfl
  obtain ⟨hbx, hby⟩ := h.start b hbn hba
  refine ⟨?_, ?_, ?_, ?_, ?_⟩
  · intro c
    exact (hf.decision c).then_same (revertStep_sameDecision recs cmap b c)
  · intro c hc
    have hcb : c ≠ b := fun e => hc (e ▸ ⟨hbn, hba⟩)
    rw [revertStep_recs]
    simp only [hcb, if_false]
    exact hf.fix c hc
  · intro c
    rw [revertStep_dx, revertStep_dy, revertStep_x, revertStep_y]
    by_cases hcb : c = b
    · subst hcb
      right
      simp
    · simp only [hcb, if_false]
      exact hf.change c
  · intro x y hxy
    rw [revertStep_cmap]
    split_ifs
    · simp
    · exact hf.cmap_mono x y hxy
  · intro x y
    rw [revertStep_cmap]
    by_cases hcell : x = (recs b).x ∧ y = (recs b).y
    · right
      exact ⟨b, hbn, hba, by simp only [startOf, hcell.1, hcell.2, hbx, hby]⟩
    · simp only [hcell, if_false]
      exact hf.cmap_change x y

/-- When a chain loop ends, the invariant holds with no agent pending, within the frame. -/
theorem chainWhile_inv {s : State} {act : Nat → action} {n : Nat} (hd : ActiveDistinct s)
    (hn : n ≤ s.numAgents) (recs0 : Nat → actionrecord) (cmap0 : Int → Int → Option Nat)
    (fuel : Nat) (recs : Nat → actionrecord) (cmap : Int → Int → Option Nat) (c : Option Nat)
    (r : (Nat → actionrecord) × (Int → Int → Option Nat))
    (h : ChainInv s act n recs cmap c) (hf : ChainFrame s n recs0 cmap0 recs cmap)
    (hr : chainWhile fuel recs cmap c = some r) :
    ChainInv s act n r.1 r.2 none ∧ ChainFrame s n recs0 cmap0 r.1 r.2 :=
  chainWhile_induct
    (fun recs cmap c => ChainInv s act n recs cmap c ∧ ChainFrame s n recs0 cmap0 recs cmap)
    (fun _ _ _ hp => ⟨hp.1.revert_step hd hn, ChainFrame.frame_step hp.1 hp.2⟩)
    fuel recs cmap c r ⟨h, hf⟩ hr

/-- A claim that stands reverted stays so within the frame. -/
theorem ChainFrame.reverted {s : State} {n : Nat} {recs0 recs : Nat → actionrecord}
    {cmap0 cmap : Int → Int → Option Nat} (hf : ChainFrame s n recs0 cmap0 recs cmap) (c : Nat)
    (h : (recs0 c).dx = (recs0 c).x ∧ (recs0 c).dy = (recs0 c).y) :
    (recs c).dx = (recs c).x ∧ (recs c).dy = (recs c).y := by
  rcases hf.change c with hc | hc
  · rw [hc.1, hc.2, (hf.decision c).2.1, (hf.decision c).2.2.1]
    exact h
  · exact hc

/-- The agent a chain starts with stands reverted when the chain ends. -/
theorem chainWhile_reverts {s : State} {act : Nat → action} {n : Nat} (hd : ActiveDistinct s)
    (hn : n ≤ s.numAgents) (fuel : Nat) (recs : Nat → actionrecord)
    (cmap : Int → Int → Option Nat) (b : Nat)
    (r : (Nat → actionrecord) × (Int → Int → Option Nat))
    (h : ChainInv s act n recs cmap (some b))
    (hr : chainWhile fuel recs cmap (some b) = some r) :
    (r.1 b).dx = (r.1 b).x ∧ (r.1 b).dy = (r.1 b).y := by
  cases fuel with
  | zero => simp [chainWhile] at hr
  | succ fuel =>
    simp only [chainWhile] at hr
    have h2 := chainWhile_inv hd hn _ _ fuel _ _ _ r (h.revert_step hd hn) (ChainFrame.frame_refl s n _ _) hr
    apply h2.2.reverted b
    rw [revertStep_dx, revertStep_dy, revertStep_x, revertStep_y]
    simp

theorem unsettled_le (s : State) (n : Nat) (recs : Nat → actionrecord)
    (cmap : Int → Int → Option Nat) : unsettled s n recs cmap ≤ n := by
  unfold unsettled
  calc _ ≤ (Finset.range n).card := Finset.card_filter_le _ _
    _ = n := Finset.card_range n

/-- Reverting an agent that does not stand reverted lowers the bound. -/
theorem unsettled_step {s : State} {act : Nat → action} {n : Nat} {recs : Nat → actionrecord}
    {cmap : Int → Int → Option Nat} {b : Nat} (hd : ActiveDistinct s) (hn : n ≤ s.numAgents)
    (h : ChainInv s act n recs cmap (some b)) (hb : ¬ settledAgent recs cmap b) :
    unsettled s n (revertStep recs cmap b).1 (revertStep recs cmap b).2.1 <
      unsettled s n recs cmap := by
  obtain ⟨hbn, hba, _⟩ := h.pend b rfl
  obtain ⟨hbx, hby⟩ := h.start b hbn hba
  unfold unsettled
  apply Finset.card_lt_card
  rw [Finset.ssubset_iff_of_subset]
  · refine ⟨b, ?_, ?_⟩
    · simp only [Finset.mem_filter, Finset.mem_range]
      exact ⟨hbn, hba, hb⟩
    · simp only [Finset.mem_filter, Finset.mem_range, not_and, not_not]
      intro _ _
      refine ⟨?_, ?_, ?_⟩
      · rw [revertStep_dx, revertStep_x]; simp
      · rw [revertStep_dy, revertStep_y]; simp
      · rw [revertStep_cmap, revertStep_x, revertStep_y]; simp
  · intro c
    simp only [Finset.mem_filter, Finset.mem_range]
    rintro ⟨hcn, hca, hcs⟩
    refine ⟨hcn, hca, fun hset => hcs ?_⟩
    obtain ⟨hcx, hcy⟩ := h.start c hcn hca
    have hcb : c ≠ b := by
      intro e
      subst e
      exact hb hset
    have hcell : ¬ ((recs c).x = (recs b).x ∧ (recs c).y = (recs b).y) := by
      rintro ⟨e1, e2⟩
      exact hcb (hd c b (Nat.lt_of_lt_of_le hcn hn) (Nat.lt_of_lt_of_le hbn hn) hca hba
        (by rw [← hcx, e1, hbx]) (by rw [← hcy, e2, hby]))
    refine ⟨?_, ?_, ?_⟩
    · rw [revertStep_dx, revertStep_x]; simp only [hcb, if_false]; exact hset.1
    · rw [revertStep_dy, revertStep_y]; simp only [hcb, if_false]; exact hset.2.1
    · rw [revertStep_cmap, revertStep_x, revertStep_y]; simp only [hcell, if_false]
      exact hset.2.2

/-- A chain loop ends when its fuel exceeds the number of agents that do not stand
reverted. -/
theorem chainWhile_total {s : State} {act : Nat → action} {n : Nat} (hd : ActiveDistinct s)
    (hn : n ≤ s.numAgents) :
    ∀ (fuel : Nat) (recs : Nat → actionrecord) (cmap : Int → Int → Option Nat) (c : Option Nat),
      ChainInv s act n recs cmap c → unsettled s n recs cmap < fuel →
      ∃ r, chainWhile fuel recs cmap c = some r := by
  intro fuel
  induction fuel with
  | zero => intro _ _ _ _ hlt; exact absurd hlt (Nat.not_lt_zero _)
  | succ fuel ih =>
    intro recs cmap c h hlt
    cases c with
    | none => exact ⟨_, rfl⟩
    | some b =>
      simp only [chainWhile]
      by_cases hb : settledAgent recs cmap b
      · rw [revertStep_next]
        simp only [hb.2.2, if_true]
        cases fuel <;> exact ⟨_, rfl⟩
      · exact ih _ _ _ (h.revert_step hd hn)
          (Nat.lt_of_lt_of_le (unsettled_step hd hn h hb) (Nat.le_of_lt_succ hlt))

/-- The do-while loop ends under the same bound. -/
theorem chainDoWhile_total {s : State} {act : Nat → action} {n : Nat} (hd : ActiveDistinct s)
    (hn : n ≤ s.numAgents) (fuel : Nat) (recs : Nat → actionrecord)
    (cmap : Int → Int → Option Nat) (b : Nat) (h : ChainInv s act n recs cmap (some b))
    (hlt : unsettled s n recs cmap < fuel) :
    ∃ r, chainDoWhile fuel recs cmap b = some r := by
  cases fuel with
  | zero => exact absurd hlt (Nat.not_lt_zero _)
  | succ fuel =>
    have := chainWhile_total hd hn (fuel + 1) recs cmap (some b) h hlt
    simpa only [chainWhile, chainDoWhile] using this

theorem chainDoWhile_eq (fuel : Nat) (recs : Nat → actionrecord) (cmap : Int → Int → Option Nat)
    (b : Nat) : chainDoWhile fuel recs cmap b = chainWhile fuel recs cmap (some b) := by
  cases fuel <;> rfl

/-- The invariant reads the records of index below `n` only. -/
theorem ChainInv.congr {s : State} {act : Nat → action} {n : Nat}
    {recs recs1 : Nat → actionrecord} {cmap : Int → Int → Option Nat} {p : Option Nat}
    (h : ChainInv s act n recs cmap p) (he : ∀ c, c < n → recs1 c = recs c) :
    ChainInv s act n recs1 cmap p := by
  refine ⟨?_, ?_, ?_, ?_, ?_, ?_, ?_, ?_⟩
  · intro b hb hba; rw [he b hb]; exact h.start b hb hba
  · intro b hb hba; rw [he b hb]; exact h.claim b hb hba
  · intro b hb hba hp; rw [he b hb]; exact h.held b hb hba hp
  · exact h.valid
  · exact h.marked
  · intro a b ha hb haa hba hab ht; rw [he a ha]; exact h.unique a b ha hb haa hba hab ht
  · intro b hb hba hne; rw [he b hb] at hne; exact h.sound b hb hba hne
  · exact h.pend

/-- Dropping the pending agent weakens the invariant. -/
theorem ChainInv.weaken {s : State} {act : Nat → action} {n : Nat}
    {recs : Nat → actionrecord} {cmap : Int → Int → Option Nat} {p : Option Nat}
    (h : ChainInv s act n recs cmap none)
    (hp : ∀ b, p = some b → b < n ∧ isActive s b ∧ InConflict s act b) :
    ChainInv s act n recs cmap p :=
  ⟨h.start, h.claim, fun b hb hba _ => h.held b hb hba (by simp), h.valid, h.marked, h.unique,
    h.sound, hp⟩

/-- The tentative destination is where pass 1 looks up the collision map, and the claim that
the record holds at that point. -/
theorem claimCell_eq (s : State) (fuel a : Nat) (act : action) (recs : Nat → actionrecord)
    (cmap : Int → Int → Option Nat) (hdx : (recs a).dx = (recs a).x)
    (hdy : (recs a).dy = (recs a).y) :
    ∃ recs1 : Nat → actionrecord, (∀ c, c ≠ a → recs1 c = recs c) ∧
      SameDecision (recs a) (recs1 a) ∧
      ((recs1 a).dx, (recs1 a).dy) = tentative s act (recs a).x (recs a).y ∧
      claimCell s fuel a act recs cmap =
        match cmap (tentative s act (recs a).x (recs a).y).1
            (tentative s act (recs a).x (recs a).y).2 with
        | none => some (recs1, setCell cmap (tentative s act (recs a).x (recs a).y).1
            (tentative s act (recs a).x (recs a).y).2 (some a))
        | some b =>
          (chainDoWhile fuel recs1 cmap b).bind fun r =>
            (chainWhile fuel (setAt r.1 a { r.1 a with dx := (r.1 a).x, dy := (r.1 a).y }) r.2
              (r.2 (r.1 a).x (r.1 a).y)).bind fun r2 =>
                some (r2.1, setCell r2.2 (r.1 a).x (r.1 a).y (some a)) := by
  by_cases hp : isPassable (s.room (actionModCoords s act (recs a).x (recs a).y).1
      (actionModCoords s act (recs a).x (recs a).y).2) = true
  · refine ⟨setAt recs a
      { recs a with
        dx := (actionModCoords s act (recs a).x (recs a).y).1
        dy := (actionModCoords s act (recs a).x (recs a).y).2 }, ?_, ?_, ?_, ?_⟩
    · intro c hc; simp [hc]
    · simp [SameDecision]
    · simp [tentative, hp]
    · simp only [claimCell, tentative, hp, if_true]
  · refine ⟨recs, fun _ _ => rfl, SameDecision.same_refl _, ?_, ?_⟩
    · simp [tentative, hp, hdx, hdy]
    · simp only [claimCell, tentative, hp, if_false]
      rfl

/-- The claim of an agent whose tentative destination is free: the invariant extends to it. -/
theorem claimCell_free {s : State} {act : Nat → action} {n : Nat} {recs recs1 : Nat → actionrecord}
    {cmap : Int → Int → Option Nat} (ha : isActive s n)
    (hx : (recs n).x = (s.agents n).x) (hy : (recs n).y = (s.agents n).y)
    (h : ChainInv s act n recs cmap none)
    (h1ne : ∀ c, c ≠ n → recs1 c = recs c) (h1dec : SameDecision (recs n) (recs1 n))
    (h1claim : ((recs1 n).dx, (recs1 n).dy) = tentativeOf s act n)
    (hc : cmap (tentativeOf s act n).1 (tentativeOf s act n).2 = none) :
    ChainInv s act (n + 1) recs1
      (setCell cmap (tentativeOf s act n).1 (tentativeOf s act n).2 (some n)) none := by
  have hdx : (recs1 n).dx = (tentativeOf s act n).1 := congrArg Prod.fst h1claim
  have hdy : (recs1 n).dy = (tentativeOf s act n).2 := congrArg Prod.snd h1claim
  have hfree : ∀ b, b < n → isActive s b → tentativeOf s act b ≠ tentativeOf s act n := by
    intro b hb hba e
    exact h.marked b hb hba (e ▸ hc)
  refine ⟨?_, ?_, ?_, ?_, ?_, ?_, ?_, ?_⟩
  · intro b hb hba
    rcases Nat.lt_succ_iff_lt_or_eq.mp hb with hlt | rfl
    · rw [h1ne b (Nat.ne_of_lt hlt)]; exact h.start b hlt hba
    · rw [h1dec.2.1, h1dec.2.2.1]; exact ⟨hx, hy⟩
  · intro b hb hba
    rcases Nat.lt_succ_iff_lt_or_eq.mp hb with hlt | rfl
    · rw [h1ne b (Nat.ne_of_lt hlt)]; exact h.claim b hlt hba
    · exact Or.inl h1claim
  · intro b hb hba _
    rcases Nat.lt_succ_iff_lt_or_eq.mp hb with hlt | rfl
    · rw [h1ne b (Nat.ne_of_lt hlt), setCell_apply]
      have hheld := h.held b hlt hba (by simp)
      split_ifs with hcell
      · rw [hcell.1, hcell.2, hc] at hheld
        exact absurd hheld (by simp)
      · exact hheld
    · rw [hdx, hdy, setCell_same]
  · intro x y b hxy
    rw [setCell_apply] at hxy
    split_ifs at hxy with hcell
    · simp only [Option.some.injEq] at hxy
      subst hxy
      exact ⟨Nat.lt_succ_self _, ha, Or.inl (by rw [hcell.1, hcell.2])⟩
    · obtain ⟨h1, h2, h3⟩ := h.valid x y b hxy
      exact ⟨Nat.lt_succ_of_lt h1, h2, h3⟩
  · intro b hb hba
    rw [setCell_apply]
    split_ifs with hcell
    · simp
    · rcases Nat.lt_succ_iff_lt_or_eq.mp hb with hlt | rfl
      · exact h.marked b hlt hba
      · exact absurd ⟨rfl, rfl⟩ hcell
  · intro a b ha' hb haa hba hab ht
    rcases Nat.lt_succ_iff_lt_or_eq.mp ha' with halt | rfl
    · rcases Nat.lt_succ_iff_lt_or_eq.mp hb with hblt | rfl
      · rw [h1ne a (Nat.ne_of_lt halt)]
        exact h.unique a b halt hblt haa hba hab ht
      · exact absurd ht (hfree a halt haa)
    · rcases Nat.lt_succ_iff_lt_or_eq.mp hb with hblt | rfl
      · exact absurd ht.symm (hfree b hblt hba)
      · exact absurd rfl hab
  · intro b hb hba hne
    rcases Nat.lt_succ_iff_lt_or_eq.mp hb with hlt | rfl
    · rw [h1ne b (Nat.ne_of_lt hlt)] at hne
      exact h.sound b hlt hba hne
    · exact absurd h1claim hne
  · intro b hb
    simp at hb

/-- The claim of an agent whose tentative destination is taken: both chains end, and the
invariant extends to the agent, which stands reverted. -/
theorem claimCell_taken {s : State} {act : Nat → action} {n : Nat} {recs1 : Nat → actionrecord}
    {cmap : Int → Int → Option Nat} (fuel b0 : Nat) (hd : ActiveDistinct s)
    (hn : n < s.numAgents) (ha : isActive s n) (hfuel : n < fuel)
    (hx : (recs1 n).x = (s.agents n).x) (hy : (recs1 n).y = (s.agents n).y)
    (h : ChainInv s act n recs1 cmap none)
    (hc : cmap (tentativeOf s act n).1 (tentativeOf s act n).2 = some b0) :
    ∃ r r2, chainDoWhile fuel recs1 cmap b0 = some r ∧
      chainWhile fuel (setAt r.1 n { r.1 n with dx := (r.1 n).x, dy := (r.1 n).y }) r.2
        (r.2 (r.1 n).x (r.1 n).y) = some r2 ∧
      ChainInv s act (n + 1) r2.1 (setCell r2.2 (r.1 n).x (r.1 n).y (some n)) none ∧
      (∀ c, SameDecision (recs1 c) (r2.1 c)) ∧
      (∀ c, ¬ (c < n + 1 ∧ isActive s c) → r2.1 c = recs1 c) := by
  have hnle : n ≤ s.numAgents := Nat.le_of_lt hn
  obtain ⟨hb0n, hb0a, hb0c⟩ := h.valid _ _ b0 hc
  have hb0ne : b0 ≠ n := Nat.ne_of_lt hb0n
  have hb0lt : b0 < s.numAgents := Nat.lt_trans hb0n hn
  -- both agents of the collision are in the conflicting set
  have hconf_n : InConflict s act n := by
    rcases hb0c with ht | ⟨hs, hcf⟩
    · exact InConflict.same n b0 hn hb0lt ha hb0a hb0ne.symm (by rw [← ht])
    · exact InConflict.chain n b0 hn ha hcf hb0ne.symm (by rw [← hs])
  have hconf_b0 : InConflict s act b0 := by
    rcases hb0c with ht | ⟨_, hcf⟩
    · exact InConflict.same b0 n hb0lt hn hb0a ha hb0ne (by rw [← ht])
    · exact hcf
  -- the first chain
  have hp1 : ChainInv s act n recs1 cmap (some b0) :=
    h.weaken (fun b hb => by
      simp only [Option.some.injEq] at hb
      subst hb
      exact ⟨hb0n, hb0a, hconf_b0⟩)
  obtain ⟨r, hr⟩ := chainDoWhile_total hd hnle fuel recs1 cmap b0 hp1
    (Nat.lt_of_le_of_lt (unsettled_le _ _ _ _) hfuel)
  have hr' := hr
  rw [chainDoWhile_eq] at hr'
  obtain ⟨hinv2, hfr1⟩ := chainWhile_inv hd hnle recs1 cmap fuel recs1 cmap (some b0) r hp1
    (ChainFrame.frame_refl _ _ _ _) hr'
  have hrev0 := chainWhile_reverts hd hnle fuel recs1 cmap b0 r hp1 hr'
  have hrn : r.1 n = recs1 n := hfr1.fix n (fun hh => Nat.lt_irrefl n hh.1)
  have hsx : (r.1 n).x = (s.agents n).x := by rw [hrn, hx]
  have hsy : (r.1 n).y = (s.agents n).y := by rw [hrn, hy]
  -- the second chain
  have hinv3 : ChainInv s act n (setAt r.1 n { r.1 n with dx := (r.1 n).x, dy := (r.1 n).y })
      r.2 none :=
    hinv2.congr (fun c hc => setAt_ne _ _ _ _ (Nat.ne_of_lt hc))
  have hnotstart : ∀ c, c < n → isActive s c → startOf s c ≠ startOf s n := by
    intro c hcn hca e
    simp only [startOf, Prod.mk.injEq] at e
    exact Nat.ne_of_lt hcn (hd c n (Nat.lt_trans hcn hn) hn hca ha e.1 e.2)
  have hp2 : ChainInv s act n (setAt r.1 n { r.1 n with dx := (r.1 n).x, dy := (r.1 n).y })
      r.2 (r.2 (r.1 n).x (r.1 n).y) :=
    hinv3.weaken (fun c hcc => by
      obtain ⟨hcn, hca, hcase⟩ := hinv2.valid _ _ c hcc
      refine ⟨hcn, hca, ?_⟩
      rcases hcase with ht | ⟨hs, _⟩
      · refine InConflict.chain c n (Nat.lt_trans hcn hn) hca hconf_n (Nat.ne_of_lt hcn) ?_
        rw [← ht, hsx, hsy]
        rfl
      · exfalso
        apply hnotstart c hcn hca
        rw [← hs, hsx, hsy]
        rfl)
  obtain ⟨r2, hr2⟩ := chainWhile_total hd hnle fuel _ r.2 _ hp2
    (Nat.lt_of_le_of_lt (unsettled_le _ _ _ _) hfuel)
  obtain ⟨hinv4, hfr2⟩ := chainWhile_inv hd hnle _ r.2 fuel _ r.2 _ r2 hp2
    (ChainFrame.frame_refl _ _ _ _) hr2
  have hr2n : r2.1 n = setAt r.1 n { r.1 n with dx := (r.1 n).x, dy := (r.1 n).y } n :=
    hfr2.fix n (fun hh => Nat.lt_irrefl n hh.1)
  rw [setAt_same] at hr2n
  -- a claim that stood reverted before the chains stands reverted after them
  have hkeep : ∀ c, c < n → ((r.1 c).dx = (r.1 c).x ∧ (r.1 c).dy = (r.1 c).y) →
      ((r2.1 c).dx = (r2.1 c).x ∧ (r2.1 c).dy = (r2.1 c).y) := by
    intro c hcn hrev
    apply hfr2.reverted c
    rw [setAt_ne _ _ _ _ (Nat.ne_of_lt hcn)]
    exact hrev
  refine ⟨r, r2, hr, hr2, ⟨?_, ?_, ?_, ?_, ?_, ?_, ?_, ?_⟩, ?_, ?_⟩
  · intro b hb hba
    rcases Nat.lt_succ_iff_lt_or_eq.mp hb with hlt | rfl
    · exact hinv4.start b hlt hba
    · rw [hr2n]; exact ⟨hsx, hsy⟩
  · intro b hb hba
    rcases Nat.lt_succ_iff_lt_or_eq.mp hb with hlt | rfl
    · exact hinv4.claim b hlt hba
    · right
      rw [hr2n]
      simp only [startOf, hsx, hsy]
  · intro b hb hba _
    rcases Nat.lt_succ_iff_lt_or_eq.mp hb with hlt | rfl
    · have hheld := hinv4.held b hlt hba (by simp)
      rw [setCell_apply]
      split_ifs with hcell
      · exfalso
        rw [hcell.1, hcell.2] at hheld
        rcases hfr2.cmap_change (r.1 n).x (r.1 n).y with hsame | ⟨c, hcn, hca, hcs⟩
        · rw [hheld] at hsame
          have hrev := chainWhile_reverts hd hnle fuel _ r.2 b r2 (hsame ▸ hp2) (hsame ▸ hr2)
          obtain ⟨hbx, hby⟩ := hinv4.start b hlt hba
          apply hnotstart b hlt hba
          simp only [startOf, Prod.mk.injEq]
          exact ⟨by rw [← hbx, ← hrev.1, hcell.1, hsx], by rw [← hby, ← hrev.2, hcell.2, hsy]⟩
        · apply hnotstart c hcn hca
          rw [← hcs, hsx, hsy]
          rfl
      · exact hheld
    · rw [hr2n]
      exact setCell_same _ _ _ _
  · intro x y b hxy
    rw [setCell_apply] at hxy
    split_ifs at hxy with hcell
    · simp only [Option.some.injEq] at hxy
      subst hxy
      refine ⟨Nat.lt_succ_self _, ha, Or.inr ⟨?_, hconf_n⟩⟩
      rw [hcell.1, hcell.2, hsx, hsy]
      rfl
    · obtain ⟨h1, h2, h3⟩ := hinv4.valid x y b hxy
      exact ⟨Nat.lt_succ_of_lt h1, h2, h3⟩
  · intro b hb hba
    rw [setCell_apply]
    split_ifs with hcell
    · simp
    · rcases Nat.lt_succ_iff_lt_or_eq.mp hb with hlt | rfl
      · exact hinv4.marked b hlt hba
      · apply hfr2.cmap_mono
        apply hfr1.cmap_mono
        rw [hc]
        simp
  · intro a b ha' hb haa hba hab ht
    rcases Nat.lt_succ_iff_lt_or_eq.mp ha' with halt | rfl
    · rcases Nat.lt_succ_iff_lt_or_eq.mp hb with hblt | rfl
      · exact hinv4.unique a b halt hblt haa hba hab ht
      · obtain ⟨hax, hay⟩ := hinv4.start a halt haa
        have hfin : (r2.1 a).dx = (r2.1 a).x ∧ (r2.1 a).dy = (r2.1 a).y := by
          apply hkeep a halt
          rcases h.claim a halt haa with hcl | hcl
          · have hheld := h.held a halt haa (by simp)
            have e1 : (recs1 a).dx = (tentativeOf s act b).1 := by
              rw [← ht]; exact congrArg Prod.fst hcl
            have e2 : (recs1 a).dy = (tentativeOf s act b).2 := by
              rw [← ht]; exact congrArg Prod.snd hcl
            rw [e1, e2, hc] at hheld
            simp only [Option.some.injEq] at hheld
            subst hheld
            exact hrev0
          · apply hfr1.reverted a
            obtain ⟨hax1, hay1⟩ := h.start a halt haa
            simp only [startOf, Prod.mk.injEq] at hcl
            exact ⟨by rw [hcl.1, hax1], by rw [hcl.2, hay1]⟩
        simp only [startOf, hfin.1, hfin.2, hax, hay]
    · rw [hr2n]
      simp only [startOf, hsx, hsy]
  · intro b hb hba hne
    rcases Nat.lt_succ_iff_lt_or_eq.mp hb with hlt | rfl
    · exact hinv4.sound b hlt hba hne
    · exact hconf_n
  · intro b hb
    simp at hb
  · intro c
    refine (hfr1.decision c).then_same (SameDecision.then_same ?_ (hfr2.decision c))
    by_cases hcn : c = n
    · subst hcn
      rw [setAt_same]
      exact ⟨rfl, rfl, rfl, rfl, rfl, rfl⟩
    · rw [setAt_ne _ _ _ _ hcn]
      exact SameDecision.same_refl _
  · intro c hcc
    have hcn : c ≠ n := by
      intro e
      subst e
      exact hcc ⟨Nat.lt_succ_self _, ha⟩
    have hcc' : ¬ (c < n ∧ isActive s c) := fun hh => hcc ⟨Nat.lt_succ_of_lt hh.1, hh.2⟩
    rw [hfr2.fix c hcc', setAt_ne _ _ _ _ hcn, hfr1.fix c hcc']

/-- The body of pass 1 after the choice of the action: under the invariant, both chains end and
the invariant extends to the agent `n`. -/
theorem claimCell_inv {s : State} {act : Nat → action} {n : Nat} {recs : Nat → actionrecord}
    {cmap : Int → Int → Option Nat} (fuel : Nat) (hd : ActiveDistinct s)
    (hn : n < s.numAgents) (ha : isActive s n) (hfuel : n < fuel)
    (hx : (recs n).x = (s.agents n).x) (hy : (recs n).y = (s.agents n).y)
    (hdx : (recs n).dx = (recs n).x) (hdy : (recs n).dy = (recs n).y)
    (h : ChainInv s act n recs cmap none) :
    ∃ r, claimCell s fuel n (act n) recs cmap = some r ∧ ChainInv s act (n + 1) r.1 r.2 none ∧
      (∀ c, SameDecision (recs c) (r.1 c)) ∧
      (∀ c, ¬ (c < n + 1 ∧ isActive s c) → r.1 c = recs c) := by
  obtain ⟨recs1, h1ne, h1dec, h1claim, heq⟩ := claimCell_eq s fuel n (act n) recs cmap hdx hdy
  rw [hx, hy] at h1claim heq
  change _ = tentativeOf s act n at h1claim
  change _ = (match cmap (tentativeOf s act n).1 (tentativeOf s act n).2 with
    | none => some (recs1, setCell cmap (tentativeOf s act n).1 (tentativeOf s act n).2 (some n))
    | some b => _) at heq
  have hinv1 : ChainInv s act n recs1 cmap none := h.congr (fun c hc => h1ne c (Nat.ne_of_lt hc))
  have hdec1 : ∀ c, SameDecision (recs c) (recs1 c) := by
    intro c
    by_cases hcn : c = n
    · subst hcn; exact h1dec
    · rw [h1ne c hcn]; exact SameDecision.same_refl _
  cases hc : cmap (tentativeOf s act n).1 (tentativeOf s act n).2 with
  | none =>
    rw [hc] at heq
    refine ⟨_, heq, claimCell_free ha hx hy h h1ne h1dec h1claim hc, hdec1, ?_⟩
    intro c hcc
    apply h1ne
    intro e
    subst e
    exact hcc ⟨Nat.lt_succ_self _, ha⟩
  | some b0 =>
    rw [hc] at heq
    obtain ⟨r, r2, hr, hr2, hinv, hdec, hfix⟩ := claimCell_taken fuel b0 hd hn ha hfuel
      (by rw [h1dec.2.1, hx]) (by rw [h1dec.2.2.1, hy]) hinv1 hc
    refine ⟨(r2.1, setCell r2.2 (r.1 n).x (r.1 n).y (some n)), ?_, hinv,
      fun c => (hdec1 c).then_same (hdec c), ?_⟩
    · rw [heq]
      simp only [hr, hr2, Option.some_bind]
    · intro c hcc
      rw [hfix c hcc]
      apply h1ne
      intro e
      subst e
      exact hcc ⟨Nat.lt_succ_self _, ha⟩

/-- The chains change the claims only: every record keeps its decision. -/
theorem chainWhile_decision (recs0 : Nat → actionrecord) (fuel : Nat)
    (recs : Nat → actionrecord) (cmap : Int → Int → Option Nat) (c : Option Nat)
    (r : (Nat → actionrecord) × (Int → Int → Option Nat))
    (h : ∀ b, SameDecision (recs0 b) (recs b)) (hr : chainWhile fuel recs cmap c = some r) :
    ∀ b, SameDecision (recs0 b) (r.1 b) :=
  chainWhile_induct (fun recs _ _ => ∀ b, SameDecision (recs0 b) (recs b))
    (fun recs cmap b hp c => (hp c).then_same (revertStep_sameDecision recs cmap b c))
    fuel recs cmap c r h hr

/-- The body of pass 1 after the choice of the action changes the claims only. -/
theorem claimCell_decision (s : State) (fuel a : Nat) (act : action) (recs : Nat → actionrecord)
    (cmap : Int → Int → Option Nat) (r : (Nat → actionrecord) × (Int → Int → Option Nat))
    (hr : claimCell s fuel a act recs cmap = some r) : ∀ b, SameDecision (recs b) (r.1 b) := by
  unfold claimCell at hr
  simp only at hr
  have hdec1 : ∀ b, SameDecision (recs b)
      ((if isPassable (s.room (actionModCoords s act (recs a).x (recs a).y).1
          (actionModCoords s act (recs a).x (recs a).y).2) = true then
        setAt recs a { recs a with
          dx := (actionModCoords s act (recs a).x (recs a).y).1
          dy := (actionModCoords s act (recs a).x (recs a).y).2 }
      else recs) b) := by
    intro b
    split_ifs
    · by_cases hba : b = a
      · subst hba
        rw [setAt_same]
        exact ⟨rfl, rfl, rfl, rfl, rfl, rfl⟩
      · rw [setAt_ne _ _ _ _ hba]
        exact SameDecision.same_refl _
    · exact SameDecision.same_refl _
  split at hr
  · simp only [Option.some.injEq] at hr
    subst hr
    exact hdec1
  · obtain ⟨r1, hr1, hr⟩ := Option.bind_eq_some.mp hr
    obtain ⟨r2, hr2, hr⟩ := Option.bind_eq_some.mp hr
    simp only [Option.some.injEq] at hr
    subst hr
    rw [chainDoWhile_eq] at hr1
    have h1 := chainWhile_decision recs fuel _ _ _ r1 hdec1 hr1
    refine chainWhile_decision recs fuel _ _ _ r2 ?_ hr2
    intro b
    by_cases hba : b = a
    · subst hba
      rw [setAt_same]
      exact (h1 b).then_same ⟨rfl, rfl, rfl, rfl, rfl, rfl⟩
    · rw [setAt_ne _ _ _ _ hba]
      exact h1 b

theorem getQEntry_eq_some {s : State} {a : Nat} {q : Nat × Option Nat}
    (h : getQEntry s a = some q) :
    isActive s a ∧ (s.agents a).health ≤ MAX_HEALTH ∧
      q.1 = qOffset 0 (s.agents a).x.toNat (s.agents a).y.toNat ((s.agents a).health - 1).toNat
        (perception s (s.agents a).x (s.agents a).y) ∧
      q.2 = (if s.useDoubleQ then
        some (qOffset 1 (s.agents a).x.toNat (s.agents a).y.toNat
          ((s.agents a).health - 1).toNat (perception s (s.agents a).x (s.agents a).y))
        else none) := by
  unfold getQEntry at h
  simp only at h
  by_cases hc : (s.agents a).health > 0 ∧ (s.agents a).health ≤ MAX_HEALTH ∧
      isInRoom s (s.agents a).x (s.agents a).y = true
  · rw [if_pos hc] at h
    simp only [Option.some.injEq] at h
    subst h
    exact ⟨⟨hc.2.2, hc.1⟩, hc.2.1, rfl, rfl⟩
  · rw [if_neg hc] at h
    simp at h

theorem getQEntry_isSome {s : State} {a : Nat} (ha : isActive s a)
    (hh : (s.agents a).health ≤ MAX_HEALTH) : ∃ q, getQEntry s a = some q := by
  unfold getQEntry
  simp only
  rw [if_pos ⟨ha.2, hh, ha.1⟩]
  exact ⟨_, rfl⟩

theorem chooseAction_eq_some {s : State} {a rng : Nat} {c : action × Nat × Option Nat × Nat}
    (h : chooseAction s a rng = some c) : getQEntry s a = some (c.2.1, c.2.2.1) := by
  unfold chooseAction at h
  obtain ⟨q, hq, h⟩ := Option.bind_eq_some.mp h
  rw [hq]
  split_ifs at h <;> simp only [Option.some.injEq] at h <;> subst h <;> rfl

theorem chooseAction_isSome {s : State} {a : Nat} (rng : Nat) {q : Nat × Option Nat}
    (h : getQEntry s a = some q) : ∃ c, chooseAction s a rng = some c := by
  unfold chooseAction
  rw [h]
  simp only [Option.some_bind]
  split_ifs <;> exact ⟨_, rfl⟩

/-- The body of pass 1 for an active agent, in terms of the choice and the claim. -/
theorem pass1Body_active {s : State} {fuel n : Nat} {p : Pass1} (ha : isActive s n) :
    ∃ recs2 : Nat → actionrecord,
      (∀ b, b ≠ n → recs2 b = p.actionRecords b) ∧
      (∀ c, chooseAction s n p.globalRNG = some c →
        recs2 n = ⟨true, (s.agents n).x, (s.agents n).y, (s.agents n).x, (s.agents n).y,
          c.1, c.2.1, c.2.2.1⟩) ∧
      pass1Body s fuel n p =
        (chooseAction s n p.globalRNG).bind fun c =>
          (claimCell s fuel n c.1 recs2 p.collisionMap).bind fun r =>
            some { actionRecords := r.1, collisionMap := r.2, someAgentsAreEscaping := true,
                   globalRNG := c.2.2.2 } := by
  cases hc : chooseAction s n p.globalRNG with
  | none =>
    refine ⟨p.actionRecords, fun _ _ => rfl, fun c h => by simp at h, ?_⟩
    unfold pass1Body
    simp only [ha.1, ha.2, and_self, if_true, hc, Option.none_bind]
  | some c =>
    refine ⟨setAt p.actionRecords n ⟨true, (s.agents n).x, (s.agents n).y, (s.agents n).x,
      (s.agents n).y, c.1, c.2.1, c.2.2.1⟩, fun b hb => setAt_ne _ _ _ _ hb, ?_, ?_⟩
    · intro c' hc'
      simp only [Option.some.injEq] at hc'
      subst hc'
      exact setAt_same _ _ _
    · unfold pass1Body
      simp only [ha.1, ha.2, and_self, if_true, hc, Option.some_bind, setAt_same]
      congr 2
      funext b
      by_cases hb : b = n
      · subst hb
        simp
      · simp [hb]

/-- The body of pass 1 for an agent that does not take part in the turn. -/
theorem pass1Body_inactive {s : State} {fuel n : Nat} {p : Pass1} (ha : ¬ isActive s n) :
    pass1Body s fuel n p =
      some { p with
        actionRecords := setAt p.actionRecords n
          ⟨(p.actionRecords n).isEscaping, (s.agents n).x, (s.agents n).y, (s.agents n).x,
            (s.agents n).y, (p.actionRecords n).action, (p.actionRecords n).q0,
            (p.actionRecords n).q1⟩ } := by
  unfold pass1Body
  have : ¬ (isInRoom s (s.agents n).x (s.agents n).y = true ∧ (s.agents n).health > 0) := ha
  simp only [this, if_false]

theorem Pass1Basic.basic_init (s : State) : Pass1Basic s 0 (pass1Init s) :=
  ⟨fun _ => by simp [pass1Init, actionrecord.zero], fun _ h => absurd h (Nat.not_lt_zero _),
    fun _ h => absurd h (Nat.not_lt_zero _), by simp [pass1Init]⟩

/-- The body of pass 1 extends the basic facts to the agent `n`. -/
theorem Pass1Basic.basic_step {s : State} {fuel n : Nat} {p p' : Pass1} (h : Pass1Basic s n p)
    (hb : pass1Body s fuel n p = some p') : Pass1Basic s (n + 1) p' := by
  by_cases ha : isActive s n
  · obtain ⟨recs2, h2ne, h2n, heq⟩ := @pass1Body_active s fuel n p ha
    rw [heq] at hb
    obtain ⟨c, hc, hb⟩ := Option.bind_eq_some.mp hb
    obtain ⟨r, hr, hb⟩ := Option.bind_eq_some.mp hb
    simp only [Option.some.injEq] at hb
    subst hb
    have hdec := claimCell_decision s fuel n c.1 recs2 p.collisionMap r hr
    have h2 := h2n c hc
    refine ⟨?_, ?_, ?_, ?_⟩
    · intro b
      simp only
      rw [(hdec b).1]
      by_cases hbn : b = n
      · subst hbn
        rw [h2]
        simp [ha]
      · rw [h2ne b hbn, h.escaping b]
        have e : decide (b < n + 1) = decide (b < n) :=
          decide_eq_decide.mpr
            ⟨fun h1 => Nat.lt_of_le_of_ne (Nat.le_of_lt_succ h1) hbn, Nat.lt_succ_of_lt⟩
        rw [e]
    · intro b hb
      simp only
      rw [(hdec b).2.1, (hdec b).2.2.1]
      rcases Nat.lt_succ_iff_lt_or_eq.mp hb with hlt | rfl
      · rw [h2ne b (Nat.ne_of_lt hlt)]
        exact h.coords b hlt
      · rw [h2]
        exact ⟨rfl, rfl⟩
    · intro b hb hba
      simp only
      rw [(hdec b).2.2.2.2.1, (hdec b).2.2.2.2.2]
      rcases Nat.lt_succ_iff_lt_or_eq.mp hb with hlt | rfl
      · rw [h2ne b (Nat.ne_of_lt hlt)]
        exact h.entry b hlt hba
      · rw [h2]
        exact chooseAction_eq_some hc
    · simp only [true_iff]
      exact ⟨n, Nat.lt_succ_self _, ha⟩
  · rw [pass1Body_inactive ha] at hb
    simp only [Option.some.injEq] at hb
    subst hb
    refine ⟨?_, ?_, ?_, ?_⟩
    · intro b
      simp only
      by_cases hbn : b = n
      · subst hbn
        rw [setAt_same]
        simp only
        rw [h.escaping b]
        simp [ha]
      · rw [setAt_ne _ _ _ _ hbn, h.escaping b]
        have e : decide (b < n + 1) = decide (b < n) :=
          decide_eq_decide.mpr
            ⟨fun h1 => Nat.lt_of_le_of_ne (Nat.le_of_lt_succ h1) hbn, Nat.lt_succ_of_lt⟩
        rw [e]
    · intro b hb
      simp only
      rcases Nat.lt_succ_iff_lt_or_eq.mp hb with hlt | rfl
      · rw [setAt_ne _ _ _ _ (Nat.ne_of_lt hlt)]
        exact h.coords b hlt
      · rw [setAt_same]
        exact ⟨rfl, rfl⟩
    · intro b hb hba
      simp only
      rcases Nat.lt_succ_iff_lt_or_eq.mp hb with hlt | rfl
      · rw [setAt_ne _ _ _ _ (Nat.ne_of_lt hlt)]
        exact h.entry b hlt hba
      · exact absurd hba ha
    · simp only
      rw [h.flag]
      constructor
      · rintro ⟨b, hb, hba⟩
        exact ⟨b, Nat.lt_succ_of_lt hb, hba⟩
      · rintro ⟨b, hb, hba⟩
        rcases Nat.lt_succ_iff_lt_or_eq.mp hb with hlt | rfl
        · exact ⟨b, hlt, hba⟩
        · exact absurd hba ha

/-- The basic facts hold of the records that pass 1 returns. -/
theorem pass1_basic {s : State} {fuel : Nat} {p : Pass1} (h : pass1 s fuel = some p) :
    Pass1Basic s s.numAgents p :=
  forLoopM_induct (pass1Body s fuel) (fun n p => Pass1Basic s n p) s.numAgents (pass1Init s)
    (Pass1Basic.basic_init s) (fun _ _ _ _ hp hb => hp.basic_step hb) s.numAgents (Nat.le_refl _) p h

/-- An agent that does not take part in the turn leaves the claims alone. -/
theorem ChainInv.skip {s : State} {act : Nat → action} {n : Nat}
    {recs recs1 : Nat → actionrecord} {cmap : Int → Int → Option Nat}
    (h : ChainInv s act n recs cmap none) (ha : ¬ isActive s n)
    (he : ∀ c, c < n → recs1 c = recs c) : ChainInv s act (n + 1) recs1 cmap none := by
  have hlt : ∀ b, b < n + 1 → isActive s b → b < n := by
    intro b hb hba
    rcases Nat.lt_succ_iff_lt_or_eq.mp hb with hlt | rfl
    · exact hlt
    · exact absurd hba ha
  have h1 := h.congr he
  refine ⟨?_, ?_, ?_, ?_, ?_, ?_, ?_, ?_⟩
  · intro b hb hba; exact h1.start b (hlt b hb hba) hba
  · intro b hb hba; exact h1.claim b (hlt b hb hba) hba
  · intro b hb hba hp; exact h1.held b (hlt b hb hba) hba hp
  · intro x y b hxy
    obtain ⟨h2, h3, h4⟩ := h1.valid x y b hxy
    exact ⟨Nat.lt_succ_of_lt h2, h3, h4⟩
  · intro b hb hba; exact h1.marked b (hlt b hb hba) hba
  · intro a b ha' hb haa hba hab ht
    exact h1.unique a b (hlt a ha' haa) (hlt b hb hba) haa hba hab ht
  · intro b hb hba hne; exact h1.sound b (hlt b hb hba) hba hne
  · intro b hb
    simp at hb

theorem Pass1Claims.claims_init (s : State) : Pass1Claims s 0 (pass1Init s) := by
  intro act _
  refine ⟨?_, ?_, ?_, ?_, ?_, ?_, ?_, ?_⟩ <;> intros <;>
    first
      | exact absurd ‹_ < 0› (Nat.not_lt_zero _)
      | simp [pass1Init] at *

/-- The body of pass 1 for the agent `n`: it returns when the health of the agent passes the
assertion of `getQEntry`, and what it returns satisfies the invariant of the claims. -/
theorem Pass1Claims.claims_step {s : State} {fuel n : Nat} {p : Pass1} (hd : ActiveDistinct s)
    (hn : n < s.numAgents) (hfuel : n < fuel) (hc : Pass1Claims s n p) :
    ((isActive s n → (s.agents n).health ≤ MAX_HEALTH) → ∃ p', pass1Body s fuel n p = some p') ∧
    (∀ p', pass1Body s fuel n p = some p' → Pass1Claims s (n + 1) p') := by
  by_cases ha : isActive s n
  · obtain ⟨recs2, h2ne, h2n, heq⟩ := @pass1Body_active s fuel n p ha
    -- the claim of the agent, for any actions that agree with the records
    have key : ∀ (c : action × Nat × Option Nat × Nat) (act : Nat → action),
        chooseAction s n p.globalRNG = some c → act n = c.1 →
        (∀ b, b < n → isActive s b → act b = (p.actionRecords b).action) →
        ∃ r, claimCell s fuel n c.1 recs2 p.collisionMap = some r ∧
          ChainInv s act (n + 1) r.1 r.2 none := by
      intro c act hch hactn hact
      have h2 := h2n c hch
      have hinv : ChainInv s act n recs2 p.collisionMap none :=
        (hc act hact).congr (fun b hb => h2ne b (Nat.ne_of_lt hb))
      obtain ⟨r, hr, hinv', _⟩ := claimCell_inv fuel hd hn ha hfuel
        (by rw [h2]) (by rw [h2]) (by rw [h2]) (by rw [h2]) hinv
      rw [hactn] at hr
      exact ⟨r, hr, hinv'⟩
    constructor
    · intro hh
      obtain ⟨q, hq⟩ := getQEntry_isSome ha (hh ha)
      obtain ⟨c, hch⟩ := chooseAction_isSome p.globalRNG hq
      obtain ⟨r, hr, _⟩ := key c (fun b => if b = n then c.1 else (p.actionRecords b).action)
        hch (by simp) (fun b hb _ => by simp [Nat.ne_of_lt hb])
      exact ⟨_, by rw [heq, hch, Option.some_bind, hr, Option.some_bind]⟩
    · intro p' hp'
      rw [heq] at hp'
      obtain ⟨c, hch, hp'⟩ := Option.bind_eq_some.mp hp'
      obtain ⟨r, hr, hp'⟩ := Option.bind_eq_some.mp hp'
      simp only [Option.some.injEq] at hp'
      subst hp'
      intro act hact
      simp only at hact ⊢
      have hdec := claimCell_decision s fuel n c.1 recs2 p.collisionMap r hr
      have h2 := h2n c hch
      obtain ⟨r', hr', hinv⟩ := key c act hch
        (by rw [hact n (Nat.lt_succ_self _) ha, (hdec n).2.2.2.1, h2])
        (fun b hb hba => by
          rw [hact b (Nat.lt_succ_of_lt hb) hba, (hdec b).2.2.2.1, h2ne b (Nat.ne_of_lt hb)])
      rw [hr] at hr'
      simp only [Option.some.injEq] at hr'
      subst hr'
      exact hinv
  · rw [pass1Body_inactive ha]
    refine ⟨fun _ => ⟨_, rfl⟩, ?_⟩
    intro p' hp'
    simp only [Option.some.injEq] at hp'
    subst hp'
    intro act hact
    simp only at hact ⊢
    refine (hc act ?_).skip ha (fun c hc => setAt_ne _ _ _ _ (Nat.ne_of_lt hc))
    intro b hb hba
    rw [hact b (Nat.lt_succ_of_lt hb) hba, setAt_ne _ _ _ _ (Nat.ne_of_lt hb)]

/-- Pass 1 returns when the health of every active agent passes the assertion of `getQEntry`,
the active agents stand on distinct cells and the fuel is at least the number of agents. -/
theorem pass1_total {s : State} {fuel : Nat} (hd : ActiveDistinct s) (hfuel : s.numAgents ≤ fuel)
    (hh : ∀ b, b < s.numAgents → isActive s b → (s.agents b).health ≤ MAX_HEALTH) :
    ∃ p, pass1 s fuel = some p := by
  obtain ⟨p, hp, _⟩ := forLoopM_total (pass1Body s fuel) (fun n p => Pass1Claims s n p)
    s.numAgents (pass1Init s) (Pass1Claims.claims_init s)
    (fun n p hn hc => by
      obtain ⟨h1, h2⟩ := Pass1Claims.claims_step hd hn (Nat.lt_of_lt_of_le hn hfuel) hc
      obtain ⟨p', hp'⟩ := h1 (hh n hn)
      exact ⟨p', hp', h2 p' hp'⟩)
    s.numAgents (Nat.le_refl _)
  exact ⟨p, hp⟩

/-- The invariant of the claims holds of what pass 1 returns. -/
theorem pass1_claims {s : State} {fuel : Nat} {p : Pass1} (hd : ActiveDistinct s)
    (hfuel : s.numAgents ≤ fuel) (h : pass1 s fuel = some p) :
    ChainInv s (fun b => (p.actionRecords b).action) s.numAgents p.actionRecords
      p.collisionMap none :=
  forLoopM_induct (pass1Body s fuel) (fun n p => Pass1Claims s n p) s.numAgents (pass1Init s)
    (Pass1Claims.claims_init s)
    (fun _ _ st2 hn hc hb =>
      (Pass1Claims.claims_step hd hn (Nat.lt_of_lt_of_le hn hfuel) hc).2 st2 hb)
    s.numAgents (Nat.le_refl _) p h _ (fun _ _ _ => rfl)

theorem SameConfig.config_refl (s : State) : SameConfig s s := rfl

theorem SameConfig.config_trans {s1 s2 s3 : State} (h1 : SameConfig s1 s2) (h2 : SameConfig s2 s3) :
    SameConfig s1 s3 := by
  unfold SameConfig at *
  rw [h2, h1]

theorem SameConfig.fields {s st : State} (h : SameConfig s st) :
    st.roomWidth = s.roomWidth ∧ st.roomHeight = s.roomHeight ∧ st.numAgents = s.numAgents ∧
    st.backupRoom = s.backupRoom ∧ st.backupAgents = s.backupAgents ∧
    st.currEpoch = s.currEpoch ∧ st.currTurn = s.currTurn ∧ st.maxSteps = s.maxSteps ∧
    st.alpha = s.alpha ∧ st.gamma = s.gamma ∧ st.epsilon = s.epsilon ∧
    st.optimism = s.optimism ∧ st.escapeReward = s.escapeReward ∧
    st.deathPunishment = s.deathPunishment ∧ st.idlePunishment = s.idlePunishment ∧
    st.useDoubleQ = s.useDoubleQ ∧ st.useEpsilon = s.useEpsilon := by
  unfold SameConfig at h
  rw [h]
  exact ⟨rfl, rfl, rfl, rfl, rfl, rfl, rfl, rfl, rfl, rfl, rfl, rfl, rfl, rfl, rfl, rfl, rfl⟩

theorem SameConfig.isInRoom {s st : State} (h : SameConfig s st) (x y : Int) :
    isInRoom st x y = isInRoom s x y := by
  unfold EscapeRoom.isInRoom
  rw [h.fields.1, h.fields.2.1]

theorem pass2Body_config (recs : Nat → actionrecord) (a : Nat) (s st : State)
    (h : pass2Body recs a s = some st) :
    SameConfig s st ∧ st.qTable = s.qTable ∧ st.totalReward = s.totalReward ∧
      st.globalRNG = s.globalRNG := by
  simp only [pass2Body] at h
  split_ifs at h <;> simp only [Option.some.injEq] at h <;> subst h <;>
    exact ⟨by unfold SameConfig; rfl, rfl, rfl, rfl⟩

theorem Pass2Inv.act_init (s : State) (recs : Nat → actionrecord) : Pass2Inv s recs 0 s :=
  ⟨SameConfig.config_refl s, ⟨rfl, rfl, rfl⟩, fun _ h => absurd h (Nat.not_lt_zero _), fun _ _ => rfl,
    fun _ _ => Or.inl rfl⟩

/-- Pass 2 never turns a passable cell into an impassable one. -/
theorem Pass2Inv.passable {s st : State} {recs : Nat → actionrecord} {n : Nat}
    (h : Pass2Inv s recs n st) (x y : Int) (hp : isPassable (s.room x y) = true) :
    isPassable (st.room x y) = true := by
  rcases h.room x y with e | ⟨e, _⟩ | ⟨e, _⟩
  · rw [e]; exact hp
  · rw [e] at hp; exact absurd hp (by decide)
  · rw [e] at hp; exact absurd hp (by decide)

/-- The body of pass 2 for the agent `n`, whose record holds the cell it started on. -/
theorem Pass2Inv.act_step {s st st' : State} {recs : Nat → actionrecord} {n : Nat}
    (h : Pass2Inv s recs n st)
    (hxy : (recs n).isEscaping = true →
      (recs n).x = (s.agents n).x ∧ (recs n).y = (s.agents n).y)
    (hb : pass2Body recs n st = some st') : Pass2Inv s recs (n + 1) st' := by
  have hn : st.agents n = s.agents n := h.rest n (fun hh => Nat.lt_irrefl n hh.1)
  have hcfg := pass2Body_config recs n st st' hb
  have hlt : ∀ b, b < n + 1 → b ≠ n → b < n := fun b hb hne =>
    Nat.lt_of_le_of_ne (Nat.le_of_lt_succ hb) hne
  simp only [pass2Body] at hb
  by_cases he : (recs n).isEscaping = true
  · simp only [he, if_true] at hb
    obtain ⟨hx, hy⟩ := hxy he
    by_cases hstay : (recs n).action ≠ .STAY ∧ (recs n).x = (recs n).dx ∧
        (recs n).y = (recs n).dy
    · rw [if_pos hstay] at hb
      have hag : st'.agents = st.agents := by
        split_ifs at hb <;> simp only [Option.some.injEq] at hb <;> subst hb <;> rfl
      refine ⟨h.config.config_trans hcfg.1, ?_, ?_, ?_, ?_⟩
      · exact ⟨hcfg.2.1.trans h.table.1, hcfg.2.2.1.trans h.table.2.1,
          hcfg.2.2.2.trans h.table.2.2⟩
      · intro b hb' hbe
        rw [hag]
        by_cases hbn : b = n
        · subst hbn
          rw [hn, ← hstay.2.1, ← hstay.2.2, hx, hy]
        · exact h.moved b (hlt b hb' hbn) hbe
      · intro b hb'
        rw [hag]
        exact h.rest b (fun hh => hb' ⟨Nat.lt_succ_of_lt hh.1, hh.2⟩)
      · intro x y
        split_ifs at hb with hg hdoor <;> simp only [Option.some.injEq] at hb <;> subst hb
        · simp only [setCell_apply]
          split_ifs with hcell
          · rw [hcell.1, hcell.2]
            rcases h.room _ _ with e | ⟨_, e⟩ | ⟨_, e⟩
            · exact Or.inr (Or.inl ⟨e ▸ hg, rfl⟩)
            · rw [e] at hg; exact absurd hg (by decide)
            · rw [e] at hg; exact absurd hg (by decide)
          · exact h.room x y
        · simp only [setCell_apply]
          split_ifs with hcell
          · rw [hcell.1, hcell.2]
            rcases h.room _ _ with e | ⟨_, e⟩ | ⟨_, e⟩
            · exact Or.inr (Or.inr ⟨e ▸ hdoor, rfl⟩)
            · rw [e] at hdoor; exact absurd hdoor (by decide)
            · rw [e] at hdoor; exact absurd hdoor (by decide)
          · exact h.room x y
        · exact h.room x y
    · rw [if_neg hstay] at hb
      split_ifs at hb with hpass
      simp only [Option.some.injEq] at hb
      subst hb
      refine ⟨h.config.config_trans hcfg.1, ?_, ?_, ?_, ?_⟩
      · exact ⟨h.table.1, h.table.2.1, h.table.2.2⟩
      · intro b hb' hbe
        simp only
        by_cases hbn : b = n
        · subst hbn
          rw [setAt_same, hn]
        · rw [setAt_ne _ _ _ _ hbn]
          exact h.moved b (hlt b hb' hbn) hbe
      · intro b hb'
        simp only
        have hbn : b ≠ n := by
          intro e
          subst e
          exact hb' ⟨Nat.lt_succ_self _, he⟩
        rw [setAt_ne _ _ _ _ hbn]
        exact h.rest b (fun hh => hb' ⟨Nat.lt_succ_of_lt hh.1, hh.2⟩)
      · exact h.room
  · simp only [he, Bool.false_eq_true, if_false, Option.some.injEq] at hb
    subst hb
    refine ⟨h.config, h.table, ?_, ?_, h.room⟩
    · intro b hb' hbe
      have hbn : b ≠ n := by
        intro e
        subst e
        exact he hbe
      exact h.moved b (hlt b hb' hbn) hbe
    · intro b hb'
      by_cases hbn : b = n
      · subst hbn
        exact hn
      · exact h.rest b (fun hh => hb' ⟨Nat.lt_succ_of_lt hh.1, hh.2⟩)

/-- What pass 2 returns, for records that hold the start cells of the active agents. -/
theorem pass2_inv {s s2 : State} {recs : Nat → actionrecord}
    (hxy : ∀ b, b < s.numAgents → (recs b).isEscaping = true →
      (recs b).x = (s.agents b).x ∧ (recs b).y = (s.agents b).y)
    (h : pass2 recs s = some s2) : Pass2Inv s recs s.numAgents s2 :=
  forLoopM_induct (pass2Body recs) (fun n st => Pass2Inv s recs n st) s.numAgents s
    (Pass2Inv.act_init s recs) (fun n _ _ hn hp hb => hp.act_step (hxy n hn) hb)
    s.numAgents (Nat.le_refl _) s2 h

/-- Pass 2 returns when every active agent that stays where it is by choice, or moves, claims
a passable cell. -/
theorem pass2_total {s : State} {recs : Nat → actionrecord}
    (hxy : ∀ b, b < s.numAgents → (recs b).isEscaping = true →
      (recs b).x = (s.agents b).x ∧ (recs b).y = (s.agents b).y)
    (hp : ∀ b, b < s.numAgents → (recs b).isEscaping = true →
      ¬ ((recs b).action ≠ .STAY ∧ (recs b).x = (recs b).dx ∧ (recs b).y = (recs b).dy) →
      isPassable (s.room (recs b).dx (recs b).dy) = true) :
    ∃ s2, pass2 recs s = some s2 := by
  obtain ⟨s2, h2, _⟩ := forLoopM_total (pass2Body recs) (fun n st => Pass2Inv s recs n st)
    s.numAgents s (Pass2Inv.act_init s recs)
    (fun n st hn hinv => by
      have hsome : ∃ st', pass2Body recs n st = some st' := by
        simp only [pass2Body]
        by_cases he : (recs n).isEscaping = true
        · simp only [he, if_true]
          by_cases hstay : (recs n).action ≠ .STAY ∧ (recs n).x = (recs n).dx ∧
              (recs n).y = (recs n).dy
          · rw [if_pos hstay]
            split_ifs <;> exact ⟨_, rfl⟩
          · rw [if_neg hstay, if_pos (hinv.passable _ _ (hp n hn he hstay))]
            exact ⟨_, rfl⟩
        · simp only [he, Bool.false_eq_true, if_false]
          exact ⟨_, rfl⟩
      obtain ⟨st', hst'⟩ := hsome
      exact ⟨st', hst', hinv.act_step (hxy n hn) hst'⟩)
    s.numAgents (Nat.le_refl _)
  exact ⟨s2, h2⟩

theorem InConflict.active {s : State} {act : Nat → action} {a : Nat} (h : InConflict s act a) :
    a < s.numAgents ∧ isActive s a := by
  cases h with
  | same _ b ha _ haa _ _ _ => exact ⟨ha, haa⟩
  | chain _ b ha haa _ _ _ => exact ⟨ha, haa⟩

/-- Under the invariant with no agent pending, the agents of the conflicting set claim their
start cell. -/
theorem ChainInv.complete {s : State} {act : Nat → action} {recs : Nat → actionrecord}
    {cmap : Int → Int → Option Nat} (h : ChainInv s act s.numAgents recs cmap none) {a : Nat}
    (ha : InConflict s act a) : ((recs a).dx, (recs a).dy) = startOf s a := by
  induction ha with
  | same a b ha hb haa hba hab ht => exact h.unique a b ha hb haa hba hab ht
  | chain a b ha haa hb hab ht ih =>
    rcases h.claim a ha haa with hcl | hcl
    · exfalso
      apply hab
      have h1 := h.held a ha haa (by simp)
      have h2 := h.held b hb.active.1 hb.active.2 (by simp)
      have e1 : (recs a).dx = (recs b).dx :=
        (congrArg Prod.fst (hcl.trans (ht.trans ih.symm)))
      have e2 : (recs a).dy = (recs b).dy :=
        (congrArg Prod.snd (hcl.trans (ht.trans ih.symm)))
      rw [e1, e2, h2] at h1
      exact (Option.some.inj h1).symm
    · exact hcl

/-- Under the invariant with no agent pending, the claims of the active agents are pairwise
distinct. -/
theorem ChainInv.distinct {s : State} {act : Nat → action} {n : Nat}
    {recs : Nat → actionrecord} {cmap : Int → Int → Option Nat}
    (h : ChainInv s act n recs cmap none) {a b : Nat} (ha : a < n) (hb : b < n)
    (haa : isActive s a) (hba : isActive s b) (hx : (recs a).dx = (recs b).dx)
    (hy : (recs a).dy = (recs b).dy) : a = b := by
  have h1 := h.held a ha haa (by simp)
  have h2 := h.held b hb hba (by simp)
  rw [hx, hy, h2] at h1
  exact (Option.some.inj h1).symm

theorem tentative_passable (s : State) (act : action) (x y : Int)
    (h : isPassable (s.room x y) = true) :
    isPassable (s.room (tentative s act x y).1 (tentative s act x y).2) = true := by
  unfold tentative
  split_ifs with hp
  · exact hp
  · exact h

/-- C2. Destination uniqueness. In a state whose active agents stand on pairwise distinct cells
(with fuel for as many chain steps as there are agents), pass 1 returns whenever the health of
the active agents passes the assertion of `getQEntry`; whatever actions the agents picked, the
claims `(dx, dy)` of the active agents at the end of pass 1 are pairwise distinct, and so are
the cells on which the active agents stand after pass 2. -/
theorem claims_pairwise_distinct (s : State) (fuel : Nat) (hd : ActiveDistinct s)
    (hfuel : s.numAgents ≤ fuel) :
    ((∀ b, b < s.numAgents → isActive s b → (s.agents b).health ≤ MAX_HEALTH) →
      ∃ p, pass1 s fuel = some p) ∧
    ∀ p, pass1 s fuel = some p →
      (∀ a b, a < s.numAgents → b < s.numAgents → isActive s a → isActive s b →
        (p.actionRecords a).dx = (p.actionRecords b).dx →
        (p.actionRecords a).dy = (p.actionRecords b).dy → a = b) ∧
      ∀ s2, pass2 p.actionRecords { s with globalRNG := p.globalRNG } = some s2 →
        ∀ a b, a < s.numAgents → b < s.numAgents → isActive s a → isActive s b →
          (s2.agents a).x = (s2.agents b).x → (s2.agents a).y = (s2.agents b).y → a = b := by
  refine ⟨pass1_total hd hfuel, fun p hp => ?_⟩
  have hinv := pass1_claims hd hfuel hp
  have hbasic := pass1_basic hp
  refine ⟨fun a b ha hb haa hba => hinv.distinct ha hb haa hba, ?_⟩
  intro s2 hs2 a b ha hb haa hba hx hy
  have h2 := pass2_inv (s := { s with globalRNG := p.globalRNG })
    (fun b hb _ => hbasic.coords b hb) hs2
  have hesc : ∀ c, c < s.numAgents → isActive s c → (p.actionRecords c).isEscaping = true := by
    intro c hc hca
    rw [hbasic.escaping c]
    simp [hc, hca]
  rw [h2.moved a ha (hesc a ha haa), h2.moved b hb (hesc b hb hba)] at hx hy
  exact hinv.distinct ha hb haa hba hx hy

/-- C2 at `rowState`, with fuel 4. -/
theorem claims_pairwise_distinct_witness :
    ActiveDistinct rowState ∧ rowState.numAgents ≤ 4 ∧
    (((∀ b, b < rowState.numAgents → isActive rowState b →
        (rowState.agents b).health ≤ MAX_HEALTH) → ∃ p, pass1 rowState 4 = some p) ∧
    ∀ p, pass1 rowState 4 = some p →
      (∀ a b, a < rowState.numAgents → b < rowState.numAgents → isActive rowState a →
        isActive rowState b → (p.actionRecords a).dx = (p.actionRecords b).dx →
        (p.actionRecords a).dy = (p.actionRecords b).dy → a = b) ∧
      ∀ s2, pass2 p.actionRecords { rowState with globalRNG := p.globalRNG } = some s2 →
        ∀ a b, a < rowState.numAgents → b < rowState.numAgents → isActive rowState a →
          isActive rowState b → (s2.agents a).x = (s2.agents b).x →
          (s2.agents a).y = (s2.agents b).y → a = b) :=
  ⟨by decide, by decide, claims_pairwise_distinct rowState 4 (by decide) (by decide)⟩

/-- C3. Chain resolution. In a state whose active agents stand on pairwise distinct cells (with
fuel for as many chain steps as there are agents), pass 1 returns whenever the health of the
active agents passes the assertion of `getQEntry`; whatever actions the agents picked, at the
end of pass 1 an active agent claims its start cell if it is in the connected conflicting set
of those actions, and its tentative destination if it is not. -/
theorem chain_resolution (s : State) (fuel : Nat) (hd : ActiveDistinct s)
    (hfuel : s.numAgents ≤ fuel) :
    ((∀ b, b < s.numAgents → isActive s b → (s.agents b).health ≤ MAX_HEALTH) →
      ∃ p, pass1 s fuel = some p) ∧
    ∀ p, pass1 s fuel = some p → ∀ a, a < s.numAgents → isActive s a →
      (InConflict s (fun b => (p.actionRecords b).action) a →
        ((p.actionRecords a).dx, (p.actionRecords a).dy) = startOf s a) ∧
      (¬ InConflict s (fun b => (p.actionRecords b).action) a →
        ((p.actionRecords a).dx, (p.actionRecords a).dy) =
          tentativeOf s (fun b => (p.actionRecords b).action) a) := by
  refine ⟨pass1_total hd hfuel, fun p hp a ha haa => ?_⟩
  have hinv := pass1_claims hd hfuel hp
  refine ⟨fun hc => hinv.complete hc, fun hc => ?_⟩
  by_contra hne
  exact hc (hinv.sound a ha haa hne)

/-- C3 at `rowState`, with fuel 4: the agent on `(2,0)` is blocked by the room edge, the agent
on `(1,0)` contests its cell and the agent on `(0,0)` wants the cell of that one, so the three
claim their start cells, while the agent on `(0,1)` claims `(1,1)`. -/
theorem chain_resolution_witness :
    (pass1 rowState 4).map (fun p => (List.range 4).map fun i =>
      ((p.actionRecords i).dx, (p.actionRecords i).dy)) =
        some [(0, 0), (1, 0), (2, 0), (1, 1)] ∧
    ActiveDistinct rowState ∧ rowState.numAgents ≤ 4 ∧
    (((∀ b, b < rowState.numAgents → isActive rowState b →
        (rowState.agents b).health ≤ MAX_HEALTH) → ∃ p, pass1 rowState 4 = some p) ∧
    ∀ p, pass1 rowState 4 = some p → ∀ a, a < rowState.numAgents → isActive rowState a →
      (InConflict rowState (fun b => (p.actionRecords b).action) a →
        ((p.actionRecords a).dx, (p.actionRecords a).dy) = startOf rowState a) ∧
      (¬ InConflict rowState (fun b => (p.actionRecords b).action) a →
        ((p.actionRecords a).dx, (p.actionRecords a).dy) =
          tentativeOf rowState (fun b => (p.actionRecords b).action) a)) :=
  ⟨by decide!, by decide, by decide, chain_resolution rowState 4 (by decide) (by decide)⟩

/-- The transition of pass 3 for the agent `a`: what it leaves alone. -/
theorem transition_frame (a : Nat) (s : State) :
    SameConfig s (transition a s).2.2 ∧
    (transition a s).2.2.qTable = s.qTable ∧
    (transition a s).2.2.globalRNG = s.globalRNG ∧
    (transition a s).2.2.totalReward = s.totalReward + (transition a s).1 ∧
    (∀ b, b ≠ a → (transition a s).2.2.agents b = s.agents b) ∧
    (∀ x y, (transition a s).2.2.room x y = s.room x y ∨
      (s.room x y = BANDAGE ∧ (transition a s).2.2.room x y = FLOOR)) := by
  simp only [transition]
  split_ifs with h1 h2 h3 h4 h5
  · exact ⟨by unfold SameConfig; rfl, rfl, rfl, rfl, fun b hb => setAt_ne _ _ _ _ hb,
      fun _ _ => Or.inl rfl⟩
  · exact ⟨by unfold SameConfig; rfl, rfl, rfl, rfl, fun b hb => setAt_ne _ _ _ _ hb,
      fun _ _ => Or.inl rfl⟩
  · exact ⟨by unfold SameConfig; rfl, rfl, rfl, rfl, fun b hb => setAt_ne _ _ _ _ hb,
      fun _ _ => Or.inl rfl⟩
  · refine ⟨by unfold SameConfig; rfl, rfl, rfl, rfl, fun b hb => setAt_ne _ _ _ _ hb, ?_⟩
    intro x y
    simp only [setCell_apply]
    split_ifs with hc
    · rw [hc.1, hc.2]; exact Or.inr ⟨h4, rfl⟩
    · exact Or.inl rfl
  · refine ⟨by unfold SameConfig; rfl, rfl, rfl, rfl, fun _ _ => rfl, ?_⟩
    intro x y
    simp only [setCell_apply]
    split_ifs with hc
    · rw [hc.1, hc.2]; exact Or.inr ⟨h4, rfl⟩
    · exact Or.inl rfl
  · exact ⟨by unfold SameConfig; rfl, rfl, rfl, rfl, fun _ _ => rfl, fun _ _ => Or.inl rfl⟩

/-- The transition onto an exit cell. -/
theorem transition_exit (a : Nat) (s : State)
    (h : s.room (s.agents a).x (s.agents a).y = EXIT) :
    (transition a s).1 = s.escapeReward ∧ (transition a s).2.1 = true ∧
    (transition a s).2.2.agents a = ⟨ESCAPED, ESCAPED, (s.agents a).health⟩ := by
  simp only [transition, h, if_true, setAt_same, and_self]

/-- The transition onto broken glass. -/
theorem transition_shards (a : Nat) (s : State)
    (h : s.room (s.agents a).x (s.agents a).y = SHARDS) :
    (transition a s).2.2.agents a =
      ⟨(s.agents a).x, (s.agents a).y, (s.agents a).health - 1⟩ ∧
    ((s.agents a).health - 1 = 0 →
      (transition a s).1 = s.deathPunishment ∧ (transition a s).2.1 = true) ∧
    ((s.agents a).health - 1 ≠ 0 →
      (transition a s).1 = s.idlePunishment ∧ (transition a s).2.1 = false) := by
  have hne : ¬ (SHARDS = EXIT) := by decide
  simp only [transition, h, hne, if_true, if_false, setAt_same]
  by_cases hz : (s.agents a).health - 1 = 0
  · simp [hz]
  · simp [hz]

/-- The position of the agent after a transition that is not terminal, and the bounds on its
health. -/
theorem transition_alive (a : Nat) (s : State) (hh : 0 < (s.agents a).health)
    (hm : (s.agents a).health ≤ MAX_HEALTH) (ht : (transition a s).2.1 = false) :
    ((transition a s).2.2.agents a).x = (s.agents a).x ∧
    ((transition a s).2.2.agents a).y = (s.agents a).y ∧
    0 < ((transition a s).2.2.agents a).health ∧
    ((transition a s).2.2.agents a).health ≤ MAX_HEALTH := by
  simp only [transition] at ht ⊢
  unfold MAX_HEALTH at *
  split_ifs at ht ⊢ with h1 h2 h3 h4 h5 <;> simp only [setAt_same] at * <;>
    refine ⟨trivial, trivial, ?_, ?_⟩ <;> omega

theorem learnSingle_frame {recs : Nat → actionrecord} {a : Nat} {reward : ℚ} {term : Bool}
    {s st : State} (h : learnSingle recs a reward term s = some st) :
    SameConfig s st ∧ st.agents = s.agents ∧ st.room = s.room ∧
      st.totalReward = s.totalReward ∧ st.globalRNG = s.globalRNG := by
  simp only [learnSingle] at h
  obtain ⟨q, _, h⟩ := Option.map_eq_some'.mp h
  subst h
  exact ⟨by unfold SameConfig; rfl, rfl, rfl, rfl, rfl⟩

theorem learnDouble_frame {recs : Nat → actionrecord} {a : Nat} {reward : ℚ} {term : Bool}
    {s st : State} (h : learnDouble recs a reward term s = some st) :
    SameConfig s st ∧ st.agents = s.agents ∧ st.room = s.room ∧
      st.totalReward = s.totalReward ∧ st.globalRNG = (randf s.globalRNG).2 := by
  simp only [learnDouble] at h
  obtain ⟨n, _, h⟩ := Option.bind_eq_some.mp h
  split_ifs at h
  · simp only [Option.some.injEq] at h
    subst h
    exact ⟨by unfold SameConfig; rfl, rfl, rfl, rfl, rfl⟩
  · obtain ⟨q, _, h⟩ := Option.map_eq_some'.mp h
    subst h
    exact ⟨by unfold SameConfig; rfl, rfl, rfl, rfl, rfl⟩

/-- The body of pass 3 for the agent `a`: what it leaves alone, and what the transition of an
active agent leaves behind. -/
theorem pass3Body_frame {recs : Nat → actionrecord} {a : Nat} {s st : State}
    (h : pass3Body recs a s = some st) :
    SameConfig s st ∧ (∀ b, b ≠ a → st.agents b = s.agents b) ∧
    (∀ x y, st.room x y = s.room x y ∨ (s.room x y = BANDAGE ∧ st.room x y = FLOOR)) ∧
    ((recs a).isEscaping = false → st = s) ∧
    ((recs a).isEscaping = true →
      st.agents = (transition a s).2.2.agents ∧ st.room = (transition a s).2.2.room ∧
      st.totalReward = s.totalReward + (transition a s).1) := by
  simp only [pass3Body] at h
  by_cases he : (recs a).isEscaping = true
  · simp only [he, if_true] at h
    obtain ⟨hc, hq, hr, ht, hag, hroom⟩ := transition_frame a s
    have key : SameConfig (transition a s).2.2 st ∧ st.agents = (transition a s).2.2.agents ∧
        st.room = (transition a s).2.2.room ∧
        st.totalReward = (transition a s).2.2.totalReward := by
      split_ifs at h
      · have := learnDouble_frame h
        exact ⟨this.1, this.2.1, this.2.2.1, this.2.2.2.1⟩
      · have := learnSingle_frame h
        exact ⟨this.1, this.2.1, this.2.2.1, this.2.2.2.1⟩
    refine ⟨hc.config_trans key.1, ?_, ?_, fun hf => by simp [he] at hf, fun _ => ?_⟩
    · intro b hb
      rw [key.2.1]
      exact hag b hb
    · intro x y
      rw [key.2.2.1]
      exact hroom x y
    · exact ⟨key.2.1, key.2.2.1, key.2.2.2.trans ht⟩
  · simp only [he, Bool.false_eq_true, if_false, Option.some.injEq] at h
    subst h
    exact ⟨SameConfig.config_refl _, fun _ _ => rfl, fun _ _ => Or.inl rfl, fun _ => rfl,
      fun hf => absurd hf he⟩

/-- The body of pass 3 returns for an agent that is in the room with a health that passes the
assertion of `getQEntry`, provided the record holds a pointer into the second table when
double learning is on. -/
theorem pass3Body_isSome {recs : Nat → actionrecord} {a : Nat} {s : State}
    (hr : isInRoom s (s.agents a).x (s.agents a).y = true) (hh : 0 < (s.agents a).health)
    (hm : (s.agents a).health ≤ MAX_HEALTH)
    (hq : s.useDoubleQ = true → (recs a).q1 ≠ none) : ∃ st, pass3Body recs a s = some st := by
  simp only [pass3Body]
  by_cases he : (recs a).isEscaping = true
  · simp only [he, if_true]
    obtain ⟨hc, _⟩ := transition_frame a s
    have hentry : (transition a s).2.1 = false →
        ∃ q, getQEntry (transition a s).2.2 a = some q := by
      intro ht
      obtain ⟨hx, hy, h0, h2⟩ := transition_alive a s hh hm ht
      exact getQEntry_isSome ⟨by rw [hc.isInRoom, hx, hy]; exact hr, h0⟩ h2
    by_cases hd : s.useDoubleQ = true
    · rw [if_pos hd]
      obtain ⟨q1, hq1⟩ := Option.ne_none_iff_exists'.mp (hq hd)
      simp only [learnDouble]
      by_cases ht : (transition a s).2.1 = true
      · simp only [ht, if_true, Option.some_bind, hq1, Option.map_some']
        split_ifs <;> exact ⟨_, rfl⟩
      · have ht' : (transition a s).2.1 = false := by simpa using ht
        obtain ⟨q, hqe⟩ := hentry ht'
        have hq2 := (getQEntry_eq_some hqe).2.2.2
        rw [hc.fields.2.2.2.2.2.2.2.2.2.2.2.2.2.2.2.1, hd, if_pos rfl] at hq2
        simp only [ht', Bool.false_eq_true, if_false, hqe, Option.some_bind, hq2,
          Option.map_some', hq1]
        split_ifs <;> exact ⟨_, rfl⟩
    · rw [if_neg hd]
      simp only [learnSingle]
      by_cases ht : (transition a s).2.1 = true
      · simp only [ht, if_true, Option.map_some']
        exact ⟨_, rfl⟩
      · have ht' : (transition a s).2.1 = false := by simpa using ht
        obtain ⟨q, hqe⟩ := hentry ht'
        simp only [ht', Bool.false_eq_true, if_false, hqe, Option.map_some']
        exact ⟨_, rfl⟩
  · simp only [he, Bool.false_eq_true, if_false]
    exact ⟨_, rfl⟩

theorem Pass3Inv.reward_init (s : State) (recs : Nat → actionrecord) : Pass3Inv s recs 0 s :=
  ⟨SameConfig.config_refl s, fun _ _ => rfl, fun _ _ => Or.inl rfl⟩

theorem Pass3Inv.reward_step {s st st' : State} {recs : Nat → actionrecord} {n : Nat}
    (h : Pass3Inv s recs n st) (hb : pass3Body recs n st = some st') :
    Pass3Inv s recs (n + 1) st' := by
  obtain ⟨hc, hag, hroom, hne, _⟩ := pass3Body_frame hb
  refine ⟨h.config.config_trans hc, ?_, ?_⟩
  · intro b hb'
    by_cases hbn : b = n
    · subst hbn
      have he : (recs b).isEscaping = false := by
        cases hx : (recs b).isEscaping
        · rfl
        · exact absurd ⟨Nat.lt_succ_self _, hx⟩ hb'
      rw [hne he]
      exact h.rest b (fun hh => Nat.lt_irrefl b hh.1)
    · rw [hag b hbn]
      exact h.rest b (fun hh => hb' ⟨Nat.lt_succ_of_lt hh.1, hh.2⟩)
  · intro x y
    rcases hroom x y with e | ⟨e1, e2⟩
    · rw [e]; exact h.room x y
    · rcases h.room x y with e' | ⟨_, e'⟩
      · exact Or.inr ⟨e' ▸ e1, e2⟩
      · rw [e'] at e1; exact absurd e1 (by decide)

/-- What pass 3 returns. -/
theorem pass3_inv {s s3 : State} {recs : Nat → actionrecord} (h : pass3 recs s = some s3) :
    Pass3Inv s recs s.numAgents s3 :=
  forLoopM_induct (pass3Body recs) (fun n st => Pass3Inv s recs n st) s.numAgents s
    (Pass3Inv.reward_init s recs) (fun _ _ _ _ hp hb => hp.reward_step hb)
    s.numAgents (Nat.le_refl _) s3 h

/-- Pass 3 returns when every agent that acted is in the room with a health that passes the
assertion of `getQEntry` and, under double learning, with a pointer into the second table. -/
theorem pass3_total {s : State} {recs : Nat → actionrecord}
    (hok : ∀ b, b < s.numAgents → (recs b).isEscaping = true →
      isInRoom s (s.agents b).x (s.agents b).y = true ∧ 0 < (s.agents b).health ∧
      (s.agents b).health ≤ MAX_HEALTH ∧ (s.useDoubleQ = true → (recs b).q1 ≠ none)) :
    ∃ s3, pass3 recs s = some s3 := by
  obtain ⟨s3, h3, _⟩ := forLoopM_total (pass3Body recs) (fun n st => Pass3Inv s recs n st)
    s.numAgents s (Pass3Inv.reward_init s recs)
    (fun n st hn hinv => by
      have hsome : ∃ st', pass3Body recs n st = some st' := by
        by_cases he : (recs n).isEscaping = true
        · obtain ⟨h1, h2, h3, h4⟩ := hok n hn he
          have hag : st.agents n = s.agents n := hinv.rest n (fun hh => Nat.lt_irrefl n hh.1)
          apply pass3Body_isSome
          · rw [hinv.config.isInRoom, hag]; exact h1
          · rw [hag]; exact h2
          · rw [hag]; exact h3
          · rw [hinv.config.fields.2.2.2.2.2.2.2.2.2.2.2.2.2.2.2.1]; exact h4
        · simp only [pass3Body, he, Bool.false_eq_true, if_false]
          exact ⟨_, rfl⟩
      obtain ⟨st', hst'⟩ := hsome
      exact ⟨st', hst', hinv.reward_step hst'⟩)
    s.numAgents (Nat.le_refl _)
  exact ⟨s3, h3⟩

theorem clamp_mem (x lo hi : Int) (h : lo ≤ hi) : lo ≤ clamp x lo hi ∧ clamp x lo hi ≤ hi := by
  unfold clamp
  split_ifs <;> omega

/-- The tentative destination of an agent in the room is in the room. -/
theorem tentative_inRoom (s : State) (act : action) (x y : Int) (h : isInRoom s x y = true) :
    isInRoom s (tentative s act x y).1 (tentative s act x y).2 = true := by
  unfold tentative
  split_ifs
  · simp only [isInRoom, Bool.and_eq_true, decide_eq_true_eq] at h ⊢
    simp only [actionModCoords]
    have h1 := clamp_mem (match act with
      | .LEFT => (x - 1, y)
      | .RIGHT => (x + 1, y)
      | .DOWN => (x, y - 1)
      | .UP => (x, y + 1)
      | .STAY => (x, y)).1 0 (s.roomWidth - 1) (by omega)
    have h2 := clamp_mem (match act with
      | .LEFT => (x - 1, y)
      | .RIGHT => (x + 1, y)
      | .DOWN => (x, y - 1)
      | .UP => (x, y + 1)
      | .STAY => (x, y)).2 0 (s.roomHeight - 1) (by omega)
    omega
  · exact h

theorem backup_fields (s : State) :
    (backup s).roomWidth = s.roomWidth ∧ (backup s).roomHeight = s.roomHeight ∧
    (backup s).room = s.room ∧ (backup s).numAgents = s.numAgents ∧
    (backup s).agents = s.agents ∧ (backup s).qTable = s.qTable ∧
    (backup s).totalReward = s.totalReward ∧ (backup s).globalRNG = s.globalRNG ∧
    (backup s).currEpoch = s.currEpoch ∧ (backup s).currTurn = s.currTurn ∧
    (backup s).maxSteps = s.maxSteps ∧ (backup s).useDoubleQ = s.useDoubleQ := by
  unfold backup
  split_ifs <;> exact ⟨rfl, rfl, rfl, rfl, rfl, rfl, rfl, rfl, rfl, rfl, rfl, rfl⟩

theorem backup_isActive (s : State) (a : Nat) : isActive (backup s) a ↔ isActive s a := by
  unfold backup
  split_ifs <;> exact Iff.rfl

theorem backup_wellFormed (s : State) (h : WellFormed s) : WellFormed (backup s) := by
  unfold backup
  split_ifs
  · exact h
  · exact h

theorem Pass1Basic.escaping_iff {s : State} {n : Nat} {p : Pass1} (h : Pass1Basic s n p)
    (b : Nat) : (p.actionRecords b).isEscaping = true ↔ b < n ∧ isActive s b := by
  rw [h.escaping b]
  simp

/-- The three passes behind a result of `simulatePasses`. -/
theorem simulatePasses_parts {fuel : Nat} {s : State} {r : Bool × State}
    (h : simulatePasses fuel s = some r) :
    ∃ p s2, pass1 (backup s) fuel = some p ∧
      pass2 p.actionRecords { backup s with globalRNG := p.globalRNG } = some s2 ∧
      pass3 p.actionRecords s2 = some r.2 ∧ r.1 = p.someAgentsAreEscaping := by
  unfold simulatePasses at h
  obtain ⟨p, hp, h⟩ := Option.bind_eq_some.mp h
  obtain ⟨s2, h2, h⟩ := Option.bind_eq_some.mp h
  obtain ⟨s3, h3, h⟩ := Option.bind_eq_some.mp h
  simp only [Option.some.injEq] at h
  subst h
  exact ⟨p, s2, hp, h2, h3, rfl⟩

/-- The three passes return on a well-formed state, with fuel for as many chain steps as there
are agents. -/
theorem simulatePasses_total {fuel : Nat} {s : State} (hw : WellFormed s)
    (hfuel : s.numAgents ≤ fuel) : ∃ r, simulatePasses fuel s = some r := by
  have hw0 := backup_wellFormed s hw
  have hn0 : (backup s).numAgents = s.numAgents := (backup_fields s).2.2.2.1
  have hfuel0 : (backup s).numAgents ≤ fuel := le_of_eq_of_le hn0 hfuel
  obtain ⟨p, hp⟩ := pass1_total hw0.1 hfuel0 (fun b hb hba => (hw0.2 b hb hba).1)
  have hbasic := pass1_basic hp
  have hinv := pass1_claims hw0.1 hfuel0 hp
  have hclaim : ∀ b, b < (backup s).numAgents → (p.actionRecords b).isEscaping = true →
      isPassable ((backup s).room (p.actionRecords b).dx (p.actionRecords b).dy) = true ∧
      isInRoom (backup s) (p.actionRecords b).dx (p.actionRecords b).dy = true := by
    intro b hb he
    have hba := ((hbasic.escaping_iff b).mp he).2
    rcases hinv.claim b hb hba with hcl | hcl
    · have e1 : (p.actionRecords b).dx = (tentativeOf (backup s)
          (fun b => (p.actionRecords b).action) b).1 := congrArg Prod.fst hcl
      have e2 : (p.actionRecords b).dy = (tentativeOf (backup s)
          (fun b => (p.actionRecords b).action) b).2 := congrArg Prod.snd hcl
      rw [e1, e2]
      exact ⟨tentative_passable _ _ _ _ (hw0.2 b hb hba).2, tentative_inRoom _ _ _ _ hba.1⟩
    · have e1 : (p.actionRecords b).dx = ((backup s).agents b).x := congrArg Prod.fst hcl
      have e2 : (p.actionRecords b).dy = ((backup s).agents b).y := congrArg Prod.snd hcl
      rw [e1, e2]
      exact ⟨(hw0.2 b hb hba).2, hba.1⟩
  obtain ⟨s2, h2⟩ := pass2_total (s := { backup s with globalRNG := p.globalRNG })
    (fun b hb _ => hbasic.coords b hb) (fun b hb he _ => (hclaim b hb he).1)
  have h2inv := pass2_inv (s := { backup s with globalRNG := p.globalRNG })
    (fun b hb _ => hbasic.coords b hb) h2
  have hn2 : s2.numAgents = (backup s).numAgents := h2inv.config.fields.2.2.1
  obtain ⟨s3, h3⟩ := @pass3_total s2 p.actionRecords (by
    intro b hb he
    rw [hn2] at hb
    have hba := ((hbasic.escaping_iff b).mp he).2
    rw [h2inv.moved b hb he]
    refine ⟨?_, hba.2, (hw0.2 b hb hba).1, ?_⟩
    · rw [h2inv.config.isInRoom]
      exact (hclaim b hb he).2
    · intro hdq
      have hq := (getQEntry_eq_some (hbasic.entry b hb hba)).2.2.2
      rw [h2inv.config.fields.2.2.2.2.2.2.2.2.2.2.2.2.2.2.2.1] at hdq
      simp only at hq hdq
      rw [hdq, if_pos rfl] at hq
      rw [hq]
      simp)
  exact ⟨(p.someAgentsAreEscaping, s3), by
    unfold simulatePasses
    rw [hp, Option.some_bind, h2, Option.some_bind, h3, Option.some_bind]⟩

/-- The call of `simulateTurn` returns on a well-formed state, with fuel for as many chain
steps as there are agents. -/
theorem simulateTurn_total {fuel : Nat} {s : State} (hw : WellFormed s)
    (hfuel : s.numAgents ≤ fuel) : ∃ r, simulateTurn fuel s = some r := by
  obtain ⟨r, hr⟩ := simulatePasses_total hw hfuel
  exact ⟨epochEnd r.1 r.2, by unfold simulateTurn; rw [hr]; rfl⟩

/-- What the three passes leave alone, who they count as active, and whom they skip. -/
theorem simulatePasses_frame {fuel : Nat} {s : State} {r : Bool × State}
    (h : simulatePasses fuel s = some r) :
    SameConfig (backup s) r.2 ∧ (r.1 = true ↔ ∃ b, b < s.numAgents ∧ isActive s b) ∧
    (∀ b, ¬ (b < s.numAgents ∧ isActive s b) → r.2.agents b = s.agents b) := by
  obtain ⟨p, s2, hp, h2, h3, hflag⟩ := simulatePasses_parts h
  have hn0 : (backup s).numAgents = s.numAgents := (backup_fields s).2.2.2.1
  have hbasic := pass1_basic hp
  have h2inv := pass2_inv (s := { backup s with globalRNG := p.globalRNG })
    (fun b hb _ => hbasic.coords b hb) h2
  have h3inv := pass3_inv h3
  have hn2 : s2.numAgents = (backup s).numAgents := h2inv.config.fields.2.2.1
  have hcfg0 : SameConfig (backup s) { backup s with globalRNG := p.globalRNG } := by
    unfold SameConfig; rfl
  refine ⟨hcfg0.config_trans (h2inv.config.config_trans h3inv.config), ?_, ?_⟩
  · rw [hflag, hbasic.flag, hn0]
    constructor
    · rintro ⟨b, hb, hba⟩; exact ⟨b, hb, (backup_isActive s b).mp hba⟩
    · rintro ⟨b, hb, hba⟩; exact ⟨b, hb, (backup_isActive s b).mpr hba⟩
  · intro b hb
    have hne : ¬ (b < (backup s).numAgents ∧ (p.actionRecords b).isEscaping = true) := by
      rintro ⟨hlt, he⟩
      exact hb ⟨hn0 ▸ hlt, (backup_isActive s b).mp ((hbasic.escaping_iff b).mp he).2⟩
    rw [h3inv.rest b (by rw [hn2]; exact hne), h2inv.rest b hne]
    exact congrFun (backup_fields s).2.2.2.2.1 b

theorem midEpochTurn_eq_some {fuel : Nat} {s s' : State} (h : midEpochTurn fuel s = some s') :
    simulateTurn fuel s = some (false, s') := by
  unfold midEpochTurn at h
  obtain ⟨r, hr, h⟩ := Option.bind_eq_some.mp h
  rw [hr]
  obtain ⟨b, st⟩ := r
  cases b
  · simp only [Bool.false_eq_true, if_false, Option.some.injEq] at h
    rw [h]
  · simp at h

/-- The result of `simulateTurn`, in terms of the globals after pass 3. -/
theorem simulateTurn_eq_some {fuel : Nat} {s : State} {r : Bool × State}
    (h : simulateTurn fuel s = some r) :
    ∃ flag s3, simulatePasses fuel s = some (flag, s3) ∧ r = epochEnd flag s3 := by
  unfold simulateTurn at h
  obtain ⟨q, hq, h⟩ := Option.map_eq_some'.mp h
  exact ⟨q.1, q.2, hq, h.symm⟩

/-- The test at the end of `simulateTurn`. -/
theorem epochEnd_fst (flag : Bool) (s : State) :
    ((epochEnd flag s).1 = true ↔ (s.currTurn + 1 ≥ s.maxSteps ∨ flag = false)) := by
  unfold epochEnd
  simp only
  split_ifs with h
  · simp only [true_iff]; exact h
  · simp only [Bool.false_eq_true, false_iff]; exact h

theorem epochEnd_false {flag : Bool} {s : State} (h : (epochEnd flag s).1 = false) :
    (epochEnd flag s).2 = { s with currTurn := s.currTurn + 1 } := by
  unfold epochEnd at h ⊢
  simp only at h ⊢
  split_ifs at h ⊢ with hc
  rfl

theorem epochEnd_true {flag : Bool} {s : State} (h : (epochEnd flag s).1 = true) :
    (epochEnd flag s).2.room = s.backupRoom ∧ (epochEnd flag s).2.agents = s.backupAgents ∧
    (epochEnd flag s).2.currTurn = 0 ∧ (epochEnd flag s).2.totalReward = 0 ∧
    (epochEnd flag s).2.currEpoch = wrapInt (s.currEpoch + 1) := by
  unfold epochEnd at h ⊢
  simp only at h ⊢
  split_ifs at h ⊢ with hc
  exact ⟨rfl, rfl, rfl, rfl, rfl⟩

/-- A result between `INT_MIN` and `INT_MAX` is held as it is. -/
theorem wrapInt_of_range {x : Int} (h1 : -2147483648 ≤ x) (h2 : x ≤ 2147483647) :
    wrapInt x = x := by
  unfold wrapInt
  omega

/-- The value that holds a result is between `INT_MIN` and `INT_MAX`. -/
theorem wrapInt_range (x : Int) : -2147483648 ≤ wrapInt x ∧ wrapInt x ≤ 2147483647 := by
  unfold wrapInt
  omega

/-- The step counter after `simulateTurn` is below `maxSteps` or 0. -/
theorem epochEnd_currTurn (flag : Bool) (s : State) :
    (epochEnd flag s).2.currTurn = 0 ∨ (epochEnd flag s).2.currTurn < s.maxSteps := by
  unfold epochEnd
  simp only
  split_ifs with hc
  · exact Or.inl rfl
  · right
    simp only [not_or, not_le] at hc
    exact hc.1

/-- C4, as the code has it. On a well-formed state (with fuel for as many chain steps as there
are agents) `simulateTurn` returns, and it returns `TRUE` exactly when the incremented step
counter has reached `maxSteps` or no agent was active when the turn started. -/
theorem epoch_end_condition (s : State) (fuel : Nat) (hw : WellFormed s)
    (hfuel : s.numAgents ≤ fuel) :
    ∃ r, simulateTurn fuel s = some r ∧
      (r.1 = true ↔ (s.currTurn + 1 ≥ s.maxSteps ∨ ¬ ∃ b, b < s.numAgents ∧ isActive s b)) := by
  obtain ⟨r, hr⟩ := simulateTurn_total hw hfuel
  refine ⟨r, hr, ?_⟩
  obtain ⟨flag, s3, hp, he⟩ := simulateTurn_eq_some hr
  obtain ⟨hcfg, hflag, _⟩ := simulatePasses_frame hp
  have hb := backup_fields s
  rw [he, epochEnd_fst, hcfg.fields.2.2.2.2.2.2.1, hcfg.fields.2.2.2.2.2.2.2.1,
    hb.2.2.2.2.2.2.2.2.2.1, hb.2.2.2.2.2.2.2.2.2.2.1]
  simp only at hflag
  rw [← hflag]
  simp

/-- C4 at `exitState`, with fuel 1. -/
theorem epoch_end_condition_witness :
    WellFormed exitState ∧ exitState.numAgents ≤ 1 ∧
    ∃ r, simulateTurn 1 exitState = some r ∧
      (r.1 = true ↔ (exitState.currTurn + 1 ≥ exitState.maxSteps ∨
        ¬ ∃ b, b < exitState.numAgents ∧ isActive exitState b)) :=
  ⟨by decide, by decide, epoch_end_condition exitState 1 (by decide) (by decide)⟩

/-- C4 as stated fails at `exitState`: the only agent steps onto the exit and escapes, so no
agent remains active after the transitions and the incremented counter (1) is below `maxSteps`
(200), yet `simulateTurn` returns `FALSE`. -/
theorem epoch_end_counterexample :
    (simulateTurn 1 exitState).map (fun r =>
      (r.1, r.2.agents 0, decide (r.2.currTurn ≥ r.2.maxSteps),
        decide (∃ b, b < r.2.numAgents ∧ isActive r.2 b))) =
      some (false, ⟨ESCAPED, ESCAPED, 2⟩, false, false) := by
  decide!

/-- A call of `simulateTurn` that returns `FALSE`: the step counter is incremented, the epoch
counter and the snapshot taken at the top of the call stay. -/
theorem simulateTurn_false {fuel : Nat} {s s' : State} (h : simulateTurn fuel s = some (false, s')) :
    s'.currTurn = s.currTurn + 1 ∧ s'.currEpoch = s.currEpoch ∧
    s'.backupRoom = (backup s).backupRoom ∧ s'.backupAgents = (backup s).backupAgents := by
  obtain ⟨flag, s3, hp, he⟩ := simulateTurn_eq_some h
  obtain ⟨hcfg, _, _⟩ := simulatePasses_frame hp
  have h1 : (epochEnd flag s3).1 = false := by rw [← he]
  have h2 : s' = (epochEnd flag s3).2 := by rw [← he]
  rw [epochEnd_false h1] at h2
  subst h2
  have hb := backup_fields s
  refine ⟨?_, ?_, ?_, ?_⟩
  · simp only; rw [hcfg.fields.2.2.2.2.2.2.1, hb.2.2.2.2.2.2.2.2.2.1]
  · simp only; rw [hcfg.fields.2.2.2.2.2.1, hb.2.2.2.2.2.2.2.2.1]
  · simp only; rw [hcfg.fields.2.2.2.1]
  · simp only; rw [hcfg.fields.2.2.2.2.1]

/-- A call of `simulateTurn` that returns `TRUE` restores the snapshot taken at the top of the
epoch and resets the counters. -/
theorem simulateTurn_true {fuel : Nat} {s s' : State} (h : simulateTurn fuel s = some (true, s')) :
    s'.room = (backup s).backupRoom ∧ s'.agents = (backup s).backupAgents ∧
    s'.currTurn = 0 ∧ s'.totalReward = 0 ∧ s'.currEpoch = wrapInt (s.currEpoch + 1) := by
  obtain ⟨flag, s3, hp, he⟩ := simulateTurn_eq_some h
  obtain ⟨hcfg, _, _⟩ := simulatePasses_frame hp
  have h1 : (epochEnd flag s3).1 = true := by rw [← he]
  have h2 : s' = (epochEnd flag s3).2 := by rw [← he]
  obtain ⟨e1, e2, e3, e4, e5⟩ := epochEnd_true h1
  rw [h2, e1, e2, e3, e4, e5, hcfg.fields.2.2.2.1, hcfg.fields.2.2.2.2.1,
    hcfg.fields.2.2.2.2.2.1, (backup_fields s).2.2.2.2.2.2.2.2.1]
  exact ⟨rfl, rfl, rfl, rfl, rfl⟩

/-- The snapshot that the next call works with, after any number of calls that returned
`FALSE` since a call that started with `currTurn = 0`. -/
theorem midEpochTurns_backup {fuel : Nat} {s : State} (h0 : s.currTurn = 0) :
    ∀ n s1, midEpochTurns fuel n s = some s1 →
      (backup s1).backupRoom = s.room ∧ (backup s1).backupAgents = s.agents ∧
      s1.currEpoch = s.currEpoch ∧ s1.currTurn = n := by
  intro n
  induction n with
  | zero =>
    intro s1 h
    simp only [midEpochTurns, Option.some.injEq] at h
    subst h
    unfold backup
    simp [h0]
  | succ n ih =>
    intro s1 h
    simp only [midEpochTurns] at h
    obtain ⟨s0, hs0, h⟩ := Option.bind_eq_some.mp h
    obtain ⟨i1, i2, i3, i4⟩ := ih s0 hs0
    obtain ⟨j1, j2, j3, j4⟩ := simulateTurn_false (midEpochTurn_eq_some h)
    have hne : ¬ (s1.currTurn = 0) := by rw [j1, i4]; omega
    refine ⟨?_, ?_, j2.trans i3, by rw [j1, i4]; simp⟩
    · unfold backup
      rw [if_neg hne, j3, i1]
    · unfold backup
      rw [if_neg hne, j4, i2]

/-- C5, amended. Epoch restore. If `simulateTurn` is called `n + 1` times from a state with
`currTurn = 0`, the first `n` calls return `FALSE` and the last call returns `TRUE`, then
afterwards the room and the agent list are those of the initial state, `currTurn` and
`totalReward` are 0, and `currEpoch` is the value of type `int` that holds the old value plus
1: it has increased by 1 when the old value, an `int`, is below `INT_MAX`. -/
theorem epoch_restore (s s1 s2 : State) (fuel n : Nat) (h0 : s.currTurn = 0)
    (hmid : midEpochTurns fuel n s = some s1) (hend : simulateTurn fuel s1 = some (true, s2)) :
    s2.room = s.room ∧ s2.agents = s.agents ∧ s2.currTurn = 0 ∧ s2.totalReward = 0 ∧
      s2.currEpoch = wrapInt (s.currEpoch + 1) ∧
      (-2147483648 ≤ s.currEpoch → s.currEpoch < 2147483647 →
        s2.currEpoch = s.currEpoch + 1) := by
  obtain ⟨i1, i2, i3, _⟩ := midEpochTurns_backup h0 n s1 hmid
  obtain ⟨e1, e2, e3, e4, e5⟩ := simulateTurn_true hend
  refine ⟨e1.trans i1, e2.trans i2, e3, e4, by rw [e5, i3], fun h1 h2 => ?_⟩
  rw [e5, i3]
  exact wrapInt_of_range (by omega) (by omega)

/-- C5 at `exitState`, with fuel 1: the first call returns `FALSE` (the agent escapes), the
second call returns `TRUE`. -/
theorem epoch_restore_witness :
    exitState.currTurn = 0 ∧ ∃ s1 s2, midEpochTurns 1 1 exitState = some s1 ∧
      simulateTurn 1 s1 = some (true, s2) ∧ (s1.agents 0).x = ESCAPED ∧
      s2.room = exitState.room ∧ s2.agents = exitState.agents ∧ s2.currTurn = 0 ∧
      s2.totalReward = 0 ∧ s2.currEpoch = wrapInt (exitState.currEpoch + 1) ∧
      (-2147483648 ≤ exitState.currEpoch → exitState.currEpoch < 2147483647 →
        s2.currEpoch = exitState.currEpoch + 1) := by
  have h1 : ((midEpochTurns 1 1 exitState).map fun s1 =>
      ((s1.agents 0).x, (simulateTurn 1 s1).map fun r => r.1)) = some (ESCAPED, some true) := by
    decide!
  obtain ⟨s1, hs1, h1⟩ := Option.map_eq_some'.mp h1
  simp only [Prod.mk.injEq] at h1
  obtain ⟨r, hr, hr1⟩ := Option.map_eq_some'.mp h1.2
  obtain ⟨b, s2⟩ := r
  simp only at hr1
  subst hr1
  exact ⟨rfl, s1, s2, hs1, hr, h1.1, epoch_restore exitState s1 s2 1 1 rfl hs1 hr⟩

/-- C5 as stated fails at `lastEpochState`, where `currEpoch` is `INT_MAX`: the first call
returns `FALSE` (the agent escapes), the second call returns `TRUE`, and the increment of the
epoch counter overflows: the counter is then `INT_MIN`, not the old value plus 1. -/
theorem epoch_restore_counterexample :
    lastEpochState.currTurn = 0 ∧
    ((midEpochTurns 1 1 lastEpochState).bind fun s1 =>
      (simulateTurn 1 s1).map fun r =>
        (r.1, r.2.currEpoch, decide (r.2.currEpoch = lastEpochState.currEpoch + 1))) =
      some (true, -2147483648, false) := by
  decide!

/-- A loop that returns after `n` iterations returns after any smaller number of them. -/
theorem forLoopM_prefix {σ : Type} (body : Nat → σ → Option σ) (st : σ) :
    ∀ n r, forLoopM body n st = some r → ∀ k, k ≤ n → ∃ rk, forLoopM body k st = some rk := by
  intro n
  induction n with
  | zero =>
    intro r h k hk
    exact ⟨r, by rw [Nat.le_zero.mp hk]; exact h⟩
  | succ n ih =>
    intro r h k hk
    rcases Nat.lt_succ_iff_lt_or_eq.mp (Nat.lt_succ_of_le hk) with hlt | rfl
    · rw [forLoopM_succ] at h
      obtain ⟨st1, h1, _⟩ := Option.bind_eq_some.mp h
      exact ih st1 h1 k (Nat.le_of_lt_succ hlt)
    · exact ⟨r, h⟩

/-- Induction over a loop, with the result of the earlier iterations at hand. -/
theorem forLoopM_induct_from {σ : Type} (body : Nat → σ → Option σ) (P : Nat → σ → Prop)
    (N : Nat) (st : σ) (h0 : P 0 st)
    (hstep : ∀ n st1 st2, n < N → forLoopM body n st = some st1 → P n st1 →
      body n st1 = some st2 → P (n + 1) st2) :
    ∀ n, n ≤ N → ∀ r, forLoopM body n st = some r → P n r := by
  intro n
  induction n with
  | zero =>
    intro _ r hr
    simp only [forLoopM, Option.some.injEq] at hr
    exact hr ▸ h0
  | succ n ih =>
    intro hn r hr
    rw [forLoopM_succ] at hr
    obtain ⟨st1, h1, h2⟩ := Option.bind_eq_some.mp hr
    exact hstep n st1 r (Nat.lt_of_succ_le hn) h1 (ih (Nat.le_of_succ_le hn) st1 h1) h2

/-- The iteration of pass 3 for the agent `a`: the globals `st` before it are those after
pass 2 as far as the agent and the cells other than bandages are concerned, and the entry of
the agent after it is the one that pass 3 returns. -/
theorem pass3_at {recs : Nat → actionrecord} {s2 s3 : State} {a : Nat}
    (h : pass3 recs s2 = some s3) (ha : a < s2.numAgents) :
    ∃ st st', forLoopM (pass3Body recs) a s2 = some st ∧ pass3Body recs a st = some st' ∧
      Pass3Inv s2 recs a st ∧ s3.agents a = st'.agents a := by
  obtain ⟨st', hst'⟩ := forLoopM_prefix (pass3Body recs) s2 s2.numAgents s3 h (a + 1) ha
  have hst'' := hst'
  rw [forLoopM_succ] at hst''
  obtain ⟨st, hst, hbody⟩ := Option.bind_eq_some.mp hst''
  have hinv : Pass3Inv s2 recs a st :=
    forLoopM_induct (pass3Body recs) (fun n st => Pass3Inv s2 recs n st) s2.numAgents s2
      (Pass3Inv.reward_init s2 recs) (fun _ _ _ _ hp hb => hp.reward_step hb)
      a (Nat.le_of_lt ha) st hst
  refine ⟨st, st', hst, hbody, hinv, ?_⟩
  have key := forLoopM_induct_from (pass3Body recs)
    (fun n r => a < n → r.agents a = st'.agents a) s2.numAgents s2
    (fun hlt => absurd hlt (Nat.not_lt_zero _))
    (fun n st1 st2 _ hpre hP hb hlt => by
      rcases Nat.lt_succ_iff_lt_or_eq.mp hlt with hlt' | rfl
      · rw [(pass3Body_frame hb).2.1 a (Nat.ne_of_lt hlt'), hP hlt']
      · rw [forLoopM_succ, hpre, Option.some_bind, hb] at hst'
        rw [Option.some.inj hst'])
    s2.numAgents (Nat.le_refl _) s3 h
  exact key ha

theorem isActive_congr {s s' : State} {a : Nat} (hw : s'.roomWidth = s.roomWidth)
    (hh : s'.roomHeight = s.roomHeight) (ha : s'.agents a = s.agents a) :
    isActive s' a ↔ isActive s a := by
  unfold isActive isInRoom
  rw [hw, hh, ha]

/-- A turn passes over an agent that is not active. -/
theorem skipped_of_inactive {fuel a : Nat} {s : State} (h : ¬ isActive s a) :
    Skipped fuel a s := by
  refine ⟨h, ?_, ?_⟩
  · intro p hp
    have hb := pass1_basic hp
    cases he : (p.actionRecords a).isEscaping
    · rfl
    · exact absurd ((backup_isActive s a).mp ((hb.escaping_iff a).mp he).2) h
  · intro r hr
    obtain ⟨_, hflag, hrest⟩ := simulatePasses_frame hr
    refine ⟨hrest a (fun hh => h hh.2), ?_⟩
    rw [hflag]
    constructor
    · rintro ⟨b, hb, hba⟩
      refine ⟨b, hb, ?_, hba⟩
      intro e
      subst e
      exact h hba
    · rintro ⟨b, hb, _, hba⟩
      exact ⟨b, hb, hba⟩

/-- An agent that is not active has the same entry of the agent list, and is not active,
after any number of calls that returned `FALSE`. -/
theorem inactive_stays {fuel a : Nat} {s : State} (h : ¬ isActive s a) :
    ∀ k s', midEpochTurns fuel k s = some s' → s'.agents a = s.agents a ∧ ¬ isActive s' a := by
  intro k
  induction k with
  | zero =>
    intro s' hs'
    simp only [midEpochTurns, Option.some.injEq] at hs'
    subst hs'
    exact ⟨rfl, h⟩
  | succ k ih =>
    intro s' hs'
    simp only [midEpochTurns] at hs'
    obtain ⟨s0, hs0, hs'⟩ := Option.bind_eq_some.mp hs'
    obtain ⟨i1, i2⟩ := ih s0 hs0
    have hturn := midEpochTurn_eq_some hs'
    obtain ⟨flag, s3, hp, he⟩ := simulateTurn_eq_some hturn
    obtain ⟨hcfg, _, hrest⟩ := simulatePasses_frame hp
    have h1 : (epochEnd flag s3).1 = false := by rw [← he]
    have h2 : s' = (epochEnd flag s3).2 := by rw [← he]
    rw [epochEnd_false h1] at h2
    have hag : s'.agents a = s0.agents a := by
      rw [h2]
      exact hrest a (fun hh => i2 hh.2)
    refine ⟨hag.trans i1, ?_⟩
    rw [isActive_congr (s := s0) ?_ ?_ hag]
    · exact i2
    · rw [h2]; simp only; rw [hcfg.fields.1, (backup_fields s0).1]
    · rw [h2]; simp only; rw [hcfg.fields.2.1, (backup_fields s0).2.1]

/-- On a well-formed state the three passes of `simulateTurn` return; the globals after pass 2
hold every active agent on the cell it claims, with the health it had. -/
theorem simulateTurn_passes {fuel : Nat} {s : State} (hw : WellFormed s)
    (hfuel : s.numAgents ≤ fuel) :
    ∃ p s2 s3, pass1 (backup s) fuel = some p ∧
      pass2 p.actionRecords { backup s with globalRNG := p.globalRNG } = some s2 ∧
      pass3 p.actionRecords s2 = some s3 ∧
      simulateTurn fuel s = some (epochEnd p.someAgentsAreEscaping s3) ∧
      SameConfig (backup s) s2 ∧ SameConfig s2 s3 ∧
      ∀ a, a < s.numAgents → isActive s a →
        (p.actionRecords a).isEscaping = true ∧
        s2.agents a = ⟨(p.actionRecords a).dx, (p.actionRecords a).dy, (s.agents a).health⟩ := by
  obtain ⟨r, hr⟩ := simulatePasses_total hw hfuel
  obtain ⟨p, s2, hp, h2, h3, hflag⟩ := simulatePasses_parts hr
  have hn0 : (backup s).numAgents = s.numAgents := (backup_fields s).2.2.2.1
  have hbasic := pass1_basic hp
  have h2inv := pass2_inv (s := { backup s with globalRNG := p.globalRNG })
    (fun b hb _ => hbasic.coords b hb) h2
  have hcfg0 : SameConfig (backup s) { backup s with globalRNG := p.globalRNG } := by
    unfold SameConfig; rfl
  refine ⟨p, s2, r.2, hp, h2, h3, ?_, hcfg0.config_trans h2inv.config, (pass3_inv h3).config, ?_⟩
  · unfold simulateTurn
    rw [hr, ← hflag]
    rfl
  · intro a ha haa
    have he : (p.actionRecords a).isEscaping = true :=
      (hbasic.escaping_iff a).mpr ⟨hn0 ▸ ha, (backup_isActive s a).mpr haa⟩
    refine ⟨he, ?_⟩
    rw [h2inv.moved a (hn0 ▸ ha) he]
    simp only
    rw [(backup_fields s).2.2.2.2.1]

theorem isInRoom_escaped (s : State) (h : s.roomWidth ≤ 9 ∧ s.roomHeight ≤ 9) :
    isInRoom s ESCAPED ESCAPED = false := by
  unfold isInRoom ESCAPED
  have : ¬ ((777 : Int) < s.roomWidth) := by omega
  simp [this]

/-- C6. Exit is terminal. On a well-formed state of a room of side at most 9 (with fuel for as
many chain steps as there are agents) the passes of `simulateTurn` return; if the cell of an
active agent after pass 2 is an exit, the iteration of pass 3 for that agent adds exactly
`escapeReward` to `totalReward`, and pass 3 leaves the agent at the sentinel `(777, 777)`,
which `isInRoom` rejects, with its health unchanged. If the call returns `FALSE`, then after
any number of further calls that return `FALSE` the entry of the agent is still the same and
the next call passes the agent over: it is not selected, it does not count towards
`someAgentsAreEscaping`, and the three passes leave its position and health unchanged. -/
theorem exit_is_terminal (s : State) (fuel a : Nat) (hw : WellFormed s)
    (hfuel : s.numAgents ≤ fuel) (hside : s.roomWidth ≤ 9 ∧ s.roomHeight ≤ 9)
    (ha : a < s.numAgents) (hact : isActive s a) :
    ∃ p s2 s3, pass1 (backup s) fuel = some p ∧
      pass2 p.actionRecords { backup s with globalRNG := p.globalRNG } = some s2 ∧
      pass3 p.actionRecords s2 = some s3 ∧
      simulateTurn fuel s = some (epochEnd p.someAgentsAreEscaping s3) ∧
      (s2.room (s2.agents a).x (s2.agents a).y = EXIT →
        (∃ st st', forLoopM (pass3Body p.actionRecords) a s2 = some st ∧
          pass3Body p.actionRecords a st = some st' ∧
          st'.totalReward = st.totalReward + s.escapeReward) ∧
        s3.agents a = ⟨ESCAPED, ESCAPED, (s.agents a).health⟩ ∧
        isInRoom s3 ESCAPED ESCAPED = false ∧
        ((epochEnd p.someAgentsAreEscaping s3).1 = false →
          ∀ k s', midEpochTurns fuel k (epochEnd p.someAgentsAreEscaping s3).2 = some s' →
            s'.agents a = ⟨ESCAPED, ESCAPED, (s.agents a).health⟩ ∧ Skipped fuel a s')) := by
  obtain ⟨p, s2, s3, hp, h2, h3, hturn, hc2, hc3, hmoved⟩ := simulateTurn_passes hw hfuel
  refine ⟨p, s2, s3, hp, h2, h3, hturn, fun hexit => ?_⟩
  obtain ⟨he, hag2⟩ := hmoved a ha hact
  have ha2 : a < s2.numAgents := by
    rw [hc2.fields.2.2.1, (backup_fields s).2.2.2.1]; exact ha
  obtain ⟨st, st', hst, hbody, hinv, hfin⟩ := pass3_at h3 ha2
  have hsta : st.agents a = s2.agents a := hinv.rest a (fun hh => Nat.lt_irrefl a hh.1)
  have hcell : st.room (st.agents a).x (st.agents a).y = EXIT := by
    rw [hsta]
    rcases hinv.room (s2.agents a).x (s2.agents a).y with e | ⟨e, _⟩
    · rw [e]; exact hexit
    · rw [hexit] at e; exact absurd e (by decide)
  obtain ⟨_, _, _, _, hesc⟩ := pass3Body_frame hbody
  obtain ⟨f1, f2, f3⟩ := hesc he
  obtain ⟨t1, _, t3⟩ := transition_exit a st hcell
  have hrew : st.escapeReward = s.escapeReward := by
    rw [hinv.config.fields.2.2.2.2.2.2.2.2.2.2.2.2.1, hc2.fields.2.2.2.2.2.2.2.2.2.2.2.2.1]
    unfold backup
    split_ifs <;> rfl
  have hs3a : s3.agents a = ⟨ESCAPED, ESCAPED, (s.agents a).health⟩ := by
    rw [hfin, f1, t3, hsta, hag2]
  have hw3 : s3.roomWidth = s.roomWidth := by
    rw [hc3.fields.1, hc2.fields.1, (backup_fields s).1]
  have hh3 : s3.roomHeight = s.roomHeight := by
    rw [hc3.fields.2.1, hc2.fields.2.1, (backup_fields s).2.1]
  refine ⟨⟨st, st', hst, hbody, by rw [f3, t1, hrew]⟩, hs3a,
    isInRoom_escaped s3 (by rw [hw3, hh3]; exact hside), ?_⟩
  intro hfalse k s' hk
  have hnext : (epochEnd p.someAgentsAreEscaping s3).2.agents a =
      ⟨ESCAPED, ESCAPED, (s.agents a).health⟩ := by
    rw [epochEnd_false hfalse]
    exact hs3a
  have hinact : ¬ isActive (epochEnd p.someAgentsAreEscaping s3).2 a := by
    intro hh
    have hr := hh.1
    rw [hnext] at hr
    simp only at hr
    have hoff := isInRoom_escaped (epochEnd p.someAgentsAreEscaping s3).2 (by
      rw [epochEnd_false hfalse]
      simp only
      rw [hw3, hh3]
      exact hside)
    rw [hoff] at hr
    exact absurd hr (by simp)
  obtain ⟨i1, i2⟩ := inactive_stays hinact k s' hk
  exact ⟨i1.trans hnext, skipped_of_inactive i2⟩

/-- C6 at `exitState`, with fuel 1, for the agent of index 0, which steps onto the exit: the
call returns `FALSE` and leaves the agent at the sentinel with a reward total of 1000. -/
theorem exit_is_terminal_witness :
    (simulateTurn 1 exitState).map (fun r => (r.1, r.2.agents 0, r.2.totalReward)) =
      some (false, ⟨ESCAPED, ESCAPED, 2⟩, 1000) ∧
    WellFormed exitState ∧ exitState.numAgents ≤ 1 ∧
    (exitState.roomWidth ≤ 9 ∧ exitState.roomHeight ≤ 9) ∧ 0 < exitState.numAgents ∧
    isActive exitState 0 ∧
    ∃ p s2 s3, pass1 (backup exitState) 1 = some p ∧
      pass2 p.actionRecords { backup exitState with globalRNG := p.globalRNG } = some s2 ∧
      pass3 p.actionRecords s2 = some s3 ∧
      simulateTurn 1 exitState = some (epochEnd p.someAgentsAreEscaping s3) ∧
      (s2.room (s2.agents 0).x (s2.agents 0).y = EXIT →
        (∃ st st', forLoopM (pass3Body p.actionRecords) 0 s2 = some st ∧
          pass3Body p.actionRecords 0 st = some st' ∧
          st'.totalReward = st.totalReward + exitState.escapeReward) ∧
        s3.agents 0 = ⟨ESCAPED, ESCAPED, (exitState.agents 0).health⟩ ∧
        isInRoom s3 ESCAPED ESCAPED = false ∧
        ((epochEnd p.someAgentsAreEscaping s3).1 = false →
          ∀ k s', midEpochTurns 1 k (epochEnd p.someAgentsAreEscaping s3).2 = some s' →
            s'.agents 0 = ⟨ESCAPED, ESCAPED, (exitState.agents 0).health⟩ ∧ Skipped 1 0 s')) :=
  ⟨by decide!, by decide, by decide, by decide, by decide, by decide,
    exit_is_terminal exitState 1 0 (by decide) (by decide) (by decide) (by decide) (by decide)⟩

/-- C7. Death is terminal. On a well-formed state (with fuel for as many chain steps as there
are agents) the passes of `simulateTurn` return; if the cell of an active agent after pass 2
is broken glass, then for an agent of health 1 the iteration of pass 3 adds exactly
`deathPunishment` to `totalReward` and pass 3 leaves the agent on its cell with health 0, and
if the call returns `FALSE`, then after any number of further calls that return `FALSE` the
entry of the agent is still the same and the next call passes the agent over; for an agent of
health 2 the iteration adds `idlePunishment` and leaves the agent on its cell with health 1. -/
theorem death_is_terminal (s : State) (fuel a : Nat) (hw : WellFormed s)
    (hfuel : s.numAgents ≤ fuel) (ha : a < s.numAgents) (hact : isActive s a) :
    ∃ p s2 s3, pass1 (backup s) fuel = some p ∧
      pass2 p.actionRecords { backup s with globalRNG := p.globalRNG } = some s2 ∧
      pass3 p.actionRecords s2 = some s3 ∧
      simulateTurn fuel s = some (epochEnd p.someAgentsAreEscaping s3) ∧
      (s2.room (s2.agents a).x (s2.agents a).y = SHARDS →
        ∃ st st', forLoopM (pass3Body p.actionRecords) a s2 = some st ∧
          pass3Body p.actionRecords a st = some st' ∧
          ((s.agents a).health = 1 →
            st'.totalReward = st.totalReward + s.deathPunishment ∧
            s3.agents a = ⟨(s2.agents a).x, (s2.agents a).y, 0⟩ ∧
            ((epochEnd p.someAgentsAreEscaping s3).1 = false →
              ∀ k s', midEpochTurns fuel k (epochEnd p.someAgentsAreEscaping s3).2 = some s' →
                s'.agents a = ⟨(s2.agents a).x, (s2.agents a).y, 0⟩ ∧ Skipped fuel a s')) ∧
          ((s.agents a).health = 2 →
            st'.totalReward = st.totalReward + s.idlePunishment ∧
            s3.agents a = ⟨(s2.agents a).x, (s2.agents a).y, 1⟩)) := by
  obtain ⟨p, s2, s3, hp, h2, h3, hturn, hc2, hc3, hmoved⟩ := simulateTurn_passes hw hfuel
  refine ⟨p, s2, s3, hp, h2, h3, hturn, fun hcell2 => ?_⟩
  obtain ⟨he, hag2⟩ := hmoved a ha hact
  have ha2 : a < s2.numAgents := by
    rw [hc2.fields.2.2.1, (backup_fields s).2.2.2.1]; exact ha
  obtain ⟨st, st', hst, hbody, hinv, hfin⟩ := pass3_at h3 ha2
  have hsta : st.agents a = s2.agents a := hinv.rest a (fun hh => Nat.lt_irrefl a hh.1)
  have hcell : st.room (st.agents a).x (st.agents a).y = SHARDS := by
    rw [hsta]
    rcases hinv.room (s2.agents a).x (s2.agents a).y with e | ⟨e, _⟩
    · rw [e]; exact hcell2
    · rw [hcell2] at e; exact absurd e (by decide)
  obtain ⟨_, _, _, _, hesc⟩ := pass3Body_frame hbody
  obtain ⟨f1, f2, f3⟩ := hesc he
  obtain ⟨t1, t2, t3⟩ := transition_shards a st hcell
  have hhealth : (st.agents a).health = (s.agents a).health := by
    rw [hsta, hag2]
  have hdeath : st.deathPunishment = s.deathPunishment := by
    rw [hinv.config.fields.2.2.2.2.2.2.2.2.2.2.2.2.2.1,
      hc2.fields.2.2.2.2.2.2.2.2.2.2.2.2.2.1]
    unfold backup
    split_ifs <;> rfl
  have hidle : st.idlePunishment = s.idlePunishment := by
    rw [hinv.config.fields.2.2.2.2.2.2.2.2.2.2.2.2.2.2.1,
      hc2.fields.2.2.2.2.2.2.2.2.2.2.2.2.2.2.1]
    unfold backup
    split_ifs <;> rfl
  have hs3a : s3.agents a = ⟨(s2.agents a).x, (s2.agents a).y, (s.agents a).health - 1⟩ := by
    rw [hfin, f1, t1, hhealth, hsta]
  refine ⟨st, st', hst, hbody, fun h1 => ?_, fun h2' => ?_⟩
  · have hz : (st.agents a).health - 1 = 0 := by rw [hhealth, h1]; rfl
    have hs3a' : s3.agents a = ⟨(s2.agents a).x, (s2.agents a).y, 0⟩ := by
      rw [hs3a, h1]; rfl
    refine ⟨by rw [f3, (t2 hz).1, hdeath], hs3a', ?_⟩
    intro hfalse k s' hk
    have hnext : (epochEnd p.someAgentsAreEscaping s3).2.agents a =
        ⟨(s2.agents a).x, (s2.agents a).y, 0⟩ := by
      rw [epochEnd_false hfalse]
      exact hs3a'
    have hinact : ¬ isActive (epochEnd p.someAgentsAreEscaping s3).2 a := by
      intro hh
      have hpos := hh.2
      rw [hnext] at hpos
      exact absurd hpos (by simp)
    obtain ⟨i1, i2⟩ := inactive_stays hinact k s' hk
    exact ⟨i1.trans hnext, skipped_of_inactive i2⟩
  · have hz : (st.agents a).health - 1 ≠ 0 := by rw [hhealth, h2']; decide
    exact ⟨by rw [f3, (t3 hz).1, hidle], by rw [hs3a, h2']; rfl⟩

/-- C7 at `shardsState 1`, with fuel 1, for the agent of index 0, which steps onto the broken
glass with health 1: the call returns `FALSE` and leaves the agent on the glass with health 0
and a reward total of -1000. -/
theorem death_is_terminal_witness :
    (simulateTurn 1 (shardsState 1)).map (fun r => (r.1, r.2.agents 0, r.2.totalReward)) =
      some (false, ⟨1, 0, 0⟩, -1000) ∧
    WellFormed (shardsState 1) ∧ (shardsState 1).numAgents ≤ 1 ∧
    0 < (shardsState 1).numAgents ∧ isActive (shardsState 1) 0 ∧
    ∃ p s2 s3, pass1 (backup (shardsState 1)) 1 = some p ∧
      pass2 p.actionRecords { backup (shardsState 1) with globalRNG := p.globalRNG } = some s2 ∧
      pass3 p.actionRecords s2 = some s3 ∧
      simulateTurn 1 (shardsState 1) = some (epochEnd p.someAgentsAreEscaping s3) ∧
      (s2.room (s2.agents 0).x (s2.agents 0).y = SHARDS →
        ∃ st st', forLoopM (pass3Body p.actionRecords) 0 s2 = some st ∧
          pass3Body p.actionRecords 0 st = some st' ∧
          (((shardsState 1).agents 0).health = 1 →
            st'.totalReward = st.totalReward + (shardsState 1).deathPunishment ∧
            s3.agents 0 = ⟨(s2.agents 0).x, (s2.agents 0).y, 0⟩ ∧
            ((epochEnd p.someAgentsAreEscaping s3).1 = false →
              ∀ k s', midEpochTurns 1 k (epochEnd p.someAgentsAreEscaping s3).2 = some s' →
                s'.agents 0 = ⟨(s2.agents 0).x, (s2.agents 0).y, 0⟩ ∧ Skipped 1 0 s')) ∧
          (((shardsState 1).agents 0).health = 2 →
            st'.totalReward = st.totalReward + (shardsState 1).idlePunishment ∧
            s3.agents 0 = ⟨(s2.agents 0).x, (s2.agents 0).y, 1⟩)) :=
  ⟨by decide!, by decide, by decide, by decide, by decide,
    death_is_terminal (shardsState 1) 1 0 (by decide) (by decide) (by decide) (by decide)⟩

theorem cellState_lt (s : State) (x y : Int) : cellState s x y < 3 := by
  unfold cellState HAS_AGENT ACTIVATED DEACTIVATED
  split_ifs <;> decide

theorem perception_lt (s : State) (x y : Int) (i : Nat) : perception s x y i < 3 :=
  cellState_lt s _ _

/-- The five entries that a pointer returned for table `t` addresses lie in table `t`. -/
theorem qOffset_bounds (t x y h : Nat) (st : Nat → Nat) (a : Nat) (hx : x < 9) (hy : y < 9)
    (hh : h < 2) (hst : ∀ i, st i < 3) (ha : a < 5) :
    t * 5314410 ≤ qOffset t x y h st + a ∧ qOffset t x y h st + a < (t + 1) * 5314410 := by
  unfold qOffset
  have h0 := hst 0
  have h1 := hst 1
  have h2 := hst 2
  have h3 := hst 3
  have h4 := hst 4
  have h5 := hst 5
  have h6 := hst 6
  have h7 := hst 7
  constructor <;> omega

/-- The pointers that `getQEntry` returns in a room of side at most 9: the first addresses
five entries of table A, the second, under double learning, five entries of table B. -/
theorem getQEntry_bounds {s : State} {a : Nat} {q : Nat × Option Nat}
    (hside : s.roomWidth ≤ 9 ∧ s.roomHeight ≤ 9) (h : getQEntry s a = some q) (i : Nat)
    (hi : i < 5) :
    q.1 + i < 5314410 ∧ ∀ qB, q.2 = some qB → 5314410 ≤ qB + i ∧ qB + i < 10628820 := by
  obtain ⟨hact, hm, h1, h2⟩ := getQEntry_eq_some h
  have hr := hact.1
  simp only [isInRoom, Bool.and_eq_true, decide_eq_true_eq] at hr
  have hpos := hact.2
  unfold MAX_HEALTH at hm
  have hx : (s.agents a).x.toNat < 9 := by omega
  have hy : (s.agents a).y.toNat < 9 := by omega
  have hh : ((s.agents a).health - 1).toNat < 2 := by omega
  constructor
  · rw [h1]
    have := (qOffset_bounds 0 _ _ _ (perception s (s.agents a).x (s.agents a).y) i hx hy hh
      (perception_lt s _ _) hi).2
    omega
  · intro qB hqB
    rw [h2] at hqB
    split_ifs at hqB
    simp only [Option.some.injEq] at hqB
    subst hqB
    have := qOffset_bounds 1 _ _ _ (perception s (s.agents a).x (s.agents a).y) i hx hy hh
      (perception_lt s _ _) hi
    omega

theorem action_exists_toNat (i : Nat) (hi : i < 5) : ∃ a : action, a.toNat = i := by
  interval_cases i
  · exact ⟨.STAY, rfl⟩
  · exact ⟨.LEFT, rfl⟩
  · exact ⟨.RIGHT, rfl⟩
  · exact ⟨.DOWN, rfl⟩
  · exact ⟨.UP, rfl⟩

/-- The entry that `getBestAction(q, NULL)` selects: no entry has a sum with the constant 0
above that of the selected entry, and no entry is above the selected entry when the five entries
are values of a `double`. -/
theorem getBestAction_max (q : Nat → double) (i : Nat) (hi : i < 5) :
    ¬ q i + 0 > q (getBestAction q none).toNat + 0 ∧
    ((∀ j, j < 5 → (q j).IsDouble) → ¬ q i > q (getBestAction q none).toNat) := by
  obtain ⟨a, rfl⟩ := action_exists_toNat i hi
  have h : ¬ q a.toNat + 0 > q (getBestAction q none).toNat + 0 :=
    (getBestAction_inv q none).1 a
  refine ⟨h, fun hd => ?_⟩
  have e1 : q a.toNat + 0 = q a.toNat := hd a.toNat (action_toNat_lt a)
  have e2 : q (getBestAction q none).toNat + 0 = q (getBestAction q none).toNat :=
    hd _ (action_toNat_lt _)
  rw [e1, e2] at h
  exact h

theorem double.round_zero : double.round 0 = double.fin 0 := by
  simp [double.round, double.roundMag]

/-- The target `reward + gamma * 0` of a terminal transition is the reward. -/
theorem double.terminal_target (reward gamma : ℚ) (h : (reward : double).IsDouble) :
    (reward : double) + (gamma : double) * 0 = (reward : double) := by
  have e : (gamma : double) * 0 = 0 := by
    rw [double.zero_def]
    show double.round (gamma * 0) = double.fin 0
    rw [mul_zero]
    exact double.round_zero
  rw [e]
  exact h

theorem SameConfig.alpha_eq {s st : State} (h : SameConfig s st) : st.alpha = s.alpha :=
  h.fields.2.2.2.2.2.2.2.2.1

theorem SameConfig.gamma_eq {s st : State} (h : SameConfig s st) : st.gamma = s.gamma :=
  h.fields.2.2.2.2.2.2.2.2.2.1

theorem SameConfig.doubleQ_eq {s st : State} (h : SameConfig s st) :
    st.useDoubleQ = s.useDoubleQ :=
  h.fields.2.2.2.2.2.2.2.2.2.2.2.2.2.2.2.1

theorem SameConfig.numAgents_eq {s st : State} (h : SameConfig s st) :
    st.numAgents = s.numAgents :=
  h.fields.2.2.1

theorem backup_params (s : State) :
    (backup s).alpha = s.alpha ∧ (backup s).gamma = s.gamma ∧
    (backup s).useDoubleQ = s.useDoubleQ := by
  unfold backup
  split_ifs <;> exact ⟨rfl, rfl, rfl⟩

theorem getQEntry_backup (s : State) (a : Nat) : getQEntry (backup s) a = getQEntry s a := by
  unfold backup
  split_ifs <;> rfl

/-- The single-table update: the value `m` it bootstraps from and the table it leaves. -/
theorem learnSingle_eq_some {recs : Nat → actionrecord} {a : Nat} {reward : ℚ} {term : Bool}
    {s st : State} (h : learnSingle recs a reward term s = some st) :
    ∃ m : double, (term = true → m = 0) ∧
      (term = false → ∃ q, getQEntry s a = some q ∧
        m = s.qTable (q.1 + (getBestAction (qRow s.qTable q.1) none).toNat)) ∧
      st.qTable = setAt s.qTable ((recs a).q0 + (recs a).action.toNat)
        (s.qTable ((recs a).q0 + (recs a).action.toNat) +
          (s.alpha : double) * ((reward : double) + (s.gamma : double) * m -
            s.qTable ((recs a).q0 + (recs a).action.toNat))) := by
  simp only [learnSingle] at h
  obtain ⟨m, hm, h⟩ := Option.map_eq_some'.mp h
  subst h
  refine ⟨m, ?_, ?_, rfl⟩
  · intro ht
    rw [ht] at hm
    simp only [if_true, Option.some.injEq] at hm
    exact hm.symm
  · intro ht
    rw [ht] at hm
    simp only [Bool.false_eq_true, if_false] at hm
    obtain ⟨q, hq, hm⟩ := Option.map_eq_some'.mp hm
    exact ⟨q, hq, hm.symm⟩

/-- The double-table update: the generator is advanced once, the two values it bootstraps
from, and the table it leaves. -/
theorem learnDouble_eq_some {recs : Nat → actionrecord} {a : Nat} {reward : ℚ} {term : Bool}
    {s st : State} (h : learnDouble recs a reward term s = some st) :
    st.globalRNG = (randf s.globalRNG).2 ∧
    ∃ crossA crossB : double, (term = true → crossA = 0 ∧ crossB = 0) ∧
      (term = false → ∃ q qB, getQEntry s a = some q ∧ q.2 = some qB ∧
        crossA = s.qTable (q.1 + (getBestAction (qRow s.qTable qB) none).toNat) ∧
        crossB = s.qTable (qB + (getBestAction (qRow s.qTable q.1) none).toNat)) ∧
      ((randf s.globalRNG).1 < 1 / 2 →
        st.qTable = setAt s.qTable ((recs a).q0 + (recs a).action.toNat)
          (s.qTable ((recs a).q0 + (recs a).action.toNat) +
            (s.alpha : double) * ((reward : double) + (s.gamma : double) * crossB -
              s.qTable ((recs a).q0 + (recs a).action.toNat)))) ∧
      (¬ (randf s.globalRNG).1 < 1 / 2 → ∃ q1, (recs a).q1 = some q1 ∧
        st.qTable = setAt s.qTable (q1 + (recs a).action.toNat)
          (s.qTable (q1 + (recs a).action.toNat) +
            (s.alpha : double) * ((reward : double) + (s.gamma : double) * crossA -
              s.qTable (q1 + (recs a).action.toNat)))) := by
  refine ⟨(learnDouble_frame h).2.2.2.2, ?_⟩
  simp only [learnDouble] at h
  obtain ⟨n, hn, h⟩ := Option.bind_eq_some.mp h
  refine ⟨n.1, n.2, ?_, ?_, ?_, ?_⟩
  · intro ht
    rw [ht] at hn
    simp only [if_true, Option.some.injEq] at hn
    rw [← hn]
    exact ⟨rfl, rfl⟩
  · intro ht
    rw [ht] at hn
    simp only [Bool.false_eq_true, if_false] at hn
    obtain ⟨q, hq, hn⟩ := Option.bind_eq_some.mp hn
    obtain ⟨qB, hqB, hn⟩ := Option.map_eq_some'.mp hn
    rw [← hn]
    exact ⟨q, qB, hq, hqB, rfl, rfl⟩
  · intro hu
    rw [if_pos hu] at h
    simp only [Option.some.injEq] at h
    rw [← h]
  · intro hu
    rw [if_neg hu] at h
    obtain ⟨q1, hq1, h⟩ := Option.map_eq_some'.mp h
    exact ⟨q1, hq1, by rw [← h]⟩

/-- The body of pass 3 for an active agent is the transition followed by the learning update
of the mode that is on. -/
theorem pass3Body_escaping {recs : Nat → actionrecord} {a : Nat} {s : State}
    (he : (recs a).isEscaping = true) :
    pass3Body recs a s =
      if s.useDoubleQ then
        learnDouble recs a (transition a s).1 (transition a s).2.1 (transition a s).2.2
      else learnSingle recs a (transition a s).1 (transition a s).2.1 (transition a s).2.2 := by
  simp only [pass3Body, he, if_true]

/-- The learning update stores the result of an addition: the table holds values of a
`double` after the body of pass 3 when it does before. -/
theorem pass3Body_table {recs : Nat → actionrecord} {a : Nat} {s st : State}
    (h : pass3Body recs a s = some st) (ht : ∀ i, (s.qTable i).IsDouble) :
    ∀ i, (st.qTable i).IsDouble := by
  have key : ∀ (j : Nat) (v w : double) (i : Nat), (setAt s.qTable j (v + w) i).IsDouble := by
    intro j v w i
    by_cases hij : i = j
    · rw [hij, setAt_same]
      exact double.add_isDouble v w
    · rw [setAt_ne _ _ _ _ hij]
      exact ht i
  by_cases he : (recs a).isEscaping = true
  · rw [pass3Body_escaping he] at h
    obtain ⟨_, tq, _⟩ := transition_frame a s
    split_ifs at h
    · obtain ⟨_, cA, cB, _, _, hA, hB⟩ := learnDouble_eq_some h
      by_cases hu : (randf (transition a s).2.2.globalRNG).1 < 1 / 2
      · rw [hA hu, tq]
        exact key _ _ _
      · obtain ⟨q1, _, hq⟩ := hB hu
        rw [hq, tq]
        exact key _ _ _
    · obtain ⟨m, _, _, hq⟩ := learnSingle_eq_some h
      rw [hq, tq]
      exact key _ _ _
  · rw [(pass3Body_frame h).2.2.2.1 (by simpa using he)]
    exact ht

/-- The table before an iteration of pass 3 holds values of a `double` when the table at the
start of the turn does. -/
theorem simulateTurn_table {fuel n : Nat} {s s2 st : State} {p : Pass1}
    (hp : pass1 (backup s) fuel = some p)
    (h2 : pass2 p.actionRecords { backup s with globalRNG := p.globalRNG } = some s2)
    (hst : forLoopM (pass3Body p.actionRecords) n s2 = some st)
    (ht : ∀ i, (s.qTable i).IsDouble) : ∀ i, (st.qTable i).IsDouble := by
  have h2inv := pass2_inv (s := { backup s with globalRNG := p.globalRNG })
    (fun b hb _ => (pass1_basic hp).coords b hb) h2
  have hs2 : s2.qTable = s.qTable := h2inv.table.1.trans (backup_fields s).2.2.2.2.2.1
  exact forLoopM_induct (pass3Body p.actionRecords) (fun _ r => ∀ i, (r.qTable i).IsDouble) n s2
    (fun i => by rw [hs2]; exact ht i) (fun _ _ _ _ hP hb => pass3Body_table hb hP) n
    (Nat.le_refl _) st hst

/-- The reward of a terminal transition is `escapeReward` or `deathPunishment`. -/
theorem transition_terminal (a : Nat) (s : State) (h : (transition a s).2.1 = true) :
    (transition a s).1 = s.escapeReward ∨ (transition a s).1 = s.deathPunishment := by
  simp only [transition] at h ⊢
  split_ifs at h ⊢ <;> simp_all

theorem backup_terminalRewards (s : State) :
    (backup s).escapeReward = s.escapeReward ∧
    (backup s).deathPunishment = s.deathPunishment := by
  unfold backup
  split_ifs <;> exact ⟨rfl, rfl⟩

/-- C8. Single-table Q-update. On a well-formed state with `useDoubleQ` off (and fuel for as
many chain steps as there are agents) the passes of `simulateTurn` return. For an active agent
`a`, let `q0` be the table-A pointer that `getQEntry` returned for its decision-time state and
`act` the action it picked; the iteration of pass 3 for `a` replaces the entry `old` at
`q0 + act` by `old + alpha * (reward + gamma * m - old)`, every operation an operation on
`double` values that rounds its result. Reward and terminality are those of the transition of
`a`; `m` is 0 for a terminal transition and otherwise one of the five table-A values that
`getQEntry` addresses in the state after the transition, such that none of the five is above it
in the comparison `q[i] + 0 > m + 0` that `getBestAction` makes. When the table at the start of
the turn holds values of a `double`, none of the five is above `m`, and all of them are at most
`m` when none is a NaN. For a terminal transition, with `escapeReward` and `deathPunishment`
values of a `double`, the new value is `old + alpha * (reward - old)`. No other entry changes,
and in a room of side at most 9 the entry lies in table A. -/
theorem single_table_update (s : State) (fuel a : Nat) (hw : WellFormed s)
    (hfuel : s.numAgents ≤ fuel) (hsingle : s.useDoubleQ = false) (ha : a < s.numAgents)
    (hact : isActive s a) :
    ∃ p s2 s3 st st', pass1 (backup s) fuel = some p ∧
      pass2 p.actionRecords { backup s with globalRNG := p.globalRNG } = some s2 ∧
      pass3 p.actionRecords s2 = some s3 ∧
      forLoopM (pass3Body p.actionRecords) a s2 = some st ∧
      pass3Body p.actionRecords a st = some st' ∧
      getQEntry s a = some ((p.actionRecords a).q0, none) ∧
      ∃ m : double,
        ((transition a st).2.1 = true → m = 0) ∧
        ((transition a st).2.1 = false → ∃ q, getQEntry (transition a st).2.2 a = some q ∧
          (∃ i, i < 5 ∧ m = st.qTable (q.1 + i)) ∧
          (∀ i, i < 5 → ¬ st.qTable (q.1 + i) + 0 > m + 0) ∧
          ((∀ i, (s.qTable i).IsDouble) →
            (∀ i, i < 5 → ¬ st.qTable (q.1 + i) > m) ∧
            ((∀ i, i < 5 → st.qTable (q.1 + i) ≠ double.nan) →
              ∀ i, i < 5 → st.qTable (q.1 + i) ≤ m))) ∧
        st'.qTable ((p.actionRecords a).q0 + (p.actionRecords a).action.toNat) =
          st.qTable ((p.actionRecords a).q0 + (p.actionRecords a).action.toNat) +
            (s.alpha : double) * (((transition a st).1 : double) + (s.gamma : double) * m -
              st.qTable ((p.actionRecords a).q0 + (p.actionRecords a).action.toNat)) ∧
        ((transition a st).2.1 = true → (s.escapeReward : double).IsDouble →
          (s.deathPunishment : double).IsDouble →
          st'.qTable ((p.actionRecords a).q0 + (p.actionRecords a).action.toNat) =
            st.qTable ((p.actionRecords a).q0 + (p.actionRecords a).action.toNat) +
              (s.alpha : double) * (((transition a st).1 : double) -
                st.qTable ((p.actionRecords a).q0 + (p.actionRecords a).action.toNat))) ∧
        (∀ i, i ≠ (p.actionRecords a).q0 + (p.actionRecords a).action.toNat →
          st'.qTable i = st.qTable i) ∧
        (s.roomWidth ≤ 9 ∧ s.roomHeight ≤ 9 →
          (p.actionRecords a).q0 + (p.actionRecords a).action.toNat < 5314410 ∧
          ∀ i, 5314410 ≤ i → st'.qTable i = st.qTable i) := by
  obtain ⟨p, s2, s3, hp, h2, h3, _, hc2, _, hmoved⟩ := simulateTurn_passes hw hfuel
  obtain ⟨he, _⟩ := hmoved a ha hact
  have ha2 : a < s2.numAgents := by
    rw [hc2.numAgents_eq, (backup_fields s).2.2.2.1]; exact ha
  obtain ⟨st, st', hst, hbody, hinv, _⟩ := pass3_at h3 ha2
  have hentry : getQEntry s a = some ((p.actionRecords a).q0, (p.actionRecords a).q1) := by
    rw [← getQEntry_backup]
    exact (pass1_basic hp).entry a ((backup_fields s).2.2.2.1 ▸ ha)
      ((backup_isActive s a).mpr hact)
  have hq1 : (p.actionRecords a).q1 = none := by
    have := (getQEntry_eq_some hentry).2.2.2
    simp only [hsingle, Bool.false_eq_true, if_false] at this
    exact this
  rw [hq1] at hentry
  have hcfg : SameConfig (backup s) st := hc2.config_trans hinv.config
  have hdq : st.useDoubleQ = false := by
    rw [hcfg.doubleQ_eq, (backup_params s).2.2, hsingle]
  obtain ⟨tc, tq, _⟩ := transition_frame a st
  have halpha : (transition a st).2.2.alpha = s.alpha := by
    rw [tc.alpha_eq, hcfg.alpha_eq, (backup_params s).1]
  have hgamma : (transition a st).2.2.gamma = s.gamma := by
    rw [tc.gamma_eq, hcfg.gamma_eq, (backup_params s).2.1]
  have hlearn := hbody
  rw [pass3Body_escaping he, hdq] at hlearn
  simp only [Bool.false_eq_true, if_false] at hlearn
  obtain ⟨m, hm1, hm2, hq⟩ := learnSingle_eq_some hlearn
  rw [tq, halpha, hgamma] at hq
  refine ⟨p, s2, s3, st, st', hp, h2, h3, hst, hbody, hentry, m, hm1, ?_, ?_, ?_, ?_, ?_⟩
  · intro ht
    obtain ⟨q, hqe, hmq⟩ := hm2 ht
    rw [tq] at hmq
    refine ⟨q, hqe, ⟨_, action_toNat_lt _, hmq⟩, fun i hi => ?_, fun hd => ?_⟩
    · rw [hmq]
      exact (getBestAction_max (qRow st.qTable q.1) i hi).1
    · have htab := simulateTurn_table hp h2 hst hd
      have hgt : ∀ i, i < 5 → ¬ st.qTable (q.1 + i) > m := by
        intro i hi
        rw [hmq]
        exact (getBestAction_max (qRow st.qTable q.1) i hi).2 fun j _ => htab _
      refine ⟨hgt, fun hn i hi => double.le_of_not_gt (hn i hi) ?_ (hgt i hi)⟩
      rw [hmq]
      exact hn _ (action_toNat_lt _)
  · rw [hq, setAt_same]
  · intro ht hr1 hr2
    have hr : ((transition a st).1 : double).IsDouble := by
      rcases transition_terminal a st ht with e | e
      · rw [e, hcfg.fields.2.2.2.2.2.2.2.2.2.2.2.2.1, (backup_terminalRewards s).1]
        exact hr1
      · rw [e, hcfg.fields.2.2.2.2.2.2.2.2.2.2.2.2.2.1, (backup_terminalRewards s).2]
        exact hr2
    rw [hq, setAt_same, hm1 ht, double.terminal_target _ _ hr]
  · intro i hi
    rw [hq, setAt_ne _ _ _ _ hi]
  · intro hside
    have hb := (getQEntry_bounds hside hentry (p.actionRecords a).action.toNat
      (action_toNat_lt _)).1
    refine ⟨hb, fun i hi => ?_⟩
    rw [hq, setAt_ne _ _ _ _ (by omega)]
/-- C8 at `rowState`, with fuel 4, for the agent of index 3, whose turn stores the rounded
value of `1 + 0.5 * (-1 + 0.95 * 1 - 1)`; the entry that the turn of the agent of `tenthState`
stores, where the sum `0.1 + 0.2 * (1000 + 0.95 * 0 - 0.1)` of the rounded operations is not
the sum of the exact ones. The tables and rewards of the two states are values of a `double`. -/
theorem single_table_update_witness :
    (WellFormed rowState ∧ rowState.numAgents ≤ 4 ∧ rowState.useDoubleQ = false ∧
    3 < rowState.numAgents ∧ isActive rowState 3 ∧
    ∃ p s2 s3 st st', pass1 (backup rowState) 4 = some p ∧
      pass2 p.actionRecords { backup rowState with globalRNG := p.globalRNG } = some s2 ∧
      pass3 p.actionRecords s2 = some s3 ∧
      forLoopM (pass3Body p.actionRecords) 3 s2 = some st ∧
      pass3Body p.actionRecords 3 st = some st' ∧
      getQEntry rowState 3 = some ((p.actionRecords 3).q0, none) ∧
      ∃ m : double,
        ((transition 3 st).2.1 = true → m = 0) ∧
        ((transition 3 st).2.1 = false → ∃ q, getQEntry (transition 3 st).2.2 3 = some q ∧
          (∃ i, i < 5 ∧ m = st.qTable (q.1 + i)) ∧
          (∀ i, i < 5 → ¬ st.qTable (q.1 + i) + 0 > m + 0) ∧
          ((∀ i, (rowState.qTable i).IsDouble) →
            (∀ i, i < 5 → ¬ st.qTable (q.1 + i) > m) ∧
            ((∀ i, i < 5 → st.qTable (q.1 + i) ≠ double.nan) →
              ∀ i, i < 5 → st.qTable (q.1 + i) ≤ m))) ∧
        st'.qTable ((p.actionRecords 3).q0 + (p.actionRecords 3).action.toNat) =
          st.qTable ((p.actionRecords 3).q0 + (p.actionRecords 3).action.toNat) +
            (rowState.alpha : double) * (((transition 3 st).1 : double) + (rowState.gamma : double) * m -
              st.qTable ((p.actionRecords 3).q0 + (p.actionRecords 3).action.toNat)) ∧
        ((transition 3 st).2.1 = true → (rowState.escapeReward : double).IsDouble →
          (rowState.deathPunishment : double).IsDouble →
          st'.qTable ((p.actionRecords 3).q0 + (p.actionRecords 3).action.toNat) =
            st.qTable ((p.actionRecords 3).q0 + (p.actionRecords 3).action.toNat) +
              (rowState.alpha : double) * (((transition 3 st).1 : double) -
                st.qTable ((p.actionRecords 3).q0 + (p.actionRecords 3).action.toNat))) ∧
        (∀ i, i ≠ (p.actionRecords 3).q0 + (p.actionRecords 3).action.toNat →
          st'.qTable i = st.qTable i) ∧
        (rowState.roomWidth ≤ 9 ∧ rowState.roomHeight ≤ 9 →
          (p.actionRecords 3).q0 + (p.actionRecords 3).action.toNat < 5314410 ∧
          ∀ i, 5314410 ≤ i → st'.qTable i = st.qTable i)) ∧
    (simulatePasses 4 rowState).map (fun r => r.2.qTable (98505 + 2)) =
      some (double.fin (4278419646001971 / 9007199254740992)) ∧
    (simulatePasses 1 tenthState).map (fun r => r.2.qTable (32805 + 2)) =
      some (double.fin (7039689167533507 / 35184372088832)) ∧
    double.fin (7039689167533507 / 35184372088832) ≠
      double.fin (3602879701896397 / 36028797018963968 + tenthState.alpha *
        (1000 + tenthState.gamma * 0 - 3602879701896397 / 36028797018963968)) ∧
    (∀ i, (rowState.qTable i).IsDouble) ∧ (∀ i, (tenthState.qTable i).IsDouble) ∧
    (rowState.escapeReward : double).IsDouble ∧ (rowState.deathPunishment : double).IsDouble :=
  ⟨⟨by decide, by decide, by decide, by decide, by decide,
    single_table_update rowState 4 3 (by decide) (by decide) (by decide) (by decide)
      (by decide)⟩, by decide!, by decide!, by decide!,
    fun i => by
      show (if i % 5 = 2 then (1 : double) else 0).IsDouble
      split_ifs <;> decide!,
    fun i => by
      show (if i % 5 = 2 then double.fin (3602879701896397 / 36028797018963968)
        else 0).IsDouble
      split_ifs <;> decide!,
    by decide!, by decide!⟩

/-- C9. Double-table Q-update. On a well-formed state with `useDoubleQ` on (and fuel for as
many chain steps as there are agents) the passes of `simulateTurn` return. For an active agent
`a`, let `qA` and `qB` be the pointers into table A and table B that `getQEntry` returned for
its decision-time state and `act` the action it picked. The iteration of pass 3 for `a`
advances the generator by exactly one `randf` draw `u`. With `crossA = A'[argmax B']` and
`crossB = B'[argmax A']` for the rows `A'`, `B'` that `getQEntry` addresses in the state after
the transition (both 0 for a terminal transition): if `u < 0.5` the entry `old` at `qA + act`
becomes `old + alpha * (reward + gamma * crossB - old)` and nothing else changes, otherwise the
entry `old` at `qB + act` becomes `old + alpha * (reward + gamma * crossA - old)` and nothing
else changes, every operation an operation on `double` values that rounds its result. The
indices `argmax A'` and `argmax B'` are those `getBestAction` selects: no entry of the row is
above the selected one in its comparison `q[i] + 0 > q[j] + 0`. When the table at the start of
the turn holds values of a `double`, no entry of the row is above the selected one, and all are
at most the selected one when none is a NaN. In a room of side at most 9 the first entry lies in table A and the second in
table B, so the table not chosen is unchanged. -/
theorem double_table_update (s : State) (fuel a : Nat) (hw : WellFormed s)
    (hfuel : s.numAgents ≤ fuel) (hdouble : s.useDoubleQ = true) (ha : a < s.numAgents)
    (hact : isActive s a) :
    ∃ p s2 s3 st st' qA qB, pass1 (backup s) fuel = some p ∧
      pass2 p.actionRecords { backup s with globalRNG := p.globalRNG } = some s2 ∧
      pass3 p.actionRecords s2 = some s3 ∧
      forLoopM (pass3Body p.actionRecords) a s2 = some st ∧
      pass3Body p.actionRecords a st = some st' ∧
      getQEntry s a = some (qA, some qB) ∧
      (p.actionRecords a).q0 = qA ∧ (p.actionRecords a).q1 = some qB ∧
      st'.globalRNG = (randf st.globalRNG).2 ∧
      ∃ crossA crossB : double,
        ((transition a st).2.1 = true → crossA = 0 ∧ crossB = 0) ∧
        ((transition a st).2.1 = false → ∃ qA' qB' jA jB,
          getQEntry (transition a st).2.2 a = some (qA', some qB') ∧ jA < 5 ∧ jB < 5 ∧
          crossA = st.qTable (qA' + jB) ∧ crossB = st.qTable (qB' + jA) ∧
          (∀ i, i < 5 → ¬ st.qTable (qA' + i) + 0 > st.qTable (qA' + jA) + 0) ∧
          (∀ i, i < 5 → ¬ st.qTable (qB' + i) + 0 > st.qTable (qB' + jB) + 0) ∧
          ((∀ i, (s.qTable i).IsDouble) →
            (∀ i, i < 5 → ¬ st.qTable (qA' + i) > st.qTable (qA' + jA)) ∧
            (∀ i, i < 5 → ¬ st.qTable (qB' + i) > st.qTable (qB' + jB)) ∧
            ((∀ i, i < 5 → st.qTable (qA' + i) ≠ double.nan) →
              ∀ i, i < 5 → st.qTable (qA' + i) ≤ st.qTable (qA' + jA)) ∧
            ((∀ i, i < 5 → st.qTable (qB' + i) ≠ double.nan) →
              ∀ i, i < 5 → st.qTable (qB' + i) ≤ st.qTable (qB' + jB)))) ∧
        ((randf st.globalRNG).1 < 1 / 2 →
          st'.qTable (qA + (p.actionRecords a).action.toNat) =
            st.qTable (qA + (p.actionRecords a).action.toNat) +
              (s.alpha : double) * (((transition a st).1 : double) +
                (s.gamma : double) * crossB -
                st.qTable (qA + (p.actionRecords a).action.toNat)) ∧
          ∀ i, i ≠ qA + (p.actionRecords a).action.toNat → st'.qTable i = st.qTable i) ∧
        (¬ (randf st.globalRNG).1 < 1 / 2 →
          st'.qTable (qB + (p.actionRecords a).action.toNat) =
            st.qTable (qB + (p.actionRecords a).action.toNat) +
              (s.alpha : double) * (((transition a st).1 : double) +
                (s.gamma : double) * crossA -
                st.qTable (qB + (p.actionRecords a).action.toNat)) ∧
          ∀ i, i ≠ qB + (p.actionRecords a).action.toNat → st'.qTable i = st.qTable i) ∧
        (s.roomWidth ≤ 9 ∧ s.roomHeight ≤ 9 →
          qA + (p.actionRecords a).action.toNat < 5314410 ∧
          5314410 ≤ qB + (p.actionRecords a).action.toNat ∧
          qB + (p.actionRecords a).action.toNat < 10628820 ∧
          ((randf st.globalRNG).1 < 1 / 2 → ∀ i, 5314410 ≤ i → st'.qTable i = st.qTable i) ∧
          (¬ (randf st.globalRNG).1 < 1 / 2 → ∀ i, i < 5314410 →
            st'.qTable i = st.qTable i)) := by
  obtain ⟨p, s2, s3, hp, h2, h3, _, hc2, _, hmoved⟩ := simulateTurn_passes hw hfuel
  obtain ⟨he, _⟩ := hmoved a ha hact
  have ha2 : a < s2.numAgents := by
    rw [hc2.numAgents_eq, (backup_fields s).2.2.2.1]; exact ha
  obtain ⟨st, st', hst, hbody, hinv, _⟩ := pass3_at h3 ha2
  have hentry : getQEntry s a = some ((p.actionRecords a).q0, (p.actionRecords a).q1) := by
    rw [← getQEntry_backup]
    exact (pass1_basic hp).entry a ((backup_fields s).2.2.2.1 ▸ ha)
      ((backup_isActive s a).mpr hact)
  have hq1 := (getQEntry_eq_some hentry).2.2.2
  simp only [hdouble, if_true] at hq1
  rw [hq1] at hentry
  have hcfg : SameConfig (backup s) st := hc2.config_trans hinv.config
  have hdq : st.useDoubleQ = true := by
    rw [hcfg.doubleQ_eq, (backup_params s).2.2, hdouble]
  obtain ⟨tc, tq, trng, _⟩ := transition_frame a st
  have halpha : (transition a st).2.2.alpha = s.alpha := by
    rw [tc.alpha_eq, hcfg.alpha_eq, (backup_params s).1]
  have hgamma : (transition a st).2.2.gamma = s.gamma := by
    rw [tc.gamma_eq, hcfg.gamma_eq, (backup_params s).2.1]
  have hlearn := hbody
  rw [pass3Body_escaping he, hdq] at hlearn
  simp only [if_true] at hlearn
  obtain ⟨hrng, crossA, crossB, hterm, hnext, hA, hB⟩ := learnDouble_eq_some hlearn
  rw [trng] at hrng hA hB
  rw [tq, halpha, hgamma] at hA hB
  have hBq : ∀ q1, (p.actionRecords a).q1 = some q1 →
      q1 = qOffset 1 (s.agents a).x.toNat (s.agents a).y.toNat
        ((s.agents a).health - 1).toNat (perception s (s.agents a).x (s.agents a).y) := by
    intro q1 h
    rw [hq1] at h
    exact (Option.some.inj h).symm
  refine ⟨p, s2, s3, st, st', (p.actionRecords a).q0, _, hp, h2, h3, hst, hbody, hentry, rfl,
    hq1, hrng, crossA, crossB, hterm, ?_, ?_, ?_, ?_⟩
  · intro ht
    obtain ⟨q, qB', hqe, hqB', hcA, hcB⟩ := hnext ht
    rw [tq] at hcA hcB
    have hgt : (∀ i, (s.qTable i).IsDouble) → ∀ r i, i < 5 →
        ¬ st.qTable (r + i) > st.qTable (r + (getBestAction (qRow st.qTable r) none).toNat) :=
      fun hd r i hi => (getBestAction_max (qRow st.qTable r) i hi).2
        fun j _ => simulateTurn_table hp h2 hst hd _
    refine ⟨q.1, qB', _, _, ?_, action_toNat_lt _, action_toNat_lt _, hcA, hcB,
      fun i hi => (getBestAction_max (qRow st.qTable q.1) i hi).1,
      fun i hi => (getBestAction_max (qRow st.qTable qB') i hi).1,
      fun hd => ⟨hgt hd q.1, hgt hd qB',
        fun hn i hi => double.le_of_not_gt (hn i hi) (hn _ (action_toNat_lt _)) (hgt hd q.1 i hi),
        fun hn i hi => double.le_of_not_gt (hn i hi) (hn _ (action_toNat_lt _))
          (hgt hd qB' i hi)⟩⟩
    rw [hqe, ← hqB']
  · intro hu
    have := hA hu
    exact ⟨by rw [this, setAt_same], fun i hi => by rw [this, setAt_ne _ _ _ _ hi]⟩
  · intro hu
    obtain ⟨q1, hq1', hq⟩ := hB hu
    rw [hBq q1 hq1'] at hq
    exact ⟨by rw [hq, setAt_same], fun i hi => by rw [hq, setAt_ne _ _ _ _ hi]⟩
  · intro hside
    have hb := getQEntry_bounds hside hentry (p.actionRecords a).action.toNat
      (action_toNat_lt _)
    have hb2 := hb.2 _ rfl
    refine ⟨hb.1, hb2.1, hb2.2, fun hu i hi => ?_, fun hu i hi => ?_⟩
    · rw [hA hu, setAt_ne _ _ _ _ (by omega)]
    · obtain ⟨q1, hq1', hq⟩ := hB hu
      rw [hBq q1 hq1'] at hq
      rw [hq, setAt_ne _ _ _ _ (by omega)]
/-- C9 at `doubleState`, with fuel 4, for the agent of index 3, whose draw is not below 0.5:
the turn stores the rounded value of `1 + 0.5 * (-1 + 0.95 * 1 - 1)` in table B and leaves the
entry of table A. -/
theorem double_table_update_witness :
    (WellFormed doubleState ∧ doubleState.numAgents ≤ 4 ∧ doubleState.useDoubleQ = true ∧
    3 < doubleState.numAgents ∧ isActive doubleState 3 ∧
    ∃ p s2 s3 st st' qA qB, pass1 (backup doubleState) 4 = some p ∧
      pass2 p.actionRecords { backup doubleState with globalRNG := p.globalRNG } = some s2 ∧
      pass3 p.actionRecords s2 = some s3 ∧
      forLoopM (pass3Body p.actionRecords) 3 s2 = some st ∧
      pass3Body p.actionRecords 3 st = some st' ∧
      getQEntry doubleState 3 = some (qA, some qB) ∧
      (p.actionRecords 3).q0 = qA ∧ (p.actionRecords 3).q1 = some qB ∧
      st'.globalRNG = (randf st.globalRNG).2 ∧
      ∃ crossA crossB : double,
        ((transition 3 st).2.1 = true → crossA = 0 ∧ crossB = 0) ∧
        ((transition 3 st).2.1 = false → ∃ qA' qB' jA jB,
          getQEntry (transition 3 st).2.2 3 = some (qA', some qB') ∧ jA < 5 ∧ jB < 5 ∧
          crossA = st.qTable (qA' + jB) ∧ crossB = st.qTable (qB' + jA) ∧
          (∀ i, i < 5 → ¬ st.qTable (qA' + i) + 0 > st.qTable (qA' + jA) + 0) ∧
          (∀ i, i < 5 → ¬ st.qTable (qB' + i) + 0 > st.qTable (qB' + jB) + 0) ∧
          ((∀ i, (doubleState.qTable i).IsDouble) →
            (∀ i, i < 5 → ¬ st.qTable (qA' + i) > st.qTable (qA' + jA)) ∧
            (∀ i, i < 5 → ¬ st.qTable (qB' + i) > st.qTable (qB' + jB)) ∧
            ((∀ i, i < 5 → st.qTable (qA' + i) ≠ double.nan) →
              ∀ i, i < 5 → st.qTable (qA' + i) ≤ st.qTable (qA' + jA)) ∧
            ((∀ i, i < 5 → st.qTable (qB' + i) ≠ double.nan) →
              ∀ i, i < 5 → st.qTable (qB' + i) ≤ st.qTable (qB' + jB)))) ∧
        ((randf st.globalRNG).1 < 1 / 2 →
          st'.qTable (qA + (p.actionRecords 3).action.toNat) =
            st.qTable (qA + (p.actionRecords 3).action.toNat) +
              (doubleState.alpha : double) * (((transition 3 st).1 : double) +
                (doubleState.gamma : double) * crossB -
                st.qTable (qA + (p.actionRecords 3).action.toNat)) ∧
          ∀ i, i ≠ qA + (p.actionRecords 3).action.toNat → st'.qTable i = st.qTable i) ∧
        (¬ (randf st.globalRNG).1 < 1 / 2 →
          st'.qTable (qB + (p.actionRecords 3).action.toNat) =
            st.qTable (qB + (p.actionRecords 3).action.toNat) +
              (doubleState.alpha : double) * (((transition 3 st).1 : double) +
                (doubleState.gamma : double) * crossA -
                st.qTable (qB + (p.actionRecords 3).action.toNat)) ∧
          ∀ i, i ≠ qB + (p.actionRecords 3).action.toNat → st'.qTable i = st.qTable i) ∧
        (doubleState.roomWidth ≤ 9 ∧ doubleState.roomHeight ≤ 9 →
          qA + (p.actionRecords 3).action.toNat < 5314410 ∧
          5314410 ≤ qB + (p.actionRecords 3).action.toNat ∧
          qB + (p.actionRecords 3).action.toNat < 10628820 ∧
          ((randf st.globalRNG).1 < 1 / 2 → ∀ i, 5314410 ≤ i → st'.qTable i = st.qTable i) ∧
          (¬ (randf st.globalRNG).1 < 1 / 2 → ∀ i, i < 5314410 →
            st'.qTable i = st.qTable i))) ∧
    (simulatePasses 4 doubleState).map
        (fun r => (r.2.qTable (98505 + 2), r.2.qTable (5412915 + 2))) =
      some (1, double.fin (4278419646001971 / 9007199254740992)) ∧
    ∀ i, (doubleState.qTable i).IsDouble :=
  ⟨⟨by decide, by decide, by decide, by decide, by decide,
    double_table_update doubleState 4 3 (by decide) (by decide) (by decide) (by decide)
      (by decide)⟩, by decide!,
    fun i => by
      show (if i % 5 = 2 then (1 : double) else 0).IsDouble
      split_ifs <;> decide!⟩

theorem chooseAction_backup (s : State) (a rng : Nat) :
    chooseAction (backup s) a rng = chooseAction s a rng := by
  unfold backup
  split_ifs <;> rfl

/-- A transition from a cell that is not an exit leaves the agent where it is. -/
theorem transition_position (a : Nat) (s : State)
    (h : s.room (s.agents a).x (s.agents a).y ≠ EXIT) :
    ((transition a s).2.2.agents a).x = (s.agents a).x ∧
    ((transition a s).2.2.agents a).y = (s.agents a).y := by
  simp only [transition, h, if_false]
  split_ifs <;> simp only [setAt_same] <;> exact ⟨trivial, trivial⟩

/-- Pass 3 leaves an agent where pass 2 put it, unless that cell is an exit. -/
theorem pass3_position {recs : Nat → actionrecord} {s2 s3 : State} {a : Nat}
    (h3 : pass3 recs s2 = some s3) (ha : a < s2.numAgents)
    (hne : s2.room (s2.agents a).x (s2.agents a).y ≠ EXIT) :
    (s3.agents a).x = (s2.agents a).x ∧ (s3.agents a).y = (s2.agents a).y := by
  obtain ⟨st, st', _, hbody, hinv, hfin⟩ := pass3_at h3 ha
  have hsta : st.agents a = s2.agents a := hinv.rest a (fun hh => Nat.lt_irrefl a hh.1)
  have hcell : st.room (st.agents a).x (st.agents a).y ≠ EXIT := by
    rw [hsta]
    rcases hinv.room (s2.agents a).x (s2.agents a).y with e | ⟨_, e⟩
    · rw [e]; exact hne
    · rw [e]; decide
  obtain ⟨_, _, _, hstay, hesc⟩ := pass3Body_frame hbody
  rw [hfin]
  cases he : (recs a).isEscaping
  · rw [hstay he, hsta]
    exact ⟨rfl, rfl⟩
  · rw [(hesc he).1, ← hsta]
    exact transition_position a st hcell

/-- Pass 1 for two agents side by side that pick each other's cell: no claim is contested,
both claims stand. -/
theorem swap_pass1 (s : State) (fuel : Nat) (hA hB : Int) (hn : s.numAgents = 2)
    (h0 : s.agents 0 = ⟨0, 0, hA⟩) (h1 : s.agents 1 = ⟨1, 0, hB⟩)
    (hA0 : 0 < hA) (hB0 : 0 < hB)
    (hr0 : isInRoom s 0 0 = true) (hr1 : isInRoom s 1 0 = true)
    (hp0 : isPassable (s.room 0 0) = true) (hp1 : isPassable (s.room 1 0) = true)
    (c0 c1 : action × Nat × Option Nat × Nat)
    (hc0 : chooseAction s 0 s.globalRNG = some c0) (ha0 : c0.1 = .RIGHT)
    (hc1 : chooseAction s 1 c0.2.2.2 = some c1) (ha1 : c1.1 = .LEFT) :
    ∃ p, pass1 s fuel = some p ∧
      p.actionRecords 0 = ⟨true, 0, 0, 1, 0, .RIGHT, c0.2.1, c0.2.2.1⟩ ∧
      p.actionRecords 1 = ⟨true, 1, 0, 0, 0, .LEFT, c1.2.1, c1.2.2.1⟩ := by
  have hw : (2 : Int) ≤ s.roomWidth ∧ 1 ≤ s.roomHeight := by
    simp [isInRoom] at hr1
    omega
  have e1 : actionModCoords s .RIGHT 0 0 = (1, 0) := by
    simp only [actionModCoords, clamp]
    split_ifs <;> first | rfl | omega
  have e2 : actionModCoords s .LEFT 1 0 = (0, 0) := by
    simp only [actionModCoords, clamp]
    split_ifs <;> first | rfl | omega
  simp [pass1, hn, forLoopM, pass1Body, pass1Init, h0, h1, hA0, hB0, hr0, hr1, hc0, hc1, ha0, ha1,
    claimCell, e1, e2, setAt, setCell, hp0, hp1, actionrecord.zero]

/-- The three passes for two agents side by side that pick each other's cell: pass 2 moves
each onto the cell of the other, and pass 3 leaves them there unless the cell is an exit. -/
theorem swap_passes (s : State) (fuel : Nat) (hA hB : Int) (hn : s.numAgents = 2)
    (h0 : s.agents 0 = ⟨0, 0, hA⟩) (h1 : s.agents 1 = ⟨1, 0, hB⟩)
    (hA0 : 0 < hA) (hB0 : 0 < hB)
    (hr0 : isInRoom s 0 0 = true) (hr1 : isInRoom s 1 0 = true)
    (hp0 : isPassable (s.room 0 0) = true) (hp1 : isPassable (s.room 1 0) = true)
    (c0 c1 : action × Nat × Option Nat × Nat)
    (hc0 : chooseAction s 0 s.globalRNG = some c0) (ha0 : c0.1 = .RIGHT)
    (hc1 : chooseAction s 1 c0.2.2.2 = some c1) (ha1 : c1.1 = .LEFT) :
    ∃ p s2 s3, pass1 s fuel = some p ∧
      (p.actionRecords 0).action = .RIGHT ∧ (p.actionRecords 1).action = .LEFT ∧
      ((p.actionRecords 0).dx, (p.actionRecords 0).dy) = (1, 0) ∧
      ((p.actionRecords 1).dx, (p.actionRecords 1).dy) = (0, 0) ∧
      pass2 p.actionRecords { s with globalRNG := p.globalRNG } = some s2 ∧
      s2.agents 0 = ⟨1, 0, hA⟩ ∧ s2.agents 1 = ⟨0, 0, hB⟩ ∧
      pass3 p.actionRecords s2 = some s3 ∧
      (s.room 1 0 ≠ EXIT → (s3.agents 0).x = 1 ∧ (s3.agents 0).y = 0) ∧
      (s.room 0 0 ≠ EXIT → (s3.agents 1).x = 0 ∧ (s3.agents 1).y = 0) := by
  obtain ⟨p, hp, hrec0, hrec1⟩ := swap_pass1 s fuel hA hB hn h0 h1 hA0 hB0 hr0 hr1 hp0 hp1
    c0 c1 hc0 ha0 hc1 ha1
  have hq0 := getQEntry_eq_some (chooseAction_eq_some hc0)
  have hq1 := getQEntry_eq_some (chooseAction_eq_some hc1)
  rw [h0] at hq0
  rw [h1] at hq1
  have hcases : ∀ b, b < 2 → b = 0 ∨ b = 1 := by
    intro b hb
    omega
  have hxy : ∀ b, b < ({ s with globalRNG := p.globalRNG } : State).numAgents →
      (p.actionRecords b).isEscaping = true →
      (p.actionRecords b).x = (({ s with globalRNG := p.globalRNG } : State).agents b).x ∧
      (p.actionRecords b).y = (({ s with globalRNG := p.globalRNG } : State).agents b).y := by
    intro b hb _
    rcases hcases b (hn ▸ hb) with rfl | rfl
    · rw [hrec0]; simp only; rw [h0]; exact ⟨rfl, rfl⟩
    · rw [hrec1]; simp only; rw [h1]; exact ⟨rfl, rfl⟩
  obtain ⟨s2, h2⟩ := pass2_total (s := { s with globalRNG := p.globalRNG }) hxy
    (fun b hb _ _ => by
      rcases hcases b (hn ▸ hb) with rfl | rfl
      · rw [hrec0]; exact hp1
      · rw [hrec1]; exact hp0)
  have h2inv := pass2_inv (s := { s with globalRNG := p.globalRNG }) hxy h2
  have hs20 : s2.agents 0 = ⟨1, 0, hA⟩ := by
    rw [h2inv.moved 0 (by rw [show ({ s with globalRNG := p.globalRNG } : State).numAgents
      = s.numAgents from rfl, hn]; decide) (by rw [hrec0]), hrec0]
    simp only
    rw [h0]
  have hs21 : s2.agents 1 = ⟨0, 0, hB⟩ := by
    rw [h2inv.moved 1 (by rw [show ({ s with globalRNG := p.globalRNG } : State).numAgents
      = s.numAgents from rfl, hn]; decide) (by rw [hrec1]), hrec1]
    simp only
    rw [h1]
  have hn2 : s2.numAgents = 2 := by rw [h2inv.config.numAgents_eq]; exact hn
  have hdq : s2.useDoubleQ = s.useDoubleQ := h2inv.config.doubleQ_eq
  obtain ⟨s3, h3⟩ := @pass3_total s2 p.actionRecords (by
    intro b hb _
    rcases hcases b (hn2 ▸ hb) with rfl | rfl
    · rw [hs20, h2inv.config.isInRoom, hrec0]
      refine ⟨hr1, hA0, hq0.2.1, fun hd => ?_⟩
      have := hq0.2.2.2
      rw [hdq] at hd
      simp only at this
      rw [hd, if_pos rfl] at this
      rw [this]
      simp
    · rw [hs21, h2inv.config.isInRoom, hrec1]
      refine ⟨hr0, hB0, hq1.2.1, fun hd => ?_⟩
      have := hq1.2.2.2
      rw [hdq] at hd
      simp only at this
      rw [hd, if_pos rfl] at this
      rw [this]
      simp)
  have hroom : ∀ x y, s.room x y ≠ EXIT → s2.room x y ≠ EXIT := by
    intro x y hne
    rcases h2inv.room x y with e | ⟨_, e⟩ | ⟨_, e⟩
    · rw [e]; exact hne
    · rw [e]; decide
    · rw [e]; decide
  refine ⟨p, s2, s3, hp, by rw [hrec0], by rw [hrec1], by rw [hrec0], by rw [hrec1], h2, hs20,
    hs21, h3, fun hne => ?_, fun hne => ?_⟩
  · have := pass3_position h3 (a := 0) (by rw [hn2]; decide) (by rw [hs20]; exact hroom 1 0 hne)
    rw [hs20] at this
    exact this
  · have := pass3_position h3 (a := 1) (by rw [hn2]; decide) (by rw [hs21]; exact hroom 0 0 hne)
    rw [hs21] at this
    exact this

/-- C1, as the code has it. Two agents, A (index 0) on `(0,0)` and B (index 1) on `(1,0)`, both
active, on passable cells, A picking `RIGHT` and B picking `LEFT`: pass 1 contests neither
claim, pass 2 moves A onto `(1,0)` and B onto `(0,0)`, and `simulateTurn` returns; when it
returns `FALSE` and neither cell is an exit, A stands on `(1,0)` and B on `(0,0)` after the
call. -/
theorem swap_exchanges_cells (s : State) (fuel : Nat) (hA hB : Int) (hn : s.numAgents = 2)
    (h0 : s.agents 0 = ⟨0, 0, hA⟩) (h1 : s.agents 1 = ⟨1, 0, hB⟩)
    (hA0 : 0 < hA) (hB0 : 0 < hB)
    (hr0 : isInRoom s 0 0 = true) (hr1 : isInRoom s 1 0 = true)
    (hp0 : isPassable (s.room 0 0) = true) (hp1 : isPassable (s.room 1 0) = true)
    (c0 c1 : action × Nat × Option Nat × Nat)
    (hc0 : chooseAction s 0 s.globalRNG = some c0) (ha0 : c0.1 = .RIGHT)
    (hc1 : chooseAction s 1 c0.2.2.2 = some c1) (ha1 : c1.1 = .LEFT) :
    ∃ p s2 r, pass1 (backup s) fuel = some p ∧
      (p.actionRecords 0).action = .RIGHT ∧ (p.actionRecords 1).action = .LEFT ∧
      ((p.actionRecords 0).dx, (p.actionRecords 0).dy) = (1, 0) ∧
      ((p.actionRecords 1).dx, (p.actionRecords 1).dy) = (0, 0) ∧
      pass2 p.actionRecords { backup s with globalRNG := p.globalRNG } = some s2 ∧
      s2.agents 0 = ⟨1, 0, hA⟩ ∧ s2.agents 1 = ⟨0, 0, hB⟩ ∧
      simulateTurn fuel s = some r ∧
      (r.1 = false → s.room 1 0 ≠ EXIT → s.room 0 0 ≠ EXIT →
        (r.2.agents 0).x = 1 ∧ (r.2.agents 0).y = 0 ∧
        (r.2.agents 1).x = 0 ∧ (r.2.agents 1).y = 0) := by
  have hb := backup_fields s
  have hroom : (backup s).room = s.room := hb.2.2.1
  have hin : ∀ x y, isInRoom (backup s) x y = isInRoom s x y := by
    intro x y
    unfold isInRoom
    rw [hb.1, hb.2.1]
  obtain ⟨p, s2, s3, hp, e1, e2, e3, e4, h2, e5, e6, h3, e7, e8⟩ :=
    swap_passes (backup s) fuel hA hB (hb.2.2.2.1.trans hn)
      (by rw [hb.2.2.2.2.1]; exact h0) (by rw [hb.2.2.2.2.1]; exact h1) hA0 hB0
      (by rw [hin]; exact hr0) (by rw [hin]; exact hr1)
      (by rw [hroom]; exact hp0) (by rw [hroom]; exact hp1) c0 c1
      (by rw [chooseAction_backup, hb.2.2.2.2.2.2.2.1]; exact hc0) ha0
      (by rw [chooseAction_backup]; exact hc1) ha1
  refine ⟨p, s2, epochEnd p.someAgentsAreEscaping s3, hp, e1, e2, e3, e4, h2, e5, e6, ?_, ?_⟩
  · unfold simulateTurn simulatePasses
    rw [hp, Option.some_bind, h2, Option.some_bind, h3]
    rfl
  · intro hfalse hx1 hx0
    rw [epochEnd_false hfalse]
    rw [hroom] at e7 e8
    exact ⟨(e7 hx1).1, (e7 hx1).2, (e8 hx0).1, (e8 hx0).2⟩

/-- C1 as stated fails at `swapState`: A on `(0,0)` picks `RIGHT`, B on `(1,0)` picks `LEFT`,
both cells are floor, and after `simulateTurn` A stands on `(1,0)` and B on `(0,0)`. -/
theorem swap_counterexample :
    isPassable (swapState.room 0 0) = true ∧ isPassable (swapState.room 1 0) = true ∧
    swapState.agents 0 = ⟨0, 0, 2⟩ ∧ swapState.agents 1 = ⟨1, 0, 2⟩ ∧
    isActive swapState 0 ∧ isActive swapState 1 ∧
    (pass1 (backup swapState) 2).map
      (fun p => ((p.actionRecords 0).action, (p.actionRecords 1).action)) =
        some (.RIGHT, .LEFT) ∧
    (simulateTurn 2 swapState).map (fun r => (r.2.agents 0, r.2.agents 1)) =
      some (⟨1, 0, 2⟩, ⟨0, 0, 2⟩) := by
  decide!

/-- C1, as the code has it, at `swapState` with fuel 2. -/
theorem swap_exchanges_cells_witness :
    swapState.numAgents = 2 ∧ swapState.agents 0 = ⟨0, 0, 2⟩ ∧ swapState.agents 1 = ⟨1, 0, 2⟩ ∧
    isInRoom swapState 0 0 = true ∧ isInRoom swapState 1 0 = true ∧
    isPassable (swapState.room 0 0) = true ∧ isPassable (swapState.room 1 0) = true ∧
    chooseAction swapState 0 swapState.globalRNG =
      some (.RIGHT, 35235, none, swapState.globalRNG) ∧
    chooseAction swapState 1 swapState.globalRNG =
      some (.LEFT, 630585, none, swapState.globalRNG) ∧
    ∃ p s2 r, pass1 (backup swapState) 2 = some p ∧
      (p.actionRecords 0).action = .RIGHT ∧ (p.actionRecords 1).action = .LEFT ∧
      ((p.actionRecords 0).dx, (p.actionRecords 0).dy) = (1, 0) ∧
      ((p.actionRecords 1).dx, (p.actionRecords 1).dy) = (0, 0) ∧
      pass2 p.actionRecords { backup swapState with globalRNG := p.globalRNG } = some s2 ∧
      s2.agents 0 = ⟨1, 0, 2⟩ ∧ s2.agents 1 = ⟨0, 0, 2⟩ ∧
      simulateTurn 2 swapState = some r ∧
      (r.1 = false → swapState.room 1 0 ≠ EXIT → swapState.room 0 0 ≠ EXIT →
        (r.2.agents 0).x = 1 ∧ (r.2.agents 0).y = 0 ∧
        (r.2.agents 1).x = 0 ∧ (r.2.agents 1).y = 0) :=
  ⟨by decide, by decide, by decide, by decide, by decide, by decide, by decide, by decide!,
    by decide!,
    swap_exchanges_cells swapState 2 2 2 (by decide) (by decide) (by decide) (by decide)
      (by decide) (by decide) (by decide) (by decide) (by decide)
      (.RIGHT, 35235, none, swapState.globalRNG) (.LEFT, 630585, none, swapState.globalRNG)
      (by decide!) rfl (by decide!) rfl⟩

/-! ## The key space -/

theorem numEntries_eq : numEntries = 10628820 := by
  simp [numEntries, qTableDims, MAX_ROOM_SIZE, MAX_HEALTH]

theorem qOffset_range {t x y h : Nat} {st : Nat → Nat} {a : Nat} (hk : KeyInRange t x y h st)
    (ha : a < 5) :
    t * 5314410 ≤ qOffset t x y h st + a ∧ qOffset t x y h st + a < (t + 1) * 5314410 := by
  obtain ⟨ht, hx, hy, hh, hst⟩ := hk
  have h0 := hst 0 (by decide)
  have h1 := hst 1 (by decide)
  have h2 := hst 2 (by decide)
  have h3 := hst 3 (by decide)
  have h4 := hst 4 (by decide)
  have h5 := hst 5 (by decide)
  have h6 := hst 6 (by decide)
  have h7 := hst 7 (by decide)
  unfold qOffset
  omega

theorem qOffset_lt {t x y h : Nat} {st : Nat → Nat} {a : Nat} (hk : KeyInRange t x y h st)
    (ha : a < 5) : qOffset t x y h st + a < 10628820 := by
  have h1 := qOffset_range hk ha
  have h2 := hk.1
  omega

theorem qOffset_inj {t x y h : Nat} {st : Nat → Nat} {a t' x' y' h' : Nat} {st' : Nat → Nat}
    {a' : Nat} (hk : KeyInRange t x y h st) (ha : a < 5) (hk' : KeyInRange t' x' y' h' st')
    (ha' : a' < 5) (he : qOffset t x y h st + a = qOffset t' x' y' h' st' + a') :
    t = t' ∧ x = x' ∧ y = y' ∧ h = h' ∧ (∀ i, i < 8 → st i = st' i) ∧ a = a' := by
  obtain ⟨ht, hx, hy, hh, hst⟩ := hk
  obtain ⟨ht', hx', hy', hh', hst'⟩ := hk'
  have h0 := hst 0 (by decide)
  have h1 := hst 1 (by decide)
  have h2 := hst 2 (by decide)
  have h3 := hst 3 (by decide)
  have h4 := hst 4 (by decide)
  have h5 := hst 5 (by decide)
  have h6 := hst 6 (by decide)
  have h7 := hst 7 (by decide)
  have h0' := hst' 0 (by decide)
  have h1' := hst' 1 (by decide)
  have h2' := hst' 2 (by decide)
  have h3' := hst' 3 (by decide)
  have h4' := hst' 4 (by decide)
  have h5' := hst' 5 (by decide)
  have h6' := hst' 6 (by decide)
  have h7' := hst' 7 (by decide)
  unfold qOffset at he
  have e7 : st 7 = st' 7 := by omega
  have e6 : st 6 = st' 6 := by omega
  have e5 : st 5 = st' 5 := by omega
  have e4 : st 4 = st' 4 := by omega
  have e3 : st 3 = st' 3 := by omega
  have e2 : st 2 = st' 2 := by omega
  have e1 : st 1 = st' 1 := by omega
  have e0 : st 0 = st' 0 := by omega
  refine ⟨by omega, by omega, by omega, by omega, ?_, by omega⟩
  intro i hi
  interval_cases i <;> assumption

theorem qOffset_keyOf (i : Nat) (hi : i < 10628820) :
    KeyInRange (keyOf i).1 (keyOf i).2.1 (keyOf i).2.2.1 (keyOf i).2.2.2.1 (keyOf i).2.2.2.2.1 ∧
    (keyOf i).2.2.2.2.2 < 5 ∧
    qOffset (keyOf i).1 (keyOf i).2.1 (keyOf i).2.2.1 (keyOf i).2.2.2.1 (keyOf i).2.2.2.2.1
      + (keyOf i).2.2.2.2.2 = i := by
  simp only [keyOf, KeyInRange, qOffset]
  refine ⟨⟨by omega, by omega, by omega, by omega, fun k hk => ?_⟩, by omega, by omega⟩
  interval_cases k <;> simp only <;> omega

theorem getQEntry_key {s : State} {a : Nat} {q : Nat × Option Nat}
    (hside : s.roomWidth ≤ 9 ∧ s.roomHeight ≤ 9) (h : getQEntry s a = some q) :
    KeyInRange 0 (s.agents a).x.toNat (s.agents a).y.toNat ((s.agents a).health - 1).toNat
        (perception s (s.agents a).x (s.agents a).y) ∧
      KeyInRange 1 (s.agents a).x.toNat (s.agents a).y.toNat ((s.agents a).health - 1).toNat
        (perception s (s.agents a).x (s.agents a).y) := by
  obtain ⟨⟨hr, hpos⟩, hmax, -, -⟩ := getQEntry_eq_some h
  simp only [isInRoom, Bool.and_eq_true, decide_eq_true_eq] at hr
  simp only [MAX_HEALTH] at hmax
  have hx : (s.agents a).x.toNat < 9 := by omega
  have hy : (s.agents a).y.toNat < 9 := by omega
  have hh : ((s.agents a).health - 1).toNat < 2 := by omega
  exact ⟨⟨by decide, hx, hy, hh, fun i _ => perception_lt s _ _ i⟩,
    ⟨by decide, hx, hy, hh, fun i _ => perception_lt s _ _ i⟩⟩

/-- C12. The table has `2 * 9 * 9 * 2 * 3^8 * 5 = 10,628,820` entries, `1,062,882` states per
table. The row-major offset of a key with an action is below the number of entries, is
injective on the keys in range, and every offset below the number of entries is the offset of
a key in range; the entries of table A lie below offset `5,314,410` and those of table B from
there on. Hence, in a room of side at most 9, the entries that `getQEntry` returns for two
agents overlap only if position, health and perception agree, and only at the same action. -/
theorem key_space :
    (numEntries = 2 * 9 * 9 * 2 * 3 ^ 8 * 5 ∧ numEntries = 10628820 ∧
      numEntries = 2 * (1062882 * 5)) ∧
    (∀ t x y h st a, KeyInRange t x y h st → a < 5 → qOffset t x y h st + a < numEntries) ∧
    (∀ t x y h st a t' x' y' h' st' a', KeyInRange t x y h st → a < 5 →
      KeyInRange t' x' y' h' st' → a' < 5 →
      qOffset t x y h st + a = qOffset t' x' y' h' st' + a' →
      t = t' ∧ x = x' ∧ y = y' ∧ h = h' ∧ (∀ i, i < 8 → st i = st' i) ∧ a = a') ∧
    (∀ i, i < numEntries → ∃ t x y h st a, KeyInRange t x y h st ∧ a < 5 ∧
      qOffset t x y h st + a = i) ∧
    (∀ x y h st a x' y' h' st' a', KeyInRange 0 x y h st → a < 5 →
      KeyInRange 1 x' y' h' st' → a' < 5 →
      qOffset 0 x y h st + a < 5314410 ∧ 5314410 ≤ qOffset 1 x' y' h' st' + a') ∧
    (∀ (s s' : State) (a a' : Nat) (q q' : Nat × Option Nat) (i j : Nat),
      s.roomWidth ≤ 9 ∧ s.roomHeight ≤ 9 → s'.roomWidth ≤ 9 ∧ s'.roomHeight ≤ 9 →
      getQEntry s a = some q → getQEntry s' a' = some q' → i < 5 → j < 5 →
      (q.1 + i = q'.1 + j ∨ ∃ qB qB', q.2 = some qB ∧ q'.2 = some qB' ∧ qB + i = qB' + j) →
      (s.agents a).x = (s'.agents a').x ∧ (s.agents a).y = (s'.agents a').y ∧
      (s.agents a).health = (s'.agents a').health ∧
      (∀ k, k < 8 → perception s (s.agents a).x (s.agents a).y k =
        perception s' (s'.agents a').x (s'.agents a').y k) ∧ i = j) ∧
    (∀ (s s' : State) (a a' : Nat) (q q' : Nat × Option Nat) (qB' : Nat) (i j : Nat),
      s.roomWidth ≤ 9 ∧ s.roomHeight ≤ 9 → s'.roomWidth ≤ 9 ∧ s'.roomHeight ≤ 9 →
      getQEntry s a = some q → getQEntry s' a' = some q' → q'.2 = some qB' → i < 5 → j < 5 →
      q.1 + i ≠ qB' + j) := by
  refine ⟨⟨by rw [numEntries_eq]; norm_num, numEntries_eq, by rw [numEntries_eq]⟩,
    ?_, ?_, ?_, ?_, ?_, ?_⟩
  · intro t x y h st a hk ha
    rw [numEntries_eq]
    exact qOffset_lt hk ha
  · intro t x y h st a t' x' y' h' st' a' hk ha hk' ha' he
    exact qOffset_inj hk ha hk' ha' he
  · intro i hi
    rw [numEntries_eq] at hi
    obtain ⟨hk, ha, he⟩ := qOffset_keyOf i hi
    exact ⟨_, _, _, _, _, _, hk, ha, he⟩
  · intro x y h st a x' y' h' st' a' hk ha hk' ha'
    have h1 := qOffset_range hk ha
    have h2 := qOffset_range hk' ha'
    omega
  · intro s s' a a' q q' i j hs hs' hq hq' hi hj he
    obtain ⟨hk0, hk1⟩ := getQEntry_key hs hq
    obtain ⟨hk0', hk1'⟩ := getQEntry_key hs' hq'
    obtain ⟨⟨hr, hpos⟩, hmax, hq1, hq2⟩ := getQEntry_eq_some hq
    obtain ⟨⟨hr', hpos'⟩, hmax', hq1', hq2'⟩ := getQEntry_eq_some hq'
    simp only [isInRoom, Bool.and_eq_true, decide_eq_true_eq] at hr hr'
    have key : (s.agents a).x.toNat = (s'.agents a').x.toNat ∧
        (s.agents a).y.toNat = (s'.agents a').y.toNat ∧
        ((s.agents a).health - 1).toNat = ((s'.agents a').health - 1).toNat ∧
        (∀ k, k < 8 → perception s (s.agents a).x (s.agents a).y k =
          perception s' (s'.agents a').x (s'.agents a').y k) ∧ i = j := by
      rcases he with he | ⟨qB, qB', hb, hb', he⟩
      · rw [hq1, hq1'] at he
        have := qOffset_inj hk0 hi hk0' hj he
        exact ⟨this.2.1, this.2.2.1, this.2.2.2.1, this.2.2.2.2.1, this.2.2.2.2.2⟩
      · rw [hq2] at hb
        rw [hq2'] at hb'
        split_ifs at hb hb'
        rw [← Option.some.inj hb, ← Option.some.inj hb'] at he
        have := qOffset_inj hk1 hi hk1' hj he
        exact ⟨this.2.1, this.2.2.1, this.2.2.2.1, this.2.2.2.2.1, this.2.2.2.2.2⟩
    obtain ⟨kx, ky, kh, kp, kij⟩ := key
    exact ⟨by omega, by omega, by omega, kp, kij⟩
  · intro s s' a a' q q' qB' i j hs hs' hq hq' hb' hi hj
    obtain ⟨hk0, -⟩ := getQEntry_key hs hq
    obtain ⟨-, hk1'⟩ := getQEntry_key hs' hq'
    obtain ⟨-, -, hq1, -⟩ := getQEntry_eq_some hq
    obtain ⟨-, -, -, hq2'⟩ := getQEntry_eq_some hq'
    rw [hq2'] at hb'
    split_ifs at hb'
    rw [hq1, ← Option.some.inj hb']
    have h1 := qOffset_range hk0 hi
    have h2 := qOffset_range hk1' hj
    omega

/-- C12 at the last entry of the table: the key of table B, cell `(8, 8)`, health 2, all eight
symbols `HAS_AGENT`, with the action `UP`. -/
theorem key_space_witness :
    qOffset 1 8 8 1 (fun _ => 2) + 4 = 10628819 ∧
    qOffset 1 8 8 1 (fun _ => 2) + 4 < numEntries :=
  ⟨by decide,
    key_space.2.1 1 8 8 1 (fun _ => 2) 4 ⟨by decide, by decide, by decide, by decide,
      fun _ _ => Nat.lt_succ_self 2⟩ (by decide)⟩

/-! ## Resetting the table -/

/-- The loop of `loadQTable` after `n` iterations: the entries below `n` hold `optimism`. -/
theorem loadQTable_loop (s : State) (n : Nat) :
    forLoop (fun i st => { st with qTable := setAt st.qTable i st.optimism }) n s =
      { s with qTable := fun i => if i < n then s.optimism else s.qTable i } := by
  induction n with
  | zero => simp [forLoop]
  | succ n ih =>
    simp only [forLoop, ih]
    congr 1
    funext i
    simp only [setAt]
    by_cases h1 : i = n
    · simp [h1]
    · have : (i < n + 1) ↔ (i < n) := by omega
      simp only [h1, if_false, this]

theorem loadQTable_eq (v : ℚ) (s : State) :
    loadQTable v s =
      { s with optimism := v, qTable := fun i => if i < numEntries then v else s.qTable i } := by
  unfold loadQTable
  rw [loadQTable_loop]

/-- C13. After `loadQTable(v)` every entry of the table, of flat offset below the number of
entries and so of any key and action of either table, equals `v`, and `optimism` equals `v`,
whether double learning is on or off; the other globals, among them the room, the agents, the
generator and the epoch and turn counters, are unchanged. -/
theorem loadQTable_reset (v : ℚ) (s : State) :
    (∀ i, i < numEntries → (loadQTable v s).qTable i = v) ∧
    (∀ t x y h st a, KeyInRange t x y h st → a < 5 →
      (loadQTable v s).qTable (qOffset t x y h st + a) = v) ∧
    (loadQTable v s).optimism = v ∧
    (loadQTable v s).room = s.room ∧ (loadQTable v s).agents = s.agents ∧
    (loadQTable v s).globalRNG = s.globalRNG ∧ (loadQTable v s).currEpoch = s.currEpoch ∧
    (loadQTable v s).currTurn = s.currTurn ∧
    loadQTable v s = { s with optimism := v, qTable := (loadQTable v s).qTable } := by
  have hq : ∀ i, i < numEntries → (loadQTable v s).qTable i = v := by
    intro i hi
    rw [loadQTable_eq]
    simp [hi]
  refine ⟨hq, ?_, ?_, ?_, ?_, ?_, ?_, ?_, ?_⟩
  · intro t x y h st a hk ha
    apply hq
    rw [numEntries_eq]
    exact qOffset_lt hk ha
  all_goals rw [loadQTable_eq]

/-! ## The perception encoder -/

theorem and_bit_ne_zero (a m : Nat) : a &&& (1 <<< m) ≠ 0 ↔ a.testBit m = true := by
  rw [Nat.one_shiftLeft, Nat.and_two_pow]
  cases h : a.testBit m
  · simp
  · simp

/-- The bit `m` of the mask of column `cx` is set after the first `n` agents exactly when one of
them is in the room, in column `cx`, in row `m`. -/
theorem occupancy_loop (s : State) (cx : Int) (m : Nat) (n : Nat) :
    (forLoop
      (fun a occ =>
        if isInRoom s (s.agents a).x (s.agents a).y then
          fun i => if i = (s.agents a).x then occ i ||| (1 <<< (s.agents a).y.toNat) else occ i
        else occ)
      n (fun _ => 0) cx).testBit m = true ↔
    ∃ k, k < n ∧ isInRoom s (s.agents k).x (s.agents k).y = true ∧ (s.agents k).x = cx ∧
      (s.agents k).y.toNat = m := by
  induction n with
  | zero => simp [forLoop]
  | succ n ih =>
    have hstep : ∀ occ : Int → Nat,
        ((if isInRoom s (s.agents n).x (s.agents n).y then
          fun i => if i = (s.agents n).x then occ i ||| (1 <<< (s.agents n).y.toNat) else occ i
        else occ) cx).testBit m = true ↔
        ((occ cx).testBit m = true ∨ (isInRoom s (s.agents n).x (s.agents n).y = true ∧
          (s.agents n).x = cx ∧ (s.agents n).y.toNat = m)) := by
      intro occ
      by_cases hr : isInRoom s (s.agents n).x (s.agents n).y = true
      · by_cases hx : cx = (s.agents n).x
        · simp [hr, hx, Nat.one_shiftLeft, Nat.testBit_two_pow]
        · have hx2 : ¬ (s.agents n).x = cx := fun e => hx e.symm
          simp [hr, hx, hx2]
      · simp [hr]
    simp only [forLoop]
    rw [hstep, ih]
    constructor
    · rintro (⟨k, hk, h⟩ | h)
      · exact ⟨k, Nat.lt_succ_of_lt hk, h⟩
      · exact ⟨n, Nat.lt_succ_self n, h⟩
    · rintro ⟨k, hk, h⟩
      rcases Nat.lt_succ_iff_lt_or_eq.mp hk with hlt | heq
      · exact Or.inl ⟨k, hlt, h⟩
      · subst heq
        exact Or.inr h

theorem agentScan_ne_none (s : State) (x y : Int) :
    ∀ n a, agentScan s x y n a ≠ none ↔
      ∃ k, a ≤ k ∧ k < a + n ∧ (s.agents k).x = x ∧ (s.agents k).y = y := by
  intro n
  induction n with
  | zero =>
    intro a
    simp only [agentScan, ne_eq, not_true_eq_false, false_iff]
    rintro ⟨k, h1, h2, -⟩
    omega
  | succ n ih =>
    intro a
    simp only [agentScan]
    split_ifs with h
    · simp only [ne_eq, reduceCtorEq, not_false_eq_true, true_iff]
      exact ⟨a, le_refl a, by omega, h⟩
    · rw [ih]
      constructor
      · rintro ⟨k, h1, h2, h3⟩
        exact ⟨k, by omega, by omega, h3⟩
      · rintro ⟨k, h1, h2, h3⟩
        have : k ≠ a := fun e => h (e ▸ h3)
        exact ⟨k, by omega, by omega, h3⟩

/-- The test of the bitmask agrees with the linear scan of `agentAt` on every cell of the
room. -/
theorem occupancy_agentAt (s : State) (cx cy : Int) (h : isInRoom s cx cy = true) :
    occupancy s cx &&& (1 <<< cy.toNat) ≠ 0 ↔ agentAt s cx cy ≠ none := by
  rw [and_bit_ne_zero]
  unfold occupancy agentAt
  rw [occupancy_loop, if_pos h, agentScan_ne_none]
  have hcy : 0 ≤ cy := by
    simp only [isInRoom, Bool.and_eq_true, decide_eq_true_eq] at h
    omega
  constructor
  · rintro ⟨k, hk, hr, hx, hy⟩
    simp only [isInRoom, Bool.and_eq_true, decide_eq_true_eq] at hr
    exact ⟨k, Nat.zero_le k, by omega, hx, by omega⟩
  · rintro ⟨k, -, hk, hx, hy⟩
    refine ⟨k, by omega, ?_, hx, by rw [hy]⟩
    rw [hx, hy]
    exact h

theorem cellState_eq_symbolOf (s : State) (cx cy : Int) : cellState s cx cy = symbolOf s cx cy := by
  unfold cellState symbolOf
  by_cases h : isInRoom s cx cy = true
  · simp only [h, if_true, true_and]
    have hocc := occupancy_agentAt s cx cy h
    by_cases ha : agentAt s cx cy ≠ none
    · rw [if_pos (hocc.mpr ha), if_pos ha]
    · rw [if_neg (fun hb => ha (hocc.mp hb)), if_neg ha]
      split_ifs <;> simp_all
  · simp [h]

theorem perception_eq_symbolOf (s : State) (x y : Int) (i : Nat) (hi : i < 8) :
    perception s x y i = symbolOf s (visionCell x y i).1 (visionCell x y i).2 := by
  unfold perception
  rw [cellState_eq_symbolOf]
  interval_cases i <;> rfl

theorem qOffset_congr (t x y h : Nat) (st st' : Nat → Nat) (he : ∀ i, i < 8 → st i = st' i) :
    qOffset t x y h st = qOffset t x y h st' := by
  unfold qOffset
  rw [he 0 (by decide), he 1 (by decide), he 2 (by decide), he 3 (by decide), he 4 (by decide),
    he 5 (by decide), he 6 (by decide), he 7 (by decide)]

theorem agentAt_ne_none (s : State) (x y : Int) :
    agentAt s x y ≠ none ↔ isInRoom s x y = true ∧
      ∃ k, k < s.numAgents ∧ (s.agents k).x = x ∧ (s.agents k).y = y := by
  unfold agentAt
  by_cases h : isInRoom s x y = true
  · rw [if_pos h, agentScan_ne_none]
    simp only [h, true_and, Nat.zero_add]
    constructor
    · rintro ⟨k, -, hk⟩
      exact ⟨k, hk⟩
    · rintro ⟨k, hk⟩
      exact ⟨k, Nat.zero_le k, hk⟩
  · simp [h]

/-- The symbol of a cell is a function of whether the cell is in the room, whether a listed
agent stands on it, and its content. -/
theorem symbolOf_congr {s s' : State} {x y : Int} (hr : isInRoom s' x y = isInRoom s x y)
    (ha : agentAt s' x y ≠ none ↔ agentAt s x y ≠ none) (hc : s'.room x y = s.room x y) :
    symbolOf s' x y = symbolOf s x y := by
  unfold symbolOf
  rw [hr, hc]
  simp only [ha]

theorem visionCell_symbols_room {s : State} {x y cx cy : Int} {c : Char}
    (hcell : ∀ i, i < 8 → (cx, cy) ≠ visionCell x y i) (i : Nat) (hi : i < 8) :
    symbols { s with room := setCell s.room cx cy c } x y i = symbols s x y i := by
  unfold symbols
  apply symbolOf_congr
  · rfl
  · rw [agentAt_ne_none, agentAt_ne_none]
    exact Iff.rfl
  · simp only [setCell]
    rw [if_neg]
    intro h
    exact hcell i hi (by rw [← h.1, ← h.2])

theorem visionCell_symbols_agent {s : State} {x y : Int} {b : Nat} {ag : agent}
    (hold : ∀ i, i < 8 → ((s.agents b).x, (s.agents b).y) ≠ visionCell x y i)
    (hnew : ∀ i, i < 8 → (ag.x, ag.y) ≠ visionCell x y i) (i : Nat) (hi : i < 8) :
    symbols { s with agents := setAt s.agents b ag } x y i = symbols s x y i := by
  unfold symbols
  apply symbolOf_congr
  · rfl
  · rw [agentAt_ne_none, agentAt_ne_none]
    apply and_congr Iff.rfl
    constructor
    · rintro ⟨k, hk, hx, hy⟩
      simp only [setAt] at hx hy
      by_cases hkb : k = b
      · simp only [hkb, if_true] at hx hy
        exact absurd (Prod.ext hx hy) (hnew i hi)
      · simp only [hkb, if_false] at hx hy
        exact ⟨k, hk, hx, hy⟩
    · rintro ⟨k, hk, hx, hy⟩
      have hkb : k ≠ b := by
        intro e
        subst e
        exact hold i hi (Prod.ext hx hy)
      refine ⟨k, hk, ?_⟩
      simp only [setAt, hkb, if_false]
      exact ⟨hx, hy⟩
  · rfl

theorem getQEntry_symbols (s : State) (a : Nat) :
    getQEntry s a =
      if (s.agents a).health > 0 ∧ (s.agents a).health ≤ MAX_HEALTH ∧
          isInRoom s (s.agents a).x (s.agents a).y = true then
        some (qOffset 0 (s.agents a).x.toNat (s.agents a).y.toNat ((s.agents a).health - 1).toNat
            (symbols s (s.agents a).x (s.agents a).y),
          if s.useDoubleQ then
            some (qOffset 1 (s.agents a).x.toNat (s.agents a).y.toNat
              ((s.agents a).health - 1).toNat (symbols s (s.agents a).x (s.agents a).y))
          else none)
      else none := by
  have h0 := qOffset_congr 0 (s.agents a).x.toNat (s.agents a).y.toNat
    ((s.agents a).health - 1).toNat _ _
    (fun i hi => perception_eq_symbolOf s (s.agents a).x (s.agents a).y i hi)
  have h1 := qOffset_congr 1 (s.agents a).x.toNat (s.agents a).y.toNat
    ((s.agents a).health - 1).toNat _ _
    (fun i hi => perception_eq_symbolOf s (s.agents a).x (s.agents a).y i hi)
  unfold getQEntry
  simp only
  rw [h0, h1]
  rfl

/-- C11. The perception encoding. For an in-room agent of health 1 or 2, `getQEntry` returns the
rows of the key made of the position, the health and eight symbols, the symbol of index `i`
being that of the cell at the offset of index `i` in the order `(-2,0), (-1,0), (1,0), (2,0),
(0,-2), (0,-1), (0,1), (0,2)`: `HAS_AGENT` iff the cell is in the room and `agentAt` finds a
listed agent there (the bitmask test and the linear scan agree), else `ACTIVATED` iff the cell is
in the room and holds shards, an open door or a bandage, else `DEACTIVATED`. For a given setting
of double learning the result depends on the room and the agents only through the position, the
health and the eight symbols: it is the same in any two states that agree on them, and so it
does not change when a cell that is none of the eight is overwritten or when another agent
moves between cells that are none of the eight. -/
theorem perception_encoding :
    (∀ (s : State) (x y : Int) (i : Nat), i < 8 →
      perception s x y i = symbols s x y i ∧
      (isInRoom s (visionCell x y i).1 (visionCell x y i).2 = true →
        (occupancy s (visionCell x y i).1 &&& (1 <<< (visionCell x y i).2.toNat) ≠ 0 ↔
          agentAt s (visionCell x y i).1 (visionCell x y i).2 ≠ none))) ∧
    (∀ (s : State) (a : Nat), isActive s a → (s.agents a).health ≤ MAX_HEALTH →
      getQEntry s a =
        some (qOffset 0 (s.agents a).x.toNat (s.agents a).y.toNat ((s.agents a).health - 1).toNat
            (symbols s (s.agents a).x (s.agents a).y),
          if s.useDoubleQ then
            some (qOffset 1 (s.agents a).x.toNat (s.agents a).y.toNat
              ((s.agents a).health - 1).toNat (symbols s (s.agents a).x (s.agents a).y))
          else none)) ∧
    (∀ (s s' : State) (a a' : Nat), s'.useDoubleQ = s.useDoubleQ →
      isInRoom s (s.agents a).x (s.agents a).y = true →
      isInRoom s' (s'.agents a').x (s'.agents a').y = true →
      (s'.agents a').x = (s.agents a).x → (s'.agents a').y = (s.agents a).y →
      (s'.agents a').health = (s.agents a).health →
      (∀ i, i < 8 → symbols s' (s.agents a).x (s.agents a).y i =
        symbols s (s.agents a).x (s.agents a).y i) →
      getQEntry s' a' = getQEntry s a) ∧
    (∀ (s : State) (a : Nat) (cx cy : Int) (c : Char),
      (∀ i, i < 8 → (cx, cy) ≠ visionCell (s.agents a).x (s.agents a).y i) →
      getQEntry { s with room := setCell s.room cx cy c } a = getQEntry s a) ∧
    (∀ (s : State) (a b : Nat) (ag : agent), b ≠ a →
      (∀ i, i < 8 → ((s.agents b).x, (s.agents b).y) ≠ visionCell (s.agents a).x (s.agents a).y i) →
      (∀ i, i < 8 → (ag.x, ag.y) ≠ visionCell (s.agents a).x (s.agents a).y i) →
      getQEntry { s with agents := setAt s.agents b ag } a = getQEntry s a) := by
  refine ⟨?_, ?_, ?_, ?_, ?_⟩
  · intro s x y i hi
    exact ⟨perception_eq_symbolOf s x y i hi, fun h => occupancy_agentAt s _ _ h⟩
  · intro s a ha hm
    rw [getQEntry_symbols, if_pos ⟨ha.2, hm, ha.1⟩]
  · intro s s' a a' hd hr hr' hx hy hh hsym
    rw [getQEntry_symbols, getQEntry_symbols, hx, hy, hh, hd, hr]
    rw [hx, hy] at hr'
    rw [hr']
    rw [qOffset_congr 0 _ _ _ _ _ hsym, qOffset_congr 1 _ _ _ _ _ hsym]
  · intro s a cx cy c hcell
    rw [getQEntry_symbols, getQEntry_symbols]
    have h0 := fun t => qOffset_congr t (s.agents a).x.toNat (s.agents a).y.toNat
      ((s.agents a).health - 1).toNat _ _
      (fun i hi => @visionCell_symbols_room s _ _ cx cy c hcell i hi)
    simp only [] at h0 ⊢
    rw [h0 0, h0 1]
    rfl
  · intro s a b ag hba hold hnew
    rw [getQEntry_symbols, getQEntry_symbols]
    have hag : (setAt s.agents b ag) a = s.agents a := by
      simp only [setAt]
      rw [if_neg (fun e => hba e.symm)]
    have h0 := fun t => qOffset_congr t (s.agents a).x.toNat (s.agents a).y.toNat
      ((s.agents a).health - 1).toNat _ _
      (fun i hi => @visionCell_symbols_agent s _ _ b ag hold hnew i hi)
    simp only [hag] at h0 ⊢
    rw [h0 0, h0 1]
    rfl

/-- C11 at the middle agent of `rowState`, on the cell `(1, 0)`: it sees an agent on either
side, nothing beyond the room edge two cells away, and plain floor above. -/
theorem perception_encoding_witness :
    (List.range 8).map (perception rowState 1 0) = [0, 2, 2, 0, 0, 0, 0, 0] ∧
    perception rowState 1 0 1 = symbols rowState 1 0 1 :=
  ⟨by decide, (perception_encoding.1 rowState 1 0 1 (by decide)).1⟩

/-! ## The default room -/

theorem fillColumn_apply (room : Int → Int → Char) (x : Int) (c : Char) (n : Nat) (i j : Int) :
    forLoop (fun (y : Nat) room => setCell room x y c) n room i j =
      if i = x ∧ 0 ≤ j ∧ j < n then c else room i j := by
  induction n with
  | zero =>
    simp only [forLoop]
    rw [if_neg]
    intro h
    have := h.2.2
    simp only [Nat.cast_zero] at this
    omega
  | succ n ih =>
    simp only [forLoop, setCell, ih]
    push_cast
    by_cases h1 : i = x ∧ j = (n : Int)
    · rw [if_pos h1, if_pos ⟨h1.1, by omega, by omega⟩]
    · rw [if_neg h1]
      by_cases h2 : i = x ∧ 0 ≤ j ∧ j < (n : Int)
      · rw [if_pos h2, if_pos ⟨h2.1, h2.2.1, by omega⟩]
      · rw [if_neg h2, if_neg]
        intro h3
        by_cases h4 : j = (n : Int)
        · exact h1 ⟨h3.1, h4⟩
        · exact h2 ⟨h3.1, h3.2.1, by omega⟩

theorem fillRoom_apply (room : Int → Int → Char) (c : Char) (m n : Nat) (i j : Int) :
    forLoop (fun (x : Nat) room => forLoop (fun (y : Nat) room => setCell room x y c) m room)
        n room i j =
      if (0 ≤ i ∧ i < n) ∧ 0 ≤ j ∧ j < m then c else room i j := by
  induction n with
  | zero =>
    simp only [forLoop]
    rw [if_neg]
    intro h
    have := h.1.2
    simp only [Nat.cast_zero] at this
    omega
  | succ n ih =>
    simp only [forLoop]
    rw [fillColumn_apply, ih]
    push_cast
    by_cases h1 : i = (n : Int) ∧ 0 ≤ j ∧ j < (m : Int)
    · rw [if_pos h1, if_pos ⟨⟨by omega, by omega⟩, h1.2⟩]
    · rw [if_neg h1]
      by_cases h2 : (0 ≤ i ∧ i < (n : Int)) ∧ 0 ≤ j ∧ j < (m : Int)
      · rw [if_pos h2, if_pos ⟨⟨h2.1.1, by omega⟩, h2.2⟩]
      · rw [if_neg h2, if_neg]
        intro h3
        by_cases h4 : i = (n : Int)
        · exact h1 ⟨h4, h3.2⟩
        · exact h2 ⟨⟨h3.1.1, by omega⟩, h3.2⟩

theorem makeDefaultRoom_isDefault (s : State) : IsDefaultRoom (makeDefaultRoom s) := by
  refine ⟨rfl, rfl, rfl, ?_⟩
  intro x y hx0 hx hy0 hy
  simp only [makeDefaultRoom]
  rw [fillRoom_apply]
  rw [if_pos]
  exact ⟨⟨hx0, by simpa using hx⟩, hy0, by simpa using hy⟩

/-! ## The reading loop on an arbitrary text -/

theorem except_bind_ok {ε α β : Type} {x : Except ε α} {f : α → Except ε β} {b : β}
    (h : x.bind f = .ok b) : ∃ a, x = .ok a ∧ f a = .ok b := by
  cases x with
  | error e => simp [Except.bind] at h
  | ok a => exact ⟨a, rfl, h⟩

theorem endRow_ok {l l' : Loader} (h : endRow l = .ok l') :
    (0 < l.x → l'.st.roomWidth = l.x ∧ l'.y = l.y + 1 ∧ l'.x = 0 ∧ l.y < 9 ∧
      (l.st.roomWidth ≠ 0 → l.st.roomWidth = l.x)) ∧
    (l.x ≤ 0 → l' = l) := by
  unfold endRow at h
  by_cases hx : l.x > 0
  · rw [if_pos hx] at h
    simp only [MAX_ROOM_SIZE] at h
    by_cases hw : l.st.roomWidth = 0
    · simp only [hw, if_true, ne_eq, not_true_eq_false, if_false] at h
      by_cases hy : l.y ≥ ((9 : Nat) : Int)
      · rw [if_pos hy] at h
        exact absurd h (by simp)
      · rw [if_neg hy, Except.ok.injEq] at h
        subst h
        exact ⟨fun _ => ⟨rfl, rfl, rfl, by push_cast at hy; omega, fun hne => absurd hw hne⟩,
          fun hle => absurd hx (not_lt.mpr hle)⟩
    · simp only [hw, if_false] at h
      by_cases hxw : l.x ≠ l.st.roomWidth
      · simp [hxw] at h
      · simp only [hxw, if_false] at h
        push_neg at hxw
        by_cases hy : l.y ≥ ((9 : Nat) : Int)
        · rw [if_pos hy] at h
          exact absurd h (by simp)
        · rw [if_neg hy, Except.ok.injEq] at h
          subst h
          exact ⟨fun _ => ⟨hxw.symm, rfl, rfl, by push_cast at hy; omega, fun _ => hxw.symm⟩,
            fun hle => absurd hx (not_lt.mpr hle)⟩
  · rw [if_neg hx] at h
    simp only [Except.ok.injEq] at h
    exact ⟨fun h0 => absurd h0 hx, fun _ => h.symm⟩

theorem addColumn_ok {c : Char} {l l' : Loader} (h : addColumn c l = .ok l') :
    l'.x = l.x + 1 ∧ l'.y = l.y ∧ l'.st.roomWidth = l.st.roomWidth ∧ l.x < 9 ∧
      (0 < l.st.roomWidth → l.x < l.st.roomWidth) := by
  unfold addColumn at h
  simp only [MAX_ROOM_SIZE] at h
  split_ifs at h with h1 h2 h3 h4
  · simp only [Except.ok.injEq] at h
    subst h
    exact ⟨rfl, rfl, rfl, by simpa using h2, fun hw => by
      by_contra hc
      exact h1 ⟨hw, not_lt.mp hc⟩⟩
  · simp only [Except.ok.injEq] at h
    subst h
    exact ⟨rfl, rfl, rfl, by simpa using h2, fun hw => by
      by_contra hc
      exact h1 ⟨hw, not_lt.mp hc⟩⟩

/-- When the reading loop ends without a jump, every row of the text had as many characters as
the width it leaves, and `y` grew by the number of rows. -/
theorem loadLoop_rows : ∀ (t : List Char) (l l' : Loader) (x : Nat), l.x = x →
    loadLoop t l = .ok l' →
    (∀ n ∈ rowLens x t, (n : Int) = l'.st.roomWidth) ∧
    l'.y = l.y + (rowLens x t).length ∧
    (l.st.roomWidth ≠ 0 → l'.st.roomWidth = l.st.roomWidth) := by
  intro t
  induction t with
  | nil =>
    intro l l' x hx h
    simp only [loadLoop, loadStep] at h
    obtain ⟨h1, h2⟩ := endRow_ok h
    simp only [rowLens]
    by_cases hpos : x > 0
    · obtain ⟨hw, hy, -, -, hrw⟩ := h1 (by omega)
      simp only [hpos, if_true, List.mem_singleton, forall_eq, List.length_singleton]
      refine ⟨by rw [hw, hx], by rw [hy]; rfl, fun hne => ?_⟩
      rw [hw, hrw hne]
    · have := h2 (by omega)
      subst this
      simp [hpos]
  | cons c cs ih =>
    intro l l' x hx h
    simp only [loadLoop] at h
    obtain ⟨l1, hstep, hrest⟩ := except_bind_ok h
    simp only [loadStep] at hstep
    simp only [rowLens]
    by_cases hb : isLineBreak c
    · rw [if_pos (show c = '\n' ∨ c = '\r' from hb)] at hstep
      simp only [if_pos hb]
      obtain ⟨h1, h2⟩ := endRow_ok hstep
      by_cases hpos : x > 0
      · obtain ⟨hw, hy, hx1, -, hrw⟩ := h1 (by omega)
        obtain ⟨i1, i2, i3⟩ := ih l1 l' 0 (by rw [hx1]; rfl) hrest
        have hw1 : l1.st.roomWidth ≠ 0 := by omega
        simp only [hpos, if_true, List.mem_cons, forall_eq_or_imp, List.length_cons]
        refine ⟨⟨?_, i1⟩, ?_, fun hne => ?_⟩
        · rw [i3 hw1, hw, hx]
        · rw [i2, hy]
          push_cast
          ring
        · rw [i3 hw1, hw, hrw hne]
      · have := h2 (by omega)
        subst this
        have hx0 : x = 0 := by omega
        subst hx0
        simp only [hpos, if_false]
        exact ih l1 l' 0 hx hrest
    · rw [if_neg (show ¬ (c = '\n' ∨ c = '\r') from hb)] at hstep
      simp only [if_neg hb]
      obtain ⟨hx1, hy1, hw1, -, -⟩ := addColumn_ok hstep
      obtain ⟨i1, i2, i3⟩ := ih l1 l' (x + 1) (by rw [hx1, hx]; rfl) hrest
      refine ⟨i1, by rw [i2, hy1], fun hne => ?_⟩
      rw [i3 (by rw [hw1]; exact hne), hw1]

/-! ## The fallback to the default room -/

theorem splitRows_of_rowChars (p : List Char) (hp : ∀ c ∈ p, ¬ isLineBreak c) :
    splitRows p = [p] := by
  induction p with
  | nil => rfl
  | cons c cs ih =>
    have hc : ¬ isLineBreak c := hp c (List.mem_cons_self c cs)
    have := ih (fun d hd => hp d (List.mem_cons_of_mem c hd))
    simp only [splitRows, if_neg hc, this]

theorem splitRows_append_break (p : List Char) (hp : ∀ c ∈ p, ¬ isLineBreak c) (b : Char)
    (hb : isLineBreak b) (cs : List Char) : splitRows (p ++ b :: cs) = p :: splitRows cs := by
  induction p with
  | nil => simp only [List.nil_append, splitRows, if_pos hb]
  | cons c p ih =>
    have hc : ¬ isLineBreak c := hp c (List.mem_cons_self c p)
    have := ih (fun d hd => hp d (List.mem_cons_of_mem c hd))
    show splitRows (c :: (p ++ b :: cs)) = _
    rw [splitRows, if_neg hc, this]

theorem rowLens_eq : ∀ (t p : List Char), (∀ c ∈ p, ¬ isLineBreak c) →
    rowLens p.length t = (textRows (p ++ t)).map List.length := by
  intro t
  induction t with
  | nil =>
    intro p hp
    simp only [rowLens, List.append_nil, textRows, splitRows_of_rowChars p hp]
    cases p with
    | nil => simp
    | cons c cs => simp
  | cons c cs ih =>
    intro p hp
    simp only [rowLens]
    by_cases hb : isLineBreak c
    · have h0 := ih [] (fun _ h => absurd h (List.not_mem_nil _))
      simp only [List.length_nil, List.nil_append] at h0
      simp only [if_pos hb, textRows, splitRows_append_break p hp c hb cs, h0]
      cases p with
      | nil => simp
      | cons d ds => simp
    · have h1 := ih (p ++ [c]) (by
        intro d hd
        rcases List.mem_append.mp hd with h | h
        · exact hp d h
        · rw [List.mem_singleton.mp h]
          exact hb)
      simp only [List.length_append, List.length_singleton, List.append_assoc,
        List.singleton_append] at h1
      simp only [if_neg hb, h1]


/-- C16. The fallback of `loadRoom`. When the file is missing, and for every text with two
non-empty rows of different lengths, or a row longer than 9 characters, or more than 9
non-empty rows, or no non-empty row at all, `loadRoom` returns with the default room:
`roomWidth = roomHeight = 9`, every one of the 81 cells `FLOOR`, `numAgents = 0`. -/
theorem loadRoom_fallback (s : State) :
    IsDefaultRoom (loadRoom none s) ∧
    ∀ text : List Char, BadRows text → IsDefaultRoom (loadRoom (some text) s) := by
  refine ⟨makeDefaultRoom_isDefault s, ?_⟩
  intro text hbad
  simp only [loadRoom]
  cases hl : loadLoop text
      { st := { s with roomWidth := 0, roomHeight := 0, numAgents := 0 }, x := 0, y := 0 } with
  | error s1 => exact makeDefaultRoom_isDefault s1
  | ok l =>
    simp only [finishLoad, MAX_ROOM_SIZE]
    split_ifs with h1 h2
    · exact makeDefaultRoom_isDefault _
    · exact makeDefaultRoom_isDefault _
    · exfalso
      push_neg at h1 h2
      obtain ⟨i1, i2, -⟩ := loadLoop_rows text _ l 0 rfl hl
      have hlen := rowLens_eq text [] (fun _ h => absurd h (List.not_mem_nil _))
      simp only [List.length_nil, List.nil_append] at hlen
      rw [hlen] at i1 i2
      simp only [List.mem_map, forall_exists_index, and_imp, forall_apply_eq_imp_iff₂,
        List.length_map, zero_add] at i1 i2
      push_cast at h1 h2
      rcases hbad with ⟨r1, hr1, r2, hr2, hne⟩ | ⟨r, hr, hlong⟩ | hmany | hnone
      · have e1 := i1 r1 hr1
        have e2 := i1 r2 hr2
        omega
      · have e1 := i1 r hr
        omega
      · omega
      · rw [hnone] at i2
        simp only [List.length_nil, Nat.cast_zero] at i2
        omega

/-- C16 at the texts `ab`, `c` on two lines (rows of different lengths) and at the empty
text. -/
theorem loadRoom_fallback_witness :
    BadRows ['a', 'b', '\n', 'c'] ∧ BadRows [] ∧
    IsDefaultRoom (loadRoom (some ['a', 'b', '\n', 'c']) blankState) ∧
    IsDefaultRoom (loadRoom (some []) blankState) :=
  ⟨Or.inl ⟨['a', 'b'], by decide, ['c'], by decide, by decide⟩, Or.inr (Or.inr (Or.inr (by decide))),
    (loadRoom_fallback blankState).2 _ (Or.inl ⟨['a', 'b'], by decide, ['c'], by decide, by decide⟩),
    (loadRoom_fallback blankState).2 _ (Or.inr (Or.inr (Or.inr (by decide))))⟩

/-! ## The example room of the specification -/

/-- C15, as the claim states it, fails: loading the text `.X@` does not give a room of width 3
and height 1 with its one agent on the leftmost cell and the exit on the rightmost cell. -/
theorem loadRoom_example_counterexample :
    ¬ ((loadRoom (some ['.', 'X', '@']) blankState).roomWidth = 3 ∧
      (loadRoom (some ['.', 'X', '@']) blankState).roomHeight = 1 ∧
      (loadRoom (some ['.', 'X', '@']) blankState).numAgents = 1 ∧
      ((loadRoom (some ['.', 'X', '@']) blankState).agents 0).x = 0 ∧
      (loadRoom (some ['.', 'X', '@']) blankState).room 2 0 = EXIT) := by
  decide

/-- C15, amended. Loading the one-line text `.X@` yields a room of width 3 and height 1 with
exactly one agent, of health 2, standing on the rightmost cell (`x = 2`), with the exit on the
middle cell (`x = 1`) and floor on the two other cells: the columns keep the order of the
characters of the line. -/
theorem loadRoom_example (s : State) :
    (loadRoom (some ['.', 'X', '@']) s).roomWidth = 3 ∧
    (loadRoom (some ['.', 'X', '@']) s).roomHeight = 1 ∧
    (loadRoom (some ['.', 'X', '@']) s).numAgents = 1 ∧
    (loadRoom (some ['.', 'X', '@']) s).agents 0 = ⟨2, 0, 2⟩ ∧
    (loadRoom (some ['.', 'X', '@']) s).room 0 0 = FLOOR ∧
    (loadRoom (some ['.', 'X', '@']) s).room 1 0 = EXIT ∧
    (loadRoom (some ['.', 'X', '@']) s).room 2 0 = FLOOR := by
  refine ⟨?_, ?_, ?_, ?_, ?_, ?_, ?_⟩ <;> rfl

/-! ## The reading loop on the text of a room -/

theorem rowMarks_append (row : Nat) (c : Char) : ∀ (p : List Char) (col : Nat),
    rowMarks row col (p ++ [c]) =
      rowMarks row col p ++ (if c = AGENT then [(col + p.length, row)] else []) := by
  intro p
  induction p with
  | nil =>
    intro col
    simp [rowMarks]
  | cons d p ih =>
    intro col
    have e : col + 1 + p.length = col + (p.length + 1) := by omega
    rw [List.cons_append]
    simp only [rowMarks, ih, List.length_cons, List.append_assoc, e]

theorem roomMarks_append (p : List Char) : ∀ (rs : List (List Char)) (row : Nat),
    roomMarks row (rs ++ [p]) = roomMarks row rs ++ rowMarks (row + rs.length) 0 p := by
  intro rs
  induction rs with
  | nil =>
    intro row
    simp [roomMarks]
  | cons r rs ih =>
    intro row
    have e : row + 1 + rs.length = row + (rs.length + 1) := by omega
    rw [List.cons_append]
    simp only [roomMarks, ih, List.length_cons, List.append_assoc, e]

theorem range_map_setAt {α : Type} (f : Nat → α) (n : Nat) (a : α) :
    (List.range (n + 1)).map (setAt f n a) = (List.range n).map f ++ [a] := by
  rw [List.range_succ, List.map_append]
  congr 1
  · apply List.map_congr_left
    intro k hk
    have := List.mem_range.mp hk
    simp only [setAt]
    rw [if_neg (by omega)]
  · simp [setAt]

theorem charAt_append_left (rs : List (List Char)) (p : List Char) (j i : Nat)
    (hj : j < rs.length) : charAt (rs ++ [p]) j i = charAt rs j i := by
  unfold charAt
  rw [List.getD_append _ _ _ _ hj]

theorem charAt_append_right (rs : List (List Char)) (p : List Char) (i : Nat) :
    charAt (rs ++ [p]) rs.length i = p.getD i FLOOR := by
  unfold charAt
  rw [List.getD_append_right _ _ _ _ (le_refl _)]
  simp

theorem getD_append_singleton (p : List Char) (c : Char) (i : Nat) :
    (p ++ [c]).getD i FLOOR = if i < p.length then p.getD i FLOOR else if i = p.length then c
      else FLOOR := by
  by_cases h : i < p.length
  · rw [if_pos h, List.getD_append _ _ _ _ h]
  · rw [if_neg h, List.getD_append_right _ _ _ _ (not_lt.mp h)]
    by_cases h2 : i = p.length
    · rw [if_pos h2, h2]
      simp
    · rw [if_neg h2, List.getD_eq_default]
      simp only [List.length_singleton]
      omega

/-- The loader takes one more character of a row. -/
theorem addColumn_inv {w : Nat} {l : Loader} {done : List (List Char)} {cur : List Char}
    (c : Char) (h : LoadInv w l done cur) (hfit : cur.length < w) (hw : w ≤ 9)
    (hrows : done.length < 9) :
    ∃ l', addColumn c l = .ok l' ∧ LoadInv w l' done (cur ++ [c]) := by
  have hx := h.x
  have hwid := h.width
  have hcount := h.count
  have hmul : done.length * w ≤ 8 * 9 := Nat.mul_le_mul (by omega) hw
  have h1 : ¬ (l.st.roomWidth > 0 ∧ l.x ≥ l.st.roomWidth) := by
    rintro ⟨hp, hge⟩
    by_cases hd : done = []
    · rw [if_pos hd] at hwid
      omega
    · rw [if_neg hd] at hwid
      omega
  have h2 : ¬ (l.x ≥ ((MAX_ROOM_SIZE : Nat) : Int)) := by
    simp only [MAX_ROOM_SIZE]
    push_cast
    omega
  have h3 : l.st.numAgents < MAX_AGENTS := by
    simp only [MAX_AGENTS, MAX_ROOM_SIZE]
    omega
  have key : ∀ st' : State, st'.roomWidth = l.st.roomWidth →
      st'.room = setCell l.st.room l.x l.y (cellOf c) →
      agentList st' = agentList l.st ++ (if c = AGENT then [⟨l.x, l.y, 2⟩] else []) →
      st'.numAgents ≤ l.st.numAgents + 1 →
      LoadInv w { l with st := st', x := l.x + 1 } done (cur ++ [c]) := by
    intro st' e1 e2 e3 e4
    refine ⟨?_, h.y, ?_, ?_, ?_, ?_, ?_⟩
    · simp only [List.length_append, List.length_singleton, hx]
      push_cast
      rfl
    · rw [e1]
      exact hwid
    · intro i j hj hi
      simp only [e2, setCell]
      rw [if_neg]
      · exact h.cells i j hj hi
      · rintro ⟨-, hj2⟩
        rw [h.y] at hj2
        omega
    · intro i hi
      simp only [e2, setCell, hx, h.y]
      rw [getD_append_singleton]
      simp only [List.length_append, List.length_singleton] at hi
      by_cases hlt : i < cur.length
      · rw [if_neg (by omega), if_pos hlt]
        exact h.row i hlt
      · have : i = cur.length := by omega
        rw [if_pos ⟨by omega, trivial⟩, if_neg hlt, if_pos this]
    · rw [e3, h.agents, rowMarks_append, ← List.append_assoc, List.map_append, hx, h.y]
      split_ifs <;> simp
    · simp only [List.length_append, List.length_singleton]
      omega
  unfold addColumn
  rw [if_neg h1, if_neg h2]
  by_cases hc : c = AGENT
  · rw [if_pos hc, if_pos h3]
    refine ⟨_, rfl, key _ rfl ?_ ?_ (le_refl _)⟩
    · simp only [cellOf, if_pos hc]
    · simp only [agentList, if_pos hc]
      exact range_map_setAt _ _ _
  · rw [if_neg hc]
    refine ⟨_, rfl, key _ rfl ?_ ?_ (Nat.le_succ _)⟩
    · simp only [cellOf, if_neg hc]
    · simp only [agentList, if_neg hc, List.append_nil]

/-- The loader closes a row of the right width. -/
theorem endRow_inv {w : Nat} {l : Loader} {done : List (List Char)} {cur : List Char}
    (h : LoadInv w l done cur) (hfull : cur.length = w) (hpos : 0 < w)
    (hrows : done.length < 9) :
    ∃ l', endRow l = .ok l' ∧ LoadInv w l' (done ++ [cur]) [] := by
  have hx := h.x
  have hy := h.y
  have hwid := h.width
  have h0 : l.x > 0 := by omega
  have h3 : ¬ (l.y ≥ ((MAX_ROOM_SIZE : Nat) : Int)) := by
    simp only [MAX_ROOM_SIZE]
    push_cast
    omega
  have key : ∀ st' : State, st'.roomWidth = (w : Int) → st'.room = l.st.room →
      st'.agents = l.st.agents → st'.numAgents = l.st.numAgents →
      LoadInv w { st := st', x := 0, y := l.y + 1 } (done ++ [cur]) [] := by
    intro st' e1 e2 e3 e4
    refine ⟨rfl, ?_, ?_, ?_, ?_, ?_, ?_⟩
    · simp only [List.length_append, List.length_singleton, hy]
      push_cast
      rfl
    · rw [e1, if_neg (by simp)]
    · intro i j hj hi
      simp only [List.length_append, List.length_singleton] at hj
      rw [e2]
      by_cases hlt : j < done.length
      · rw [charAt_append_left _ _ _ _ hlt]
        exact h.cells i j hlt hi
      · have : j = done.length := by omega
        subst this
        rw [charAt_append_right]
        exact h.row i (by omega)
    · intro i hi
      simp at hi
    · have : agentList st' = agentList l.st := by
        simp only [agentList, e3, e4]
      rw [this, h.agents, roomMarks_append]
      simp [rowMarks]
    · have := h.count
      simp only [List.length_append, List.length_singleton, List.length_nil, e4]
      rw [Nat.add_mul]
      omega
  unfold endRow
  rw [if_pos h0]
  by_cases hd : done = []
  · rw [if_pos hd] at hwid
    simp only [hwid, if_true, ne_eq, not_true_eq_false, if_false]
    rw [if_neg h3]
    exact ⟨_, rfl, key _ (by simp only [hx, hfull]) rfl rfl rfl⟩
  · rw [if_neg hd] at hwid
    have hne : ¬ l.st.roomWidth = 0 := by omega
    have hxw : ¬ l.x ≠ l.st.roomWidth := by
      push_neg
      omega
    simp only [hne, if_false]
    rw [if_neg hxw, if_neg h3]
    exact ⟨_, rfl, key _ hwid rfl rfl rfl⟩

theorem loadLoop_cons_rowChar (c : Char) (hc : ¬ isLineBreak c) (cs : List Char) (l : Loader) :
    loadLoop (c :: cs) l = (addColumn c l).bind (loadLoop cs) := by
  simp only [loadLoop, loadStep]
  rw [if_neg (show ¬ (c = '\n' ∨ c = '\r') from hc)]

theorem loadLoop_cons_newline (cs : List Char) (l : Loader) :
    loadLoop ('\n' :: cs) l = (endRow l).bind (loadLoop cs) := by
  show (if '\n' = '\n' ∨ '\n' = '\r' then endRow l else addColumn '\n' l).bind (loadLoop cs) = _
  rw [if_pos (Or.inl rfl)]

/-- The loader reads the characters of a row that fits the width. -/
theorem loadLoop_row {w : Nat} {done : List (List Char)} (hw : w ≤ 9) (hrows : done.length < 9) :
    ∀ (cs cur : List Char) (l : Loader), LoadInv w l done cur → cur.length + cs.length ≤ w →
      (∀ c ∈ cs, ¬ isLineBreak c) →
      ∃ l', LoadInv w l' done (cur ++ cs) ∧
        ∀ rest, loadLoop (cs ++ rest) l = loadLoop rest l' := by
  intro cs
  induction cs with
  | nil =>
    intro cur l h _ _
    exact ⟨l, by rw [List.append_nil]; exact h, fun rest => rfl⟩
  | cons c cs ih =>
    intro cur l h hlen hcs
    simp only [List.length_cons] at hlen
    obtain ⟨l1, hstep, h1⟩ := addColumn_inv c h (by omega) hw hrows
    obtain ⟨l2, h2, hrest⟩ := ih (cur ++ [c]) l1 h1
      (by simp only [List.length_append, List.length_singleton]; omega)
      (fun d hd => hcs d (List.mem_cons_of_mem c hd))
    refine ⟨l2, by rw [List.append_assoc] at h2; exact h2, fun rest => ?_⟩
    rw [List.cons_append, loadLoop_cons_rowChar c (hcs c (List.mem_cons_self c cs)), hstep]
    exact hrest rest

/-- The loader reads rows that are terminated by a newline. -/
theorem loadLoop_lines {w : Nat} (hw : w ≤ 9) (hpos : 0 < w) :
    ∀ (rows done : List (List Char)) (l : Loader), LoadInv w l done [] → RoomRows w rows →
      done.length + rows.length ≤ 9 →
      ∃ l', LoadInv w l' (done ++ rows) [] ∧
        ∀ rest, loadLoop (linesText rows ++ rest) l = loadLoop rest l' := by
  intro rows
  induction rows with
  | nil =>
    intro done l h _ _
    exact ⟨l, by rw [List.append_nil]; exact h, fun rest => rfl⟩
  | cons r rows ih =>
    intro done l h hr hlen
    simp only [List.length_cons] at hlen
    obtain ⟨hrl, hrc⟩ := hr r (List.mem_cons_self r rows)
    obtain ⟨l1, h1, e1⟩ := loadLoop_row hw (by omega) r [] l h
      (by simp only [List.length_nil]; omega) hrc
    rw [List.nil_append] at h1
    obtain ⟨l2, hstep, h2⟩ := endRow_inv h1 hrl hpos (by omega)
    obtain ⟨l3, h3, e3⟩ := ih (done ++ [r]) l2 h2
      (fun q hq => hr q (List.mem_cons_of_mem r hq))
      (by simp only [List.length_append, List.length_singleton]; omega)
    refine ⟨l3, by rw [List.append_assoc] at h3; exact h3, fun rest => ?_⟩
    simp only [linesText, List.append_assoc, List.cons_append]
    rw [e1, loadLoop_cons_newline, hstep]
    exact e3 rest

theorem loadLoop_nil_closed {w : Nat} {l : Loader} {done : List (List Char)}
    (h : LoadInv w l done []) : loadLoop [] l = .ok l := by
  simp only [loadLoop, loadStep, endRow]
  rw [if_neg]
  rw [h.x]
  simp

/-- The loader reads the text of a room whose rows are terminated by newlines. -/
theorem loadLoop_linesText {w : Nat} (hw : w ≤ 9) (hpos : 0 < w) (rows : List (List Char))
    (hr : RoomRows w rows) (hlen : rows.length ≤ 9) (l : Loader) (h : LoadInv w l [] []) :
    ∃ l', loadLoop (linesText rows) l = .ok l' ∧ LoadInv w l' rows [] := by
  obtain ⟨l1, h1, e1⟩ := loadLoop_lines hw hpos rows [] l h hr (by simp only [List.length_nil]; omega)
  rw [List.nil_append] at h1
  refine ⟨l1, ?_, h1⟩
  have := e1 []
  rw [List.append_nil] at this
  rw [this]
  exact loadLoop_nil_closed h1

theorem joinRows_concat : ∀ (rows : List (List Char)) (r : List Char),
    joinRows (rows ++ [r]) = linesText rows ++ r := by
  intro rows
  induction rows with
  | nil =>
    intro r
    simp [joinRows, linesText]
  | cons q rows ih =>
    intro r
    cases rows with
    | nil => simp [joinRows, linesText]
    | cons q2 rows =>
      have := ih r
      simp only [List.cons_append] at this ⊢
      simp only [joinRows, linesText, this, List.append_assoc, List.cons_append]

/-- The loader reads the text of a room whose rows are separated by newlines. -/
theorem loadLoop_joinRows {w : Nat} (hw : w ≤ 9) (hpos : 0 < w) (rows : List (List Char))
    (hr : RoomRows w rows) (hne : rows ≠ []) (hlen : rows.length ≤ 9) (l : Loader)
    (h : LoadInv w l [] []) :
    ∃ l', loadLoop (joinRows rows) l = .ok l' ∧ LoadInv w l' rows [] := by
  obtain ⟨init, last, rfl⟩ : ∃ init last, rows = init ++ [last] :=
    ⟨rows.dropLast, rows.getLast hne, (List.dropLast_append_getLast hne).symm⟩
  simp only [List.length_append, List.length_singleton] at hlen
  obtain ⟨l1, h1, e1⟩ := loadLoop_lines hw hpos init [] l h
    (fun q hq => hr q (List.mem_append_left _ hq)) (by simp only [List.length_nil]; omega)
  rw [List.nil_append] at h1
  obtain ⟨hll, hlc⟩ := hr last (List.mem_append_right _ (List.mem_singleton_self last))
  obtain ⟨l2, h2, e2⟩ := loadLoop_row hw (by omega) last [] l1 h1
    (by simp only [List.length_nil]; omega) hlc
  rw [List.nil_append] at h2
  obtain ⟨l3, hstep, h3⟩ := endRow_inv h2 hll hpos (by omega)
  refine ⟨l3, ?_, h3⟩
  rw [joinRows_concat, e1]
  have := e2 []
  rw [List.append_nil] at this
  rw [this]
  simp only [loadLoop, loadStep]
  exact hstep

theorem loadInv_init (w : Nat) (s : State) :
    LoadInv w { st := { s with roomWidth := 0, roomHeight := 0, numAgents := 0 }, x := 0, y := 0 }
      [] [] :=
  ⟨rfl, rfl, rfl, fun _ _ hj _ => absurd hj (Nat.not_lt_zero _),
    fun _ hi => absurd hi (Nat.not_lt_zero _), rfl, Nat.zero_le _⟩

/-! ## The two flips of `loadRoom` -/

theorem flipColumn_loop (H x : Int) (room : Int → Int → Char) : ∀ n : Nat, 2 * (n : Int) ≤ H →
    ∀ i j : Int,
    forLoop
      (fun (y : Nat) room =>
        let temp := room x y
        let room1 := setCell room x y (room x (H - y - 1))
        setCell room1 x (H - y - 1) temp)
      n room i j =
    if i = x ∧ ((0 ≤ j ∧ j < n) ∨ (H - n ≤ j ∧ j < H)) then room x (H - 1 - j) else room i j := by
  intro n
  induction n with
  | zero =>
    intro _ i j
    simp only [forLoop]
    rw [if_neg]
    rintro ⟨-, h | h⟩ <;> simp only [Nat.cast_zero] at h <;> omega
  | succ n ih =>
    intro hn i j
    push_cast at hn
    have ih := ih (by omega)
    have e1 : ¬ (x = x ∧ ((0 ≤ (n : Int) ∧ (n : Int) < n) ∨ (H - n ≤ (n : Int) ∧ (n : Int) < H))) := by
      rintro ⟨-, h | h⟩ <;> omega
    have e2 : ¬ (x = x ∧ ((0 ≤ H - n - 1 ∧ H - n - 1 < n) ∨
        (H - n ≤ H - n - 1 ∧ H - n - 1 < H))) := by
      rintro ⟨-, h | h⟩ <;> omega
    simp only [forLoop, setCell]
    rw [ih x n, ih x (H - n - 1), ih i j, if_neg e1, if_neg e2]
    push_cast
    by_cases h1 : i = x ∧ j = H - n - 1
    · rw [if_pos h1, if_pos ⟨h1.1, Or.inr (by omega)⟩]
      congr 1
      omega
    · rw [if_neg h1]
      by_cases h2 : i = x ∧ j = n
      · rw [if_pos h2, if_pos ⟨h2.1, Or.inl (by omega)⟩]
        congr 1
        omega
      · rw [if_neg h2]
        by_cases h3 : i = x ∧ ((0 ≤ j ∧ j < n) ∨ (H - n ≤ j ∧ j < H))
        · rw [if_pos h3, if_pos]
          refine ⟨h3.1, ?_⟩
          rcases h3.2 with h | h
          · exact Or.inl (by omega)
          · exact Or.inr (by omega)
        · rw [if_neg h3, if_neg]
          rintro ⟨hx, h | h⟩
          · by_cases hj : j = n
            · exact h2 ⟨hx, hj⟩
            · exact h3 ⟨hx, Or.inl (by omega)⟩
          · by_cases hj : j = H - n - 1
            · exact h1 ⟨hx, hj⟩
            · exact h3 ⟨hx, Or.inr (by omega)⟩

theorem flipColumn_apply (H x : Int) (room : Int → Int → Char) (i j : Int) :
    flipColumn H x room i j =
      if i = x ∧ 0 ≤ j ∧ j < H then room x (H - 1 - j) else room i j := by
  unfold flipColumn
  by_cases hH : 0 ≤ H
  · rw [flipColumn_loop H x room (H / 2).toNat (by omega) i j]
    by_cases h1 : i = x ∧ 0 ≤ j ∧ j < H
    · rw [if_pos h1]
      by_cases h2 : (0 ≤ j ∧ j < ((H / 2).toNat : Int)) ∨ (H - ((H / 2).toNat : Int) ≤ j ∧ j < H)
      · rw [if_pos ⟨h1.1, h2⟩]
      · rw [if_neg (fun h => h2 h.2)]
        have : j = H - 1 - j := by omega
        rw [h1.1, ← this]
    · rw [if_neg h1, if_neg]
      rintro ⟨hx, h | h⟩
      · exact h1 ⟨hx, h.1, by omega⟩
      · exact h1 ⟨hx, by omega, h.2⟩
  · have : (H / 2).toNat = 0 := by omega
    rw [this]
    simp only [forLoop]
    rw [if_neg]
    rintro ⟨-, h⟩
    omega

theorem flipRoom_apply (H : Int) (room : Int → Int → Char) (n : Nat) (i j : Int) :
    forLoop (fun (x : Nat) room => flipColumn H x room) n room i j =
      if (0 ≤ i ∧ i < n) ∧ 0 ≤ j ∧ j < H then room i (H - 1 - j) else room i j := by
  induction n generalizing i j with
  | zero =>
    simp only [forLoop]
    rw [if_neg]
    rintro ⟨⟨h1, h2⟩, -⟩
    simp only [Nat.cast_zero] at h2
    omega
  | succ n ih =>
    simp only [forLoop]
    rw [flipColumn_apply, ih, ih]
    push_cast
    by_cases h1 : i = (n : Int) ∧ 0 ≤ j ∧ j < H
    · rw [if_pos h1, if_neg (by rintro ⟨⟨-, h⟩, -⟩; omega), if_pos ⟨⟨by omega, by omega⟩, h1.2⟩,
        h1.1]
    · rw [if_neg h1]
      by_cases h2 : (0 ≤ i ∧ i < (n : Int)) ∧ 0 ≤ j ∧ j < H
      · rw [if_pos h2, if_pos ⟨⟨h2.1.1, by omega⟩, h2.2⟩]
      · rw [if_neg h2, if_neg]
        rintro ⟨⟨h3, h4⟩, h5⟩
        by_cases h6 : i = (n : Int)
        · exact h1 ⟨h6, h5⟩
        · exact h2 ⟨⟨h3, by omega⟩, h5⟩

theorem flipAgents_apply (H : Int) (agents : Nat → agent) (n k : Nat) :
    forLoop (fun a agents => setAt agents a { agents a with y := H - (agents a).y - 1 }) n agents k =
      if k < n then { agents k with y := H - (agents k).y - 1 } else agents k := by
  induction n with
  | zero => simp [forLoop]
  | succ n ih =>
    simp only [forLoop, setAt]
    by_cases h1 : k = n
    · subst h1
      rw [if_pos rfl, if_pos (Nat.lt_succ_self _)]
      have : forLoop (fun a agents => setAt agents a { agents a with y := H - (agents a).y - 1 })
          k agents k = agents k := by
        rw [ih, if_neg (lt_irrefl _)]
      rw [this]
    · rw [if_neg h1, ih]
      by_cases h2 : k < n
      · rw [if_pos h2, if_pos (by omega)]
      · rw [if_neg h2, if_neg (by omega)]

/-! ## The room that `loadRoom` builds -/

/-- The end of `loadRoom` after a reading loop that took the rows of a room. -/
theorem finishLoad_rows {w : Nat} {l : Loader} {rows : List (List Char)}
    (h : LoadInv w l rows []) (hw : 1 ≤ w ∧ w ≤ 9) (hh : 1 ≤ rows.length ∧ rows.length ≤ 9) :
    (finishLoad l).roomWidth = w ∧ (finishLoad l).roomHeight = rows.length ∧
    (∀ x y : Nat, x < w → y < rows.length →
      (finishLoad l).room x y = cellOf (charAt rows (rows.length - 1 - y) x)) ∧
    agentList (finishLoad l) =
      (roomMarks 0 rows).map fun m => ⟨m.1, (rows.length : Int) - 1 - m.2, 2⟩ := by
  have hne : rows ≠ [] := by
    intro e
    rw [e] at hh
    simp at hh
  have hwid : l.st.roomWidth = (w : Int) := by
    rw [h.width, if_neg hne]
  have hy := h.y
  have c1 : ¬ (l.st.roomWidth < 1 ∨ l.st.roomWidth > ((MAX_ROOM_SIZE : Nat) : Int)) := by
    simp only [MAX_ROOM_SIZE]
    push_cast
    omega
  have c2 : ¬ (l.y < 1 ∨ l.y > ((MAX_ROOM_SIZE : Nat) : Int)) := by
    simp only [MAX_ROOM_SIZE]
    push_cast
    omega
  simp only [finishLoad]
  rw [if_neg c1, if_neg c2]
  refine ⟨hwid, hy, ?_, ?_⟩
  · intro x y hx hyy
    simp only []
    rw [flipRoom_apply, if_pos, hy]
    · have e : (rows.length : Int) - 1 - (y : Int) = ((rows.length - 1 - y : Nat) : Int) := by
        omega
      rw [e]
      exact h.cells x (rows.length - 1 - y) (by omega) hx
    · rw [hwid, hy]
      simp only [Int.toNat_ofNat]
      omega
  · simp only [agentList]
    have hag := h.agents
    simp only [agentList, rowMarks, List.append_nil] at hag
    have : (List.range l.st.numAgents).map
        (forLoop (fun a agents => setAt agents a { agents a with y := l.y - (agents a).y - 1 })
          l.st.numAgents l.st.agents) =
        ((List.range l.st.numAgents).map l.st.agents).map
          (fun a => { a with y := l.y - a.y - 1 }) := by
      rw [List.map_map]
      apply List.map_congr_left
      intro k hk
      rw [flipAgents_apply, if_pos (List.mem_range.mp hk)]
      rfl
    rw [this, hag, List.map_map, hy]
    apply List.map_congr_left
    intro m _
    simp only [Function.comp]
    congr 1
    ring

theorem loadRoom_of_loop {s : State} {text : List Char} {l : Loader}
    (h : loadLoop text
      { st := { s with roomWidth := 0, roomHeight := 0, numAgents := 0 }, x := 0, y := 0 } =
        .ok l) :
    loadRoom (some text) s = finishLoad l := by
  simp only [loadRoom, h]

/-- The room and the agents that `loadRoom` builds from the text of a room. -/
theorem loadRoom_built (s : State) (w : Nat) (rows : List (List Char)) (text : List Char)
    (hw : 1 ≤ w ∧ w ≤ 9) (hh : 1 ≤ rows.length ∧ rows.length ≤ 9) (hr : RoomRows w rows)
    (ht : text = joinRows rows ∨ text = linesText rows) :
    (loadRoom (some text) s).roomWidth = w ∧
    (loadRoom (some text) s).roomHeight = rows.length ∧
    (∀ x y : Nat, x < w → y < rows.length →
      (loadRoom (some text) s).room x y = cellOf (charAt rows (rows.length - 1 - y) x)) ∧
    agentList (loadRoom (some text) s) =
      (roomMarks 0 rows).map fun m => ⟨m.1, (rows.length : Int) - 1 - m.2, 2⟩ := by
  have hne : rows ≠ [] := by
    intro e
    rw [e] at hh
    simp at hh
  rcases ht with ht | ht
  · obtain ⟨l, hl, hinv⟩ := loadLoop_joinRows hw.2 hw.1 rows hr hne hh.2 _ (loadInv_init w s)
    rw [ht, loadRoom_of_loop hl]
    exact finishLoad_rows hinv hw hh
  · obtain ⟨l, hl, hinv⟩ := loadLoop_linesText hw.2 hw.1 rows hr hh.2 _ (loadInv_init w s)
    rw [ht, loadRoom_of_loop hl]
    exact finishLoad_rows hinv hw hh

/-- C14. Room load with the row flip. For every text of `h` rows of exactly `w` characters
each, `1 ≤ w, h ≤ 9`, the rows separated by newlines (with or without a newline after the last
row) and made of characters other than the two line breaks `\n` and `\r` that end a row,
`loadRoom` sets `roomWidth = w` and `roomHeight = h`, sets `room[x][y]` to the character in
column `x` of the file row `h - 1 - y`, with `FLOOR` in place of every `@`, and lists one agent
per `@`, in the reading order of the file, at `(x, h - 1 - row)` with health 2. -/
theorem loadRoom_rows (s : State) (w : Nat) (rows : List (List Char)) (text : List Char)
    (hw : 1 ≤ w ∧ w ≤ 9) (hh : 1 ≤ rows.length ∧ rows.length ≤ 9) (hr : RoomRows w rows)
    (ht : text = joinRows rows ∨ text = linesText rows) :
    (loadRoom (some text) s).roomWidth = w ∧
    (loadRoom (some text) s).roomHeight = rows.length ∧
    (∀ x y : Nat, x < w → y < rows.length →
      (loadRoom (some text) s).room x y = cellOf (charAt rows (rows.length - 1 - y) x)) ∧
    agentList (loadRoom (some text) s) =
      (roomMarks 0 rows).map fun m => ⟨m.1, (rows.length : Int) - 1 - m.2, 2⟩ :=
  loadRoom_built s w rows text hw hh hr ht

/-- C14 at the text of the two rows `=@` and `X.`: the agent of the first line ends on the top
row `y = 1`, the exit of the second line on the bottom row. -/
theorem loadRoom_rows_witness :
    RoomRows 2 [['=', '@'], ['X', '.']] ∧
    (loadRoom (some ['=', '@', '\n', 'X', '.']) blankState).roomWidth = 2 ∧
    (loadRoom (some ['=', '@', '\n', 'X', '.']) blankState).roomHeight = 2 ∧
    (∀ x y : Nat, x < 2 → y < 2 →
      (loadRoom (some ['=', '@', '\n', 'X', '.']) blankState).room x y =
        cellOf (charAt [['=', '@'], ['X', '.']] (2 - 1 - y) x)) ∧
    agentList (loadRoom (some ['=', '@', '\n', 'X', '.']) blankState) = [⟨1, 1, 2⟩] :=
  ⟨by unfold RoomRows; decide,
    loadRoom_rows blankState 2 [['=', '@'], ['X', '.']] ['=', '@', '\n', 'X', '.']
      (by decide) (by decide) (by unfold RoomRows; decide) (Or.inl rfl)⟩

/-! ## Saving the room that was loaded -/

theorem mem_rowMarks (row : Nat) : ∀ (cs : List Char) (col c r : Nat),
    (c, r) ∈ rowMarks row col cs ↔ r = row ∧ col ≤ c ∧ cs.getD (c - col) FLOOR = AGENT := by
  intro cs
  induction cs with
  | nil =>
    intro col c r
    simp [rowMarks, FLOOR, AGENT]
  | cons d cs ih =>
    intro col c r
    simp only [rowMarks, List.mem_append, ih]
    constructor
    · rintro (h | ⟨h1, h2, h3⟩)
      · by_cases hd : d = AGENT
        · rw [if_pos hd] at h
          simp only [List.mem_singleton, Prod.mk.injEq] at h
          refine ⟨h.2, by omega, ?_⟩
          rw [h.1, Nat.sub_self]
          simpa using hd
        · rw [if_neg hd] at h
          simp at h
      · refine ⟨h1, by omega, ?_⟩
        have : c - col = (c - (col + 1)) + 1 := by omega
        rw [this, List.getD_cons_succ]
        exact h3
    · rintro ⟨h1, h2, h3⟩
      by_cases hc : c = col
      · left
        rw [hc, Nat.sub_self] at h3
        simp only [List.getD_cons_zero] at h3
        rw [if_pos h3, hc, h1]
        exact List.mem_singleton_self _
      · right
        refine ⟨h1, by omega, ?_⟩
        have : c - col = (c - (col + 1)) + 1 := by omega
        rw [this, List.getD_cons_succ] at h3
        exact h3

theorem mem_roomMarks : ∀ (rs : List (List Char)) (row c r : Nat),
    (c, r) ∈ roomMarks row rs ↔ row ≤ r ∧ charAt rs (r - row) c = AGENT := by
  intro rs
  induction rs with
  | nil =>
    intro row c r
    simp [roomMarks, charAt, FLOOR, AGENT]
  | cons q rs ih =>
    intro row c r
    simp only [roomMarks, List.mem_append, ih, mem_rowMarks, Nat.zero_le, Nat.sub_zero, true_and]
    constructor
    · rintro (⟨h1, h2⟩ | ⟨h1, h2⟩)
      · refine ⟨by omega, ?_⟩
        rw [h1, Nat.sub_self]
        simpa [charAt] using h2
      · refine ⟨by omega, ?_⟩
        have : r - row = (r - (row + 1)) + 1 := by omega
        rw [this]
        simpa [charAt] using h2
    · rintro ⟨h1, h2⟩
      by_cases hr : r = row
      · left
        rw [hr, Nat.sub_self] at h2
        exact ⟨hr, by simpa [charAt] using h2⟩
      · right
        refine ⟨by omega, ?_⟩
        have : r - row = (r - (row + 1)) + 1 := by omega
        rw [this] at h2
        simpa [charAt] using h2

theorem mem_agentList (s : State) (a : agent) :
    a ∈ agentList s ↔ ∃ k, k < s.numAgents ∧ s.agents k = a := by
  simp only [agentList, List.mem_map, List.mem_range]

theorem range_map_getD (r : List Char) (d : Char) :
    (List.range r.length).map (fun x => r.getD x d) = r := by
  apply List.ext_getElem
  · simp
  · intro n h1 h2
    simp only [List.getElem_map, List.getElem_range]
    rw [List.getD_eq_getElem _ _ h2]

theorem linesText_append (a : List (List Char)) (r : List Char) :
    linesText (a ++ [r]) = linesText a ++ (r ++ ['\n']) := by
  induction a with
  | nil => simp [linesText]
  | cons q a ih =>
    rw [List.cons_append]
    simp only [linesText, ih, List.append_assoc, List.cons_append]

theorem saveRow_loop (f : Nat → Char) (n : Nat) (out : List Char) :
    forLoop (fun x out => out ++ [f x]) n out = out ++ (List.range n).map f := by
  induction n with
  | zero => simp [forLoop]
  | succ n ih =>
    simp only [forLoop, ih, List.range_succ, List.map_append, List.map_cons, List.map_nil,
      List.append_assoc]

/-- In the room loaded from the rows, `agentAt` finds an agent exactly on the cells of the
characters `@`. -/
theorem agentAt_loaded (s : State) (w : Nat) (rows : List (List Char))
    (hw : 1 ≤ w ∧ w ≤ 9) (hh : 1 ≤ rows.length ∧ rows.length ≤ 9) (hr : RoomRows w rows)
    (x k : Nat) (hx : x < w) (hk : k < rows.length) :
    agentAt (loadRoom (some (linesText rows)) s) x ((rows.length : Int) - 1 - k) ≠ none ↔
      charAt rows k x = AGENT := by
  obtain ⟨e1, e2, -, e4⟩ := loadRoom_built s w rows (linesText rows) hw hh hr (Or.inr rfl)
  rw [agentAt_ne_none]
  have hroom : isInRoom (loadRoom (some (linesText rows)) s) x ((rows.length : Int) - 1 - k)
      = true := by
    simp only [isInRoom, e1, e2, Bool.and_eq_true, decide_eq_true_eq]
    omega
  simp only [hroom, true_and]
  constructor
  · rintro ⟨i, hi, hax, hay⟩
    have hmem : (loadRoom (some (linesText rows)) s).agents i ∈
        agentList (loadRoom (some (linesText rows)) s) := (mem_agentList _ _).mpr ⟨i, hi, rfl⟩
    rw [e4, List.mem_map] at hmem
    obtain ⟨m, hm, hma⟩ := hmem
    rw [← hma] at hax hay
    simp only at hax hay
    have h1 : m.1 = x := by omega
    have hm2 := (mem_roomMarks rows 0 m.1 m.2).mp hm
    have h2 : m.2 = k := by omega
    rw [h1, h2, Nat.sub_zero] at hm2
    exact hm2.2
  · intro hc
    have hm : (x, k) ∈ roomMarks 0 rows := (mem_roomMarks rows 0 x k).mpr ⟨Nat.zero_le _, hc⟩
    have hmem : (⟨(x : Int), (rows.length : Int) - 1 - k, 2⟩ : agent) ∈
        agentList (loadRoom (some (linesText rows)) s) := by
      rw [e4, List.mem_map]
      exact ⟨(x, k), hm, rfl⟩
    obtain ⟨i, hi, hai⟩ := (mem_agentList _ _).mp hmem
    exact ⟨i, hi, by rw [hai], by rw [hai]⟩

/-- The characters that the saver writes for the row `k` from the top are the row `k` of the
file. -/
theorem saveRow_loaded (s : State) (w : Nat) (rows : List (List Char))
    (hw : 1 ≤ w ∧ w ≤ 9) (hh : 1 ≤ rows.length ∧ rows.length ≤ 9) (hr : RoomRows w rows)
    (k : Nat) (hk : k < rows.length) :
    (List.range w).map (fun (x : Nat) =>
      if agentAt (loadRoom (some (linesText rows)) s) x ((rows.length : Int) - 1 - k) ≠ none
      then AGENT
      else (loadRoom (some (linesText rows)) s).room x ((rows.length : Int) - 1 - k)) =
    rows.getD k [] := by
  obtain ⟨-, -, e3, -⟩ := loadRoom_built s w rows (linesText rows) hw hh hr (Or.inr rfl)
  have hlen : (rows.getD k []).length = w := by
    rw [List.getD_eq_getElem _ _ hk]
    exact (hr _ (List.getElem_mem _)).1
  have key : (List.range w).map (fun (x : Nat) =>
      if agentAt (loadRoom (some (linesText rows)) s) x ((rows.length : Int) - 1 - k) ≠ none
      then AGENT
      else (loadRoom (some (linesText rows)) s).room x ((rows.length : Int) - 1 - k)) =
      (List.range w).map (fun x => (rows.getD k []).getD x FLOOR) := by
    apply List.map_congr_left
    intro x hxm
    have hx : x < w := List.mem_range.mp hxm
    have hcell := e3 x (rows.length - 1 - k) hx (by omega)
    have e : ((rows.length - 1 - k : Nat) : Int) = (rows.length : Int) - 1 - k := by omega
    rw [e] at hcell
    have e' : rows.length - 1 - (rows.length - 1 - k) = k := by omega
    rw [e'] at hcell
    by_cases hc : charAt rows k x = AGENT
    · rw [if_pos ((agentAt_loaded s w rows hw hh hr x k hx hk).mpr hc)]
      exact hc.symm
    · rw [if_neg (fun h => hc ((agentAt_loaded s w rows hw hh hr x k hx hk).mp h)), hcell]
      simp only [cellOf, if_neg hc]
      rfl
  rw [key, ← hlen]
  exact range_map_getD _ _

theorem saveRoom_loaded (s : State) (w : Nat) (rows : List (List Char))
    (hw : 1 ≤ w ∧ w ≤ 9) (hh : 1 ≤ rows.length ∧ rows.length ≤ 9) (hr : RoomRows w rows) :
    saveRoom (loadRoom (some (linesText rows)) s) = linesText rows := by
  obtain ⟨e1, e2, -, -⟩ := loadRoom_built s w rows (linesText rows) hw hh hr (Or.inr rfl)
  have hloop : ∀ (a b : List (List Char)), rows = a ++ b →
      forLoop
        (fun k out =>
          forLoop
            (fun (x : Nat) out => out ++
              [if agentAt (loadRoom (some (linesText rows)) s) x ((rows.length : Int) - 1 - k)
                  ≠ none then AGENT
                else (loadRoom (some (linesText rows)) s).room x ((rows.length : Int) - 1 - k)])
            w out ++ ['\n'])
        a.length [] = linesText a := by
    intro a
    induction a using List.reverseRecOn with
    | nil =>
      intro b _
      rfl
    | append_singleton a r ih =>
      intro b hab
      have hk : a.length < rows.length := by
        rw [hab]
        simp only [List.length_append, List.length_singleton]
        omega
      have hr' : rows.getD a.length [] = r := by
        rw [hab, List.append_assoc, List.getD_append_right _ _ _ _ (le_refl _)]
        simp
      rw [List.length_append, List.length_singleton]
      simp only [forLoop]
      rw [ih ([r] ++ b) (by rw [hab, List.append_assoc]), saveRow_loop,
        saveRow_loaded s w rows hw hh hr a.length hk, hr', linesText_append, List.append_assoc]
  have := hloop rows [] (List.append_nil rows).symm
  simp only [saveRoom, e1, e2, Int.toNat_ofNat]
  exact this

/-- C17. The save/load round trip. For every text made of `h` rows of exactly `w` characters
other than the line breaks `\n` and `\r`, each row terminated by `\n`, with `1 ≤ w, h ≤ 9`,
writing the state that `loadRoom` produces from the text with the room saver (the rows from
`y = roomHeight - 1` down to 0, `@` wherever `agentAt` finds an agent and the cell character
elsewhere, `\n` after each row) gives back the text. -/
theorem save_load_roundtrip (s : State) (w : Nat) (rows : List (List Char))
    (hw : 1 ≤ w ∧ w ≤ 9) (hh : 1 ≤ rows.length ∧ rows.length ≤ 9) (hr : RoomRows w rows) :
    saveRoom (loadRoom (some (linesText rows)) s) = linesText rows :=
  saveRoom_loaded s w rows hw hh hr

/-- C17 at the text of the two rows `=@` and `X.`, each terminated by a newline. -/
theorem save_load_roundtrip_witness :
    linesText [['=', '@'], ['X', '.']] = ['=', '@', '\n', 'X', '.', '\n'] ∧
    saveRoom (loadRoom (some (linesText [['=', '@'], ['X', '.']])) blankState) =
      linesText [['=', '@'], ['X', '.']] :=
  ⟨rfl, save_load_roundtrip blankState 2 [['=', '@'], ['X', '.']] (by decide) (by decide)
    (by unfold RoomRows; decide)⟩

/-! ## The shape of the claims, without any assumption on the agents -/

theorem revertStep_shape {s : State} {recs : Nat → actionrecord} (cmap : Int → Int → Option Nat)
    (b : Nat) (h : ∀ c, RecShape s (recs c)) : ∀ c, RecShape s ((revertStep recs cmap b).1 c) := by
  intro c
  rw [revertStep_recs]
  split_ifs with hc
  · exact Or.inl ⟨rfl, rfl⟩
  · exact h c

theorem chainWhile_shape {s : State} (fuel : Nat) (recs : Nat → actionrecord)
    (cmap : Int → Int → Option Nat) (c : Option Nat)
    (r : (Nat → actionrecord) × (Int → Int → Option Nat)) (h : ∀ b, RecShape s (recs b))
    (hr : chainWhile fuel recs cmap c = some r) : ∀ b, RecShape s (r.1 b) :=
  chainWhile_induct (fun recs _ _ => ∀ b, RecShape s (recs b))
    (fun _ cmap b hp => revertStep_shape cmap b hp) fuel recs cmap c r h hr

theorem claimCell_shape {s : State} {fuel a : Nat} {act : action} {recs : Nat → actionrecord}
    {cmap : Int → Int → Option Nat} {r : (Nat → actionrecord) × (Int → Int → Option Nat)}
    (h : ∀ b, RecShape s (recs b)) (hdx : (recs a).dx = (recs a).x)
    (hdy : (recs a).dy = (recs a).y) (hact : (recs a).action = act)
    (hr : claimCell s fuel a act recs cmap = some r) : ∀ b, RecShape s (r.1 b) := by
  obtain ⟨recs1, h1ne, h1dec, h1claim, heq⟩ := claimCell_eq s fuel a act recs cmap hdx hdy
  have h1 : ∀ b, RecShape s (recs1 b) := by
    intro b
    by_cases hb : b = a
    · subst hb
      right
      rw [h1claim, h1dec.2.1, h1dec.2.2.1, h1dec.2.2.2.1, hact]
    · rw [h1ne b hb]
      exact h b
  rw [heq] at hr
  split at hr
  · simp only [Option.some.injEq] at hr
    subst hr
    exact h1
  · obtain ⟨r1, hr1, hr⟩ := Option.bind_eq_some.mp hr
    obtain ⟨r2, hr2, hr⟩ := Option.bind_eq_some.mp hr
    simp only [Option.some.injEq] at hr
    subst hr
    rw [chainDoWhile_eq] at hr1
    have h2 := chainWhile_shape fuel _ _ _ r1 h1 hr1
    refine chainWhile_shape fuel _ _ _ r2 ?_ hr2
    intro b
    by_cases hb : b = a
    · subst hb
      rw [setAt_same]
      exact Or.inl ⟨rfl, rfl⟩
    · rw [setAt_ne _ _ _ _ hb]
      exact h2 b

theorem pass1Body_shape {s : State} {fuel n : Nat} {p p' : Pass1}
    (h : ∀ b, RecShape s (p.actionRecords b)) (hb : pass1Body s fuel n p = some p') :
    ∀ b, RecShape s (p'.actionRecords b) := by
  by_cases ha : isActive s n
  · obtain ⟨recs2, hne, hrec, heq⟩ := @pass1Body_active s fuel n p ha
    rw [heq] at hb
    obtain ⟨c, hc, hb⟩ := Option.bind_eq_some.mp hb
    obtain ⟨r, hr, hb⟩ := Option.bind_eq_some.mp hb
    simp only [Option.some.injEq] at hb
    subst hb
    have hn := hrec c hc
    have h2 : ∀ b, RecShape s (recs2 b) := by
      intro b
      by_cases hbn : b = n
      · subst hbn
        rw [hn]
        exact Or.inl ⟨rfl, rfl⟩
      · rw [hne b hbn]
        exact h b
    exact claimCell_shape h2 (by rw [hn]) (by rw [hn]) (by rw [hn]) hr
  · rw [pass1Body_inactive ha] at hb
    simp only [Option.some.injEq] at hb
    subst hb
    intro b
    simp only
    by_cases hbn : b = n
    · subst hbn
      rw [setAt_same]
      exact Or.inl ⟨rfl, rfl⟩
    · rw [setAt_ne _ _ _ _ hbn]
      exact h b

/-- After pass 1 every record claims its start cell or the tentative destination of its
action. -/
theorem pass1_shape {s : State} {fuel : Nat} {p : Pass1} (h : pass1 s fuel = some p) :
    ∀ b, RecShape s (p.actionRecords b) :=
  forLoopM_induct (pass1Body s fuel) (fun _ p => ∀ b, RecShape s (p.actionRecords b))
    s.numAgents (pass1Init s) (fun _ => Or.inl ⟨rfl, rfl⟩)
    (fun _ _ _ _ hp hb => pass1Body_shape hp hb) s.numAgents (le_refl _) p h

/-! ## The agent invariant -/

theorem AgentOk.ok_congr {s s' : State} {room : Int → Int → Char} {ag : agent}
    (hw : s'.roomWidth = s.roomWidth) (hh : s'.roomHeight = s.roomHeight)
    (h : AgentOk s room ag) : AgentOk s' room ag := by
  unfold AgentOk isInRoom at *
  rw [hw, hh]
  exact h

theorem AgentsOk.all_congr {s s' : State} {room : Int → Int → Char} {agents : Nat → agent}
    (hw : s'.roomWidth = s.roomWidth) (hh : s'.roomHeight = s.roomHeight)
    (hn : s'.numAgents = s.numAgents) (h : AgentsOk s room agents) : AgentsOk s' room agents := by
  intro a ha
  rw [hn] at ha
  exact (h a ha).ok_congr hw hh

theorem Pass3Inv.stays_passable {s st : State} {recs : Nat → actionrecord} {n : Nat}
    (h : Pass3Inv s recs n st) (x y : Int) (hp : isPassable (s.room x y) = true) :
    isPassable (st.room x y) = true := by
  rcases h.room x y with e | ⟨-, e⟩
  · rw [e]
    exact hp
  · rw [e]
    rfl

/-- What the transition of pass 3 does to the agent it rewards. -/
theorem transition_agent (a : Nat) (s : State) :
    (transition a s).2.2.agents a = ⟨ESCAPED, ESCAPED, (s.agents a).health⟩ ∨
    (((transition a s).2.2.agents a).x = (s.agents a).x ∧
      ((transition a s).2.2.agents a).y = (s.agents a).y ∧
      (((transition a s).2.2.agents a).health = (s.agents a).health ∨
        ((transition a s).2.2.agents a).health = (s.agents a).health - 1 ∨
        ((transition a s).2.2.agents a).health = MAX_HEALTH)) := by
  unfold transition
  simp only
  split_ifs <;> simp [setAt]

theorem escaped_not_inRoom (s : State) (x y : Int) (hw : s.roomWidth ≤ 9)
    (h : isInRoom s x y = true) : x ≠ ESCAPED := by
  simp only [isInRoom, Bool.and_eq_true, decide_eq_true_eq] at h
  simp only [ESCAPED]
  omega

/-- The three passes preserve the condition on the agents. -/
theorem simulatePasses_agentsOk {fuel : Nat} {s : State} {r : Bool × State}
    (hw : s.roomWidth ≤ 9) (hok : AgentsOk s s.room s.agents)
    (h : simulatePasses fuel s = some r) : AgentsOk s r.2.room r.2.agents := by
  obtain ⟨p, s2, hp1, hp2, hp3, -⟩ := simulatePasses_parts h
  obtain ⟨bw, bh, br, bn, ba, -⟩ := backup_fields s
  have hbasic := pass1_basic hp1
  have hshape := pass1_shape hp1
  have hxy : ∀ b, b < ({ backup s with globalRNG := p.globalRNG } : State).numAgents →
      (p.actionRecords b).isEscaping = true →
      (p.actionRecords b).x = (({ backup s with globalRNG := p.globalRNG } : State).agents b).x ∧
      (p.actionRecords b).y = (({ backup s with globalRNG := p.globalRNG } : State).agents b).y :=
    fun b hb _ => hbasic.coords b hb
  have h2 := pass2_inv hxy hp2
  have h3 := pass3_inv hp3
  have hn2 : s2.numAgents = s.numAgents := by
    rw [h2.config.fields.2.2.1]
    exact bn
  intro a ha
  have hoka := hok a ha
  by_cases hesc : (p.actionRecords a).isEscaping = true
  · -- the agent takes part in the turn
    obtain ⟨han, hact⟩ := (hbasic.escaping_iff a).mp hesc
    have hact' : isActive s a := (backup_isActive s a).mp hact
    obtain ⟨hcx, hcy⟩ := hbasic.coords a han
    rw [ba] at hcx hcy
    have hstart : isPassable (s.room (s.agents a).x (s.agents a).y) = true := by
      rcases hoka.2 with ⟨ex, -⟩ | ⟨-, hpass⟩
      · exact absurd ex (escaped_not_inRoom s _ _ hw hact'.1)
      · exact hpass
    -- the cell claimed is in the room and passable
    have hclaim : isInRoom s (p.actionRecords a).dx (p.actionRecords a).dy = true ∧
        isPassable (s.room (p.actionRecords a).dx (p.actionRecords a).dy) = true := by
      rcases hshape a with ⟨e1, e2⟩ | e
      · rw [e1, e2, hcx, hcy]
        exact ⟨hact'.1, hstart⟩
      · have e1 : (p.actionRecords a).dx =
            (tentative (backup s) (p.actionRecords a).action (s.agents a).x (s.agents a).y).1 := by
          rw [← hcx, ← hcy, ← e]
        have e2 : (p.actionRecords a).dy =
            (tentative (backup s) (p.actionRecords a).action (s.agents a).x (s.agents a).y).2 := by
          rw [← hcx, ← hcy, ← e]
        have hin := tentative_inRoom (backup s) (p.actionRecords a).action (s.agents a).x
          (s.agents a).y (by
            have := hact'.1
            simp only [isInRoom, bw, bh] at this ⊢
            exact this)
        have hpa := tentative_passable (backup s) (p.actionRecords a).action (s.agents a).x
          (s.agents a).y (by rw [br]; exact hstart)
        rw [br] at hpa
        rw [e1, e2]
        refine ⟨?_, hpa⟩
        simp only [isInRoom, bw, bh] at hin ⊢
        exact hin
    have hmoved := h2.moved a (by rw [← hn2] at ha; rw [h2.config.fields.2.2.1] at ha; exact ha) hesc
    -- pass 3 at the agent
    obtain ⟨st, st', hst, hbody, hinv, hag⟩ := pass3_at hp3 (by rw [hn2]; exact ha)
    have hsta : st.agents a = s2.agents a := hinv.rest a (fun hc => absurd hc.1 (lt_irrefl a))
    obtain ⟨-, -, -, -, hesc3⟩ := pass3Body_frame hbody
    have hag' : r.2.agents a = (transition a st).2.2.agents a := by
      rw [hag, (hesc3 hesc).1]
    have hhealth : (st.agents a).health = (s.agents a).health := by
      rw [hsta, hmoved]
      simp only [ba]
    have hpos : (st.agents a).x = (p.actionRecords a).dx ∧
        (st.agents a).y = (p.actionRecords a).dy := by
      rw [hsta, hmoved]
      exact ⟨rfl, rfl⟩
    have hh12 : (s.agents a).health = 1 ∨ (s.agents a).health = 2 := by
      have := hact'.2
      rcases hoka.1 with e | e | e
      · omega
      · exact Or.inl e
      · exact Or.inr e
    rw [AgentOk, hag']
    rcases transition_agent a st with e | ⟨ex, ey, eh⟩
    · rw [e]
      refine ⟨?_, Or.inl ⟨rfl, rfl⟩⟩
      simp only [hhealth]
      rcases hh12 with e | e
      · exact Or.inr (Or.inl e)
      · exact Or.inr (Or.inr e)
    · refine ⟨?_, Or.inr ?_⟩
      · rw [hhealth] at eh
        simp only [MAX_HEALTH] at eh
        omega
      · rw [ex, ey, hpos.1, hpos.2]
        refine ⟨hclaim.1, h3.stays_passable _ _ (h2.passable _ _ ?_)⟩
        simp only [br]
        exact hclaim.2
  · -- the agent sits the turn out
    have e3 : r.2.agents a = s2.agents a := h3.rest a (fun hc => hesc hc.2)
    have e2 : s2.agents a = s.agents a := by
      rw [h2.rest a (fun hc => hesc hc.2)]
      simp only [ba]
    rw [e3, e2]
    refine ⟨hoka.1, ?_⟩
    rcases hoka.2 with hesc' | ⟨hin, hpass⟩
    · exact Or.inl hesc'
    · exact Or.inr ⟨hin, h3.stays_passable _ _ (h2.passable _ _ (by simp only [br]; exact hpass))⟩

theorem epochEnd_sizes (flag : Bool) (s : State) :
    (epochEnd flag s).2.roomWidth = s.roomWidth ∧ (epochEnd flag s).2.roomHeight = s.roomHeight ∧
    (epochEnd flag s).2.numAgents = s.numAgents ∧
    (epochEnd flag s).2.backupRoom = s.backupRoom ∧
    (epochEnd flag s).2.backupAgents = s.backupAgents := by
  unfold epochEnd
  simp only
  split_ifs <;> exact ⟨rfl, rfl, rfl, rfl, rfl⟩

/-- The snapshot that a turn works with meets the condition on the agents. -/
theorem backup_agentsOk {s : State} (h : TurnInv s) :
    AgentsOk s (backup s).backupRoom (backup s).backupAgents := by
  unfold backup
  by_cases h0 : s.currTurn = 0
  · rw [if_pos h0]
    exact h.2.1
  · rw [if_neg h0]
    rcases h.2.2 with e | e
    · exact absurd e h0
    · exact e

theorem TurnInv.wellFormed {s : State} (h : TurnInv s) (hd : ActiveDistinct s) : WellFormed s := by
  refine ⟨hd, fun b hb hact => ?_⟩
  obtain ⟨hhealth, hpos⟩ := h.2.1 b hb
  constructor
  · simp only [MAX_HEALTH]
    omega
  · rcases hpos with ⟨ex, -⟩ | ⟨-, hpass⟩
    · exact absurd ex (escaped_not_inRoom s _ _ h.1.2.1 hact.1)
    · exact hpass

/-- C18. The agent invariant is preserved. If the room has a side between 1 and 9 each way and
every listed agent has health 0, 1 or 2 and is at the sentinel `ESCAPED` or on a cell of the
room on which `isPassable` is `TRUE`, and `currTurn = 0` or the snapshot meets the same
condition, then the same holds after `simulateTurn`, whatever actions the agents pick and
whether or not the epoch ends. The call returns when, besides, the active agents stand on
pairwise distinct cells and the chains have fuel for as many steps as there are agents. -/
theorem agent_invariant (fuel : Nat) (s : State) (h : TurnInv s) :
    (ActiveDistinct s → s.numAgents ≤ fuel → ∃ r, simulateTurn fuel s = some r) ∧
    ∀ r, simulateTurn fuel s = some r → TurnInv r.2 := by
  refine ⟨fun hd hfuel => simulateTurn_total (h.wellFormed hd) hfuel, ?_⟩
  intro r hr
  obtain ⟨flag, s3, hpasses, rfl⟩ := simulateTurn_eq_some hr
  have hok3 := simulatePasses_agentsOk h.1.2.1 h.2.1 hpasses
  obtain ⟨hcfg, -, -⟩ := simulatePasses_frame hpasses
  obtain ⟨bw, bh, -, bn, -⟩ := backup_fields s
  obtain ⟨cw, ch, cn, cbr, cba, -⟩ := hcfg.fields
  simp only at cw ch cn cbr cba hok3
  obtain ⟨ew, eh, en, ebr, eba⟩ := epochEnd_sizes flag s3
  have hw : (epochEnd flag s3).2.roomWidth = s.roomWidth := by rw [ew, cw, bw]
  have hh : (epochEnd flag s3).2.roomHeight = s.roomHeight := by rw [eh, ch, bh]
  have hn : (epochEnd flag s3).2.numAgents = s.numAgents := by rw [en, cn, bn]
  have hsnap := backup_agentsOk h
  refine ⟨by rw [hw, hh]; exact h.1, ?_, ?_⟩
  · by_cases hf : (epochEnd flag s3).1 = true
    · obtain ⟨er, ea, -⟩ := epochEnd_true hf
      rw [er, ea, cbr, cba]
      exact hsnap.all_congr hw hh hn
    · have hf' : (epochEnd flag s3).1 = false := by
        cases hb : (epochEnd flag s3).1
        · rfl
        · exact absurd hb hf
      have e := epochEnd_false hf'
      have er : (epochEnd flag s3).2.room = s3.room := by rw [e]
      have ea : (epochEnd flag s3).2.agents = s3.agents := by rw [e]
      rw [er, ea]
      exact hok3.all_congr hw hh hn
  · by_cases hf : (epochEnd flag s3).1 = true
    · exact Or.inl (epochEnd_true hf).2.2.1
    · right
      rw [ebr, eba, cbr, cba]
      exact hsnap.all_congr hw hh hn

/-- C18 at `exitState`, with fuel 1: the one agent steps onto the exit and ends the turn at
the sentinel `ESCAPED`. -/
theorem agent_invariant_witness :
    TurnInv exitState ∧
    ((ActiveDistinct exitState → exitState.numAgents ≤ 1 →
        ∃ r, simulateTurn 1 exitState = some r) ∧
      ∀ r, simulateTurn 1 exitState = some r → TurnInv r.2) :=
  ⟨by decide, agent_invariant 1 exitState (by decide)⟩

/-! ## The cells of the room across a turn -/

/-- The three passes change a cell at most from intact glass to shards, from closed to open
door, or from bandage to floor. -/
theorem simulatePasses_room {fuel : Nat} {s : State} {r : Bool × State}
    (h : simulatePasses fuel s = some r) (x y : Int) :
    r.2.room x y = s.room x y ∨ (s.room x y = GLASS ∧ r.2.room x y = SHARDS) ∨
      (s.room x y = DOOR ∧ r.2.room x y = OPEN_DOOR) ∨
      (s.room x y = BANDAGE ∧ r.2.room x y = FLOOR) := by
  obtain ⟨p, s2, hp1, hp2, hp3, -⟩ := simulatePasses_parts h
  obtain ⟨-, -, br, -, ba, -⟩ := backup_fields s
  have hbasic := pass1_basic hp1
  have h2 := pass2_inv (s := { backup s with globalRNG := p.globalRNG })
    (fun b hb _ => hbasic.coords b hb) hp2
  have h3 := pass3_inv hp3
  have r2 := h2.room x y
  simp only [br] at r2
  rcases h3.room x y with e3 | ⟨e3, e3'⟩
  · rw [e3]
    rcases r2 with e | e | e
    · exact Or.inl e
    · exact Or.inr (Or.inl e)
    · exact Or.inr (Or.inr (Or.inl e))
  · rcases r2 with e | ⟨-, e⟩ | ⟨-, e⟩
    · exact Or.inr (Or.inr (Or.inr ⟨by rw [← e]; exact e3, e3'⟩))
    · rw [e] at e3
      exact absurd e3 (by decide)
    · rw [e] at e3
      exact absurd e3 (by decide)

theorem simulateTurn_room {fuel : Nat} {s s' : State} (h : simulateTurn fuel s = some (false, s'))
    (x y : Int) :
    s'.room x y = s.room x y ∨ (s.room x y = GLASS ∧ s'.room x y = SHARDS) ∨
      (s.room x y = DOOR ∧ s'.room x y = OPEN_DOOR) ∨
      (s.room x y = BANDAGE ∧ s'.room x y = FLOOR) := by
  obtain ⟨flag, s3, hpasses, he⟩ := simulateTurn_eq_some h
  have hf : (epochEnd flag s3).1 = false := by rw [← he]
  have e := epochEnd_false hf
  have er : s'.room = s3.room := by
    have : s' = (epochEnd flag s3).2 := by rw [← he]
    rw [this, e]
  rw [er]
  exact simulatePasses_room hpasses x y

theorem simulateTurn_sizes {fuel : Nat} {s : State} {r : Bool × State}
    (h : simulateTurn fuel s = some r) :
    r.2.roomWidth = s.roomWidth ∧ r.2.roomHeight = s.roomHeight ∧
      r.2.numAgents = s.numAgents := by
  obtain ⟨flag, s3, hpasses, rfl⟩ := simulateTurn_eq_some h
  obtain ⟨hcfg, -, -⟩ := simulatePasses_frame hpasses
  obtain ⟨bw, bh, -, bn, -⟩ := backup_fields s
  obtain ⟨cw, ch, cn, -⟩ := hcfg.fields
  obtain ⟨ew, eh, en, -⟩ := epochEnd_sizes flag s3
  exact ⟨by rw [ew, cw, bw], by rw [eh, ch, bh], by rw [en, cn, bn]⟩

/-- Within an epoch the size of the room and the number of agents stay, and so does every
cell of stable content. -/
theorem midEpochTurns_room {fuel : Nat} {s : State} :
    ∀ n s', midEpochTurns fuel n s = some s' →
      (s'.roomWidth = s.roomWidth ∧ s'.roomHeight = s.roomHeight ∧
        s'.numAgents = s.numAgents) ∧
      ∀ x y, StableCell (s.room x y) → s'.room x y = s.room x y := by
  intro n
  induction n with
  | zero =>
    intro s' h
    simp only [midEpochTurns, Option.some.injEq] at h
    subst h
    exact ⟨⟨rfl, rfl, rfl⟩, fun _ _ _ => rfl⟩
  | succ n ih =>
    intro s' h
    simp only [midEpochTurns] at h
    obtain ⟨s1, h1, hstep⟩ := Option.bind_eq_some.mp h
    obtain ⟨⟨iw, ih', inn⟩, icell⟩ := ih s1 h1
    have hturn := midEpochTurn_eq_some hstep
    obtain ⟨tw, th, tn⟩ := simulateTurn_sizes hturn
    refine ⟨⟨by rw [tw, iw], by rw [th, ih'], by rw [tn, inn]⟩, ?_⟩
    intro x y hst
    have e1 := icell x y hst
    rcases simulateTurn_room hturn x y with e | ⟨e, -⟩ | ⟨e, -⟩ | ⟨e, -⟩
    · rw [e, e1]
    all_goals
      rw [e1] at e
      rw [e] at hst
      exact absurd hst (by unfold StableCell; decide)

/-- C19. Cells are static but for the three interactions. After a call of `simulateTurn` that
does not end the epoch every cell holds what it held before, or it went from intact glass to
shards, from closed to open door, or from bandage to floor. So a cell of floor, wall, exit,
shards or open door keeps its content over any number of consecutive calls that do not end the
epoch, and `roomWidth`, `roomHeight` and `numAgents` are the same after every call. The call
returns on a well-formed state with fuel for as many chain steps as there are agents. -/
theorem cells_static (fuel : Nat) (s : State) :
    (WellFormed s → s.numAgents ≤ fuel → ∃ r, simulateTurn fuel s = some r) ∧
    (∀ s', simulateTurn fuel s = some (false, s') → ∀ x y,
      s'.room x y = s.room x y ∨ (s.room x y = GLASS ∧ s'.room x y = SHARDS) ∨
        (s.room x y = DOOR ∧ s'.room x y = OPEN_DOOR) ∨
        (s.room x y = BANDAGE ∧ s'.room x y = FLOOR)) ∧
    (∀ r, simulateTurn fuel s = some r →
      r.2.roomWidth = s.roomWidth ∧ r.2.roomHeight = s.roomHeight ∧
        r.2.numAgents = s.numAgents) ∧
    (∀ n s', midEpochTurns fuel n s = some s' →
      (s'.roomWidth = s.roomWidth ∧ s'.roomHeight = s.roomHeight ∧
        s'.numAgents = s.numAgents) ∧
      ∀ x y, StableCell (s.room x y) → s'.room x y = s.room x y) :=
  ⟨fun hw hfuel => simulateTurn_total hw hfuel, fun _ h x y => simulateTurn_room h x y,
    fun _ h => simulateTurn_sizes h, midEpochTurns_room⟩

/-- C19 at `glassState`, with fuel 1: the agent walks into the glass, which breaks, and the
wall behind it stays. -/
theorem cells_static_witness :
    (simulateTurn 1 glassState).map (fun r => (r.1, (List.range 3).map fun x => r.2.room x 0)) =
      some (false, [FLOOR, SHARDS, WALL]) ∧
    ∀ s', simulateTurn 1 glassState = some (false, s') → ∀ x y,
      s'.room x y = glassState.room x y ∨
        (glassState.room x y = GLASS ∧ s'.room x y = SHARDS) ∨
        (glassState.room x y = DOOR ∧ s'.room x y = OPEN_DOOR) ∨
        (glassState.room x y = BANDAGE ∧ s'.room x y = FLOOR) :=
  ⟨by decide!, (cells_static 1 glassState).2.1⟩

/-! ## The interactions of pass 2 -/

theorem actionModCoords_congr {s s' : State} (hw : s'.roomWidth = s.roomWidth)
    (hh : s'.roomHeight = s.roomHeight) (a : action) (x y : Int) :
    actionModCoords s' a x y = actionModCoords s a x y := by
  unfold actionModCoords
  rw [hw, hh]

/-- The clamped target of an action from a cell of the room is the cell itself or one of its
four neighbours. -/
theorem actionModCoords_near (s : State) (a : action) (x y : Int) (h : isInRoom s x y = true) :
    actionModCoords s a x y = (x, y) ∨
      Int.natAbs ((actionModCoords s a x y).1 - x) +
        Int.natAbs ((actionModCoords s a x y).2 - y) = 1 := by
  simp only [isInRoom, Bool.and_eq_true, decide_eq_true_eq] at h
  have cx : clamp x 0 (s.roomWidth - 1) = x := by
    unfold clamp
    split_ifs <;> omega
  have cy : clamp y 0 (s.roomHeight - 1) = y := by
    unfold clamp
    split_ifs <;> omega
  have cxl : clamp (x - 1) 0 (s.roomWidth - 1) = x - 1 ∨ clamp (x - 1) 0 (s.roomWidth - 1) = x := by
    unfold clamp
    split_ifs <;> omega
  have cxr : clamp (x + 1) 0 (s.roomWidth - 1) = x + 1 ∨ clamp (x + 1) 0 (s.roomWidth - 1) = x := by
    unfold clamp
    split_ifs <;> omega
  have cyd : clamp (y - 1) 0 (s.roomHeight - 1) = y - 1 ∨
      clamp (y - 1) 0 (s.roomHeight - 1) = y := by
    unfold clamp
    split_ifs <;> omega
  have cyu : clamp (y + 1) 0 (s.roomHeight - 1) = y + 1 ∨
      clamp (y + 1) 0 (s.roomHeight - 1) = y := by
    unfold clamp
    split_ifs <;> omega
  cases a
  · left
    simp only [actionModCoords, cx, cy]
  · simp only [actionModCoords, cy]
    rcases cxl with e | e <;> rw [e]
    · right
      simp
    · left
      rfl
  · simp only [actionModCoords, cy]
    rcases cxr with e | e <;> rw [e]
    · right
      simp
    · left
      rfl
  · simp only [actionModCoords, cx]
    rcases cyd with e | e <;> rw [e]
    · right
      simp
    · left
      rfl
  · simp only [actionModCoords, cx]
    rcases cyu with e | e <;> rw [e]
    · right
      simp
    · left
      rfl

theorem Pass2Cells.cells_init (s : State) (recs : Nat → actionrecord) : Pass2Cells s recs 0 s := by
  constructor
  · intro x y hg
    constructor
    · intro h
      rw [hg] at h
      exact absurd h (by decide)
    · rintro ⟨a, ha, -⟩
      exact absurd ha (Nat.not_lt_zero _)
  · intro x y hg
    constructor
    · intro h
      rw [hg] at h
      exact absurd h (by decide)
    · rintro ⟨a, ha, -⟩
      exact absurd ha (Nat.not_lt_zero _)

theorem exists_lt_succ_of_not {n : Nat} {P : Nat → Prop} (h : ¬ P n) :
    (∃ a, a < n + 1 ∧ P a) ↔ ∃ a, a < n ∧ P a := by
  constructor
  · rintro ⟨a, ha, hp⟩
    have : a ≠ n := fun e => h (e ▸ hp)
    exact ⟨a, by omega, hp⟩
  · rintro ⟨a, ha, hp⟩
    exact ⟨a, by omega, hp⟩

/-- The body of pass 2 for the agent `n` keeps the account of the changed cells. -/
theorem Pass2Cells.cells_step {s st st' : State} {recs : Nat → actionrecord} {n : Nat}
    (hinv : Pass2Inv s recs n st) (h : Pass2Cells s recs n st)
    (hb : pass2Body recs n st = some st') : Pass2Cells s recs (n + 1) st' := by
  have hw : st.roomWidth = s.roomWidth := hinv.config.fields.1
  have hh : st.roomHeight = s.roomHeight := hinv.config.fields.2.1
  simp only [pass2Body] at hb
  by_cases he : (recs n).isEscaping = true
  · simp only [he, if_true] at hb
    by_cases hstay : (recs n).action ≠ .STAY ∧ (recs n).x = (recs n).dx ∧
        (recs n).y = (recs n).dy
    · rw [if_pos hstay, actionModCoords_congr hw hh] at hb
      have hacts : ActsOn s recs n (actionModCoords s (recs n).action (recs n).x (recs n).y).1
          (actionModCoords s (recs n).action (recs n).x (recs n).y).2 := ⟨he, hstay, rfl⟩
      have hother : ∀ x y, ¬ (x = (actionModCoords s (recs n).action (recs n).x (recs n).y).1 ∧
          y = (actionModCoords s (recs n).action (recs n).x (recs n).y).2) →
          ¬ ActsOn s recs n x y := by
        intro x y hne hact
        apply hne
        rw [hact.2.2]
        exact ⟨rfl, rfl⟩
      have hroomt := hinv.room (actionModCoords s (recs n).action (recs n).x (recs n).y).1
        (actionModCoords s (recs n).action (recs n).x (recs n).y).2
      by_cases hg : st.room (actionModCoords s (recs n).action (recs n).x (recs n).y).1
          (actionModCoords s (recs n).action (recs n).x (recs n).y).2 = GLASS
      · rw [if_pos hg, Option.some.injEq] at hb
        subst hb
        have hsg : s.room (actionModCoords s (recs n).action (recs n).x (recs n).y).1
            (actionModCoords s (recs n).action (recs n).x (recs n).y).2 = GLASS := by
          rcases hroomt with e | ⟨-, e⟩ | ⟨-, e⟩
          · rw [← e]
            exact hg
          · rw [e] at hg
            exact absurd hg (by decide)
          · rw [e] at hg
            exact absurd hg (by decide)
        constructor
        · intro x y hxy
          simp only [setCell_apply]
          by_cases hcell : x = (actionModCoords s (recs n).action (recs n).x (recs n).y).1 ∧
              y = (actionModCoords s (recs n).action (recs n).x (recs n).y).2
          · rw [if_pos hcell, hcell.1, hcell.2]
            exact ⟨fun _ => ⟨n, Nat.lt_succ_self n, hacts⟩, fun _ => rfl⟩
          · rw [if_neg hcell, exists_lt_succ_of_not (hother x y hcell)]
            exact h.glass x y hxy
        · intro x y hxy
          simp only [setCell_apply]
          by_cases hcell : x = (actionModCoords s (recs n).action (recs n).x (recs n).y).1 ∧
              y = (actionModCoords s (recs n).action (recs n).x (recs n).y).2
          · rw [hcell.1, hcell.2, hsg] at hxy
            exact absurd hxy (by decide)
          · rw [if_neg hcell, exists_lt_succ_of_not (hother x y hcell)]
            exact h.door x y hxy
      · rw [if_neg hg] at hb
        by_cases hd : st.room (actionModCoords s (recs n).action (recs n).x (recs n).y).1
            (actionModCoords s (recs n).action (recs n).x (recs n).y).2 = DOOR
        · rw [if_pos hd, Option.some.injEq] at hb
          subst hb
          have hsd : s.room (actionModCoords s (recs n).action (recs n).x (recs n).y).1
              (actionModCoords s (recs n).action (recs n).x (recs n).y).2 = DOOR := by
            rcases hroomt with e | ⟨-, e⟩ | ⟨-, e⟩
            · rw [← e]
              exact hd
            · rw [e] at hd
              exact absurd hd (by decide)
            · rw [e] at hd
              exact absurd hd (by decide)
          constructor
          · intro x y hxy
            simp only [setCell_apply]
            by_cases hcell : x = (actionModCoords s (recs n).action (recs n).x (recs n).y).1 ∧
                y = (actionModCoords s (recs n).action (recs n).x (recs n).y).2
            · rw [hcell.1, hcell.2, hsd] at hxy
              exact absurd hxy (by decide)
            · rw [if_neg hcell, exists_lt_succ_of_not (hother x y hcell)]
              exact h.glass x y hxy
          · intro x y hxy
            simp only [setCell_apply]
            by_cases hcell : x = (actionModCoords s (recs n).action (recs n).x (recs n).y).1 ∧
                y = (actionModCoords s (recs n).action (recs n).x (recs n).y).2
            · rw [if_pos hcell, hcell.1, hcell.2]
              exact ⟨fun _ => ⟨n, Nat.lt_succ_self n, hacts⟩, fun _ => rfl⟩
            · rw [if_neg hcell, exists_lt_succ_of_not (hother x y hcell)]
              exact h.door x y hxy
        · rw [if_neg hd, Option.some.injEq] at hb
          subst hb
          constructor
          · intro x y hxy
            by_cases hcell : x = (actionModCoords s (recs n).action (recs n).x (recs n).y).1 ∧
                y = (actionModCoords s (recs n).action (recs n).x (recs n).y).2
            · rw [hcell.1, hcell.2] at hxy ⊢
              have : st.room (actionModCoords s (recs n).action (recs n).x (recs n).y).1
                  (actionModCoords s (recs n).action (recs n).x (recs n).y).2 = SHARDS := by
                rcases hroomt with e | ⟨-, e⟩ | ⟨e, -⟩
                · rw [e] at hg
                  exact absurd hxy hg
                · exact e
                · rw [hxy] at e
                  exact absurd e (by decide)
              exact ⟨fun _ => ⟨n, Nat.lt_succ_self n, hacts⟩, fun _ => this⟩
            · rw [exists_lt_succ_of_not (hother x y hcell)]
              exact h.glass x y hxy
          · intro x y hxy
            by_cases hcell : x = (actionModCoords s (recs n).action (recs n).x (recs n).y).1 ∧
                y = (actionModCoords s (recs n).action (recs n).x (recs n).y).2
            · rw [hcell.1, hcell.2] at hxy ⊢
              have : st.room (actionModCoords s (recs n).action (recs n).x (recs n).y).1
                  (actionModCoords s (recs n).action (recs n).x (recs n).y).2 = OPEN_DOOR := by
                rcases hroomt with e | ⟨e, -⟩ | ⟨-, e⟩
                · rw [e] at hd
                  exact absurd hxy hd
                · rw [hxy] at e
                  exact absurd e (by decide)
                · exact e
              exact ⟨fun _ => ⟨n, Nat.lt_succ_self n, hacts⟩, fun _ => this⟩
            · rw [exists_lt_succ_of_not (hother x y hcell)]
              exact h.door x y hxy
    · rw [if_neg hstay] at hb
      have hno : ∀ x y, ¬ ActsOn s recs n x y := fun x y hact => hstay hact.2.1
      have hroom : st'.room = st.room := by
        split_ifs at hb
        simp only [Option.some.injEq] at hb
        subst hb
        rfl
      constructor
      · intro x y hxy
        rw [hroom, exists_lt_succ_of_not (hno x y)]
        exact h.glass x y hxy
      · intro x y hxy
        rw [hroom, exists_lt_succ_of_not (hno x y)]
        exact h.door x y hxy
  · have hno : ∀ x y, ¬ ActsOn s recs n x y := fun x y hact => he hact.1
    simp only [he] at hb
    simp only [Bool.false_eq_true, if_false, Option.some.injEq] at hb
    subst hb
    constructor
    · intro x y hxy
      rw [exists_lt_succ_of_not (hno x y)]
      exact h.glass x y hxy
    · intro x y hxy
      rw [exists_lt_succ_of_not (hno x y)]
      exact h.door x y hxy

/-- The account of the cells that pass 2 changed. -/
theorem pass2_cells {s s2 : State} {recs : Nat → actionrecord}
    (hxy : ∀ b, b < s.numAgents → (recs b).isEscaping = true →
      (recs b).x = (s.agents b).x ∧ (recs b).y = (s.agents b).y)
    (h : pass2 recs s = some s2) : Pass2Cells s recs s.numAgents s2 :=
  (forLoopM_induct (pass2Body recs)
    (fun n st => Pass2Inv s recs n st ∧ Pass2Cells s recs n st) s.numAgents s
    ⟨Pass2Inv.act_init s recs, Pass2Cells.cells_init s recs⟩
    (fun n _ _ hn hp hb =>
      ⟨hp.1.act_step (fun he => hxy n hn he) hb, Pass2Cells.cells_step hp.1 hp.2 hb⟩)
    s.numAgents (le_refl _) s2 h).2

/-- The passes of a turn and the interactions of pass 2, for any state. -/
theorem simulatePasses_interaction {fuel : Nat} {s : State} {r : Bool × State}
    (h : simulatePasses fuel s = some r) :
    ∃ p s2, pass1 (backup s) fuel = some p ∧
      pass2 p.actionRecords { backup s with globalRNG := p.globalRNG } = some s2 ∧
      pass3 p.actionRecords s2 = some r.2 ∧
      (∀ x y, s.room x y = GLASS →
        ((s2.room x y = SHARDS ↔ ∃ a, Bumps s (fun b => (p.actionRecords b).action) a x y) ∧
          (r.2.room x y = SHARDS ↔ s2.room x y = SHARDS))) ∧
      (∀ x y, s.room x y = DOOR →
        ((s2.room x y = OPEN_DOOR ↔ ∃ a, Bumps s (fun b => (p.actionRecords b).action) a x y) ∧
          (r.2.room x y = OPEN_DOOR ↔ s2.room x y = OPEN_DOOR))) ∧
      (∀ a x y, Bumps s (fun b => (p.actionRecords b).action) a x y →
        s.room x y = GLASS ∨ s.room x y = DOOR → s2.agents a = s.agents a) ∧
      (∀ a, a < s.numAgents → isActive s a →
        ((p.actionRecords a).dx, (p.actionRecords a).dy) ≠ startOf s a →
        s2.agents a = ⟨(p.actionRecords a).dx, (p.actionRecords a).dy, (s.agents a).health⟩ ∧
        Int.natAbs ((p.actionRecords a).dx - (s.agents a).x) +
          Int.natAbs ((p.actionRecords a).dy - (s.agents a).y) = 1) := by
  obtain ⟨p, s2, hp1, hp2, hp3, -⟩ := simulatePasses_parts h
  obtain ⟨bw, bh, br, bn, ba, -⟩ := backup_fields s
  have hbasic := pass1_basic hp1
  have hshape := pass1_shape hp1
  have hxy : ∀ b, b < ({ backup s with globalRNG := p.globalRNG } : State).numAgents →
      (p.actionRecords b).isEscaping = true →
      (p.actionRecords b).x = (({ backup s with globalRNG := p.globalRNG } : State).agents b).x ∧
      (p.actionRecords b).y = (({ backup s with globalRNG := p.globalRNG } : State).agents b).y :=
    fun b hb _ => hbasic.coords b hb
  have h2 := pass2_inv hxy hp2
  have hcells := pass2_cells hxy hp2
  have h3 := pass3_inv hp3
  have hamc : ∀ (a : action) (x y : Int),
      actionModCoords ({ backup s with globalRNG := p.globalRNG } : State) a x y =
        actionModCoords s a x y := fun a x y => actionModCoords_congr bw bh a x y
  have htent : ∀ (a : action) (x y : Int),
      tentative (backup s) a x y = tentative s a x y := by
    intro a x y
    unfold tentative
    rw [actionModCoords_congr bw bh, br]
  -- an agent that walks into an impassable cell claims its start cell
  have hblocked : ∀ a x y, Bumps s (fun b => (p.actionRecords b).action) a x y →
      isPassable (s.room x y) = false →
      (p.actionRecords a).dx = (p.actionRecords a).x ∧
        (p.actionRecords a).dy = (p.actionRecords a).y := by
    intro a x y hb hnp
    obtain ⟨han, hact, -, htarget⟩ := hb
    obtain ⟨hcx, hcy⟩ := hbasic.coords a (by rw [bn]; exact han)
    rw [ba] at hcx hcy
    rcases hshape a with e | e
    · exact e
    · rw [htent, hcx, hcy] at e
      unfold tentative at e
      simp only at htarget
      rw [htarget] at e
      simp only [hnp, Bool.false_eq_true, if_false, Prod.mk.injEq] at e
      rw [hcx, hcy]
      exact e
  -- the agents that act on a cell are those that walk into it
  have hacts : ∀ x y, isPassable (s.room x y) = false →
      ((∃ a, a < ({ backup s with globalRNG := p.globalRNG } : State).numAgents ∧
        ActsOn ({ backup s with globalRNG := p.globalRNG } : State) p.actionRecords a x y) ↔
      ∃ a, Bumps s (fun b => (p.actionRecords b).action) a x y) := by
    intro x y hnp
    constructor
    · rintro ⟨a, -, hesc, ⟨hne, -, -⟩, htarget⟩
      obtain ⟨han, hact⟩ := (hbasic.escaping_iff a).mp hesc
      obtain ⟨hcx, hcy⟩ := hbasic.coords a han
      rw [ba] at hcx hcy
      rw [hamc, hcx, hcy] at htarget
      exact ⟨a, by rw [← bn]; exact han, (backup_isActive s a).mp hact, hne, htarget⟩
    · rintro ⟨a, hb⟩
      obtain ⟨hdx, hdy⟩ := hblocked a x y hb hnp
      obtain ⟨han, hact, hne, htarget⟩ := hb
      have han' : a < (backup s).numAgents := by rw [bn]; exact han
      obtain ⟨hcx, hcy⟩ := hbasic.coords a han'
      rw [ba] at hcx hcy
      refine ⟨a, han', (hbasic.escaping_iff a).mpr ⟨han', (backup_isActive s a).mpr hact⟩,
        ⟨hne, hdx.symm, hdy.symm⟩, ?_⟩
      rw [hamc, hcx, hcy]
      exact htarget
  refine ⟨p, s2, hp1, hp2, hp3, ?_, ?_, ?_, ?_⟩
  · intro x y hg
    have hnp : isPassable (s.room x y) = false := by rw [hg]; rfl
    refine ⟨?_, ?_⟩
    · rw [← hacts x y hnp]
      exact hcells.glass x y (by simp only [br]; exact hg)
    · rcases h3.room x y with e | ⟨e, e'⟩
      · rw [e]
      · rw [e, e']
        exact ⟨fun hc => absurd hc (by decide), fun hc => absurd hc (by decide)⟩
  · intro x y hg
    have hnp : isPassable (s.room x y) = false := by rw [hg]; rfl
    refine ⟨?_, ?_⟩
    · rw [← hacts x y hnp]
      exact hcells.door x y (by simp only [br]; exact hg)
    · rcases h3.room x y with e | ⟨e, e'⟩
      · rw [e]
      · rw [e, e']
        exact ⟨fun hc => absurd hc (by decide), fun hc => absurd hc (by decide)⟩
  · intro a x y hb hcell
    have hnp : isPassable (s.room x y) = false := by
      rcases hcell with e | e <;> rw [e] <;> rfl
    obtain ⟨hdx, hdy⟩ := hblocked a x y hb hnp
    obtain ⟨han, hact, -, -⟩ := hb
    have han' : a < (backup s).numAgents := by rw [bn]; exact han
    obtain ⟨hcx, hcy⟩ := hbasic.coords a han'
    rw [ba] at hcx hcy
    have hesc := (hbasic.escaping_iff a).mpr ⟨han', (backup_isActive s a).mpr hact⟩
    rw [h2.moved a han' hesc, hdx, hdy, hcx, hcy]
    simp only [ba]
  · intro a han hact hne
    have han' : a < (backup s).numAgents := by rw [bn]; exact han
    obtain ⟨hcx, hcy⟩ := hbasic.coords a han'
    rw [ba] at hcx hcy
    have hesc := (hbasic.escaping_iff a).mpr ⟨han', (backup_isActive s a).mpr hact⟩
    refine ⟨by rw [h2.moved a han' hesc]; simp only [ba], ?_⟩
    rcases hshape a with ⟨e1, e2⟩ | e
    · exfalso
      apply hne
      simp only [startOf, e1, e2, hcx, hcy]
    · rw [htent, hcx, hcy] at e
      have hd : (p.actionRecords a).dx =
          (tentative s (p.actionRecords a).action (s.agents a).x (s.agents a).y).1 := by rw [← e]
      have hd2 : (p.actionRecords a).dy =
          (tentative s (p.actionRecords a).action (s.agents a).x (s.agents a).y).2 := by rw [← e]
      unfold tentative at hd hd2 e
      by_cases hpass : isPassable (s.room
          (actionModCoords s (p.actionRecords a).action (s.agents a).x (s.agents a).y).1
          (actionModCoords s (p.actionRecords a).action (s.agents a).x (s.agents a).y).2) = true
      · rw [if_pos hpass] at hd hd2 e
        rcases actionModCoords_near s (p.actionRecords a).action (s.agents a).x (s.agents a).y
          hact.1 with hsame | hnear
        · exfalso
          apply hne
          rw [e, hsame]
          rfl
        · rw [hd, hd2]
          exact hnear
      · rw [if_neg hpass] at e
        exfalso
        apply hne
        rw [e]
        rfl

/-- C20. The interaction of pass 2. In a call of `simulateTurn`, with `p` the records of pass 1
and `s2` the globals after pass 2: a cell of intact glass is broken glass after pass 2, and
after pass 3 as well, exactly when some active agent picked an action other than `STAY` whose
clamped target from its start cell is that cell, and likewise a closed door is an open door;
pass 2 leaves such an agent where it started; and an agent whose final claim differs from its
start cell is moved by pass 2 to exactly the claimed cell, which is at Manhattan distance 1
from the start. The three passes return on a well-formed state with fuel for as many chain
steps as there are agents. -/
theorem pass2_interaction (fuel : Nat) (s : State) :
    (WellFormed s → s.numAgents ≤ fuel → ∃ r, simulatePasses fuel s = some r) ∧
    ∀ r, simulatePasses fuel s = some r →
      ∃ p s2, pass1 (backup s) fuel = some p ∧
        pass2 p.actionRecords { backup s with globalRNG := p.globalRNG } = some s2 ∧
        pass3 p.actionRecords s2 = some r.2 ∧
        (∀ x y, s.room x y = GLASS →
          ((s2.room x y = SHARDS ↔ ∃ a, Bumps s (fun b => (p.actionRecords b).action) a x y) ∧
            (r.2.room x y = SHARDS ↔ s2.room x y = SHARDS))) ∧
        (∀ x y, s.room x y = DOOR →
          ((s2.room x y = OPEN_DOOR ↔
              ∃ a, Bumps s (fun b => (p.actionRecords b).action) a x y) ∧
            (r.2.room x y = OPEN_DOOR ↔ s2.room x y = OPEN_DOOR))) ∧
        (∀ a x y, Bumps s (fun b => (p.actionRecords b).action) a x y →
          s.room x y = GLASS ∨ s.room x y = DOOR → s2.agents a = s.agents a) ∧
        (∀ a, a < s.numAgents → isActive s a →
          ((p.actionRecords a).dx, (p.actionRecords a).dy) ≠ startOf s a →
          s2.agents a = ⟨(p.actionRecords a).dx, (p.actionRecords a).dy, (s.agents a).health⟩ ∧
          Int.natAbs ((p.actionRecords a).dx - (s.agents a).x) +
            Int.natAbs ((p.actionRecords a).dy - (s.agents a).y) = 1) :=
  ⟨fun hw hfuel => simulatePasses_total hw hfuel, fun _ h => simulatePasses_interaction h⟩

/-- C20 at `glassState`, with fuel 1: the agent picks `RIGHT`, the glass next to it breaks and
the agent stays on its start cell `(0, 0)`. -/
theorem pass2_interaction_witness :
    WellFormed glassState ∧ glassState.numAgents ≤ 1 ∧
    (simulatePasses 1 glassState).map
      (fun r => (r.2.room 1 0, (r.2.agents 0).x, (r.2.agents 0).y)) = some (SHARDS, 0, 0) ∧
    ∃ r, simulatePasses 1 glassState = some r :=
  ⟨by decide, by decide, by decide!, (pass2_interaction 1 glassState).1 (by decide) (by decide)⟩

/-! ## Random numbers -/

theorem randBits_lt (rng : Nat) : randBits rng < 2 ^ 32 := by
  unfold randBits
  simp only
  apply Nat.or_lt_two_pow
  · rw [Nat.shiftRight_eq_div_pow]
    exact lt_of_le_of_lt (Nat.div_le_self _ _) (Nat.mod_lt _ (by norm_num))
  · exact Nat.mod_lt _ (by norm_num)

theorem rotAmount_eq (r : Nat) (h0 : 0 < r) (h : r < 32) :
    ((2 ^ 32 - r) % 2 ^ 32) &&& 31 = 32 - r := by
  interval_cases r <;> rfl

theorem rotr_eq (y r : Nat) (hy : y < 2 ^ 32) (hr : r < 32) :
    (y >>> r) ||| ((y <<< (((2 ^ 32 - r) % 2 ^ 32) &&& 31)) % 2 ^ 32) = rotr32 y r := by
  unfold rotr32
  by_cases h0 : r = 0
  · subst h0
    have : ((2 ^ 32 - 0) % 2 ^ 32) &&& 31 = 0 := by rfl
    rw [this]
    simp only [Nat.shiftRight_zero, Nat.shiftLeft_zero, Nat.mod_eq_of_lt hy, Nat.or_self,
      pow_zero, Nat.div_one, Nat.mod_one, zero_mul, add_zero]
  · rw [rotAmount_eq r (Nat.pos_of_ne_zero h0) hr, Nat.shiftRight_eq_div_pow, Nat.shiftLeft_eq]
    have hpow : (2 : Nat) ^ 32 = 2 ^ r * 2 ^ (32 - r) := by
      rw [← pow_add]
      congr 1
      omega
    have hmod : y * 2 ^ (32 - r) % 2 ^ 32 = y % 2 ^ r * 2 ^ (32 - r) := by
      rw [hpow, Nat.mul_mod_mul_right]
    have hdiv : y / 2 ^ r < 2 ^ (32 - r) := by
      rw [Nat.div_lt_iff_lt_mul (Nat.pow_pos (by norm_num))]
      rw [hpow, Nat.mul_comm] at hy
      exact hy
    rw [hmod, Nat.or_comm, Nat.mul_comm, ← Nat.mul_add_lt_is_or hdiv, Nat.add_comm]

theorem randf_fst_range (rng : Nat) : 0 ≤ (randf rng).1 ∧ (randf rng).1 < 1 := by
  have h := randBits_lt rng
  have hq : ((randBits rng : Nat) : ℚ) < 4294967296 := by
    have : (2 : Nat) ^ 32 = 4294967296 := by norm_num
    rw [this] at h
    exact_mod_cast h
  simp only [randf]
  constructor
  · positivity
  · rw [div_lt_one (by norm_num)]
    exact hq

theorem randSeq_range : ∀ (n rng : Nat), ∀ v ∈ randSeq rng n, 0 ≤ v ∧ v < 1 := by
  intro n
  induction n with
  | zero =>
    intro rng v hv
    simp [randSeq] at hv
  | succ n ih =>
    intro rng v hv
    simp only [randSeq, List.mem_cons] at hv
    rcases hv with e | hv
    · rw [e]
      exact randf_fst_range rng
    · exact ih _ v hv

theorem seedRNG_congr (seed seed' : Int) (h : seed % 2 ^ 32 = seed' % 2 ^ 32) :
    seedRNG seed = seedRNG seed' := by
  unfold seedRNG
  have e : (4294967296 : Int) = 2 ^ 32 := by norm_num
  rw [e, h]

/-- C22. The range of the random floats. For every generator state `randf` returns `k / 2^32`
for an integer `0 ≤ k < 2^32`, so a value `v` with `0 ≤ v < 1`, never 1, and so does every one
of any number of consecutive calls. The values drawn after `seedRNG` and the generator states
they leave are those of the functions `randSeq` and `randState` of the seeded state: they
depend on nothing but the seed, and only on its value modulo `2^32`. -/
theorem randf_range (rng : Nat) :
    (∃ k : Nat, k < 2 ^ 32 ∧ (randf rng).1 = (k : ℚ) / 2 ^ 32) ∧
    (0 ≤ (randf rng).1 ∧ (randf rng).1 < 1) ∧
    (∀ n, ∀ v ∈ randSeq rng n, 0 ≤ v ∧ v < 1) ∧
    (∀ seed seed' : Int, seed % 2 ^ 32 = seed' % 2 ^ 32 → ∀ n,
      randSeq (seedRNG seed) n = randSeq (seedRNG seed') n ∧
      randState (seedRNG seed) n = randState (seedRNG seed') n) := by
  refine ⟨⟨randBits rng, randBits_lt rng, ?_⟩, randf_fst_range rng, fun n => randSeq_range n rng,
    ?_⟩
  · simp only [randf]
    norm_num
  · intro seed seed' h n
    rw [seedRNG_congr seed seed' h]
    exact ⟨rfl, rfl⟩

/-- C22 at the seeds 42 and `42 + 2^32`, which give the same generator state. -/
theorem randf_range_witness :
    seedRNG 42 = 10915315373440060052 ∧ randBits (seedRNG 42) < 2 ^ 32 ∧
    randSeq (seedRNG 42) 3 = randSeq (seedRNG (42 + 2 ^ 32)) 3 :=
  ⟨by decide, by decide, ((randf_range 0).2.2.2 42 (42 + 2 ^ 32) (by decide) 3).1⟩

/-! ## The random action -/

theorem randActionIndex_le (rng : Nat) : (randActionIndex rng).1 ≤ 4 := by
  obtain ⟨h0, h1⟩ := randf_fst_range rng
  simp only [randActionIndex]
  have hlt : ⌊(randf rng).1 * (1 + 4)⌋ < 5 := by
    rw [Int.floor_lt]
    push_cast
    linarith
  have hge : 0 ≤ ⌊(randf rng).1 * (1 + 4)⌋ := by
    rw [Int.floor_nonneg]
    positivity
  omega

theorem ofIndex_toNat (i : Nat) (h : i ≤ 4) : (action.ofIndex i).toNat = i := by
  interval_cases i <;> rfl

theorem randActionIndex_eq (rng i : Nat) :
    (randActionIndex rng).1 = i ↔
      (i : ℚ) / 5 ≤ (randf rng).1 ∧ (randf rng).1 < ((i : ℚ) + 1) / 5 := by
  obtain ⟨h0, h1⟩ := randf_fst_range rng
  simp only [randActionIndex]
  have hge : 0 ≤ ⌊(randf rng).1 * (1 + 4)⌋ := by
    rw [Int.floor_nonneg]
    positivity
  have key : ⌊(randf rng).1 * (1 + 4)⌋ = (i : Int) ↔
      (i : ℚ) / 5 ≤ (randf rng).1 ∧ (randf rng).1 < ((i : ℚ) + 1) / 5 := by
    rw [Int.floor_eq_iff]
    push_cast
    constructor
    · rintro ⟨a, b⟩
      constructor
      · rw [div_le_iff₀ (by norm_num)]
        linarith
      · rw [lt_div_iff₀ (by norm_num)]
        linarith
    · rintro ⟨a, b⟩
      rw [div_le_iff₀ (by norm_num)] at a
      rw [lt_div_iff₀ (by norm_num)] at b
      constructor <;> linarith
  rw [← key]
  omega

/-- C23. The random action. For every generator state `randAction` makes exactly one call of
`randf`, with value `v`, and returns the action of index `floor(5 * v)`, which is one of the
indices 0 to 4 of `STAY` to `UP` and never 5; the action of index `i` is returned exactly for
the values `v` of the interval from `i / 5` to `(i + 1) / 5`, of length `1/5`. -/
theorem randAction_index (rng : Nat) :
    (randAction rng).2 = (randf rng).2 ∧
    ((randAction rng).1.toNat : Int) = ⌊5 * (randf rng).1⌋ ∧
    ⌊5 * (randf rng).1⌋ < 5 ∧ 0 ≤ ⌊5 * (randf rng).1⌋ ∧
    (∀ a : action, (randAction rng).1 = a ↔
      (a.toNat : ℚ) / 5 ≤ (randf rng).1 ∧ (randf rng).1 < ((a.toNat : ℚ) + 1) / 5) ∧
    (∀ i : Nat, ((i : ℚ) + 1) / 5 - (i : ℚ) / 5 = 1 / 5) := by
  have hle := randActionIndex_le rng
  have hidx : (randAction rng).1.toNat = (randActionIndex rng).1 := by
    simp only [randAction]
    exact ofIndex_toNat _ hle
  have hfl : ((randActionIndex rng).1 : Int) = ⌊5 * (randf rng).1⌋ := by
    obtain ⟨h0, h1⟩ := randf_fst_range rng
    simp only [randActionIndex]
    have e : (randf rng).1 * (1 + 4) = 5 * (randf rng).1 := by ring
    rw [e]
    have hge : 0 ≤ ⌊5 * (randf rng).1⌋ := by
      rw [Int.floor_nonneg]
      positivity
    omega
  refine ⟨rfl, by rw [hidx, hfl], by rw [← hfl]; omega, by rw [← hfl]; omega, ?_, ?_⟩
  · intro a
    rw [← randActionIndex_eq rng a.toNat, ← hidx]
    constructor
    · intro e
      rw [e]
    · intro e
      exact action_toNat_inj e
  · intro i
    ring

/-- C23 at the generator state of the seed 42: the value drawn is `3270867926 / 2^32`,
between `3/5` and `4/5`, and the action is `DOWN`, of index 3. -/
theorem randAction_index_witness :
    randBits (seedRNG 42) = 3270867926 ∧ (randAction (seedRNG 42)).1.toNat = 3 ∧
    (randAction (seedRNG 42)).2 = 13449299582286891347 ∧
    (randAction (seedRNG 42)).2 = (randf (seedRNG 42)).2 :=
  ⟨by decide, by decide!, by decide, (randAction_index (seedRNG 42)).1⟩

/-! ## The generator against its reference definition -/

theorem randBits_eq_pcgOutput (s : Nat) (h : s < 2 ^ 64) : randBits s = pcgOutput s := by
  have hr : s >>> 59 < 32 := by
    rw [Nat.shiftRight_eq_div_pow, Nat.div_lt_iff_lt_mul (Nat.pow_pos (by norm_num))]
    calc s < 2 ^ 64 := h
      _ = 32 * 2 ^ 59 := by norm_num
  have hr' : (s >>> 59) % 2 ^ 32 = s >>> 59 := Nat.mod_eq_of_lt (lt_trans hr (by norm_num))
  unfold randBits pcgOutput
  simp only [hr']
  exact rotr_eq _ _ (Nat.mod_lt _ (by norm_num)) hr

theorem rotr32_lt (y r : Nat) (hy : y < 2 ^ 32) (hr : r < 32) : rotr32 y r < 2 ^ 32 := by
  rw [← rotr_eq y r hy hr]
  apply Nat.or_lt_two_pow
  · rw [Nat.shiftRight_eq_div_pow]
    exact lt_of_le_of_lt (Nat.div_le_self _ _) hy
  · exact Nat.mod_lt _ (by norm_num)

theorem rotr32_testBit (y r : Nat) (hy : y < 2 ^ 32) (hr : r < 32) (i : Nat) (hi : i < 32) :
    (rotr32 y r).testBit i = y.testBit ((i + r) % 32) := by
  unfold rotr32
  have hpow : (2 : Nat) ^ 32 = 2 ^ r * 2 ^ (32 - r) := by
    rw [← pow_add]
    congr 1
    omega
  have hdiv : y / 2 ^ r < 2 ^ (32 - r) := by
    rw [Nat.div_lt_iff_lt_mul (Nat.pow_pos (by norm_num))]
    rw [hpow, Nat.mul_comm] at hy
    exact hy
  rw [Nat.add_comm, Nat.mul_comm, Nat.testBit_mul_pow_two_add _ hdiv]
  by_cases hlt : i < 32 - r
  · rw [if_pos hlt, ← Nat.shiftRight_eq_div_pow, Nat.testBit_shiftRight]
    have e : (i + r) % 32 = r + i := by omega
    rw [e]
  · rw [if_neg hlt, Nat.testBit_mod_two_pow]
    have e : (i + r) % 32 = i - (32 - r) := by omega
    have hl : i - (32 - r) < r := by omega
    rw [e]
    simp [hl]

/-- C27. The generator against the reference definition of PCG. For every 64-bit state `s`,
`randf` returns `rotr32(((s xor (s >> 18)) >> 27) mod 2^32, s >> 59) / 2^32`, computed from the
state before the advance, where `rotr32` is the rotation of a 32-bit value to the right (the
identity for the amount 0), and leaves the state `(s * 6364136223846793005 +
1442695040888963407) mod 2^64`; and `seedRNG(seed)` is `(((seed mod 2^32) +
1442695040888963407) * 6364136223846793005 + 1442695040888963407) mod 2^64`. -/
theorem pcg_reference (s : Nat) (h : s < 2 ^ 64) :
    (randf s).1 = (pcgOutput s : ℚ) / 2 ^ 32 ∧
    pcgOutput s = rotr32 (((s ^^^ (s >>> 18)) >>> 27) % 2 ^ 32) (s >>> 59) ∧
    s >>> 59 < 32 ∧
    (∀ y, y < 2 ^ 32 → rotr32 y 0 = y) ∧
    (∀ y r, y < 2 ^ 32 → r < 32 → rotr32 y r < 2 ^ 32 ∧
      ∀ i, i < 32 → (rotr32 y r).testBit i = y.testBit ((i + r) % 32)) ∧
    (randf s).2 = (s * 6364136223846793005 + 1442695040888963407) % 2 ^ 64 ∧
    ∀ seed : Int, seedRNG seed =
      (((seed % 2 ^ 32).toNat + 1442695040888963407) * 6364136223846793005 +
        1442695040888963407) % 2 ^ 64 := by
  have hb := randBits_eq_pcgOutput s h
  have hr : s >>> 59 < 32 := by
    rw [Nat.shiftRight_eq_div_pow, Nat.div_lt_iff_lt_mul (Nat.pow_pos (by norm_num))]
    calc s < 2 ^ 64 := h
      _ = 32 * 2 ^ 59 := by norm_num
  refine ⟨?_, rfl, hr, ?_, ?_, rfl, fun _ => rfl⟩
  · simp only [randf, hb]
    norm_num
  · intro y _
    simp [rotr32, Nat.mod_one]
  · intro y r hy hr
    exact ⟨rotr32_lt y r hy hr, fun i hi => rotr32_testBit y r hy hr i hi⟩

/-- At the state that `seedRNG 42` gives, the output of the reference definition is
`3270867926` and the next state is `13449299582286891347`. -/
theorem pcg_reference_witness :
    seedRNG 42 < 2 ^ 64 ∧ pcgOutput (seedRNG 42) = 3270867926 ∧
      (randf (seedRNG 42)).1 = (pcgOutput (seedRNG 42) : ℚ) / 2 ^ 32 ∧
      (randf (seedRNG 42)).2 = 13449299582286891347 :=
  ⟨by decide, by decide, (pcg_reference (seedRNG 42) (by decide)).1, by decide⟩

/-! ## Commands of the interpreter -/

theorem turnsLoop_calls (fuel : Nat) (numTurns : Int) :
    ∀ (n : Nat) (turn : Int) (st r : State × Nat), 1 ≤ turn → turn ≤ numTurns →
      numTurns - turn ≤ n → turnsLoop fuel numTurns n turn st = some r →
      (r.2 : Int) = st.2 + (numTurns - turn) := by
  intro n
  induction n with
  | zero =>
    intro turn st r _ h2 h3 h
    simp only [turnsLoop, Option.some.injEq] at h
    subst h
    push_cast at h3
    omega
  | succ n ih =>
    intro turn st r h1 h2 h3 h
    simp only [turnsLoop] at h
    by_cases hlt : turn < numTurns
    · rw [if_pos hlt] at h
      cases hs : simulateTurn fuel st.1 with
      | none => rw [hs] at h; simp at h
      | some q =>
        rw [hs] at h
        simp only [Option.some_bind] at h
        have := ih (turn + 1) (q.2, st.2 + 1) r (by omega) (by omega) (by push_cast at h3 ⊢; omega) h
        push_cast at this
        omega
    · rw [if_neg hlt] at h
      simp only [Option.some.injEq] at h
      subst h
      omega

theorem cmdTurns_calls (fuel : Nat) (N : Int) (hN : 1 ≤ N) (s : State) (r : State × Nat)
    (h : cmdTurns fuel (some N) s = some r) : (r.2 : Int) = N - 1 := by
  have := turnsLoop_calls fuel N N.toNat 1 (s, 0) r (le_refl 1) hN
    (by rw [Int.toNat_of_nonneg (by omega)]; omega) h
  simpa using this

/-- C24. Parameter validation. The commands `alpha`, `gamma` and `epsilon`, given a parsed
number `v`, set the parameter to `v` if and only if `0 ≤ v ≤ 1` and otherwise leave it at its
previous value; the command `doubleq`, given a parsed integer, sets `useDoubleQ` (to `TRUE` for 1
and to `FALSE` for 0) if and only if the integer is 0 or 1 and otherwise leaves it unchanged. In
every case the other learning parameters, the table, the room, the agents and all the other
globals are unchanged. -/
theorem parameter_validation (s : State) :
    (∀ v : ℚ, (0 ≤ v ∧ v ≤ 1 → cmdAlpha (some v) s = { s with alpha := v }) ∧
      (¬ (0 ≤ v ∧ v ≤ 1) → cmdAlpha (some v) s = s) ∧
      ((cmdAlpha (some v) s).alpha = v ↔ (0 ≤ v ∧ v ≤ 1) ∨ s.alpha = v)) ∧
    (∀ v : ℚ, (0 ≤ v ∧ v ≤ 1 → cmdGamma (some v) s = { s with gamma := v }) ∧
      (¬ (0 ≤ v ∧ v ≤ 1) → cmdGamma (some v) s = s) ∧
      ((cmdGamma (some v) s).gamma = v ↔ (0 ≤ v ∧ v ≤ 1) ∨ s.gamma = v)) ∧
    (∀ v : ℚ, (0 ≤ v ∧ v ≤ 1 → cmdEpsilon (some v) s = { s with epsilon := v }) ∧
      (¬ (0 ≤ v ∧ v ≤ 1) → cmdEpsilon (some v) s = s) ∧
      ((cmdEpsilon (some v) s).epsilon = v ↔ (0 ≤ v ∧ v ≤ 1) ∨ s.epsilon = v)) ∧
    (∀ d : Int, (d = 0 → cmdDoubleq (some d) s = { s with useDoubleQ := false }) ∧
      (d = 1 → cmdDoubleq (some d) s = { s with useDoubleQ := true }) ∧
      (¬ (d = 0 ∨ d = 1) → cmdDoubleq (some d) s = s)) ∧
    cmdAlpha none s = s ∧ cmdGamma none s = s ∧ cmdEpsilon none s = s ∧
      cmdDoubleq none s = s := by
  refine ⟨fun v => ⟨fun h => ?_, fun h => ?_, ?_⟩, fun v => ⟨fun h => ?_, fun h => ?_, ?_⟩,
    fun v => ⟨fun h => ?_, fun h => ?_, ?_⟩, fun d => ⟨fun h => ?_, fun h => ?_, fun h => ?_⟩,
    rfl, rfl, rfl, rfl⟩
  · simp only [cmdAlpha, ge_iff_le]; rw [if_pos h]
  · simp only [cmdAlpha, ge_iff_le]; rw [if_neg h]
  · simp only [cmdAlpha, ge_iff_le]
    by_cases h : 0 ≤ v ∧ v ≤ 1
    · rw [if_pos h]; simp [h]
    · rw [if_neg h]; simp [h]
  · simp only [cmdGamma, ge_iff_le]; rw [if_pos h]
  · simp only [cmdGamma, ge_iff_le]; rw [if_neg h]
  · simp only [cmdGamma, ge_iff_le]
    by_cases h : 0 ≤ v ∧ v ≤ 1
    · rw [if_pos h]; simp [h]
    · rw [if_neg h]; simp [h]
  · simp only [cmdEpsilon, ge_iff_le]; rw [if_pos h]
  · simp only [cmdEpsilon, ge_iff_le]; rw [if_neg h]
  · simp only [cmdEpsilon, ge_iff_le]
    by_cases h : 0 ≤ v ∧ v ≤ 1
    · rw [if_pos h]; simp [h]
    · rw [if_neg h]; simp [h]
  · subst h; rfl
  · subst h; rfl
  · simp only [cmdDoubleq]; rw [if_neg h]

/-- The command `alpha 3/2` is rejected and `alpha 1/4` is accepted; `doubleq 2` is rejected
and `doubleq 1` is accepted. -/
theorem parameter_validation_witness :
    (cmdAlpha (some (3 / 2)) exitState).alpha = 1 / 2 ∧
      (cmdAlpha (some (1 / 4)) exitState).alpha = 1 / 4 ∧
      (cmdDoubleq (some 2) exitState).useDoubleQ = false ∧
      (cmdDoubleq (some 1) exitState).useDoubleQ = true ∧
      cmdEpsilon (some 2) exitState = exitState :=
  ⟨by decide!, by decide!, by decide, by decide,
    ((parameter_validation exitState).2.2.1 2).2.1 (by norm_num)⟩

/-- C25 (the code at the failing input). The command `turns 1`, and the command `turns` without
an argument, make no call of `simulateTurn` and leave the globals as they are, whatever the
state; for every `N ≥ 1` the command `turns N` makes `N - 1` calls when it returns, and
`turns 3` makes two calls from the two-cell room with an exit; one call of `simulateTurn`
there moves the step counter from 0 to 1. -/
theorem turns_off_by_one :
    (∀ (fuel : Nat) (s : State), cmdTurns fuel (some 1) s = some (s, 0) ∧
      cmdTurns fuel none s = some (s, 0)) ∧
    (∀ (fuel : Nat) (N : Int) (s : State) (r : State × Nat), 1 ≤ N →
      cmdTurns fuel (some N) s = some r → (r.2 : Int) = N - 1) ∧
    (cmdTurns 1 (some 3) exitState).map (fun r => r.2) = some 2 ∧
    (simulateTurn 1 exitState).map (fun r => r.2.currTurn) = some 1 ∧
    exitState.currTurn = 0 :=
  ⟨fun _ _ => ⟨rfl, rfl⟩, fun fuel N s r hN h => cmdTurns_calls fuel N hN s r h,
    by decide!, by decide!, rfl⟩

/-! ## The stores of the reading loop of `loadRoom` -/

theorem loadStep_locals (c : Option Char) (l l1 : Loader) (h : loadStep c l = .ok l1)
    (hx : 0 ≤ l.x) (hy : 0 ≤ l.y ∧ l.y ≤ 9) : 0 ≤ l1.x ∧ 0 ≤ l1.y ∧ l1.y ≤ 9 := by
  have hend : ∀ l1, endRow l = .ok l1 → 0 ≤ l1.x ∧ 0 ≤ l1.y ∧ l1.y ≤ 9 := by
    intro l1 h
    have := endRow_ok h
    by_cases hp : 0 < l.x
    · obtain ⟨_, e1, e2, e3, _⟩ := this.1 hp
      omega
    · rw [this.2 (not_lt.mp hp)]
      exact ⟨hx, hy⟩
  have hadd : ∀ ch l1, addColumn ch l = .ok l1 → 0 ≤ l1.x ∧ 0 ≤ l1.y ∧ l1.y ≤ 9 := by
    intro ch l1 h
    obtain ⟨e1, e2, _⟩ := addColumn_ok h
    omega
  cases c with
  | none => exact hend l1 h
  | some ch =>
    simp only [loadStep] at h
    split_ifs at h
    · exact hend l1 h
    · exact hadd ch l1 h

theorem stepStores_bounds (c : Option Char) (l : Loader) (hx : 0 ≤ l.x)
    (hy : 0 ≤ l.y ∧ l.y ≤ 9) :
    ∀ st ∈ stepStores c l,
      (∀ x y, st = .cell x y → 0 ≤ x ∧ x < 9 ∧ 0 ≤ y ∧ y ≤ 9) ∧
      (∀ i, st = .agentRec i → i < 81) := by
  intro st hst
  cases c with
  | none => simp [stepStores] at hst
  | some ch =>
    simp only [stepStores, MAX_ROOM_SIZE, MAX_AGENTS] at hst
    split_ifs at hst with h1 h2 h3 h4 h5
    all_goals simp only [List.mem_cons, List.mem_singleton, List.not_mem_nil, or_false] at hst
    · rcases hst with rfl | rfl
      · refine ⟨fun x y e => ?_, fun i e => by cases e⟩
        cases e
        push_cast at h3
        omega
      · refine ⟨fun x y e => (by cases e), fun i e => ?_⟩
        cases e
        omega
    · subst hst
      refine ⟨fun x y e => ?_, fun i e => by cases e⟩
      cases e
      push_cast at h3
      omega

theorem loadStores_bounds : ∀ (text : List Char) (l : Loader), 0 ≤ l.x → 0 ≤ l.y ∧ l.y ≤ 9 →
    ∀ st ∈ loadStores text l,
      (∀ x y, st = .cell x y → 0 ≤ x ∧ x < 9 ∧ 0 ≤ y ∧ y ≤ 9) ∧
      (∀ i, st = .agentRec i → i < 81) := by
  intro text
  induction text with
  | nil =>
    intro l _ _ st hst
    simp [loadStores] at hst
  | cons c cs ih =>
    intro l hx hy st hst
    simp only [loadStores, List.mem_append] at hst
    rcases hst with hst | hst
    · exact stepStores_bounds (some c) l hx hy st hst
    · cases hl : loadStep (some c) l with
      | error e => rw [hl] at hst; simp at hst
      | ok l1 =>
        rw [hl] at hst
        have := loadStep_locals (some c) l l1 hl hx hy
        exact ih l1 this.1 this.2 st hst

/-- The stores listed for a character are those of the branch "add new column": none when the
branch leaves by a `goto`, and otherwise the store into `room[x][y]` that the branch makes,
with the stores into `agents[numAgents]` for the character `'@'`. -/
theorem stepStores_addColumn (ch : Char) (l : Loader) (hb : ¬ (ch = '\n' ∨ ch = '\r')) :
    (∀ e, addColumn ch l = .error e → stepStores (some ch) l = []) ∧
    (∀ l1, addColumn ch l = .ok l1 →
      Store.cell l.x l.y ∈ stepStores (some ch) l ∧
      l1.st.room l.x l.y = (if ch = AGENT then FLOOR else ch) ∧
      (ch = AGENT → Store.agentRec l.st.numAgents ∈ stepStores (some ch) l ∧
        l1.st.agents l.st.numAgents = ⟨l.x, l.y, 2⟩)) := by
  simp only [stepStores, if_neg hb]
  unfold addColumn
  by_cases h1 : l.st.roomWidth > 0 ∧ l.x ≥ l.st.roomWidth
  · rw [if_pos h1, if_pos h1]
    exact ⟨fun _ _ => rfl, fun _ h => Except.noConfusion h⟩
  · rw [if_neg h1, if_neg h1]
    by_cases h2 : l.x ≥ (MAX_ROOM_SIZE : Int)
    · rw [if_pos h2, if_pos h2]
      exact ⟨fun _ _ => rfl, fun _ h => Except.noConfusion h⟩
    · rw [if_neg h2, if_neg h2]
      by_cases h3 : ch = AGENT
      · rw [if_pos h3, if_pos h3]
        by_cases h4 : l.st.numAgents < MAX_AGENTS
        · rw [if_pos h4, if_pos h4]
          refine ⟨fun _ h => Except.noConfusion h, fun l1 h => ?_⟩
          simp only [Except.ok.injEq] at h
          subst h
          simp [setCell_same, setAt_same, h3]
        · rw [if_neg h4, if_neg h4]
          exact ⟨fun _ _ => rfl, fun _ h => Except.noConfusion h⟩
      · rw [if_neg h3, if_neg h3]
        refine ⟨fun _ h => Except.noConfusion h, fun l1 h => ?_⟩
        simp only [Except.ok.injEq] at h
        subst h
        simp [setCell_same, h3]

/-- C30 (the code at the failing input). On a text of ten rows of one floor cell the reading
loop of `loadRoom` makes the store `room[0][9]`, and on ten rows of nine floor cells the store
`room[8][9]`, before the test `y >= MAX_ROOM_SIZE` at the end of the tenth row sends it to
`makeDefaultRoom`; the load ends with the default room. What the loop does guarantee, for every
text, is `0 ≤ x < 9`, `0 ≤ y ≤ 9` for every store `room[x][y]`, and an index below 81 for every
agent record written. The stores listed are those of the branch "add new column" of the
loop. -/
theorem loadRoom_store_outside :
    Store.cell 0 9 ∈ loadStores (tallText 1) (loaderInit blankState) ∧
    Store.cell 8 9 ∈ loadStores (tallText 9) (loaderInit blankState) ∧
    (loadRoom (some (tallText 1)) blankState).roomHeight = 9 ∧
    (loadRoom (some (tallText 1)) blankState).roomWidth = 9 ∧
    (∀ (text : List Char) (s : State), ∀ st ∈ loadStores text (loaderInit s),
      (∀ x y, st = .cell x y → 0 ≤ x ∧ x < 9 ∧ 0 ≤ y ∧ y ≤ 9) ∧
      (∀ i, st = .agentRec i → i < 81)) ∧
    (∀ (ch : Char) (l l1 : Loader), ¬ (ch = '\n' ∨ ch = '\r') → addColumn ch l = .ok l1 →
      Store.cell l.x l.y ∈ stepStores (some ch) l ∧
      l1.st.room l.x l.y = (if ch = AGENT then FLOOR else ch)) :=
  ⟨by decide, by decide, by decide, by decide,
    fun text s => loadStores_bounds text (loaderInit s) (le_refl 0)
      ⟨le_refl 0, by simp [loaderInit]⟩,
    fun ch l l1 hb h =>
      ⟨((stepStores_addColumn ch l hb).2 l1 h).1, ((stepStores_addColumn ch l hb).2 l1 h).2.1⟩⟩

/-! ## Dead agents -/

theorem InRoomDistinct.to_activeDistinct {s : State} (h : InRoomDistinct s) : ActiveDistinct s :=
  fun a b ha hb haa hba hx hy => h a ha b hb haa.1 hba.1 hx hy

theorem backup_activeDistinct (s : State) (h : ActiveDistinct s) : ActiveDistinct (backup s) := by
  unfold backup
  split_ifs
  · exact h
  · exact h

/-- Pass 3 leaves an agent where pass 2 put it or moves it to the sentinel `ESCAPED`. -/
theorem pass3_place {recs : Nat → actionrecord} {s2 s3 : State} {a : Nat}
    (h3 : pass3 recs s2 = some s3) (ha : a < s2.numAgents) :
    ((s3.agents a).x = (s2.agents a).x ∧ (s3.agents a).y = (s2.agents a).y) ∨
      ((s3.agents a).x = ESCAPED ∧ (s3.agents a).y = ESCAPED) := by
  by_cases hexit : s2.room (s2.agents a).x (s2.agents a).y = EXIT
  · obtain ⟨st, st', hst, hbody, hinv, hfin⟩ := pass3_at h3 ha
    have hsta : st.agents a = s2.agents a := hinv.rest a (fun hh => Nat.lt_irrefl a hh.1)
    have hcell : st.room (st.agents a).x (st.agents a).y = EXIT := by
      rw [hsta]
      rcases hinv.room (s2.agents a).x (s2.agents a).y with e | ⟨e, _⟩
      · rw [e]; exact hexit
      · rw [hexit] at e; exact absurd e (by decide)
    obtain ⟨_, _, _, hstay, hesc⟩ := pass3Body_frame hbody
    cases he : (recs a).isEscaping
    · left
      rw [hfin, hstay he, hsta]
      exact ⟨rfl, rfl⟩
    · right
      obtain ⟨f1, _, _⟩ := hesc he
      obtain ⟨_, _, t3⟩ := transition_exit a st hcell
      rw [hfin, f1, t3]
      exact ⟨rfl, rfl⟩
  · exact Or.inl (pass3_position h3 ha hexit)

/-- After the three passes, the agents that were active at the start and are not at the
sentinel stand on pairwise distinct cells. -/
theorem simulatePasses_distinct {fuel : Nat} {s : State} {r : Bool × State}
    (hd : ActiveDistinct s) (hfuel : s.numAgents ≤ fuel)
    (h : simulatePasses fuel s = some r) :
    ∀ a b, a < s.numAgents → b < s.numAgents → isActive s a → isActive s b →
      (r.2.agents a).x ≠ ESCAPED → (r.2.agents b).x ≠ ESCAPED →
      (r.2.agents a).x = (r.2.agents b).x → (r.2.agents a).y = (r.2.agents b).y → a = b := by
  intro a b ha hb haa hba hea heb hx hy
  obtain ⟨p, s2, hp1, hp2, hp3, -⟩ := simulatePasses_parts h
  have hn0 : (backup s).numAgents = s.numAgents := (backup_fields s).2.2.2.1
  have hdb := backup_activeDistinct s hd
  have hfb : (backup s).numAgents ≤ fuel := le_of_eq_of_le hn0 hfuel
  have hinv := pass1_claims hdb hfb hp1
  have hbasic := pass1_basic hp1
  have h2 := pass2_inv (s := { backup s with globalRNG := p.globalRNG })
    (fun b hb _ => hbasic.coords b hb) hp2
  have hn2 : s2.numAgents = s.numAgents := by
    rw [h2.config.fields.2.2.1]
    exact hn0
  have hesc : ∀ c, c < s.numAgents → isActive s c → (p.actionRecords c).isEscaping = true := by
    intro c hc hca
    rw [hbasic.escaping_iff c]
    exact ⟨hn0.symm ▸ hc, (backup_isActive s c).mpr hca⟩
  have ma := h2.moved a (hn0.symm ▸ ha) (hesc a ha haa)
  have mb := h2.moved b (hn0.symm ▸ hb) (hesc b hb hba)
  have pa := pass3_place hp3 (hn2.symm ▸ ha)
  have pb := pass3_place hp3 (hn2.symm ▸ hb)
  rcases pa with ⟨ax, ay⟩ | ⟨ax, _⟩
  · rcases pb with ⟨bx, by1⟩ | ⟨bx, _⟩
    · rw [ax, bx, ma, mb] at hx
      rw [ay, by1, ma, mb] at hy
      exact hinv.distinct (hn0.symm ▸ ha) (hn0.symm ▸ hb) ((backup_isActive s a).mpr haa)
        ((backup_isActive s b).mpr hba) hx hy
    · exact absurd bx heb
  · exact absurd ax hea

/-- The account of a turn that does not end the epoch, for active and inactive agents. -/
theorem simulateTurn_places {fuel : Nat} {s s' : State} (hd : ActiveDistinct s)
    (hfuel : s.numAgents ≤ fuel) (hw : s.roomWidth ≤ 9)
    (h : simulateTurn fuel s = some (false, s')) :
    (∀ a b, a < s.numAgents → b < s.numAgents → isActive s a → isActive s b →
      isInRoom s' (s'.agents a).x (s'.agents a).y = true →
      isInRoom s' (s'.agents b).x (s'.agents b).y = true →
      (s'.agents a).x = (s'.agents b).x → (s'.agents a).y = (s'.agents b).y → a = b) ∧
    (∀ b, ¬ isActive s b → s'.agents b = s.agents b) := by
  obtain ⟨flag, s3, hp, he⟩ := simulateTurn_eq_some h
  obtain ⟨hcfg, _, hrest⟩ := simulatePasses_frame hp
  have h1 : (epochEnd flag s3).1 = false := by rw [← he]
  have h2 : s' = (epochEnd flag s3).2 := by rw [← he]
  rw [epochEnd_false h1] at h2
  have hag : s'.agents = s3.agents := by rw [h2]
  have hw' : s'.roomWidth ≤ 9 := by
    rw [h2]
    simp only
    rw [hcfg.fields.1, (backup_fields s).1]
    exact hw
  refine ⟨fun a b ha hb haa hba ia ib hx hy => ?_, fun b hb => ?_⟩
  · have ea := escaped_not_inRoom s' _ _ hw' ia
    have eb := escaped_not_inRoom s' _ _ hw' ib
    rw [hag] at ea eb hx hy
    exact simulatePasses_distinct hd hfuel hp a b ha hb haa hba ea eb hx hy
  · rw [hag]
    exact hrest b (fun hh => hb hh.2)

/-- C26, as the code has it. In a state in which all the agents in the room, living or dead,
stand on pairwise distinct cells (room at most 9 wide, fuel for as many chain steps as there are
agents), after a call of `simulateTurn` that does not end the epoch the agents that were active
when the turn started and are still in the room stand on pairwise distinct cells, and every
agent that was not active, a dead one in particular, is where it was with the health it had.
Nothing keeps an active agent off the cell of a dead agent. The call returns when moreover the
active agents stand on passable cells with a health of at most 2. -/
theorem dead_agent_place (s : State) (fuel : Nat) (hd : InRoomDistinct s)
    (hfuel : s.numAgents ≤ fuel) (hw : s.roomWidth ≤ 9) :
    (WellFormed s → ∃ r, simulateTurn fuel s = some r) ∧
    ∀ s', simulateTurn fuel s = some (false, s') →
      (∀ a b, a < s.numAgents → b < s.numAgents → isActive s a → isActive s b →
        isInRoom s' (s'.agents a).x (s'.agents a).y = true →
        isInRoom s' (s'.agents b).x (s'.agents b).y = true →
        (s'.agents a).x = (s'.agents b).x → (s'.agents a).y = (s'.agents b).y → a = b) ∧
      (∀ b, ¬ isActive s b → s'.agents b = s.agents b) :=
  ⟨fun hwf => simulateTurn_total hwf hfuel,
    fun _ h => simulateTurn_places hd.to_activeDistinct hfuel hw h⟩

/-- C26 as amended, at `deadState` with fuel 2. -/
theorem dead_agent_place_witness :
    InRoomDistinct deadState ∧ deadState.numAgents ≤ 2 ∧ deadState.roomWidth ≤ 9 ∧
    ((WellFormed deadState → ∃ r, simulateTurn 2 deadState = some r) ∧
    ∀ s', simulateTurn 2 deadState = some (false, s') →
      (∀ a b, a < deadState.numAgents → b < deadState.numAgents → isActive deadState a →
        isActive deadState b →
        isInRoom s' (s'.agents a).x (s'.agents a).y = true →
        isInRoom s' (s'.agents b).x (s'.agents b).y = true →
        (s'.agents a).x = (s'.agents b).x → (s'.agents a).y = (s'.agents b).y → a = b) ∧
      (∀ b, ¬ isActive deadState b → s'.agents b = deadState.agents b)) :=
  ⟨by decide, by decide, by decide,
    dead_agent_place deadState 2 (by decide) (by decide) (by decide)⟩

/-- C26 fails on the code. In `deadState` the agents stand on distinct cells, the agent of
index 1 is dead (health 0) on the broken glass and the agent of index 0 is active. The call of
`simulateTurn` returns `FALSE` and leaves the agent of index 0 on the cell `(1, 0)` of the dead
agent: the agents in the room no longer stand on pairwise distinct cells. -/
theorem dead_agent_counterexample :
    InRoomDistinct deadState ∧ WellFormed deadState ∧ isActive deadState 0 ∧
    (deadState.agents 1).health = 0 ∧
    ∃ s', simulateTurn 2 deadState = some (false, s') ∧
      s'.agents 0 = ⟨1, 0, 1⟩ ∧ s'.agents 1 = ⟨1, 0, 0⟩ ∧ ¬ InRoomDistinct s' := by
  have h1 : ((simulateTurn 2 deadState).map fun r =>
      (r.1, r.2.agents 0, r.2.agents 1, decide (InRoomDistinct r.2))) =
      some (false, ⟨1, 0, 1⟩, ⟨1, 0, 0⟩, false) := by
    decide!
  obtain ⟨r, hr, h1⟩ := Option.map_eq_some'.mp h1
  obtain ⟨b, s'⟩ := r
  simp only [Prod.mk.injEq, decide_eq_false_iff_not] at h1
  obtain ⟨rfl, e0, e1, e2⟩ := h1
  exact ⟨by decide, by decide, by decide, by decide, s', hr, e0, e1, e2⟩

/-! ## Termination of the collision chains -/

/-- More fuel does not change what a chain loop returns. -/
theorem chainWhile_mono : ∀ (fuel : Nat) (recs : Nat → actionrecord)
    (cmap : Int → Int → Option Nat) (c : Option Nat)
    (r : (Nat → actionrecord) × (Int → Int → Option Nat)),
    chainWhile fuel recs cmap c = some r → ∀ fuel', fuel ≤ fuel' →
      chainWhile fuel' recs cmap c = some r := by
  intro fuel
  induction fuel with
  | zero =>
    intro recs cmap c r h fuel' _
    cases c with
    | none =>
      cases fuel' <;> simpa only [chainWhile] using h
    | some b => simp [chainWhile] at h
  | succ fuel ih =>
    intro recs cmap c r h fuel' hle
    cases c with
    | none =>
      cases fuel' <;> simpa only [chainWhile] using h
    | some b =>
      cases fuel' with
      | zero => exact absurd hle (Nat.not_succ_le_zero _)
      | succ fuel' =>
        simp only [chainWhile] at h ⊢
        exact ih _ _ _ r h fuel' (Nat.le_of_succ_le_succ hle)

theorem claimTail_mono {fuel fuel' a : Nat} (recs1 : Nat → actionrecord)
    (cmap : Int → Int → Option Nat) (x y : Int) (o : Option Nat)
    {r : (Nat → actionrecord) × (Int → Int → Option Nat)} (hle : fuel ≤ fuel') :
    (match o with
      | none => some (recs1, setCell cmap x y (some a))
      | some b =>
        (chainDoWhile fuel recs1 cmap b).bind fun r =>
          (chainWhile fuel (setAt r.1 a { r.1 a with dx := (r.1 a).x, dy := (r.1 a).y }) r.2
            (r.2 (r.1 a).x (r.1 a).y)).bind fun r2 =>
              some (r2.1, setCell r2.2 (r.1 a).x (r.1 a).y (some a))) = some r →
    (match o with
      | none => some (recs1, setCell cmap x y (some a))
      | some b =>
        (chainDoWhile fuel' recs1 cmap b).bind fun r =>
          (chainWhile fuel' (setAt r.1 a { r.1 a with dx := (r.1 a).x, dy := (r.1 a).y }) r.2
            (r.2 (r.1 a).x (r.1 a).y)).bind fun r2 =>
              some (r2.1, setCell r2.2 (r.1 a).x (r.1 a).y (some a))) = some r := by
  intro h
  cases o with
  | none => exact h
  | some b =>
    simp only at h ⊢
    rw [chainDoWhile_eq] at h ⊢
    obtain ⟨r1, h1, h⟩ := Option.bind_eq_some.mp h
    obtain ⟨r2, h2, h⟩ := Option.bind_eq_some.mp h
    rw [chainWhile_mono _ _ _ _ r1 h1 fuel' hle]
    simp only [Option.some_bind]
    rw [chainWhile_mono _ _ _ _ r2 h2 fuel' hle]
    exact h

theorem claimCell_mono {s : State} {fuel fuel' a : Nat} {act : action}
    {recs : Nat → actionrecord} {cmap : Int → Int → Option Nat}
    {r : (Nat → actionrecord) × (Int → Int → Option Nat)} (hle : fuel ≤ fuel')
    (h : claimCell s fuel a act recs cmap = some r) :
    claimCell s fuel' a act recs cmap = some r :=
  claimTail_mono _ cmap _ _ _ hle h

theorem pass1Body_mono {s : State} {fuel fuel' n : Nat} {p p' : Pass1} (hle : fuel ≤ fuel')
    (h : pass1Body s fuel n p = some p') : pass1Body s fuel' n p = some p' := by
  unfold pass1Body at h ⊢
  simp only at h ⊢
  split_ifs at h ⊢ with hact
  · obtain ⟨c, hc, h⟩ := Option.bind_eq_some.mp h
    obtain ⟨r, hr, h⟩ := Option.bind_eq_some.mp h
    rw [hc]
    simp only [Option.some_bind]
    rw [claimCell_mono hle hr]
    exact h
  · exact h

/-- The body of pass 1 aborts only at the assertions of `getQEntry`. -/
theorem pass1Body_none {s : State} {fuel n : Nat} {p : Pass1} (hd : ActiveDistinct s)
    (hn : n < s.numAgents) (hfuel : n < fuel) (hc : Pass1Claims s n p)
    (h : pass1Body s fuel n p = none) : isActive s n ∧ getQEntry s n = none := by
  have hstep := (Pass1Claims.claims_step hd hn hfuel hc).1
  by_cases ha : isActive s n
  · refine ⟨ha, ?_⟩
    cases hq : getQEntry s n with
    | none => rfl
    | some q =>
      obtain ⟨p', hp'⟩ := hstep (fun _ => (getQEntry_eq_some hq).2.1)
      rw [h] at hp'
      cases hp'
  · obtain ⟨p', hp'⟩ := hstep (fun hh => absurd hh ha)
    rw [h] at hp'
    cases hp'

theorem pass1Body_of_none {s : State} {n : Nat} {p : Pass1} (fuel : Nat) (ha : isActive s n)
    (hq : getQEntry s n = none) : pass1Body s fuel n p = none := by
  obtain ⟨_, _, _, heq⟩ := @pass1Body_active s fuel n p ha
  rw [heq]
  unfold chooseAction
  rw [hq]
  rfl

/-- The invariant of the claims holds after every iteration of pass 1. -/
theorem pass1_prefix_claims {s : State} {fuel : Nat} (hd : ActiveDistinct s)
    (hfuel : s.numAgents ≤ fuel) :
    ∀ n, n ≤ s.numAgents → ∀ p, forLoopM (pass1Body s fuel) n (pass1Init s) = some p →
      Pass1Claims s n p :=
  forLoopM_induct (pass1Body s fuel) (fun n p => Pass1Claims s n p) s.numAgents (pass1Init s)
    (Pass1Claims.claims_init s)
    (fun _ _ st2 hn hc hb =>
      (Pass1Claims.claims_step hd hn (Nat.lt_of_lt_of_le hn hfuel) hc).2 st2 hb)

/-- Beyond one unit per agent, the fuel has no effect on pass 1. -/
theorem pass1_fuel {s : State} {fuel : Nat} (hd : ActiveDistinct s)
    (hfuel : s.numAgents ≤ fuel) : pass1 s fuel = pass1 s s.numAgents := by
  unfold pass1
  have key : ∀ n, n ≤ s.numAgents →
      forLoopM (pass1Body s fuel) n (pass1Init s) =
        forLoopM (pass1Body s s.numAgents) n (pass1Init s) := by
    intro n
    induction n with
    | zero => intro _; rfl
    | succ n ih =>
      intro hn
      rw [forLoopM_succ, forLoopM_succ, ih (Nat.le_of_succ_le hn)]
      cases hp : forLoopM (pass1Body s s.numAgents) n (pass1Init s) with
      | none => rfl
      | some p =>
        simp only [Option.some_bind]
        have hc := pass1_prefix_claims hd (le_refl _) n (Nat.le_of_succ_le hn) p hp
        cases hb : pass1Body s s.numAgents n p with
        | none =>
          obtain ⟨ha, hq⟩ := pass1Body_none hd (Nat.lt_of_succ_le hn) (Nat.lt_of_succ_le hn) hc hb
          exact pass1Body_of_none fuel ha hq
        | some p' => exact pass1Body_mono hfuel hb
  exact key s.numAgents (le_refl _)

theorem simulateTurn_fuel {s : State} {fuel : Nat} (hd : ActiveDistinct s)
    (hfuel : s.numAgents ≤ fuel) : simulateTurn fuel s = simulateTurn s.numAgents s := by
  have hn0 : (backup s).numAgents = s.numAgents := (backup_fields s).2.2.2.1
  have e := pass1_fuel (backup_activeDistinct s hd) (le_of_eq_of_le hn0 hfuel)
  rw [hn0] at e
  unfold simulateTurn simulatePasses
  rw [e]

/-- C29. Chain traversal terminates. In a state whose active agents stand on pairwise distinct
cells of the room, whatever the table and the generator (so whatever actions are picked), with
one unit of fuel per agent: an iteration of pass 1, with its two chain loops, returns unless
one of the assertions of `getQEntry` fails for its agent; more fuel changes nothing to the result
of `simulateTurn`, so no chain loop makes more iterations than there are agents; and
`simulateTurn` returns when the state is well-formed. -/
theorem chain_termination (s : State) (fuel : Nat) (hd : ActiveDistinct s)
    (hfuel : s.numAgents ≤ fuel) :
    (∀ n p, n < s.numAgents → forLoopM (pass1Body s fuel) n (pass1Init s) = some p →
      pass1Body s fuel n p = none → isActive s n ∧ getQEntry s n = none) ∧
    ((∀ b, b < s.numAgents → isActive s b → (s.agents b).health ≤ MAX_HEALTH) →
      ∃ p, pass1 s fuel = some p) ∧
    (∀ fuel', s.numAgents ≤ fuel' → pass1 s fuel' = pass1 s fuel ∧
      simulateTurn fuel' s = simulateTurn fuel s) ∧
    (WellFormed s → ∃ r, simulateTurn fuel s = some r) :=
  ⟨fun n p hn hp hb => pass1Body_none hd hn (Nat.lt_of_lt_of_le hn hfuel)
      (pass1_prefix_claims hd hfuel n (Nat.le_of_lt hn) p hp) hb,
    pass1_total hd hfuel,
    fun _ hf => ⟨(pass1_fuel hd hf).trans (pass1_fuel hd hfuel).symm,
      (simulateTurn_fuel hd hf).trans (simulateTurn_fuel hd hfuel).symm⟩,
    fun hw => simulateTurn_total hw hfuel⟩

/-- C29 at `rowState`, with fuel 4: the four agents all prefer `RIGHT`, the chains send the
three agents of the bottom row back to their start cells, and the call returns `FALSE`. -/
theorem chain_termination_witness :
    ActiveDistinct rowState ∧ rowState.numAgents ≤ 4 ∧
    (simulateTurn 4 rowState).map (fun r => (r.1, (List.range 4).map r.2.agents)) =
      some (false, [⟨0, 0, 2⟩, ⟨1, 0, 2⟩, ⟨2, 0, 2⟩, ⟨1, 1, 2⟩]) ∧
    ((∀ n p, n < rowState.numAgents →
        forLoopM (pass1Body rowState 4) n (pass1Init rowState) = some p →
        pass1Body rowState 4 n p = none → isActive rowState n ∧ getQEntry rowState n = none) ∧
      ((∀ b, b < rowState.numAgents → isActive rowState b →
          (rowState.agents b).health ≤ MAX_HEALTH) → ∃ p, pass1 rowState 4 = some p) ∧
      (∀ fuel', rowState.numAgents ≤ fuel' → pass1 rowState fuel' = pass1 rowState 4 ∧
        simulateTurn fuel' rowState = simulateTurn 4 rowState) ∧
      (WellFormed rowState → ∃ r, simulateTurn 4 rowState = some r)) :=
  ⟨by decide, by decide, by decide!, chain_termination rowState 4 (by decide) (by decide)⟩

/-! ## Safety of a step -/

theorem isInRoom_range {s : State} (hw : s.roomWidth ≤ 9 ∧ s.roomHeight ≤ 9) {x y : Int}
    (h : isInRoom s x y = true) : 0 ≤ x ∧ x < 9 ∧ 0 ≤ y ∧ y < 9 := by
  simp only [isInRoom, Bool.and_eq_true, decide_eq_true_eq] at h
  omega

theorem actionModCoords_inRoom (s : State) (act : action) (x y : Int)
    (hw : 1 ≤ s.roomWidth) (hh : 1 ≤ s.roomHeight) :
    isInRoom s (actionModCoords s act x y).1 (actionModCoords s act x y).2 = true := by
  simp only [isInRoom, Bool.and_eq_true, decide_eq_true_eq, actionModCoords]
  have h1 := clamp_mem (match act with
    | .LEFT => (x - 1, y)
    | .RIGHT => (x + 1, y)
    | .DOWN => (x, y - 1)
    | .UP => (x, y + 1)
    | .STAY => (x, y)).1 0 (s.roomWidth - 1) (by omega)
  have h2 := clamp_mem (match act with
    | .LEFT => (x - 1, y)
    | .RIGHT => (x + 1, y)
    | .DOWN => (x, y - 1)
    | .UP => (x, y + 1)
    | .STAY => (x, y)).2 0 (s.roomHeight - 1) (by omega)
  omega

/-- The body of a collision chain keeps the locals safe to index. -/
theorem revertStep_safe {s : State} {recs : Nat → actionrecord} {cmap : Int → Int → Option Nat}
    {b : Nat} (h : Pass1Safe s recs cmap) (hb : b < s.numAgents ∧ (recs b).isEscaping = true) :
    Pass1Safe s (revertStep recs cmap b).1 (revertStep recs cmap b).2.1 ∧
    ∀ c, (revertStep recs cmap b).2.2 = some c →
      c < s.numAgents ∧ ((revertStep recs cmap b).1 c).isEscaping = true := by
  have hesc : ∀ c, ((revertStep recs cmap b).1 c).isEscaping = (recs c).isEscaping :=
    fun c => (revertStep_sameDecision recs cmap b c).1
  refine ⟨⟨fun c hc => ?_, fun x y c hc => ?_⟩, fun c hc => ?_⟩
  · rw [hesc] at hc
    rw [revertStep_x, revertStep_y, revertStep_dx, revertStep_dy]
    split_ifs with hcb
    · subst hcb
      exact ⟨(h.1 c hc).1, (h.1 c hc).1⟩
    · exact h.1 c hc
  · rw [revertStep_cmap] at hc
    rw [hesc]
    split_ifs at hc with hcell
    · simp only [Option.some.injEq] at hc
      subst hc
      rw [hcell.1, hcell.2]
      exact ⟨(h.1 b hb.2).1, hb.1, hb.2⟩
    · exact h.2 x y c hc
  · rw [revertStep_next] at hc
    rw [hesc]
    split_ifs at hc with hnext
    exact (h.2 _ _ c hc).2

theorem chainWhile_safe {s : State} (fuel : Nat) (recs : Nat → actionrecord)
    (cmap : Int → Int → Option Nat) (c : Option Nat)
    (r : (Nat → actionrecord) × (Int → Int → Option Nat)) (h : Pass1Safe s recs cmap)
    (hc : ∀ b, c = some b → b < s.numAgents ∧ (recs b).isEscaping = true)
    (hr : chainWhile fuel recs cmap c = some r) : Pass1Safe s r.1 r.2 :=
  (chainWhile_induct
    (fun recs cmap c => Pass1Safe s recs cmap ∧
      ∀ b, c = some b → b < s.numAgents ∧ (recs b).isEscaping = true)
    (fun _ _ b hp => revertStep_safe hp.1 (hp.2 b rfl)) fuel recs cmap c r ⟨h, hc⟩ hr).1

/-- The claim of an agent keeps the locals safe to index. -/
theorem claimCell_safe {s : State} {fuel a : Nat} {act : action} {recs : Nat → actionrecord}
    {cmap : Int → Int → Option Nat} {r : (Nat → actionrecord) × (Int → Int → Option Nat)}
    (h : Pass1Safe s recs cmap) (ha : a < s.numAgents) (hesc : (recs a).isEscaping = true)
    (hdx : (recs a).dx = (recs a).x) (hdy : (recs a).dy = (recs a).y)
    (hr : claimCell s fuel a act recs cmap = some r) : Pass1Safe s r.1 r.2 := by
  obtain ⟨recs1, h1ne, h1dec, h1claim, heq⟩ := claimCell_eq s fuel a act recs cmap hdx hdy
  have hstart := (h.1 a hesc).1
  have htent := tentative_inRoom s act (recs a).x (recs a).y hstart
  have h1esc : ∀ c, (recs1 c).isEscaping = (recs c).isEscaping := by
    intro c
    by_cases hca : c = a
    · subst hca; exact h1dec.1
    · rw [h1ne c hca]
  have h1 : Pass1Safe s recs1 cmap := by
    refine ⟨fun c hc => ?_, fun x y c hc => ?_⟩
    · by_cases hca : c = a
      · subst hca
        rw [h1dec.2.1, h1dec.2.2.1]
        refine ⟨hstart, ?_⟩
        have e1 : (recs1 c).dx = (tentative s act (recs c).x (recs c).y).1 :=
          congrArg Prod.fst h1claim
        have e2 : (recs1 c).dy = (tentative s act (recs c).x (recs c).y).2 :=
          congrArg Prod.snd h1claim
        rw [e1, e2]
        exact htent
      · rw [h1ne c hca]
        rw [h1ne c hca] at hc
        exact h.1 c hc
    · rw [h1esc]
      exact h.2 x y c hc
  have hset : ∀ (recs' : Nat → actionrecord) (cmap' : Int → Int → Option Nat) (x y : Int),
      Pass1Safe s recs' cmap' → isInRoom s x y = true → (recs' a).isEscaping = true →
      Pass1Safe s recs' (setCell cmap' x y (some a)) := by
    intro recs' cmap' x y hs hin he
    refine ⟨hs.1, fun i j c hc => ?_⟩
    rw [setCell_apply] at hc
    split_ifs at hc with hcell
    · simp only [Option.some.injEq] at hc
      subst hc
      rw [hcell.1, hcell.2]
      exact ⟨hin, ha, he⟩
    · exact hs.2 i j c hc
  rw [heq] at hr
  cases hc : cmap (tentative s act (recs a).x (recs a).y).1
      (tentative s act (recs a).x (recs a).y).2 with
  | none =>
    rw [hc] at hr
    simp only [Option.some.injEq] at hr
    subst hr
    exact hset recs1 cmap _ _ h1 htent ((h1esc a).trans hesc)
  | some b =>
    rw [hc] at hr
    simp only at hr
    obtain ⟨r1, hr1, hr⟩ := Option.bind_eq_some.mp hr
    obtain ⟨r2, hr2, hr⟩ := Option.bind_eq_some.mp hr
    simp only [Option.some.injEq] at hr
    subst hr
    rw [chainDoWhile_eq] at hr1
    have hb := (h1.2 _ _ b hc).2
    have s1 := chainWhile_safe fuel recs1 cmap (some b) r1 h1
      (fun b' e => by cases e; exact hb) hr1
    have d1 := chainWhile_decision recs1 fuel recs1 cmap (some b) r1
      (fun c => SameDecision.same_refl _) hr1
    have ea1 : (r1.1 a).isEscaping = true := by
      rw [(d1 a).1, h1esc]; exact hesc
    have hxa : isInRoom s (r1.1 a).x (r1.1 a).y = true := (s1.1 a ea1).1
    have s1' : Pass1Safe s (setAt r1.1 a { r1.1 a with dx := (r1.1 a).x, dy := (r1.1 a).y })
        r1.2 := by
      refine ⟨fun c hc => ?_, fun x y c hc => ?_⟩
      · by_cases hca : c = a
        · subst hca
          rw [setAt_same]
          exact ⟨hxa, hxa⟩
        · rw [setAt_ne _ _ _ _ hca] at hc ⊢
          exact s1.1 c hc
      · obtain ⟨i1, i2, i3⟩ := s1.2 x y c hc
        refine ⟨i1, i2, ?_⟩
        by_cases hca : c = a
        · subst hca
          rw [setAt_same]
          exact i3
        · rw [setAt_ne _ _ _ _ hca]
          exact i3
    have s2 := chainWhile_safe fuel _ r1.2 (r1.2 (r1.1 a).x (r1.1 a).y) r2 s1'
      (fun b' e => (s1'.2 _ _ b' e).2) hr2
    have d2 := chainWhile_decision
      (setAt r1.1 a { r1.1 a with dx := (r1.1 a).x, dy := (r1.1 a).y }) fuel _ r1.2
      (r1.2 (r1.1 a).x (r1.1 a).y) r2 (fun c => SameDecision.same_refl _) hr2
    have ea2 : (r2.1 a).isEscaping = true := by
      rw [(d2 a).1, setAt_same]
      exact ea1
    exact hset r2.1 r2.2 _ _ s2 hxa ea2

/-- An iteration of pass 1 keeps the locals safe to index. -/
theorem pass1Body_safe {s : State} {fuel n : Nat} {p p' : Pass1} (hn : n < s.numAgents)
    (hb : Pass1Basic s n p) (h : Pass1Safe s p.actionRecords p.collisionMap)
    (hbody : pass1Body s fuel n p = some p') : Pass1Safe s p'.actionRecords p'.collisionMap := by
  have hnesc : (p.actionRecords n).isEscaping = false := by
    rw [hb.escaping n]
    simp
  have hne : ∀ b, (p.actionRecords b).isEscaping = true → b ≠ n := by
    intro b he e
    rw [e, hnesc] at he
    cases he
  by_cases ha : isActive s n
  · obtain ⟨recs2, h2ne, h2n, heq⟩ := @pass1Body_active s fuel n p ha
    rw [heq] at hbody
    obtain ⟨c, hc, hbody⟩ := Option.bind_eq_some.mp hbody
    obtain ⟨r, hr, hbody⟩ := Option.bind_eq_some.mp hbody
    simp only [Option.some.injEq] at hbody
    subst hbody
    have h2 := h2n c hc
    have hs2 : Pass1Safe s recs2 p.collisionMap := by
      refine ⟨fun b he => ?_, fun x y b hcell => ?_⟩
      · by_cases hbn : b = n
        · subst hbn
          rw [h2]
          exact ⟨ha.1, ha.1⟩
        · rw [h2ne b hbn] at he ⊢
          exact h.1 b he
      · obtain ⟨i1, i2, i3⟩ := h.2 x y b hcell
        refine ⟨i1, i2, ?_⟩
        rw [h2ne b (hne b i3)]
        exact i3
    exact claimCell_safe hs2 hn (by rw [h2]) (by rw [h2]) (by rw [h2]) hr
  · rw [pass1Body_inactive ha] at hbody
    simp only [Option.some.injEq] at hbody
    subst hbody
    refine ⟨fun b he => ?_, fun x y b hcell => ?_⟩
    · simp only at he ⊢
      by_cases hbn : b = n
      · subst hbn
        rw [setAt_same] at he
        simp only at he
        rw [hnesc] at he
        cases he
      · rw [setAt_ne _ _ _ _ hbn] at he ⊢
        exact h.1 b he
    · simp only at hcell ⊢
      obtain ⟨i1, i2, i3⟩ := h.2 x y b hcell
      refine ⟨i1, i2, ?_⟩
      rw [setAt_ne _ _ _ _ (hne b i3)]
      exact i3

/-- The locals of pass 1 are safe to index after every iteration. -/
theorem pass1_prefix_safe {s : State} {fuel : Nat} :
    ∀ n, n ≤ s.numAgents → ∀ p, forLoopM (pass1Body s fuel) n (pass1Init s) = some p →
      Pass1Basic s n p ∧ Pass1Safe s p.actionRecords p.collisionMap :=
  forLoopM_induct (pass1Body s fuel)
    (fun n p => Pass1Basic s n p ∧ Pass1Safe s p.actionRecords p.collisionMap)
    s.numAgents (pass1Init s)
    ⟨Pass1Basic.basic_init s,
      fun b he => by simp [pass1Init, actionrecord.zero] at he,
      fun x y b he => by simp [pass1Init] at he⟩
    (fun _ _ _ hn hp hb => ⟨hp.1.basic_step hb, pass1Body_safe hn hp.1 hp.2 hb⟩)

theorem StepPre.backup_pre {s : State} (h : StepPre s) : StepPre (backup s) := by
  unfold backup
  split_ifs
  · exact h
  · exact h

theorem StepPre.active_ok {s : State} (h : StepPre s) {b : Nat} (hb : b < s.numAgents)
    (hact : isActive s b) :
    (s.agents b).health ≤ MAX_HEALTH ∧
      isPassable (s.room (s.agents b).x (s.agents b).y) = true := by
  obtain ⟨hhealth, hpos⟩ := h.2.2 b hb
  constructor
  · simp only [MAX_HEALTH]
    omega
  · rcases hpos with ⟨ex, -⟩ | ⟨-, hpass⟩
    · exact absurd ex (escaped_not_inRoom s _ _ h.1.2.1 hact.1)
    · exact hpass

theorem StepPre.pre_wellFormed {s : State} (h : StepPre s) (hd : ActiveDistinct s) :
    WellFormed s :=
  ⟨hd, fun _ hb hact => h.active_ok hb hact⟩

/-- The cell that a selected record claims at the end of pass 1 is passable. -/
theorem pass1_claim_passable {s : State} {fuel : Nat} {p : Pass1} (h : StepPre s)
    (hp : pass1 s fuel = some p) {b : Nat} (hb : b < s.numAgents)
    (hesc : (p.actionRecords b).isEscaping = true) :
    isPassable (s.room (p.actionRecords b).dx (p.actionRecords b).dy) = true := by
  have hbasic := pass1_basic hp
  have hact := ((hbasic.escaping_iff b).mp hesc).2
  obtain ⟨hcx, hcy⟩ := hbasic.coords b hb
  have hstart := (h.active_ok hb hact).2
  rcases pass1_shape hp b with ⟨e1, e2⟩ | e
  · rw [e1, e2, hcx, hcy]
    exact hstart
  · have e1 : (p.actionRecords b).dx =
        (tentative s (p.actionRecords b).action (s.agents b).x (s.agents b).y).1 := by
      rw [← hcx, ← hcy, ← e]
    have e2 : (p.actionRecords b).dy =
        (tentative s (p.actionRecords b).action (s.agents b).x (s.agents b).y).2 := by
      rw [← hcx, ← hcy, ← e]
    rw [e1, e2]
    exact tentative_passable s _ _ _ hstart

/-- No assertion of pass 2 or of pass 3 fails after a pass 1 that returned. -/
theorem passes_after_pass1 {s : State} {fuel : Nat} {p : Pass1} (h : StepPre s)
    (hp : pass1 s fuel = some p) :
    ∃ s2 s3, pass2 p.actionRecords { s with globalRNG := p.globalRNG } = some s2 ∧
      pass3 p.actionRecords s2 = some s3 ∧
      ∀ a st, a < s.numAgents → forLoopM (pass3Body p.actionRecords) a s2 = some st →
        (p.actionRecords a).isEscaping = true →
        (isInRoom st (st.agents a).x (st.agents a).y = true ∧ 0 < (st.agents a).health ∧
          (st.agents a).health ≤ MAX_HEALTH) ∧
        ((transition a st).2.2.roomWidth = s.roomWidth ∧
          (transition a st).2.2.roomHeight = s.roomHeight) ∧
        ((transition a st).2.1 = false → isActive (transition a st).2.2 a ∧
          ((transition a st).2.2.agents a).health ≤ MAX_HEALTH) := by
  have hbasic := pass1_basic hp
  have hsafe := (pass1_prefix_safe s.numAgents (le_refl _) p hp).2
  have hxy : ∀ b, b < ({ s with globalRNG := p.globalRNG } : State).numAgents →
      (p.actionRecords b).isEscaping = true →
      (p.actionRecords b).x = (({ s with globalRNG := p.globalRNG } : State).agents b).x ∧
      (p.actionRecords b).y = (({ s with globalRNG := p.globalRNG } : State).agents b).y :=
    fun b hb _ => hbasic.coords b hb
  obtain ⟨s2, h2⟩ := pass2_total hxy
    (fun b hb hesc _ => pass1_claim_passable h hp hb hesc)
  have h2inv := pass2_inv hxy h2
  have hn2 : s2.numAgents = s.numAgents := h2inv.config.fields.2.2.1
  have hw2 : s2.roomWidth = s.roomWidth := h2inv.config.fields.1
  have hh2 : s2.roomHeight = s.roomHeight := h2inv.config.fields.2.1
  have hd2 : s2.useDoubleQ = s.useDoubleQ := h2inv.config.fields.2.2.2.2.2.2.2.2.2.2.2.2.2.2.2.1
  have hag2 : ∀ b, b < s.numAgents → (p.actionRecords b).isEscaping = true →
      isInRoom s2 (s2.agents b).x (s2.agents b).y = true ∧ 0 < (s2.agents b).health ∧
      (s2.agents b).health ≤ MAX_HEALTH := by
    intro b hb hesc
    rw [h2inv.moved b hb hesc]
    have hact := ((hbasic.escaping_iff b).mp hesc).2
    refine ⟨?_, hact.2, (h.active_ok hb hact).1⟩
    have := (hsafe.1 b hesc).2
    simp only [isInRoom, hw2, hh2] at this ⊢
    exact this
  obtain ⟨s3, h3⟩ := @pass3_total s2 p.actionRecords (fun b hb hesc => by
    obtain ⟨i1, i2, i3⟩ := hag2 b (hn2 ▸ hb) hesc
    refine ⟨i1, i2, i3, fun hdq => ?_⟩
    have hact := ((hbasic.escaping_iff b).mp hesc).2
    have hq := (getQEntry_eq_some (hbasic.entry b (hn2 ▸ hb) hact)).2.2.2
    simp only at hq
    rw [hq, ← hd2, hdq]
    simp)
  refine ⟨s2, s3, h2, h3, fun a st ha hst hesc => ?_⟩
  have hinv : Pass3Inv s2 p.actionRecords a st :=
    forLoopM_induct (pass3Body p.actionRecords) (fun n st => Pass3Inv s2 p.actionRecords n st)
      s2.numAgents s2 (Pass3Inv.reward_init s2 p.actionRecords)
      (fun _ _ _ _ hp hb => hp.reward_step hb) a (by rw [hn2]; exact Nat.le_of_lt ha) st hst
  have hsta : st.agents a = s2.agents a := hinv.rest a (fun hh => Nat.lt_irrefl a hh.1)
  obtain ⟨i1, i2, i3⟩ := hag2 a ha hesc
  have hin : isInRoom st (st.agents a).x (st.agents a).y = true := by
    rw [hinv.config.isInRoom, hsta]
    exact i1
  have hpos : 0 < (st.agents a).health := by rw [hsta]; exact i2
  have hmax : (st.agents a).health ≤ MAX_HEALTH := by rw [hsta]; exact i3
  obtain ⟨hc, _⟩ := transition_frame a st
  refine ⟨⟨hin, hpos, hmax⟩,
    ⟨by rw [hc.fields.1, hinv.config.fields.1, hw2],
      by rw [hc.fields.2.1, hinv.config.fields.2.1, hh2]⟩, fun ht => ?_⟩
  obtain ⟨hx, hy, h0, hm⟩ := transition_alive a st hpos hmax ht
  exact ⟨⟨by rw [hc.isInRoom, hx, hy]; exact hin, h0⟩, hm⟩

theorem backup_isInRoom (s : State) (x y : Int) : isInRoom (backup s) x y = isInRoom s x y := by
  unfold backup
  split_ifs <;> rfl

/-- C28. Assertions and indexing are safe inside a step. If the room has a side between 1 and
9 each way, there are at most 81 agents, and every listed agent has health 0, 1 or 2 and is at
the sentinel `ESCAPED` or on a passable cell of the room, then: a cell of the room has indices
in `0..8`; `getQEntry` passes its assertions for every active agent and returns pointers whose
five entries lie in the first table and, for the second pointer, inside `qTable`; after every
iteration of pass 1 the selected records are those of the active agents met so far, they hold a
start cell and a claim in the room, and every entry of the collision map sits at a cell of the
room and names a listed agent with a selected record; when pass 1 returns, the pointers of a
selected record are those of `getQEntry`, the target that pass 2 looks at is in the room, the
cell claimed is passable, pass 2 and pass 3 return, and at the call of `getQEntry` in pass 3 the
agent is alive and in the room and the call returns pointers inside `qTable`. With active
agents on pairwise distinct cells and fuel for the chains, the whole call returns. -/
theorem step_safety (fuel : Nat) (s : State) (h : StepPre s) :
    (∀ x y, isInRoom s x y = true → 0 ≤ x ∧ x < 9 ∧ 0 ≤ y ∧ y < 9) ∧
    (∀ b, b < s.numAgents → isActive s b → ∃ q, getQEntry s b = some q ∧
      ∀ i, i < 5 → q.1 + i < 5314410 ∧ ∀ qB, q.2 = some qB → qB + i < 10628820) ∧
    (∀ n p, n ≤ s.numAgents →
      forLoopM (pass1Body (backup s) fuel) n (pass1Init (backup s)) = some p →
      (∀ b, (p.actionRecords b).isEscaping = true ↔ b < n ∧ isActive s b) ∧
      (∀ b, (p.actionRecords b).isEscaping = true →
        isInRoom s (p.actionRecords b).x (p.actionRecords b).y = true ∧
        isInRoom s (p.actionRecords b).dx (p.actionRecords b).dy = true) ∧
      (∀ x y b, p.collisionMap x y = some b →
        isInRoom s x y = true ∧ b < s.numAgents ∧ (p.actionRecords b).isEscaping = true)) ∧
    (∀ p, pass1 (backup s) fuel = some p →
      (∀ b, b < s.numAgents → (p.actionRecords b).isEscaping = true →
        getQEntry s b = some ((p.actionRecords b).q0, (p.actionRecords b).q1) ∧
        isInRoom s
          (actionModCoords s (p.actionRecords b).action (p.actionRecords b).x
            (p.actionRecords b).y).1
          (actionModCoords s (p.actionRecords b).action (p.actionRecords b).x
            (p.actionRecords b).y).2 = true ∧
        isPassable (s.room (p.actionRecords b).dx (p.actionRecords b).dy) = true) ∧
      ∃ s2 s3, pass2 p.actionRecords { backup s with globalRNG := p.globalRNG } = some s2 ∧
        pass3 p.actionRecords s2 = some s3 ∧
        simulateTurn fuel s = some (epochEnd p.someAgentsAreEscaping s3) ∧
        ∀ a st, a < s.numAgents → forLoopM (pass3Body p.actionRecords) a s2 = some st →
          (p.actionRecords a).isEscaping = true →
          (isInRoom st (st.agents a).x (st.agents a).y = true ∧ 0 < (st.agents a).health ∧
            (st.agents a).health ≤ MAX_HEALTH) ∧
          ((transition a st).2.1 = false →
            isActive (transition a st).2.2 a ∧
            ∃ q, getQEntry (transition a st).2.2 a = some q ∧
              ∀ i, i < 5 → q.1 + i < 5314410 ∧ ∀ qB, q.2 = some qB → qB + i < 10628820)) ∧
    (ActiveDistinct s → s.numAgents ≤ fuel → ∃ r, simulateTurn fuel s = some r) := by
  obtain ⟨bw, bh, br, bn, ba, -⟩ := backup_fields s
  have hb := h.backup_pre
  refine ⟨fun x y hin => isInRoom_range ⟨h.1.2.1, h.1.2.2.2⟩ hin, fun b hlt hact => ?_,
    fun n p hn hp => ?_, fun p hp => ?_,
    fun hd hfuel => simulateTurn_total (h.pre_wellFormed hd) hfuel⟩
  · obtain ⟨q, hq⟩ := getQEntry_isSome hact (h.active_ok hlt hact).1
    refine ⟨q, hq, fun i hi => ?_⟩
    obtain ⟨b1, b2⟩ := getQEntry_bounds ⟨h.1.2.1, h.1.2.2.2⟩ hq i hi
    exact ⟨b1, fun qB e => (b2 qB e).2⟩
  · obtain ⟨hbasic, hsafe⟩ := pass1_prefix_safe n (by rw [bn]; exact hn) p hp
    refine ⟨fun b => ?_, fun b he => ?_, fun x y b hc => ?_⟩
    · rw [hbasic.escaping_iff b, backup_isActive]
    · have := hsafe.1 b he
      rw [backup_isInRoom, backup_isInRoom] at this
      exact this
    · have := hsafe.2 x y b hc
      rw [backup_isInRoom, bn] at this
      exact this
  · have hbasic := pass1_basic hp
    obtain ⟨s2, s3, h2, h3, hrest⟩ := passes_after_pass1 hb hp
    refine ⟨fun b hlt he => ?_, s2, s3, h2, h3, ?_, fun a st ha hst he => ?_⟩
    · have hact := ((hbasic.escaping_iff b).mp he).2
      have hq := hbasic.entry b (by rw [bn]; exact hlt) hact
      rw [getQEntry_backup] at hq
      have hpass := pass1_claim_passable hb hp (by rw [bn]; exact hlt) he
      rw [br] at hpass
      exact ⟨hq, actionModCoords_inRoom s _ _ _ h.1.1 h.1.2.2.1, hpass⟩
    · unfold simulateTurn simulatePasses
      rw [hp]
      simp only [Option.some_bind]
      rw [h2]
      simp only [Option.some_bind]
      rw [h3]
      rfl
    · obtain ⟨i1, ⟨dw, dh⟩, i2⟩ := hrest a st (by rw [bn]; exact ha) hst he
      refine ⟨i1, fun ht => ?_⟩
      obtain ⟨j1, j2⟩ := i2 ht
      obtain ⟨q, hq⟩ := getQEntry_isSome j1 j2
      refine ⟨j1, q, hq, fun i hi => ?_⟩
      obtain ⟨b1, b2⟩ := getQEntry_bounds
        ⟨by rw [dw, bw]; exact h.1.2.1, by rw [dh, bh]; exact h.1.2.2.2⟩ hq i hi
      exact ⟨b1, fun qB e => (b2 qB e).2⟩

/-- C28 at `deadState`, with fuel 2: a living agent next to a dead one; the call returns
`FALSE`. -/
theorem step_safety_witness :
    StepPre deadState ∧
    (simulateTurn 2 deadState).map (fun r => r.1) = some false ∧
    ∀ b, b < deadState.numAgents → isActive deadState b → ∃ q, getQEntry deadState b = some q ∧
      ∀ i, i < 5 → q.1 + i < 5314410 ∧ ∀ qB, q.2 = some qB → qB + i < 10628820 :=
  ⟨by decide, by decide!, (step_safety 2 deadState (by decide)).2.1⟩

/-! ## The reward of an escape run -/

/-- Pass 3 with a single selected record is the body of its loop for that agent. -/
theorem pass3_single {recs : Nat → actionrecord} {s2 : State} {a : Nat}
    (ha : a < s2.numAgents)
    (hothers : ∀ b, b ≠ a → (recs b).isEscaping = false) :
    pass3 recs s2 = pass3Body recs a s2 := by
  have hskip : ∀ b, b ≠ a → ∀ st, pass3Body recs b st = some st := by
    intro b hb st
    simp only [pass3Body, hothers b hb, Bool.false_eq_true, if_false]
  have key : ∀ n, forLoopM (pass3Body recs) n s2 =
      if n ≤ a then some s2 else pass3Body recs a s2 := by
    intro n
    induction n with
    | zero => simp [forLoopM]
    | succ n ih =>
      rw [forLoopM_succ, ih]
      by_cases h1 : n + 1 ≤ a
      · rw [if_pos (Nat.le_of_succ_le h1), if_pos h1]
        exact hskip n (by omega) s2
      · rw [if_neg h1]
        by_cases h2 : n ≤ a
        · have e : n = a := by omega
          rw [if_pos h2, e]
          rfl
        · rw [if_neg h2]
          cases pass3Body recs a s2 with
          | none => rfl
          | some st => exact hskip n (by omega) st
  unfold pass3
  rw [key, if_neg (by omega)]

/-- The reward of a transition that leaves the agent at the sentinel, or active. -/
theorem transition_reward (a : Nat) (s : State) (hw : s.roomWidth ≤ 9)
    (hin : isInRoom s (s.agents a).x (s.agents a).y = true) :
    (((transition a s).2.2.agents a).x = ESCAPED → (transition a s).1 = s.escapeReward) ∧
    (isInRoom s ((transition a s).2.2.agents a).x ((transition a s).2.2.agents a).y = true →
      0 < ((transition a s).2.2.agents a).health → (transition a s).1 = s.idlePunishment) := by
  by_cases hexit : s.room (s.agents a).x (s.agents a).y = EXIT
  · obtain ⟨t1, _, t3⟩ := transition_exit a s hexit
    refine ⟨fun _ => t1, fun hr _ => ?_⟩
    rw [t3] at hr
    exact absurd rfl (escaped_not_inRoom s _ _ hw hr)
  · obtain ⟨px, _⟩ := transition_position a s hexit
    refine ⟨fun he => ?_, fun _ hpos => ?_⟩
    · rw [px] at he
      exact absurd he (escaped_not_inRoom s _ _ hw hin)
    · by_cases hsh : s.room (s.agents a).x (s.agents a).y = SHARDS
      · obtain ⟨t1, _, t3⟩ := transition_shards a s hsh
        rw [t1] at hpos
        simp only at hpos
        exact (t3 (by omega)).1
      · simp only [transition, hexit, hsh, if_false]
        split_ifs <;> rfl

theorem backup_rewards (s : State) :
    (backup s).escapeReward = s.escapeReward ∧ (backup s).idlePunishment = s.idlePunishment := by
  unfold backup
  split_ifs <;> exact ⟨rfl, rfl⟩

/-- The reward total after the three passes of a turn with a single active agent. -/
theorem simulatePasses_reward {fuel a : Nat} {s : State} {r : Bool × State}
    (hw : s.roomWidth ≤ 9) (ha : a < s.numAgents) (hact : isActive s a)
    (hsingle : ∀ b, b < s.numAgents → b ≠ a → ¬ isActive s b)
    (h : simulatePasses fuel s = some r) :
    (r.2.roomWidth = s.roomWidth ∧ r.2.roomHeight = s.roomHeight ∧
      r.2.numAgents = s.numAgents ∧ r.2.escapeReward = s.escapeReward ∧
      r.2.idlePunishment = s.idlePunishment) ∧
    ((r.2.agents a).x = ESCAPED → r.2.totalReward = s.totalReward + s.escapeReward) ∧
    (isActive r.2 a → r.2.totalReward = s.totalReward + s.idlePunishment) := by
  obtain ⟨p, s2, hp1, hp2, hp3, -⟩ := simulatePasses_parts h
  obtain ⟨hcfg, -, -⟩ := simulatePasses_frame h
  obtain ⟨bw, bh, -, bn, ba, -, bt, -⟩ := backup_fields s
  obtain ⟨be, bi⟩ := backup_rewards s
  have hbasic := pass1_basic hp1
  have hsafe := (pass1_prefix_safe (backup s).numAgents (le_refl _) p hp1).2
  have h2inv := pass2_inv (s := { backup s with globalRNG := p.globalRNG })
    (fun b hb _ => hbasic.coords b hb) hp2
  have hn2 : s2.numAgents = s.numAgents := by
    rw [h2inv.config.fields.2.2.1]
    exact bn
  have hw2 : s2.roomWidth = s.roomWidth := by
    rw [h2inv.config.fields.1]
    exact bw
  have hh2 : s2.roomHeight = s.roomHeight := by
    rw [h2inv.config.fields.2.1]
    exact bh
  have hesc : (p.actionRecords a).isEscaping = true :=
    (hbasic.escaping_iff a).mpr ⟨by rw [bn]; exact ha, (backup_isActive s a).mpr hact⟩
  have hothers : ∀ b, b ≠ a → (p.actionRecords b).isEscaping = false := by
    intro b hb
    cases he : (p.actionRecords b).isEscaping
    · rfl
    · obtain ⟨hlt, hba⟩ := (hbasic.escaping_iff b).mp he
      exact absurd ((backup_isActive s b).mp hba) (hsingle b (by rw [← bn]; exact hlt) hb)
  rw [pass3_single (by rw [hn2]; exact ha) hothers] at hp3
  obtain ⟨-, -, -, -, hframe⟩ := pass3Body_frame hp3
  obtain ⟨f1, -, f3⟩ := hframe hesc
  have hmoved := h2inv.moved a (by rw [bn]; exact ha) hesc
  have hin2 : isInRoom s2 (s2.agents a).x (s2.agents a).y = true := by
    rw [hmoved]
    have := (hsafe.1 a hesc).2
    simp only [isInRoom, hw2, hh2, bw, bh] at this ⊢
    exact this
  obtain ⟨t1, t2⟩ := transition_reward a s2 (by rw [hw2]; exact hw) hin2
  have htot : s2.totalReward = s.totalReward := by
    rw [h2inv.table.2.1]
    exact bt
  have e13 : s2.escapeReward = s.escapeReward := by
    rw [h2inv.config.fields.2.2.2.2.2.2.2.2.2.2.2.2.1]
    exact be
  have e15 : s2.idlePunishment = s.idlePunishment := by
    rw [h2inv.config.fields.2.2.2.2.2.2.2.2.2.2.2.2.2.2.1]
    exact bi
  have c3 := hcfg.fields
  refine ⟨⟨by rw [c3.1, bw], by rw [c3.2.1, bh], by rw [c3.2.2.1, bn],
    by rw [c3.2.2.2.2.2.2.2.2.2.2.2.2.1, be],
    by rw [c3.2.2.2.2.2.2.2.2.2.2.2.2.2.2.1, bi]⟩, fun he => ?_, fun hact3 => ?_⟩
  · rw [f1] at he
    rw [f3, t1 he, htot, e13]
  · have hr := hact3.1
    have hp := hact3.2
    rw [f1] at hr hp
    simp only [isInRoom, c3.1, c3.2.1, bw, bh] at hr
    have hr2 : isInRoom s2 ((transition a s2).2.2.agents a).x
        ((transition a s2).2.2.agents a).y = true := by
      simp only [isInRoom, hw2, hh2]
      exact hr
    rw [f3, t2 hr2 hp, htot, e15]

/-- The reward total while the single active agent of an epoch stays active. -/
theorem midEpochTurns_reward {fuel a : Nat} {s0 : State} (hw : s0.roomWidth ≤ 9)
    (ha : a < s0.numAgents) (hsingle : ∀ b, b < s0.numAgents → b ≠ a → ¬ isActive s0 b) :
    ∀ n s1, midEpochTurns fuel n s0 = some s1 → isActive s1 a →
      (s1.roomWidth = s0.roomWidth ∧ s1.numAgents = s0.numAgents ∧
        s1.escapeReward = s0.escapeReward ∧ s1.idlePunishment = s0.idlePunishment) ∧
      (∀ b, b < s0.numAgents → b ≠ a → ¬ isActive s1 b) ∧
      s1.totalReward = s0.totalReward + (n : ℚ) * s0.idlePunishment := by
  intro n
  induction n with
  | zero =>
    intro s1 h _
    simp only [midEpochTurns, Option.some.injEq] at h
    subst h
    exact ⟨⟨rfl, rfl, rfl, rfl⟩, hsingle, by simp⟩
  | succ n ih =>
    intro s1 h hact1
    simp only [midEpochTurns] at h
    obtain ⟨sn, hsn, hturn⟩ := Option.bind_eq_some.mp h
    have hone : midEpochTurns fuel 1 sn = some s1 := by
      simp only [midEpochTurns, Option.some_bind]
      exact hturn
    have hactn : isActive sn a := by
      by_contra hc
      exact (inactive_stays hc 1 s1 hone).2 hact1
    obtain ⟨⟨cw, cn, ce, ci⟩, hsn1, htot⟩ := ih sn hsn hactn
    have hothers1 : ∀ b, b < s0.numAgents → b ≠ a → ¬ isActive s1 b :=
      fun b hb hba => (inactive_stays (hsn1 b hb hba) 1 s1 hone).2
    obtain ⟨flag, s3, hp, he⟩ := simulateTurn_eq_some (midEpochTurn_eq_some hturn)
    have h1 : (epochEnd flag s3).1 = false := by rw [← he]
    have h2 : s1 = (epochEnd flag s3).2 := by rw [← he]
    rw [epochEnd_false h1] at h2
    obtain ⟨⟨rw3, rh3, rn3, re3, ri3⟩, -, hidle⟩ := simulatePasses_reward (by rw [cw]; exact hw)
      (by rw [cn]; exact ha) hactn (fun b hb hba => hsn1 b (by rw [← cn]; exact hb) hba) hp
    have hact3 : isActive s3 a := by
      have := hact1
      rw [h2] at this
      exact this
    have e := hidle hact3
    simp only at rw3 rn3 re3 ri3 e
    refine ⟨⟨?_, ?_, ?_, ?_⟩, hothers1, ?_⟩
    · rw [h2]; simp only; rw [rw3, cw]
    · rw [h2]; simp only; rw [rn3, cn]
    · rw [h2]; simp only; rw [re3, ce]
    · rw [h2]; simp only; rw [ri3, ci]
    · rw [h2]
      simp only
      rw [e, htot, ci]
      push_cast
      ring

/-- C21. Epoch total reward of an escape run. At the start of an epoch (`currTurn = 0`,
`totalReward = 0`) with a single active agent, in a room at most 9 wide: if `k - 1` calls of
`simulateTurn` return `FALSE`, the agent is still active after them, and the three passes of the
`k`-th call leave it at the sentinel `ESCAPED` (it stepped onto an exit), then the reward total
after pass 3 of that call, which is the value that the call prints and records when it ends the
epoch and the value of `totalReward` after the call when it does not, is
`escapeReward + (k - 1) * idlePunishment`. -/
theorem escape_reward (s0 : State) (fuel a k : Nat) (hturn0 : s0.currTurn = 0)
    (h0 : s0.totalReward = 0) (hw : s0.roomWidth ≤ 9) (ha : a < s0.numAgents)
    (hsingle : ∀ b, b < s0.numAgents → b ≠ a → ¬ isActive s0 b) (hk : 1 ≤ k) :
    ∀ s1 r, midEpochTurns fuel (k - 1) s0 = some s1 → isActive s1 a →
      simulatePasses fuel s1 = some r → (r.2.agents a).x = ESCAPED →
      r.2.totalReward = s0.escapeReward + ((k : ℚ) - 1) * s0.idlePunishment ∧
      (k = 1 → r.2.totalReward = s0.escapeReward) ∧
      (k = 2 → r.2.totalReward = s0.escapeReward + s0.idlePunishment) ∧
      simulateTurn fuel s1 = some (epochEnd r.1 r.2) ∧
      ((epochEnd r.1 r.2).1 = false → (epochEnd r.1 r.2).2.totalReward = r.2.totalReward) ∧
      s1.currTurn = ((k : Int) - 1) := by
  intro s1 r hrun hact hpass hesc
  obtain ⟨⟨cw, cn, ce, ci⟩, hothers, htot⟩ := midEpochTurns_reward hw ha hsingle (k - 1) s1 hrun hact
  obtain ⟨-, hexit, -⟩ := simulatePasses_reward (by rw [cw]; exact hw) (by rw [cn]; exact ha) hact
    (fun b hb hba => hothers b (by rw [← cn]; exact hb) hba) hpass
  have hval : r.2.totalReward = s0.escapeReward + ((k : ℚ) - 1) * s0.idlePunishment := by
    rw [hexit hesc, htot, h0, ce]
    have : ((k - 1 : Nat) : ℚ) = (k : ℚ) - 1 := by
      rw [Nat.cast_sub hk]
      simp
    rw [this]
    ring
  have hcount : ∀ n s1, midEpochTurns fuel n s0 = some s1 → s1.currTurn = (n : Int) := by
    intro n
    induction n with
    | zero =>
      intro s1 h
      simp only [midEpochTurns, Option.some.injEq] at h
      subst h
      simpa using hturn0
    | succ n ih =>
      intro s1 h
      simp only [midEpochTurns] at h
      obtain ⟨sn, hsn, ht⟩ := Option.bind_eq_some.mp h
      rw [(simulateTurn_false (midEpochTurn_eq_some ht)).1, ih sn hsn]
      push_cast
      rfl
  refine ⟨hval, fun e => ?_, fun e => ?_, ?_, fun hf => ?_, ?_⟩
  · rw [hval, e]; simp
  · rw [hval, e]; norm_num
  · unfold simulateTurn
    rw [hpass]
    rfl
  · rw [epochEnd_false hf]
  · rw [hcount (k - 1) s1 hrun]
    omega

/-- C21 at `hallState`, with fuel 1 and `k = 2`: the agent walks one cell (reward -1), then
steps onto the exit (reward 1000), and the reward total is 999; at `exitState`, where the exit
is next to the agent, the first turn gives 1000. -/
theorem escape_reward_witness :
    ((midEpochTurns 1 1 hallState).bind fun s1 =>
      (simulatePasses 1 s1).map fun r =>
        (decide (isActive s1 0), (r.2.agents 0).x, r.2.totalReward)) =
      some (true, ESCAPED, 999) ∧
    (simulatePasses 1 exitState).map (fun r => ((r.2.agents 0).x, r.2.totalReward)) =
      some (ESCAPED, 1000) ∧
    hallState.currTurn = 0 ∧ hallState.totalReward = 0 ∧ hallState.roomWidth ≤ 9 ∧
    0 < hallState.numAgents ∧
    (∀ b, b < hallState.numAgents → b ≠ 0 → ¬ isActive hallState b) ∧
    ∀ s1 r, midEpochTurns 1 (2 - 1) hallState = some s1 → isActive s1 0 →
      simulatePasses 1 s1 = some r → (r.2.agents 0).x = ESCAPED →
      r.2.totalReward = hallState.escapeReward + hallState.idlePunishment :=
  ⟨by decide!, by decide!, rfl, rfl, by decide, by decide, by decide,
    fun s1 r h1 h2 h3 h4 =>
      (escape_reward hallState 1 0 2 rfl rfl (by decide) (by decide) (by decide) (by decide)
        s1 r h1 h2 h3 h4).2.2.1 rfl⟩

end EscapeRoom
